import Mathlib


/-!
# svdep: include-dependency graph and staleness check

A shallow embedding of the C++ sources `SVDepContext.cpp`, `FileCollection.cpp` and
`SVPreprocessor.cpp`.

* `std::string` is a list of characters (`Str`).
* `std::unordered_map<std::string, V>` is an association list with first-match lookup;
  `m[k] = v` replaces the first entry for `k` or appends a new one.
* The numbers of the type `double` are an arbitrary linearly ordered type `τ` with a
  zero (the two zeros of the format, which compare equal, are one number). A timestamp
  that the program computes from `stat` or stores in a node is such a number. The
  reference timestamp that a caller passes to `checkUpToDate(double)` is any value of
  the type, a number or NaN: it has the type `Double τ`.
* The operating system is a value `FileSystem`: `stat` gives the modification time of
  an existing path, `read` gives the content of a file that can be opened.
* Loops whose termination is not structural take a `fuel` argument and answer `none`
  when it runs out.
-/

namespace svdep

/-- A `std::string`. -/
abbrev Str := List Char

/-! ## Maps -/

/-- The lookup `m.find(k)`: the value of the first entry with key `k`. -/
def mapFind {β : Type} (k : Str) : List (Str × β) → Option β
  | [] => none
  | (k1, v) :: rest => if k1 = k then some v else mapFind k rest

/-- The assignment `m[k] = v`: overwrite the entry for `k`, or add one. -/
def mapSet {β : Type} (k : Str) (v : β) : List (Str × β) → List (Str × β)
  | [] => [(k, v)]
  | (k1, v1) :: rest => if k1 = k then (k1, v) :: rest else (k1, v1) :: mapSet k v rest

/-- The removal `m.erase(k)`. -/
def mapErase {β : Type} (k : Str) : List (Str × β) → List (Str × β)
  | [] => []
  | (k1, v1) :: rest => if k1 = k then rest else (k1, v1) :: mapErase k rest

/-- The keys of a map, in storage order. -/
def mapKeys {β : Type} (m : List (Str × β)) : List Str := m.map Prod.fst

/-! ## Data model -/

/-- Modelled from the spec: `FileInfo.h` is not among the sources. The record
`{ name, timestamp, includes, checked }` of §3, default-constructed with an empty name,
timestamp zero, no includes and `checked = false`. -/
structure FileInfo (τ : Type) where
  name : Str
  timestamp : τ
  includes : List Str
  checked : Bool
deriving DecidableEq, Repr

/-- The default-constructed `FileInfo info;`. -/
def FileInfo.default {τ : Type} [Zero τ] : FileInfo τ :=
  { name := [], timestamp := 0, includes := [], checked := false }

/-- The assignment `info.checked = b`. -/
def FileInfo.setChecked {τ : Type} (info : FileInfo τ) (b : Bool) : FileInfo τ :=
  { info with checked := b }

/-- The class `FileCollection`: `root_files` and the map `file_info`. -/
structure FileCollection (τ : Type) where
  root_files : List (FileInfo τ)
  file_info : List (Str × FileInfo τ)
deriving DecidableEq, Repr

/-- The method `FileCollection::clear`. -/
def FileCollection.clear {τ : Type} : FileCollection τ :=
  { root_files := [], file_info := [] }

/-- The operating system as seen by the program: `stat` answers the modification time
of a path that exists, `read` answers the content of a file that can be opened. -/
structure FileSystem (τ : Type) where
  stat : Str → Option τ
  read : Str → Option Str

/-- The class `SVDepContext`. The field `readLog` is not in the source: it records, in
call order, every path handed to `readFile`, so that statements about which files a
build reads can be made. No other field depends on it. -/
structure SVDepContext (τ : Type) where
  m_incdirs : List Str
  m_rootFiles : List Str
  m_collection : FileCollection τ
  m_json : Str
  m_error : Str
  m_includeCache : List (Str × Str)
  readLog : List Str
deriving DecidableEq, Repr

/-- The constructor `SVDepContext::SVDepContext`. -/
def SVDepContext.new {τ : Type} : SVDepContext τ :=
  { m_incdirs := [], m_rootFiles := [], m_collection := FileCollection.clear,
    m_json := [], m_error := [], m_includeCache := [], readLog := [] }

section Core

variable {τ : Type} [LinearOrder τ] [Zero τ]

/-- The method `addIncdir`. -/
def addIncdir (ctx : SVDepContext τ) (path : Str) : Int × SVDepContext τ :=
  (0, { ctx with m_incdirs := ctx.m_incdirs ++ [path] })

/-- The method `addRootFile`. -/
def addRootFile (ctx : SVDepContext τ) (path : Str) : Int × SVDepContext τ :=
  (0, { ctx with m_rootFiles := ctx.m_rootFiles ++ [path] })

/-- The method `readFile`: the content, or the empty string with `m_error` set. -/
def readFile (fs : FileSystem τ) (ctx : SVDepContext τ) (path : Str) :
    Str × SVDepContext τ :=
  match fs.read path with
  | none =>
    ([], { ctx with m_error := "Failed to open file: ".toList ++ path,
                    readLog := ctx.readLog ++ [path] })
  | some content => (content, { ctx with readLog := ctx.readLog ++ [path] })

/-- The method `getFileTimestamp`: zero when `stat` fails. What it returns otherwise,
`st_mtim.tv_sec + st_mtim.tv_nsec / 1e9`, is computed from two integers and is a
number, never NaN. -/
def getFileTimestamp (fs : FileSystem τ) (path : Str) : τ :=
  match fs.stat path with
  | none => 0
  | some t => t

/-- The search loop of `resolveInclude` over the include directories. -/
def searchIncdirs (fs : FileSystem τ) (filename : Str) : List Str → Option Str
  | [] => none
  | incdir :: rest =>
    let fullPath := incdir ++ ['/'] ++ filename
    if (fs.stat fullPath).isSome then some fullPath else searchIncdirs fs filename rest

/-- The method `resolveInclude`: the cached path, else the first existing
`incdir + "/" + filename` (which is cached), else the empty string. -/
def resolveInclude (fs : FileSystem τ) (ctx : SVDepContext τ) (filename : Str) :
    Str × SVDepContext τ :=
  match mapFind filename ctx.m_includeCache with
  | some p => (p, ctx)
  | none =>
    match searchIncdirs fs filename ctx.m_incdirs with
    | some fullPath =>
      (fullPath, { ctx with m_includeCache := mapSet filename fullPath ctx.m_includeCache })
    | none => ([], ctx)

/-- The call `path.find_last_of(chars)`: the index of the last character of `path`
that satisfies `p`. -/
def findLastOf (p : Char → Bool) : Str → Option Nat
  | [] => none
  | c :: cs =>
    match findLastOf p cs with
    | some i => some (i + 1)
    | none => if p c then some 0 else none

/-- The static function `getDirname`. -/
def getDirname (path : Str) : Str :=
  match findLastOf (fun c => c == '/' || c == '\\') path with
  | none => ['.']
  | some pos => path.take pos

/-! ## Staleness check -/

/-- A value of the C++ type `double`: NaN or a number. -/
inductive Double (τ : Type) where
  | nan
  | num (t : τ)
deriving DecidableEq, Repr

/-- The operator `a > b` of `double`: false when one side is NaN. -/
def Double.gt : Double τ → Double τ → Bool
  | Double.num a, Double.num b => decide (b < a)
  | _, _ => false

/-- The operator `a <= b` of `double`: false when one side is NaN. -/
def Double.le : Double τ → Double τ → Bool
  | Double.num a, Double.num b => decide (a ≤ b)
  | _, _ => false

/-- The loop `for (incPath : info.includes) if (!check(incPath)) return false;`. -/
def checkIncludes (check : Str → List (Str × FileInfo τ) → Option (Bool × List (Str × FileInfo τ))) :
    List Str → List (Str × FileInfo τ) → Option (Bool × List (Str × FileInfo τ))
  | [], nodes => some (true, nodes)
  | incPath :: rest, nodes =>
    match check incPath nodes with
    | none => none
    | some (false, nodes1) => some (false, nodes1)
    | some (true, nodes1) => checkIncludes check rest nodes1

/-- The method `checkFileUpToDate` on the map `file_info`; `fuel` bounds the nesting
of the recursion. -/
def checkFileUpToDate (fs : FileSystem τ) (lastTimestamp : Double τ) :
    Nat → Str → List (Str × FileInfo τ) → Option (Bool × List (Str × FileInfo τ))
  | 0, _, _ => none
  | fuel + 1, path, nodes =>
    match mapFind path nodes with
    | none => some (false, nodes)
    | some info =>
      if info.checked then some (true, nodes)
      else
        let nodes1 := mapSet path (info.setChecked true) nodes
        let currentTs := getFileTimestamp fs path
        if currentTs = 0 then some (false, nodes1)
        else if Double.gt (Double.num currentTs) lastTimestamp then some (false, nodes1)
        else checkIncludes (checkFileUpToDate fs lastTimestamp fuel) info.includes nodes1

/-- The loop of `checkUpToDate` over the positions of the root list. -/
def checkRoots (fs : FileSystem τ) (lastTimestamp : Double τ) (fuel : Nat) :
    List Str → List (FileInfo τ) → List (Str × FileInfo τ) →
    Option (Int × List (Str × FileInfo τ))
  | rootPath :: paths, stored :: infos, nodes =>
    if rootPath ≠ stored.name then some (0, nodes)
    else
      match checkFileUpToDate fs lastTimestamp fuel rootPath nodes with
      | none => none
      | some (false, nodes1) => some (0, nodes1)
      | some (true, nodes1) => checkRoots fs lastTimestamp fuel paths infos nodes1
  | _, _, nodes => some (1, nodes)

/-- The loop `for (auto& kv : file_info) kv.second.checked = false;`. -/
def resetFlags (nodes : List (Str × FileInfo τ)) : List (Str × FileInfo τ) :=
  nodes.map (fun kv => (kv.1, kv.2.setChecked false))

/-- The method `checkUpToDate`. -/
def checkUpToDate (fs : FileSystem τ) (fuel : Nat) (ctx : SVDepContext τ)
    (lastTimestamp : Double τ) :
    Option (Int × SVDepContext τ) :=
  if ctx.m_rootFiles.length ≠ ctx.m_collection.root_files.length then some (0, ctx)
  else
    let nodes0 := resetFlags ctx.m_collection.file_info
    match checkRoots fs lastTimestamp fuel ctx.m_rootFiles ctx.m_collection.root_files nodes0 with
    | none => none
    | some (r, nodes1) =>
      some (r, { ctx with m_collection := { ctx.m_collection with file_info := nodes1 } })

end Core

/-! ## The preprocessor `SVPreprocessor`

The pair `m_content`, `m_pos` is held as the unread part `m_content[m_pos ..]`; the
scanner never looks behind `m_pos`. The vector `m_condStack` is a list whose head is
`back()`. The character classes of `<cctype>` are those of the C locale. -/

/-- The enumeration `TokenType`. -/
inductive TokenType where
  | END_OF_FILE
  | IDENTIFIER
  | STRING
  | NUMBER
  | DIRECTIVE
  | WHITESPACE
  | NEWLINE
  | COMMENT_LINE
  | COMMENT_BLOCK
  | OPERATOR
  | UNKNOWN
deriving DecidableEq, Repr

/-- The record `Token`. -/
structure Token where
  type : TokenType
  value : Str
  line : Nat
  column : Nat
deriving DecidableEq, Repr

/-- The record `CondState`, one frame of the conditional stack. -/
structure CondState where
  active : Bool
  seen_true : Bool
  in_else : Bool
deriving DecidableEq, Repr

/-- The read position: unread input, line counter, column counter. -/
structure Cursor where
  rest : Str
  line : Nat
  column : Nat
deriving DecidableEq, Repr

/-- The class `SVPreprocessor` (the unused include callback is left out). -/
structure SVPreprocessor where
  m_rest : Str
  m_filename : Str
  m_line : Nat
  m_column : Nat
  m_peeked : Token
  m_hasPeeked : Bool
  m_includes : List Str
  m_macros : List (Str × Str)
  m_condStack : List CondState
deriving DecidableEq, Repr

/-- The character that opens a directive. -/
def backtick : Char := Char.ofNat 96

/-- The function `std::isdigit`. -/
def isdigit (c : Char) : Bool := decide ('0' ≤ c) && decide (c ≤ '9')

/-- The function `std::isalpha`. -/
def isalpha (c : Char) : Bool :=
  (decide ('a' ≤ c) && decide (c ≤ 'z')) || (decide ('A' ≤ c) && decide (c ≤ 'Z'))

/-- The function `std::isalnum`. -/
def isalnum (c : Char) : Bool := isalpha c || isdigit c

/-- The function `std::isxdigit`. -/
def isxdigit (c : Char) : Bool :=
  isdigit c || (decide ('a' ≤ c) && decide (c ≤ 'f')) || (decide ('A' ≤ c) && decide (c ≤ 'F'))

/-- The constructor `SVPreprocessor::SVPreprocessor`; the token `m_peeked` is not
initialised by the source and is never read before `m_hasPeeked` is set. -/
def SVPreprocessor.new : SVPreprocessor :=
  { m_rest := [], m_filename := [], m_line := 1, m_column := 1,
    m_peeked := { type := TokenType.END_OF_FILE, value := [], line := 0, column := 0 },
    m_hasPeeked := false, m_includes := [], m_macros := [], m_condStack := [] }

/-- The method `setInput`. -/
def setInput (pp : SVPreprocessor) (content : Str) (filename : Str) : SVPreprocessor :=
  { pp with m_rest := content, m_filename := filename, m_line := 1, m_column := 1,
            m_hasPeeked := false, m_includes := [], m_condStack := [] }

/-- The method `getIncludes`. -/
def getIncludes (pp : SVPreprocessor) : List Str := pp.m_includes

/-- The method `defineMacro`. -/
def defineMacro (pp : SVPreprocessor) (name : Str) (value : Str) : SVPreprocessor :=
  { pp with m_macros := mapSet name value pp.m_macros }

/-- The method `undefineMacro`. -/
def undefineMacro (pp : SVPreprocessor) (name : Str) : SVPreprocessor :=
  { pp with m_macros := mapErase name pp.m_macros }

/-- The method `isMacroDefined`. -/
def isMacroDefined (pp : SVPreprocessor) (name : Str) : Bool :=
  (mapFind name pp.m_macros).isSome

/-- The method `isAtEnd`. -/
def isAtEnd (pp : SVPreprocessor) : Bool := pp.m_rest.isEmpty

/-- The method `peek`. -/
def peek (pp : SVPreprocessor) : Char :=
  match pp.m_rest with
  | [] => Char.ofNat 0
  | c :: _ => c

/-- The read position of a preprocessor. -/
def cursor (pp : SVPreprocessor) : Cursor :=
  { rest := pp.m_rest, line := pp.m_line, column := pp.m_column }

/-- Store a read position. -/
def setCursor (pp : SVPreprocessor) (cur : Cursor) : SVPreprocessor :=
  { pp with m_rest := cur.rest, m_line := cur.line, m_column := cur.column }

/-- The counters after `advance()` has consumed the character `c`. -/
def stepLine (c : Char) (line : Nat) : Nat := if c = '\n' then line + 1 else line

/-- The column counter after `advance()` has consumed the character `c`. -/
def stepColumn (c : Char) (column : Nat) : Nat := if c = '\n' then 1 else column + 1

/-- The method `advance` on a read position. -/
def Cursor.advance (cur : Cursor) : Cursor :=
  match cur.rest with
  | [] => cur
  | c :: cs => { rest := cs, line := stepLine c cur.line, column := stepColumn c cur.column }

/-- The method `advance`. -/
def advance (pp : SVPreprocessor) : SVPreprocessor := setCursor pp (cursor pp).advance

/-- The method `match`. -/
def matchChar (pp : SVPreprocessor) (expected : Char) : Bool × SVPreprocessor :=
  match pp.m_rest with
  | [] => (false, pp)
  | c :: _ => if c ≠ expected then (false, pp) else (true, advance pp)

/-- The method `makeToken`. -/
def makeToken (pp : SVPreprocessor) (type : TokenType) (value : Str) : Token :=
  { type := type, value := value, line := pp.m_line, column := pp.m_column }

/-- The loop `while (!isAtEnd() && p(peek())) value += advance();`: the characters
taken and the position reached. -/
def advanceWhile (p : Char → Bool) : Str → Nat → Nat → Str × Cursor
  | [], line, column => ([], { rest := [], line := line, column := column })
  | c :: cs, line, column =>
    if p c then
      let r := advanceWhile p cs (stepLine c line) (stepColumn c column)
      (c :: r.1, r.2)
    else ([], { rest := c :: cs, line := line, column := column })

/-- Run a scanning loop from the read position of `pp`. -/
def runLoop (pp : SVPreprocessor) (loop : Str → Nat → Nat → Str × Cursor) :
    Str × SVPreprocessor :=
  let r := loop pp.m_rest pp.m_line pp.m_column
  (r.1, setCursor pp r.2)

/-- The method `skipWhitespace`. -/
def skipWhitespace (pp : SVPreprocessor) : SVPreprocessor :=
  (runLoop pp (advanceWhile (fun c => c == ' ' || c == '\t' || c == '\r'))).2

/-- The method `skipWhitespaceNotNewline`. -/
def skipWhitespaceNotNewline (pp : SVPreprocessor) : SVPreprocessor :=
  (runLoop pp (advanceWhile (fun c => c == ' ' || c == '\t'))).2

/-- The method `parseIdentifier`. -/
def parseIdentifier (pp : SVPreprocessor) : Str × SVPreprocessor :=
  runLoop pp (advanceWhile (fun c => isalnum c || c == '_'))

/-- The loop of `skipToEndOfLine`. -/
def skipToEndOfLineLoop : Str → Nat → Nat → Str × Cursor
  | [], line, column => ([], { rest := [], line := line, column := column })
  | '\n' :: cs, line, _ => ([], { rest := cs, line := line + 1, column := 1 })
  | '\\' :: '\n' :: cs, line, _ => skipToEndOfLineLoop cs (line + 1) 1
  | '\\' :: '\r' :: '\n' :: cs, line, _ => skipToEndOfLineLoop cs (line + 1) 1
  | _ :: cs, line, column => skipToEndOfLineLoop cs line (column + 1)

/-- The method `skipToEndOfLine`. -/
def skipToEndOfLine (pp : SVPreprocessor) : SVPreprocessor :=
  (runLoop pp skipToEndOfLineLoop).2

/-- The switch of `scanString` on an escaped character. -/
def unescapeChar (escaped : Char) : Char :=
  if escaped = 'n' then '\n'
  else if escaped = 't' then '\t'
  else if escaped = 'r' then '\r'
  else escaped

/-- The loop of `scanString`, entered after the opening quote. -/
def scanStringLoop : Str → Nat → Nat → Str × Cursor
  | [], line, column => ([], { rest := [], line := line, column := column })
  | '"' :: cs, line, column => ([], { rest := cs, line := line, column := column + 1 })
  | '\\' :: [], line, column => ([], { rest := [], line := line, column := column + 1 })
  | '\\' :: e :: cs, line, column =>
    let r := scanStringLoop cs (stepLine e line) (stepColumn e (column + 1))
    (unescapeChar e :: r.1, r.2)
  | '\n' :: cs, line, column => ([], { rest := '\n' :: cs, line := line, column := column })
  | c :: cs, line, column =>
    let r := scanStringLoop cs line (column + 1)
    (c :: r.1, r.2)

/-- The method `scanString`. -/
def scanString (pp : SVPreprocessor) : Token × SVPreprocessor :=
  let r := runLoop (advance pp) scanStringLoop
  (makeToken r.2 TokenType.STRING r.1, r.2)

/-- The method `scanIdentifier`. -/
def scanIdentifier (pp : SVPreprocessor) : Token × SVPreprocessor :=
  let r := runLoop pp (advanceWhile (fun c => isalnum c || c == '_' || c == '$'))
  (makeToken r.2 TokenType.IDENTIFIER r.1, r.2)

/-- The base letters accepted after the apostrophe of a number. -/
def isBaseLetter (c : Char) : Bool :=
  c == 'h' || c == 'H' || c == 'b' || c == 'B' || c == 'd' || c == 'D' ||
  c == 'o' || c == 'O' || c == 's' || c == 'S'

/-- The loop of `scanNumber`. -/
def scanNumberLoop : Str → Nat → Nat → Str × Cursor
  | [], line, column => ([], { rest := [], line := line, column := column })
  | c :: cs, line, column =>
    if isdigit c || c == '_' || c == '\'' then
      if c == '\'' then
        match cs with
        | [] => ([c], { rest := [], line := line, column := column + 1 })
        | d :: ds =>
          if isBaseLetter d then
            let r := scanNumberLoop ds line (column + 2)
            (c :: d :: r.1, r.2)
          else
            let r := scanNumberLoop (d :: ds) line (column + 1)
            (c :: r.1, r.2)
      else
        let r := scanNumberLoop cs line (column + 1)
        (c :: r.1, r.2)
    else if isxdigit c || c == 'x' || c == 'X' || c == 'z' || c == 'Z' || c == '?' then
      let r := scanNumberLoop cs line (column + 1)
      (c :: r.1, r.2)
    else ([], { rest := c :: cs, line := line, column := column })

/-- The method `scanNumber`. -/
def scanNumber (pp : SVPreprocessor) : Token × SVPreprocessor :=
  let r := runLoop pp scanNumberLoop
  (makeToken r.2 TokenType.NUMBER r.1, r.2)

/-- The loop of `scanLineComment`, entered after the two slashes. -/
def scanLineCommentLoop : Str → Nat → Nat → Str × Cursor
  | [], line, column => ([], { rest := [], line := line, column := column })
  | c :: cs, line, column =>
    if c = '\n' then ([], { rest := cs, line := line + 1, column := 1 })
    else
      let r := scanLineCommentLoop cs line (column + 1)
      (c :: r.1, r.2)

/-- The method `scanLineComment`. -/
def scanLineComment (pp : SVPreprocessor) : Token × SVPreprocessor :=
  let r := runLoop (advance (advance pp)) scanLineCommentLoop
  (makeToken r.2 TokenType.COMMENT_LINE r.1, r.2)

/-- The loop of `scanBlockComment`, entered after the opening slash and star. -/
def scanBlockCommentLoop : Str → Nat → Nat → Str × Cursor
  | [], line, column => ([], { rest := [], line := line, column := column })
  | '*' :: '/' :: cs, line, column => ([], { rest := cs, line := line, column := column + 2 })
  | c :: cs, line, column =>
    let r := scanBlockCommentLoop cs (stepLine c line) (stepColumn c column)
    (c :: r.1, r.2)

/-- The method `scanBlockComment`. -/
def scanBlockComment (pp : SVPreprocessor) : Token × SVPreprocessor :=
  let r := runLoop (advance (advance pp)) scanBlockCommentLoop
  (makeToken r.2 TokenType.COMMENT_BLOCK r.1, r.2)

/-- The method `isActive`. -/
def isActive (pp : SVPreprocessor) : Bool :=
  match pp.m_condStack with
  | [] => true
  | top :: _ => top.active

/-- The loop of `handleInclude` that reads a file name up to the closing character
`close` (consumed) or a newline (left in place). -/
def includeNameLoop (close : Char) : Str → Nat → Nat → Str × Cursor
  | [], line, column => ([], { rest := [], line := line, column := column })
  | c :: cs, line, column =>
    if c = close then ([], { rest := cs, line := stepLine c line, column := stepColumn c column })
    else if c = '\n' then ([], { rest := c :: cs, line := line, column := column })
    else
      let r := includeNameLoop close cs line (column + 1)
      (c :: r.1, r.2)

/-- The tail of `handleInclude`: record a non-empty file name. -/
def recordInclude (pp : SVPreprocessor) (filename : Str) : SVPreprocessor :=
  if filename ≠ [] then { pp with m_includes := pp.m_includes ++ [filename] } else pp

/-- The method `handleInclude`. -/
def handleInclude (pp : SVPreprocessor) : SVPreprocessor :=
  let pp1 := skipWhitespaceNotNewline pp
  match pp1.m_rest with
  | [] => pp1
  | c :: _ =>
    if c = '"' then
      let r := runLoop (advance pp1) (includeNameLoop '"')
      recordInclude r.2 r.1
    else if c = '<' then
      let r := runLoop (advance pp1) (includeNameLoop '>')
      recordInclude r.2 r.1
    else if c = backtick then skipToEndOfLine pp1
    else pp1

/-- The loop of `handleDefine` that collects the macro body. -/
def defineBodyLoop : Str → Nat → Nat → Str × Cursor
  | [], line, column => ([], { rest := [], line := line, column := column })
  | '\n' :: cs, line, _ => ([], { rest := cs, line := line + 1, column := 1 })
  | '\\' :: '\n' :: cs, line, _ => defineBodyLoop cs (line + 1) 1
  | '\\' :: '\r' :: '\n' :: cs, line, _ => defineBodyLoop cs (line + 1) 1
  | c :: cs, line, column =>
    let r := defineBodyLoop cs line (column + 1)
    (c :: r.1, r.2)

/-- The loop `while (!value.empty() && (value.back() == ' ' || value.back() == '\t'))
value.pop_back();`. -/
def trimTrailing (value : Str) : Str :=
  (value.reverse.dropWhile (fun c => c == ' ' || c == '\t')).reverse

/-- The method `handleDefine`. -/
def handleDefine (pp : SVPreprocessor) : SVPreprocessor :=
  let r := parseIdentifier (skipWhitespaceNotNewline pp)
  let name := r.1
  if name = [] then skipToEndOfLine r.2
  else
    let pp2 :=
      if peek r.2 = '(' then
        let pp3 := (runLoop r.2 (advanceWhile (fun c => c != ')'))).2
        skipWhitespaceNotNewline (advance pp3)
      else skipWhitespaceNotNewline r.2
    let b := runLoop pp2 defineBodyLoop
    let value := trimTrailing b.1
    { b.2 with m_macros := mapSet name (if value = [] then ['1'] else value) b.2.m_macros }

/-- The method `handleUndef`. -/
def handleUndef (pp : SVPreprocessor) : SVPreprocessor :=
  let r := parseIdentifier (skipWhitespaceNotNewline pp)
  let pp2 := if r.1 ≠ [] then { r.2 with m_macros := mapErase r.1 r.2.m_macros } else r.2
  skipToEndOfLine pp2

/-- The method `handleIfdef`. -/
def handleIfdef (pp : SVPreprocessor) (invert : Bool) : SVPreprocessor :=
  let r := parseIdentifier (skipWhitespaceNotNewline pp)
  let defined := isMacroDefined r.2 r.1
  let defined := if invert then !defined else defined
  let seen := defined && isActive r.2
  let state : CondState := { active := seen, seen_true := seen, in_else := false }
  skipToEndOfLine { r.2 with m_condStack := state :: r.2.m_condStack }

/-- The flag `parent_active` of `handleElsif` and `handleElse`, from the frames below
the top one. -/
def parentActive (below : List CondState) : Bool :=
  match below with
  | [] => true
  | parent :: _ => parent.active

/-- The method `handleElsif`. -/
def handleElsif (pp : SVPreprocessor) : SVPreprocessor :=
  match pp.m_condStack with
  | [] => skipToEndOfLine pp
  | state :: below =>
    if state.in_else then skipToEndOfLine pp
    else
      let r := parseIdentifier (skipWhitespaceNotNewline pp)
      let defined := isMacroDefined r.2 r.1
      let state1 : CondState :=
        if !state.seen_true && defined && parentActive below then
          { state with active := true, seen_true := true }
        else { state with active := false }
      skipToEndOfLine { r.2 with m_condStack := state1 :: below }

/-- The method `handleElse`. -/
def handleElse (pp : SVPreprocessor) : SVPreprocessor :=
  match pp.m_condStack with
  | [] => pp
  | state :: below =>
    if state.in_else then pp
    else
      { pp with m_condStack :=
          { state with in_else := true,
                       active := !state.seen_true && parentActive below } :: below }

/-- The method `handleEndif`. -/
def handleEndif (pp : SVPreprocessor) : SVPreprocessor :=
  match pp.m_condStack with
  | [] => pp
  | _ :: below => { pp with m_condStack := below }

/-- The method `handleDirective`. -/
def handleDirective (pp : SVPreprocessor) (directive : Str) : SVPreprocessor :=
  if directive = "include".toList then
    if isActive pp then handleInclude pp else skipToEndOfLine pp
  else if directive = "define".toList then
    if isActive pp then handleDefine pp else skipToEndOfLine pp
  else if directive = "undef".toList then
    if isActive pp then handleUndef pp else skipToEndOfLine pp
  else if directive = "ifdef".toList then handleIfdef pp false
  else if directive = "ifndef".toList then handleIfdef pp true
  else if directive = "elsif".toList || directive = "elseif".toList then handleElsif pp
  else if directive = "else".toList then handleElse pp
  else if directive = "endif".toList then handleEndif pp
  else if !isActive pp then skipToEndOfLine pp
  else pp

/-- The method `scanDirective`. -/
def scanDirective (pp : SVPreprocessor) : Token × SVPreprocessor :=
  let r := runLoop (advance pp) (advanceWhile (fun c => isalnum c || c == '_'))
  let pp2 := if r.1 ≠ [] then handleDirective r.2 r.1 else r.2
  (makeToken pp2 TokenType.DIRECTIVE r.1, pp2)

/-- The method `scanToken`. -/
def scanToken (pp : SVPreprocessor) : Token × SVPreprocessor :=
  let pp1 := (runLoop pp
    (advanceWhile (fun c => c == ' ' || c == '\t' || c == '\r' || c == '\n'))).2
  match pp1.m_rest with
  | [] => (makeToken pp1 TokenType.END_OF_FILE [], pp1)
  | c :: cs =>
    if c = '/' ∧ cs.head? = some '/' then scanLineComment pp1
    else if c = '/' ∧ cs.head? = some '*' then scanBlockComment pp1
    else if c = backtick then scanDirective pp1
    else if c = '"' then scanString pp1
    else if isdigit c then scanNumber pp1
    else if isalpha c || c == '_' || c == '$' then scanIdentifier pp1
    else
      let pp2 := advance pp1
      (makeToken pp2 TokenType.OPERATOR [c], pp2)

/-- The method `nextToken`. -/
def nextToken (pp : SVPreprocessor) : Token × SVPreprocessor :=
  if pp.m_hasPeeked then (pp.m_peeked, { pp with m_hasPeeked := false })
  else scanToken pp

/-- The method `peekToken`. -/
def peekToken (pp : SVPreprocessor) : Token × SVPreprocessor :=
  if !pp.m_hasPeeked then
    let r := scanToken pp
    (r.1, { r.2 with m_peeked := r.1, m_hasPeeked := true })
  else (pp.m_peeked, pp)

/-- The loop of `process`; `none` when `fuel` iterations did not reach the end. -/
def processLoop : Nat → SVPreprocessor → Option SVPreprocessor
  | 0, pp => if isAtEnd pp then some pp else none
  | fuel + 1, pp =>
    if isAtEnd pp then some pp
    else
      let r := nextToken pp
      if r.1.type = TokenType.END_OF_FILE then some r.2 else processLoop fuel r.2

/-- The method `process`: no more iterations than unread characters, plus one for a
token held in the lookahead. -/
def process (pp : SVPreprocessor) : Option SVPreprocessor :=
  processLoop (pp.m_rest.length + 1) pp

/-- The include list that `buildFileInfo` obtains from a fresh preprocessor:
`SVPreprocessor pp; pp.setInput(content, path); pp.process(); pp.getIncludes()`. -/
def scanIncludes (content : Str) (path : Str) : Option (List Str) :=
  (process (setInput SVPreprocessor.new content path)).map getIncludes

/-! ## Building the dependency graph -/

section Build

variable {τ : Type} [LinearOrder τ] [Zero τ]

/-- The loop `for (dir : m_incdirs) if (dir == d) found = true;` followed by
`if (!found) m_incdirs.push_back(d);`. -/
def addSearchDir (d : Str) (dirs : List Str) : List Str :=
  if d ∈ dirs then dirs else dirs ++ [d]

/-- The statement `m_collection.file_info[path] = info;`. -/
def storeNode (ctx : SVDepContext τ) (path : Str) (info : FileInfo τ) : SVDepContext τ :=
  { ctx with m_collection :=
      { ctx.m_collection with file_info := mapSet path info ctx.m_collection.file_info } }

/-- The loop of `buildFileInfo` over the raw include names of one file; `recurse` is
the recursive call `buildFileInfo(incPath)`. -/
def buildIncludes (fs : FileSystem τ)
    (recurse : Str → SVDepContext τ → Option (FileInfo τ × SVDepContext τ)) :
    List Str → FileInfo τ → SVDepContext τ → Option (FileInfo τ × SVDepContext τ)
  | [], info, ctx => some (info, ctx)
  | inc :: rest, info, ctx =>
    let r := resolveInclude fs ctx inc
    let incPath := r.1
    if incPath ≠ [] then
      let ctx1 := { r.2 with m_incdirs := addSearchDir (getDirname incPath) r.2.m_incdirs }
      match recurse incPath ctx1 with
      | none => none
      | some (_, ctx2) =>
        buildIncludes fs recurse rest { info with includes := info.includes ++ [incPath] } ctx2
    else buildIncludes fs recurse rest info r.2

/-- The method `buildFileInfo`; `fuel` bounds the nesting of the recursion. -/
def buildFileInfo (fs : FileSystem τ) :
    Nat → Str → SVDepContext τ → Option (FileInfo τ × SVDepContext τ)
  | 0, _, _ => none
  | fuel + 1, path, ctx =>
    match mapFind path ctx.m_collection.file_info with
    | some stored => some (stored, ctx)
    | none =>
      let info : FileInfo τ :=
        { (FileInfo.default : FileInfo τ) with
          name := path, timestamp := getFileTimestamp fs path }
      let ctx1 := storeNode ctx path info
      let r := readFile fs ctx1 path
      if r.1 = [] ∧ r.2.m_error ≠ [] then some (info, r.2)
      else
        match scanIncludes r.1 path with
        | none => none
        | some includes =>
          match buildIncludes fs (buildFileInfo fs fuel) includes info r.2 with
          | none => none
          | some (info1, ctx2) => some (info1, storeNode ctx2 path info1)

/-- The loop of `build` over the root files. -/
def buildRoots (fs : FileSystem τ) (fuel : Nat) :
    List Str → SVDepContext τ → Option (Int × SVDepContext τ)
  | [], ctx => some (0, ctx)
  | rootPath :: rest, ctx =>
    let ctx1 := { ctx with m_incdirs := addSearchDir (getDirname rootPath) ctx.m_incdirs }
    match buildFileInfo fs fuel rootPath ctx1 with
    | none => none
    | some (info, ctx2) =>
      if ctx2.m_error ≠ [] then some (-1, ctx2)
      else
        buildRoots fs fuel rest
          { ctx2 with m_collection :=
              { ctx2.m_collection with root_files := ctx2.m_collection.root_files ++ [info] } }

/-- The method `build`. The log of reads is restarted, so that it holds the reads of
this pass. -/
def build (fs : FileSystem τ) (fuel : Nat) (ctx : SVDepContext τ) :
    Option (Int × SVDepContext τ) :=
  buildRoots fs fuel ctx.m_rootFiles
    { ctx with m_collection := FileCollection.clear, m_error := [], readLog := [] }

/-- The method `getError`. -/
def getError (ctx : SVDepContext τ) : Str := ctx.m_error

end Build

/-! ## The snapshot: `toJson` and the parser behind `fromJson`

The parser state `m_pos` is held as the unread part of the text. The two library
functions the code calls on `double` are parameters: `fmt` renders a timestamp as
`std::fixed << std::setprecision(6)` does, and `stod` is `std::stod`, which answers
`none` where the library throws. -/

/-- Why a run of the parser gives no result: it ran out of fuel (the loop would go on),
or `std::stod` threw. -/
inductive Fault where
  | outOfFuel
  | stodThrew
deriving DecidableEq, Repr

/-- The lower-case hexadecimal digit of a number below sixteen. -/
def hexDigit (n : Nat) : Char :=
  if n < 10 then Char.ofNat (48 + n) else Char.ofNat (87 + n)

/-- The output of `std::hex << std::setw(4) << std::setfill('0') << (int)c`. -/
def hex4 (n : Nat) : Str :=
  [hexDigit (n / 4096 % 16), hexDigit (n / 256 % 16), hexDigit (n / 16 % 16), hexDigit (n % 16)]

/-- The switch of `escapeJson` on one character. -/
def escapeChar (c : Char) : Str :=
  if c = '"' then ['\\', '"']
  else if c = '\\' then ['\\', '\\']
  else if c = Char.ofNat 8 then ['\\', 'b']
  else if c = Char.ofNat 12 then ['\\', 'f']
  else if c = '\n' then ['\\', 'n']
  else if c = '\r' then ['\\', 'r']
  else if c = '\t' then ['\\', 't']
  else if c.toNat ≤ 31 then ['\\', 'u'] ++ hex4 c.toNat
  else [c]

/-- The static function `escapeJson`. -/
def escapeJson (s : Str) : Str := (s.map escapeChar).flatten

/-- The elements of a list written with `", "` between them. -/
def joinComma : List Str → Str
  | [] => []
  | [x] => x
  | x :: y :: rest => x ++ ", ".toList ++ joinComma (y :: rest)

/-- The static function `writeFileInfo`. -/
def writeFileInfo {τ : Type} (fmt : τ → Str) (info : FileInfo τ) : Str :=
  "\x7b".toList ++ "\"name\": \"".toList ++ escapeJson info.name ++ "\", ".toList ++
    "\"timestamp\": ".toList ++ fmt info.timestamp ++ ", ".toList ++
    "\"includes\": [".toList ++
    joinComma (info.includes.map (fun inc => ['"'] ++ escapeJson inc ++ ['"'])) ++
    "]".toList ++ "\x7d".toList

/-- The method `toJson`; the map is written in its storage order. -/
def toJson {τ : Type} (fmt : τ → Str) (c : FileCollection τ) : Str :=
  "\x7b".toList ++ "\"root_files\": [".toList ++
    joinComma (c.root_files.map (writeFileInfo fmt)) ++ "], ".toList ++
    "\"file_info\": \x7b".toList ++
    joinComma (c.file_info.map
      (fun kv => ['"'] ++ escapeJson kv.1 ++ "\": ".toList ++ writeFileInfo fmt kv.2)) ++
    "\x7d".toList ++ "\x7d".toList

/-- The method `JsonParser::skipWhitespace`. -/
def jsonSkipWhitespace (rest : Str) : Str :=
  rest.dropWhile (fun c => c == ' ' || c == '\t' || c == '\n' || c == '\r')

/-- The method `JsonParser::match`. -/
def jsonMatch (c : Char) (rest : Str) : Bool × Str :=
  match jsonSkipWhitespace rest with
  | [] => (false, [])
  | d :: ds => if d = c then (true, ds) else (false, d :: ds)

/-- The switch of `JsonParser::parseString` on an escaped character. -/
def jsonUnescape (escaped : Char) : Char :=
  if escaped = 'n' then '\n'
  else if escaped = 't' then '\t'
  else if escaped = 'r' then '\r'
  else escaped

/-- The loop of `JsonParser::parseString`, entered after the opening quote. -/
def jsonStringLoop : Str → Str × Str
  | [] => ([], [])
  | '"' :: cs => ([], cs)
  | '\\' :: e :: cs =>
    let r := jsonStringLoop cs
    (jsonUnescape e :: r.1, r.2)
  | c :: cs =>
    let r := jsonStringLoop cs
    (c :: r.1, r.2)

/-- The method `JsonParser::parseString`. -/
def jsonParseString (rest : Str) : Str × Str :=
  match jsonSkipWhitespace rest with
  | [] => ([], [])
  | c :: cs => if c ≠ '"' then ([], c :: cs) else jsonStringLoop cs

/-- The characters over which `parseNumber` advances. -/
def isNumberChar (c : Char) : Bool :=
  isdigit c || c == '.' || c == 'e' || c == 'E' || c == '+' || c == '-'

/-- The method `JsonParser::parseNumber`. -/
def jsonParseNumber {τ : Type} (stod : Str → Option τ) (rest : Str) : Except Fault (τ × Str) :=
  let rest1 := jsonSkipWhitespace rest
  let sign : Str := if rest1.head? = some '-' then ['-'] else []
  let rest2 := if rest1.head? = some '-' then rest1.tail else rest1
  let numStr := sign ++ rest2.takeWhile isNumberChar
  match stod numStr with
  | none => Except.error Fault.stodThrew
  | some t => Except.ok (t, rest2.dropWhile isNumberChar)

/-- The loop of `parseFileInfo` over the elements of `"includes"`. -/
def jsonIncludesLoop : Nat → Str → List Str → Except Fault (List Str × Str)
  | 0, rest, acc => if rest = [] then Except.ok (acc, rest) else Except.error Fault.outOfFuel
  | fuel + 1, rest, acc =>
    if rest = [] then Except.ok (acc, rest)
    else
      let rest1 := jsonSkipWhitespace rest
      if rest1.head? = some ']' then Except.ok (acc, rest1.tail)
      else
        let s := jsonParseString rest1
        jsonIncludesLoop fuel (jsonMatch ',' s.2).2 (acc ++ [s.1])

section Parser

variable {τ : Type} [Zero τ]

/-- The body of the loop of `parseFileInfo` after a key and its colon. -/
def jsonField (stod : Str → Option τ) (n : Nat) (key : Str) (rest : Str) (info : FileInfo τ) :
    Except Fault (FileInfo τ × Str) :=
  if key = "name".toList then
    let s := jsonParseString rest
    Except.ok ({ info with name := s.1 }, s.2)
  else if key = "timestamp".toList then
    match jsonParseNumber stod rest with
    | Except.error e => Except.error e
    | Except.ok (t, rest1) => Except.ok ({ info with timestamp := t }, rest1)
  else if key = "includes".toList then
    let m := jsonMatch '[' rest
    if m.1 then
      match jsonIncludesLoop n m.2 info.includes with
      | Except.error e => Except.error e
      | Except.ok (incs, rest1) => Except.ok ({ info with includes := incs }, rest1)
    else Except.ok (info, m.2)
  else Except.ok (info, rest)

/-- The loop of `parseFileInfo`; every loop started inside gets `n` iterations. -/
def jsonFileInfoLoop (stod : Str → Option τ) (n : Nat) :
    Nat → Str → FileInfo τ → Except Fault (FileInfo τ × Str)
  | 0, rest, info => if rest = [] then Except.ok (info, rest) else Except.error Fault.outOfFuel
  | fuel + 1, rest, info =>
    if rest = [] then Except.ok (info, rest)
    else
      let rest1 := jsonSkipWhitespace rest
      if rest1.head? = some '\x7d' then Except.ok (info, rest1.tail)
      else
        let key := jsonParseString rest1
        let m := jsonMatch ':' key.2
        if !m.1 then Except.ok (info, m.2)
        else
          match jsonField stod n key.1 m.2 info with
          | Except.error e => Except.error e
          | Except.ok (info1, rest2) =>
            jsonFileInfoLoop stod n fuel (jsonMatch ',' rest2).2 info1

/-- The method `JsonParser::parseFileInfo`. -/
def jsonParseFileInfo (stod : Str → Option τ) (n : Nat) (rest : Str) :
    Except Fault (FileInfo τ × Str) :=
  let m := jsonMatch '\x7b' rest
  if !m.1 then Except.ok (FileInfo.default, m.2)
  else jsonFileInfoLoop stod n n m.2 FileInfo.default

/-- The loop of `parse` over the elements of `"root_files"`. -/
def jsonRootsLoop (stod : Str → Option τ) (n : Nat) :
    Nat → Str → List (FileInfo τ) → Except Fault (List (FileInfo τ) × Str)
  | 0, rest, acc => if rest = [] then Except.ok (acc, rest) else Except.error Fault.outOfFuel
  | fuel + 1, rest, acc =>
    if rest = [] then Except.ok (acc, rest)
    else
      let rest1 := jsonSkipWhitespace rest
      if rest1.head? = some ']' then Except.ok (acc, rest1.tail)
      else
        match jsonParseFileInfo stod n rest1 with
        | Except.error e => Except.error e
        | Except.ok (info, rest2) =>
          jsonRootsLoop stod n fuel (jsonMatch ',' rest2).2 (acc ++ [info])

/-- The loop of `parse` over the entries of `"file_info"`. -/
def jsonNodesLoop (stod : Str → Option τ) (n : Nat) :
    Nat → Str → List (Str × FileInfo τ) → Except Fault (List (Str × FileInfo τ) × Str)
  | 0, rest, acc => if rest = [] then Except.ok (acc, rest) else Except.error Fault.outOfFuel
  | fuel + 1, rest, acc =>
    if rest = [] then Except.ok (acc, rest)
    else
      let rest1 := jsonSkipWhitespace rest
      if rest1.head? = some '\x7d' then Except.ok (acc, rest1.tail)
      else
        let path := jsonParseString rest1
        let m := jsonMatch ':' path.2
        if !m.1 then Except.ok (acc, m.2)
        else
          match jsonParseFileInfo stod n m.2 with
          | Except.error e => Except.error e
          | Except.ok (info, rest2) =>
            jsonNodesLoop stod n fuel (jsonMatch ',' rest2).2 (mapSet path.1 info acc)

/-- The body of the loop of `parse` after a key and its colon. -/
def jsonTopField (stod : Str → Option τ) (n : Nat) (key : Str) (rest : Str)
    (c : FileCollection τ) : Except Fault (FileCollection τ × Str) :=
  if key = "root_files".toList then
    let m := jsonMatch '[' rest
    if m.1 then
      match jsonRootsLoop stod n n m.2 c.root_files with
      | Except.error e => Except.error e
      | Except.ok (roots, rest1) => Except.ok ({ c with root_files := roots }, rest1)
    else Except.ok (c, m.2)
  else if key = "file_info".toList then
    let m := jsonMatch '\x7b' rest
    if m.1 then
      match jsonNodesLoop stod n n m.2 c.file_info with
      | Except.error e => Except.error e
      | Except.ok (nodes, rest1) => Except.ok ({ c with file_info := nodes }, rest1)
    else Except.ok (c, m.2)
  else Except.ok (c, rest)

/-- The loop of `parse` over the members of the top-level object. -/
def jsonTopLoop (stod : Str → Option τ) (n : Nat) :
    Nat → Str → FileCollection τ → Except Fault (FileCollection τ × Str)
  | 0, rest, c => if rest = [] then Except.ok (c, rest) else Except.error Fault.outOfFuel
  | fuel + 1, rest, c =>
    if rest = [] then Except.ok (c, rest)
    else
      let rest1 := jsonSkipWhitespace rest
      if rest1.head? = some '\x7d' then Except.ok (c, rest1.tail)
      else
        let key := jsonParseString rest1
        let m := jsonMatch ':' key.2
        if !m.1 then Except.ok (c, m.2)
        else
          match jsonTopField stod n key.1 m.2 c with
          | Except.error e => Except.error e
          | Except.ok (c1, rest2) => jsonTopLoop stod n fuel (jsonMatch ',' rest2).2 c1

/-- The method `JsonParser::parse`: the flag it returns and the collection it filled. -/
def jsonParse (stod : Str → Option τ) (n : Nat) (json : Str) (c : FileCollection τ) :
    Except Fault (Bool × FileCollection τ) :=
  let m := jsonMatch '\x7b' json
  if !m.1 then Except.ok (false, c)
  else
    match jsonTopLoop stod n n m.2 c with
    | Except.error e => Except.error e
    | Except.ok (c1, _) => Except.ok (true, c1)

/-- The method `FileCollection::fromJson`; every loop of the parser gets `n`
iterations. -/
def fromJson (stod : Str → Option τ) (n : Nat) (json : Str) :
    Except Fault (Bool × FileCollection τ) :=
  jsonParse stod n json FileCollection.clear

/-- The method `getJson`. -/
def getJson (fmt : τ → Str) (ctx : SVDepContext τ) : Str × SVDepContext τ :=
  (toJson fmt ctx.m_collection, { ctx with m_json := toJson fmt ctx.m_collection })

/-- The method `loadJson`. -/
def loadJson (stod : Str → Option τ) (n : Nat) (ctx : SVDepContext τ) (json : Str) :
    Except Fault (Int × SVDepContext τ) :=
  match fromJson stod n json with
  | Except.error e => Except.error e
  | Except.ok (false, c) =>
    Except.ok (-1, { ctx with m_collection := c, m_error := "Failed to parse JSON".toList })
  | Except.ok (true, c) => Except.ok (0, { ctx with m_collection := c })

end Parser

/-! ## Vocabulary of the statements -/

section SpecDefs

variable {τ : Type} [LinearOrder τ] [Zero τ]

/-- The include list stored in the map for `p` (empty when `p` has no node). -/
def nodeIncs (nodes : List (Str × FileInfo τ)) (p : Str) : List Str :=
  match mapFind p nodes with
  | some info => info.includes
  | none => []

/-- The path `q` is reached from `p` by following include lists zero or more times. -/
inductive Reach (incs : Str → List Str) : Str → Str → Prop
  | refl (p : Str) : Reach incs p p
  | step {p r q : Str} : r ∈ incs p → Reach incs r q → Reach incs p q

/-- The path `q` is reached from one of the root paths through the stored include lists. -/
def Reachable (nodes : List (Str × FileInfo τ)) (roots : List Str) (q : Str) : Prop :=
  ∃ r ∈ roots, Reach (nodeIncs nodes) r q

/-- The path has a node, exists now (its timestamp is not zero) and its current
timestamp is not greater than the reference timestamp, in the comparison of `double`. -/
def OkFile (fs : FileSystem τ) (T : Double τ) (nodes : List (Str × FileInfo τ)) (q : Str) :
    Prop :=
  (mapFind q nodes).isSome = true ∧ getFileTimestamp fs q ≠ 0 ∧
    Double.gt (Double.num (getFileTimestamp fs q)) T = false

/-- The node of `p` carries `checked = true`. -/
def flagged (nodes : List (Str × FileInfo τ)) (p : Str) : Prop :=
  ∃ info, mapFind p nodes = some info ∧ info.checked = true

/-- Between two states of the map only `checked` flags were raised. -/
def FlagsRaised (nodes nodes1 : List (Str × FileInfo τ)) : Prop :=
  ∀ q, mapFind q nodes1 = mapFind q nodes ∨
    ∃ info, mapFind q nodes = some info ∧ info.checked = false ∧
      mapFind q nodes1 = some (info.setChecked true)

/-- What a run of the checker over the paths `ps` establishes. -/
def CheckPost (fs : FileSystem τ) (T : Double τ) (ps : List Str)
    (nodes : List (Str × FileInfo τ)) (b : Bool) (nodes1 : List (Str × FileInfo τ)) : Prop :=
  FlagsRaised nodes nodes1 ∧
  (b = true → (∀ p ∈ ps, flagged nodes1 p) ∧
    ∀ q, flagged nodes1 q → ¬ flagged nodes q →
      OkFile fs T nodes q ∧ ∀ r ∈ nodeIncs nodes q, flagged nodes1 r) ∧
  (b = false → ∃ p ∈ ps, ∃ q, Reach (nodeIncs nodes) p q ∧ ¬ OkFile fs T nodes q)

/-- The number of entries whose `checked` flag is down. -/
def unchecked (nodes : List (Str × FileInfo τ)) : Nat :=
  nodes.countP (fun kv => !kv.2.checked)

end SpecDefs

/-- One scanner step never gives input back, only appends to the include list and does
not fill the lookahead. -/
def PPStep (pp pp1 : SVPreprocessor) : Prop :=
  pp1.m_rest.length ≤ pp.m_rest.length ∧ (∃ l, pp1.m_includes = pp.m_includes ++ l) ∧
    (pp1.m_hasPeeked = true → pp.m_hasPeeked = true)

section BuildSpec

variable {τ : Type} [LinearOrder τ] [Zero τ]

/-- The invariant of a build pass: every node is stored under its own name with its
`checked` flag down, every stored include has a node, the reads so far are pairwise
distinct and are the paths that have nodes, and an error is pending exactly when one of
the reads failed. -/
structure BuildInv (fs : FileSystem τ) (ctx : SVDepContext τ) : Prop where
  named : ∀ p info, mapFind p ctx.m_collection.file_info = some info → info.name = p
  closed : ∀ p info, mapFind p ctx.m_collection.file_info = some info →
    ∀ q ∈ info.includes, q ∈ mapKeys ctx.m_collection.file_info
  unflagged : ∀ p info, mapFind p ctx.m_collection.file_info = some info →
    info.checked = false
  keysNodup : (mapKeys ctx.m_collection.file_info).Nodup
  logNodup : ctx.readLog.Nodup
  logKeys : ∀ p ∈ ctx.readLog, p ∈ mapKeys ctx.m_collection.file_info
  keysLog : ∀ p ∈ mapKeys ctx.m_collection.file_info, p ∈ ctx.readLog
  error : ctx.m_error ≠ [] ↔ ∃ p ∈ ctx.readLog, fs.read p = none

/-- What a step of the build leaves alone: existing nodes, the root lists, cached
resolutions, and the earlier part of the search path and of the read log. -/
structure BuildFrame (ctx ctx1 : SVDepContext τ) : Prop where
  nodes : ∀ p, p ∈ mapKeys ctx.m_collection.file_info →
    mapFind p ctx1.m_collection.file_info = mapFind p ctx.m_collection.file_info
  rootFiles : ctx1.m_rootFiles = ctx.m_rootFiles
  roots : ctx1.m_collection.root_files = ctx.m_collection.root_files
  cache : ∀ k v, mapFind k ctx.m_includeCache = some v →
    mapFind k ctx1.m_includeCache = some v
  dirs : ∃ l, ctx1.m_incdirs = ctx.m_incdirs ++ l
  log : ∃ l, ctx1.readLog = ctx.readLog ++ l

/-- The postcondition of `buildFileInfo path`. -/
structure BuildPost (fs : FileSystem τ) (path : Str) (ctx : SVDepContext τ)
    (info : FileInfo τ) (ctx1 : SVDepContext τ) : Prop where
  frame : BuildFrame ctx ctx1
  inv : BuildInv fs ctx1
  key : mapFind path ctx1.m_collection.file_info = some info
  name : info.name = path
  reach : ∀ q ∈ mapKeys ctx1.m_collection.file_info, q ∉ mapKeys ctx.m_collection.file_info →
    Reach (nodeIncs ctx1.m_collection.file_info) path q

/-- The postcondition of the loop over the raw includes of one file. -/
structure IncludesPost (fs : FileSystem τ) (ctx : SVDepContext τ) (info : FileInfo τ)
    (info1 : FileInfo τ) (ctx1 : SVDepContext τ) : Prop where
  frame : BuildFrame ctx ctx1
  inv : BuildInv fs ctx1
  name : info1.name = info.name
  timestamp : info1.timestamp = info.timestamp
  checked : info1.checked = info.checked
  incKeys : ∀ q ∈ info1.includes, q ∈ mapKeys ctx1.m_collection.file_info
  incsMono : ∀ q ∈ info.includes, q ∈ info1.includes
  reach : ∀ q ∈ mapKeys ctx1.m_collection.file_info, q ∉ mapKeys ctx.m_collection.file_info →
    ∃ i ∈ info1.includes, Reach (nodeIncs ctx1.m_collection.file_info) i q

/-- The postcondition of the loop of `build` over the root files. -/
structure RootsPost (fs : FileSystem τ) (roots : List Str) (ctx : SVDepContext τ)
    (r : Int) (ctx1 : SVDepContext τ) : Prop where
  nodes : ∀ p, p ∈ mapKeys ctx.m_collection.file_info →
    mapFind p ctx1.m_collection.file_info = mapFind p ctx.m_collection.file_info
  rootFiles : ctx1.m_rootFiles = ctx.m_rootFiles
  cache : ∀ k v, mapFind k ctx.m_includeCache = some v →
    mapFind k ctx1.m_includeCache = some v
  dirs : ∃ l, ctx1.m_incdirs = ctx.m_incdirs ++ l
  inv : BuildInv fs ctx1
  result : r = 0 ∨ r = -1
  failed : r = -1 → ctx1.m_error ≠ []
  succeeded : r = 0 → (ctx.m_error = [] → ctx1.m_error = []) ∧
    ∃ infos, ctx1.m_collection.root_files = ctx.m_collection.root_files ++ infos ∧
      infos.map FileInfo.name = roots ∧
      ∀ i ∈ infos, mapFind i.name ctx1.m_collection.file_info = some i
  reach : ∀ q ∈ mapKeys ctx1.m_collection.file_info, q ∉ mapKeys ctx.m_collection.file_info →
    ∃ x ∈ roots, Reach (nodeIncs ctx1.m_collection.file_info) x q

/-- Every cached resolution lies in the list `U`. -/
def CacheIn (U : List Str) (ctx : SVDepContext τ) : Prop :=
  ∀ k v, mapFind k ctx.m_includeCache = some v → v ∈ U

/-- The number of paths of `U` that have no node yet. -/
def pending (U : List Str) (nodes : List (Str × FileInfo τ)) : Nat :=
  (U.toFinset \ (mapKeys nodes).toFinset).card

end BuildSpec

section SnapshotSpec

variable {τ : Type}

/-- The characters that `escapeJson` writes in a form that the parser of the snapshot
reads back: everything from the space upwards, and newline, carriage return and tab. -/
def jsonSafeChar (c : Char) : Bool :=
  decide (32 ≤ c.toNat) || c == '\n' || c == '\r' || c == '\t'

/-- A string of characters that survive the snapshot. -/
def jsonSafe (s : Str) : Prop := ∀ c ∈ s, jsonSafeChar c = true

/-- A record whose strings survive the snapshot and whose timestamp is printed in
number characters from which `stod` recovers it. -/
def infoSurvives (fmt : τ → Str) (stod : Str → Option τ) (info : FileInfo τ) : Prop :=
  jsonSafe info.name ∧ (∀ inc ∈ info.includes, jsonSafe inc) ∧
    stod (fmt info.timestamp) = some info.timestamp ∧
    ∀ c ∈ fmt info.timestamp, isNumberChar c = true

/-- A bound on the iterations any loop of the parser needs on the snapshot of `c`. -/
def snapshotFuel (c : FileCollection τ) : Nat :=
  4 + c.root_files.length + c.file_info.length +
    (c.root_files.map (fun i => i.includes.length)).sum +
    (c.file_info.map (fun kv => kv.2.includes.length)).sum

/-- The collection with every transient `checked` flag down. -/
def FileCollection.unchecked (c : FileCollection τ) : FileCollection τ :=
  { root_files := c.root_files.map (fun i => i.setChecked false),
    file_info := c.file_info.map (fun kv => (kv.1, kv.2.setChecked false)) }

end SnapshotSpec

section ContextSteps

variable {τ : Type} [LinearOrder τ] [Zero τ]

/-- Every cached resolution of `ctx` is still cached, unchanged, in `ctx1`. -/
def CacheExt (ctx ctx1 : SVDepContext τ) : Prop :=
  ∀ k v, mapFind k ctx.m_includeCache = some v → mapFind k ctx1.m_includeCache = some v

/-- One thing that can happen to a context: a call of one of its methods, public or
internal, on any file system, or the extension of the search path inside a build. -/
inductive CtxStep : SVDepContext τ → SVDepContext τ → Prop
  | addIncdir (ctx : SVDepContext τ) (path : Str) : CtxStep ctx (addIncdir ctx path).2
  | addRootFile (ctx : SVDepContext τ) (path : Str) : CtxStep ctx (addRootFile ctx path).2
  | build (fs : FileSystem τ) (fuel : Nat) (ctx : SVDepContext τ) (r : Int)
      (ctx1 : SVDepContext τ) : build fs fuel ctx = some (r, ctx1) → CtxStep ctx ctx1
  | buildFileInfo (fs : FileSystem τ) (fuel : Nat) (path : Str) (ctx : SVDepContext τ)
      (info : FileInfo τ) (ctx1 : SVDepContext τ) :
      buildFileInfo fs fuel path ctx = some (info, ctx1) → CtxStep ctx ctx1
  | resolveInclude (fs : FileSystem τ) (ctx : SVDepContext τ) (filename : Str) :
      CtxStep ctx (resolveInclude fs ctx filename).2
  | searchDir (ctx : SVDepContext τ) (d : Str) :
      CtxStep ctx { ctx with m_incdirs := addSearchDir d ctx.m_incdirs }
  | checkUpToDate (fs : FileSystem τ) (fuel : Nat) (ctx : SVDepContext τ) (T : Double τ)
      (r : Int)
      (ctx1 : SVDepContext τ) : checkUpToDate fs fuel ctx T = some (r, ctx1) → CtxStep ctx ctx1
  | getJson (fmt : τ → Str) (ctx : SVDepContext τ) : CtxStep ctx (getJson fmt ctx).2
  | loadJson (stod : Str → Option τ) (n : Nat) (ctx : SVDepContext τ) (json : Str) (r : Int)
      (ctx1 : SVDepContext τ) : loadJson stod n ctx json = Except.ok (r, ctx1) → CtxStep ctx ctx1

/-- The file system `fs` after the file `f` was touched: its timestamp is now `t`. -/
def touch (fs : FileSystem τ) (f : Str) (t : τ) : FileSystem τ :=
  { fs with stat := fun p => if p = f then some t else fs.stat p }

end ContextSteps

/-! ## Texts and file systems used by the statements -/

/-- A file system with the single file `top.sv`, modified at time 100 and empty. -/
def exTopFs : FileSystem Nat :=
  { stat := fun p => if p = "top.sv".toList then some 100 else none,
    read := fun p => if p = "top.sv".toList then some [] else none }

/-- A fresh context whose root list is `["top.sv"]`. -/
def exTopCtx : SVDepContext Nat :=
  { (SVDepContext.new : SVDepContext Nat) with m_rootFiles := ["top.sv".toList] }

/-- The record of `top.sv` with timestamp `t`. -/
def exTopInfo (t : Nat) : FileInfo Nat :=
  { name := "top.sv".toList, timestamp := t, includes := [], checked := false }

/-- The context `exTopCtx` after `build` on a file system where `top.sv` has
timestamp `t`. -/
def exTopBuilt (t : Nat) : SVDepContext Nat :=
  { m_incdirs := [".".toList], m_rootFiles := ["top.sv".toList],
    m_collection := { root_files := [exTopInfo t], file_info := [("top.sv".toList, exTopInfo t)] },
    m_json := [], m_error := [], m_includeCache := [], readLog := ["top.sv".toList] }

/-- A file system on which every path exists with timestamp 50. -/
def exAllFs : FileSystem Nat :=
  { stat := fun _ => some 50, read := fun _ => some [] }

/-- A loaded graph whose root `a` lists the include `b`, for which there is no node. -/
def exDanglingCtx : SVDepContext Nat :=
  { (SVDepContext.new : SVDepContext Nat) with
    m_rootFiles := ["a".toList],
    m_collection :=
      { root_files := [{ name := "a".toList, timestamp := 50, includes := ["b".toList],
                         checked := false }],
        file_info := [("a".toList, { name := "a".toList, timestamp := 50,
                                     includes := ["b".toList], checked := false })] } }

/-- Two files that include each other: `d/A` includes `B` and `d/B` includes `A`. -/
def exCycleFs : FileSystem Nat :=
  { stat := fun p => if p = "d/A".toList ∨ p = "d/B".toList then some 7 else none,
    read := fun p =>
      if p = "d/A".toList then some "`include \"B\"\n".toList
      else if p = "d/B".toList then some "`include \"A\"\n".toList
      else none }

/-- A fresh context whose root list is `["d/A"]`. -/
def exCycleCtx : SVDepContext Nat :=
  { (SVDepContext.new : SVDepContext Nat) with m_rootFiles := ["d/A".toList] }

/-- The two paths of the cycle. -/
def exCycleRoots : List Str := ["d/A".toList, "d/B".toList]

/-- A fresh context whose only root cannot be read. -/
def exGoneCtx : SVDepContext Nat :=
  { (SVDepContext.new : SVDepContext Nat) with m_rootFiles := ["gone.sv".toList] }

/-- A context with the search path `["inc1", "inc2"]`. -/
def exSearchCtx : SVDepContext Nat :=
  { (SVDepContext.new : SVDepContext Nat) with m_incdirs := ["inc1".toList, "inc2".toList] }

/-- A file system on which only `inc2/x.svh` exists. -/
def exSearchFs : FileSystem Nat :=
  { stat := fun p => if p = "inc2/x.svh".toList then some 1 else none,
    read := fun _ => none }

/-- A file system on which `inc1/x.svh` exists as well. -/
def exSearchFsLater : FileSystem Nat :=
  { stat := fun p =>
      if p = "inc1/x.svh".toList ∨ p = "inc2/x.svh".toList then some 1 else none,
    read := fun _ => none }

/-! ### Timestamps as whole nanoseconds

For the examples of the snapshot a timestamp is a number of nanoseconds, the resolution
of `st_mtim`. -/

/-- The six digits after the decimal point. -/
def sixDigits (n : Nat) : Str :=
  [Nat.digitChar (n / 100000 % 10), Nat.digitChar (n / 10000 % 10),
   Nat.digitChar (n / 1000 % 10), Nat.digitChar (n / 100 % 10),
   Nat.digitChar (n / 10 % 10), Nat.digitChar (n % 10)]

/-- Modelled from the spec: the C++ library is not among the sources. The output of
`std::fixed << std::setprecision(6)` for a timestamp of `ns` nanoseconds: seconds, a
point and six decimals, rounded to the nearest microsecond. -/
def fmtFixed6 (ns : Nat) : Str :=
  Nat.toDigits 10 ((ns + 500) / 1000 / 1000000) ++ ['.'] ++ sixDigits ((ns + 500) / 1000 % 1000000)

/-- The value of a string of decimal digits. -/
def digitsValue (s : Str) : Nat :=
  s.foldl (fun acc c => acc * 10 + (c.toNat - '0'.toNat)) 0

/-- Modelled from the spec: the C++ library is not among the sources. The function
`std::stod` on a text of digits with an optional point and more digits, in
nanoseconds; it throws (`none`) when the text starts with neither a digit nor a point
followed by a digit. Signs and exponents are outside this model. -/
def stodFixed (s : Str) : Option Nat :=
  let ip := s.takeWhile isdigit
  let fp := match s.dropWhile isdigit with
    | '.' :: rest => rest.takeWhile isdigit
    | _ => []
  if ip = [] ∧ fp = [] then none
  else some (digitsValue ip * 1000000000 + digitsValue ((fp ++ "000000000".toList).take 9))

/-- A file system on which `top.sv` was modified one nanosecond after second 100. -/
def exNanoFs : FileSystem Nat :=
  { stat := fun p => if p = "top.sv".toList then some 100000000001 else none,
    read := fun p => if p = "top.sv".toList then some [] else none }

/-- A file system on which `top.sv` was modified at second 100 sharp. -/
def exSecFs : FileSystem Nat :=
  { stat := fun p => if p = "top.sv".toList then some 100000000000 else none,
    read := fun p => if p = "top.sv".toList then some [] else none }

/-- What `fromJson` reads from the snapshot of `exTopBuilt 100000000001`. -/
def exNanoLoaded : FileCollection Nat :=
  { root_files := [exTopInfo 100000000000],
    file_info := [("top.sv".toList, exTopInfo 100000000000)] }

/-- A file name that holds a backspace character. -/
def exCtrlName : Str := ['x', Char.ofNat 8]

/-- A file system on which the file `exCtrlName` exists. -/
def exCtrlFs : FileSystem Nat :=
  { stat := fun p => if p = exCtrlName then some 100000000000 else none,
    read := fun p => if p = exCtrlName then some [] else none }

/-- A fresh context whose root list is `[exCtrlName]`. -/
def exCtrlCtx : SVDepContext Nat :=
  { (SVDepContext.new : SVDepContext Nat) with m_rootFiles := [exCtrlName] }

/-- The record of the file `exCtrlName`. -/
def exCtrlInfo (name : Str) : FileInfo Nat :=
  { name := name, timestamp := 100000000000, includes := [], checked := false }

/-- The context `exCtrlCtx` after `build` on `exCtrlFs`. -/
def exCtrlBuilt : SVDepContext Nat :=
  { m_incdirs := [".".toList], m_rootFiles := [exCtrlName],
    m_collection := { root_files := [exCtrlInfo exCtrlName],
                      file_info := [(exCtrlName, exCtrlInfo exCtrlName)] },
    m_json := [], m_error := [], m_includeCache := [], readLog := [exCtrlName] }

/-- What `fromJson` reads from the snapshot of `exCtrlBuilt`. -/
def exCtrlLoaded : FileCollection Nat :=
  { root_files := [exCtrlInfo "xb".toList],
    file_info := [("xb".toList, exCtrlInfo "xb".toList)] }

/-! ## Further specifications

The words of the remaining statements: the run of the include loop of one file, the
check with a log of the timestamp queries, and the token stream of the scanner. -/

section IncludeSpec

variable {τ : Type} [LinearOrder τ] [Zero τ]

/-- One elementary change that a build pass on the file system `fs` makes to the
context: a resolution, an extension of the search path, a store into `file_info`, a
read, or a push onto `root_files`. -/
inductive BuildStep (fs : FileSystem τ) : SVDepContext τ → SVDepContext τ → Prop
  | resolve (ctx : SVDepContext τ) (n : Str) : BuildStep fs ctx (resolveInclude fs ctx n).2
  | searchDir (ctx : SVDepContext τ) (d : Str) :
      BuildStep fs ctx { ctx with m_incdirs := addSearchDir d ctx.m_incdirs }
  | store (ctx : SVDepContext τ) (path : Str) (info : FileInfo τ) :
      BuildStep fs ctx (storeNode ctx path info)
  | read (ctx : SVDepContext τ) (path : Str) : BuildStep fs ctx (readFile fs ctx path).2
  | root (ctx : SVDepContext τ) (info : FileInfo τ) :
      BuildStep fs ctx { ctx with m_collection :=
        { ctx.m_collection with root_files := ctx.m_collection.root_files ++ [info] } }

/-- The context `ctx` occurs in a build pass on `fs` that went through `ctx0`. -/
def DuringBuild (fs : FileSystem τ) (ctx0 ctx : SVDepContext τ) : Prop :=
  Relation.ReflTransGen (BuildStep fs) ctx0 ctx

/-! ### The build with a log of its resolutions

The same methods as `buildFileInfo` and `build`, with one more value threaded through:
the list of the calls of `resolveInclude`, in call order. Nothing else depends on it. -/

/-- One call `resolveInclude(inc)` made by the include loop of `buildFileInfo(file)`:
the file whose loop made the call, the raw name `inc`, and the context in which the call
was made. -/
structure Resolution (τ : Type) where
  file : Str
  name : Str
  ctx : SVDepContext τ
deriving DecidableEq, Repr

/-- The path that the recorded call returned, when the name resolved (the path is not
empty). -/
def Resolution.path (fs : FileSystem τ) (e : Resolution τ) : Option Str :=
  if (resolveInclude fs e.ctx e.name).1 = [] then none
  else some (resolveInclude fs e.ctx e.name).1

/-- The context that the recorded call left. -/
def Resolution.after (fs : FileSystem τ) (e : Resolution τ) : SVDepContext τ :=
  (resolveInclude fs e.ctx e.name).2

/-- The recorded calls that the include loop of `file` made, in call order. -/
def callsOf (file : Str) (log : List (Resolution τ)) : List (Resolution τ) :=
  log.filter (fun e => decide (e.file = file))

/-- The loop of `buildFileInfo(path)` over the raw include names, with the log: the call
`resolveInclude(inc)` is recorded where the source makes it. -/
def buildIncludesLog (fs : FileSystem τ) (path : Str)
    (recurse : Str → SVDepContext τ → List (Resolution τ) →
      Option (FileInfo τ × SVDepContext τ × List (Resolution τ))) :
    List Str → FileInfo τ → SVDepContext τ → List (Resolution τ) →
      Option (FileInfo τ × SVDepContext τ × List (Resolution τ))
  | [], info, ctx, log => some (info, ctx, log)
  | inc :: rest, info, ctx, log =>
    let r := resolveInclude fs ctx inc
    let log1 := log ++ [{ file := path, name := inc, ctx := ctx }]
    let incPath := r.1
    if incPath ≠ [] then
      let ctx1 := { r.2 with m_incdirs := addSearchDir (getDirname incPath) r.2.m_incdirs }
      match recurse incPath ctx1 log1 with
      | none => none
      | some (_, ctx2, log2) =>
        buildIncludesLog fs path recurse rest
          { info with includes := info.includes ++ [incPath] } ctx2 log2
    else buildIncludesLog fs path recurse rest info r.2 log1

/-- The method `buildFileInfo`, with the log. -/
def buildFileInfoLog (fs : FileSystem τ) :
    Nat → Str → SVDepContext τ → List (Resolution τ) →
      Option (FileInfo τ × SVDepContext τ × List (Resolution τ))
  | 0, _, _, _ => none
  | fuel + 1, path, ctx, log =>
    match mapFind path ctx.m_collection.file_info with
    | some stored => some (stored, ctx, log)
    | none =>
      let info : FileInfo τ :=
        { (FileInfo.default : FileInfo τ) with
          name := path, timestamp := getFileTimestamp fs path }
      let ctx1 := storeNode ctx path info
      let r := readFile fs ctx1 path
      if r.1 = [] ∧ r.2.m_error ≠ [] then some (info, r.2, log)
      else
        match scanIncludes r.1 path with
        | none => none
        | some includes =>
          match buildIncludesLog fs path (buildFileInfoLog fs fuel) includes info r.2 log with
          | none => none
          | some (info1, ctx2, log2) => some (info1, storeNode ctx2 path info1, log2)

/-- The loop of `build` over the root files, with the log. -/
def buildRootsLog (fs : FileSystem τ) (fuel : Nat) :
    List Str → SVDepContext τ → List (Resolution τ) →
      Option (Int × SVDepContext τ × List (Resolution τ))
  | [], ctx, log => some (0, ctx, log)
  | rootPath :: rest, ctx, log =>
    let ctx1 := { ctx with m_incdirs := addSearchDir (getDirname rootPath) ctx.m_incdirs }
    match buildFileInfoLog fs fuel rootPath ctx1 log with
    | none => none
    | some (info, ctx2, log2) =>
      if ctx2.m_error ≠ [] then some (-1, ctx2, log2)
      else
        buildRootsLog fs fuel rest
          { ctx2 with m_collection :=
              { ctx2.m_collection with root_files := ctx2.m_collection.root_files ++ [info] } }
          log2

/-- The method `build`, with the log of the resolutions of the pass. -/
def buildLog (fs : FileSystem τ) (fuel : Nat) (ctx : SVDepContext τ) :
    Option (Int × SVDepContext τ × List (Resolution τ)) :=
  buildRootsLog fs fuel ctx.m_rootFiles
    { ctx with m_collection := FileCollection.clear, m_error := [], readLog := [] } []

/-- Forget the log of a result. -/
def dropCalls {α : Type} (r : α × SVDepContext τ × List (Resolution τ)) :
    α × SVDepContext τ :=
  (r.1, r.2.1)

/-- The order of two recorded calls: the second was made in a context that the build
reached, by its elementary steps, from the context that the first one left. -/
def CalledBefore (fs : FileSystem τ) (a b : Resolution τ) : Prop :=
  DuringBuild fs (a.after fs) b.ctx

/-- What a stretch of a logged build pass, from the context `ctx` to the context `ctx1`
with the calls `new` recorded on the way, establishes. The files of `own` are those
whose include loop is running. -/
structure TracePost (fs : FileSystem τ) (own : List Str) (ctx ctx1 : SVDepContext τ)
    (new : List (Resolution τ)) : Prop where
  during : DuringBuild fs ctx ctx1
  calls : ∀ e ∈ new, DuringBuild fs ctx e.ctx ∧ DuringBuild fs (e.after fs) ctx1
  order : new.Pairwise (CalledBefore fs)
  kept : ∀ s, (mapFind s ctx.m_collection.file_info).isSome = true →
    mapFind s ctx1.m_collection.file_info = mapFind s ctx.m_collection.file_info
  noded : ∀ e ∈ new, (mapFind e.file ctx1.m_collection.file_info).isSome = true
  fresh : ∀ e ∈ new, e.file ∈ own ∨ mapFind e.file ctx.m_collection.file_info = none
  exact : ∀ s info content, mapFind s ctx.m_collection.file_info = none →
    mapFind s ctx1.m_collection.file_info = some info → fs.read s = some content →
    scanIncludes content s = some ((callsOf s new).map Resolution.name) ∧
      info.includes = (callsOf s new).filterMap (Resolution.path fs)

end IncludeSpec

/-! ### More examples -/

/-- A fresh context whose root list names `d/A` twice, around `d/B`. -/
def exTwiceCtx : SVDepContext Nat :=
  { (SVDepContext.new : SVDepContext Nat) with
    m_rootFiles := ["d/A".toList, "d/B".toList, "d/A".toList] }

/-- The record of a file of the cycle. -/
def exCycleInfo (name inc : Str) : FileInfo Nat :=
  { name := name, timestamp := 7, includes := [inc], checked := false }

/-- The context `exTwiceCtx` after `build` on `exCycleFs`. -/
def exTwiceBuilt : SVDepContext Nat :=
  { m_incdirs := ["d".toList],
    m_rootFiles := ["d/A".toList, "d/B".toList, "d/A".toList],
    m_collection :=
      { root_files := [exCycleInfo "d/A".toList "d/B".toList, exCycleInfo "d/B".toList "d/A".toList,
                       exCycleInfo "d/A".toList "d/B".toList],
        file_info := [("d/A".toList, exCycleInfo "d/A".toList "d/B".toList),
                      ("d/B".toList, exCycleInfo "d/B".toList "d/A".toList)] },
    m_json := [], m_error := [],
    m_includeCache := [("B".toList, "d/B".toList), ("A".toList, "d/A".toList)],
    readLog := ["d/A".toList, "d/B".toList] }

/-- A file `d/T` that includes `missing.svh`, which is nowhere, and twice the empty
file `d/B`. -/
def exDropFs : FileSystem Nat :=
  { stat := fun p => if p = "d/T".toList ∨ p = "d/B".toList then some 7 else none,
    read := fun p =>
      if p = "d/T".toList then
        some "`include \"missing.svh\"\n`include \"B\"\n`include \"B\"\n".toList
      else if p = "d/B".toList then some []
      else none }

/-- A fresh context whose root list is `["d/T"]`. -/
def exDropCtx : SVDepContext Nat :=
  { (SVDepContext.new : SVDepContext Nat) with m_rootFiles := ["d/T".toList] }

/-- The record of `d/T` after the build: the resolved path of `B`, twice. -/
def exDropInfo : FileInfo Nat :=
  { name := "d/T".toList, timestamp := 7, includes := ["d/B".toList, "d/B".toList],
    checked := false }

/-- The context `exDropCtx` after `build` on `exDropFs`. -/
def exDropBuilt : SVDepContext Nat :=
  { m_incdirs := ["d".toList], m_rootFiles := ["d/T".toList],
    m_collection :=
      { root_files := [exDropInfo],
        file_info := [("d/T".toList, exDropInfo),
                      ("d/B".toList, { name := "d/B".toList, timestamp := 7, includes := [],
                                       checked := false })] },
    m_json := [], m_error := [], m_includeCache := [("B".toList, "d/B".toList)],
    readLog := ["d/T".toList, "d/B".toList] }

/-! ### The check with a log of its timestamp queries

The same methods as `checkFileUpToDate` and `checkUpToDate`, with one more value
threaded through: the list of the paths handed to `getFileTimestamp`, in call order. -/

section CheckLog

variable {τ : Type} [LinearOrder τ] [Zero τ]

/-- The loop over `info.includes` of `checkFileUpToDate`, with the log. -/
def checkIncludesLog
    (check : Str → List (Str × FileInfo τ) → List Str →
      Option (Bool × List (Str × FileInfo τ) × List Str)) :
    List Str → List (Str × FileInfo τ) → List Str →
    Option (Bool × List (Str × FileInfo τ) × List Str)
  | [], nodes, log => some (true, nodes, log)
  | incPath :: rest, nodes, log =>
    match check incPath nodes log with
    | none => none
    | some (false, nodes1, log1) => some (false, nodes1, log1)
    | some (true, nodes1, log1) => checkIncludesLog check rest nodes1 log1

/-- The method `checkFileUpToDate`, with the log: `path` is appended where the source
calls `getFileTimestamp(path)`. -/
def checkFileUpToDateLog (fs : FileSystem τ) (lastTimestamp : Double τ) :
    Nat → Str → List (Str × FileInfo τ) → List Str →
    Option (Bool × List (Str × FileInfo τ) × List Str)
  | 0, _, _, _ => none
  | fuel + 1, path, nodes, log =>
    match mapFind path nodes with
    | none => some (false, nodes, log)
    | some info =>
      if info.checked then some (true, nodes, log)
      else
        let nodes1 := mapSet path (info.setChecked true) nodes
        let currentTs := getFileTimestamp fs path
        let log1 := log ++ [path]
        if currentTs = 0 then some (false, nodes1, log1)
        else if Double.gt (Double.num currentTs) lastTimestamp then some (false, nodes1, log1)
        else checkIncludesLog (checkFileUpToDateLog fs lastTimestamp fuel) info.includes nodes1 log1

/-- The loop of `checkUpToDate` over the positions of the root list, with the log. -/
def checkRootsLog (fs : FileSystem τ) (lastTimestamp : Double τ) (fuel : Nat) :
    List Str → List (FileInfo τ) → List (Str × FileInfo τ) → List Str →
    Option (Int × List (Str × FileInfo τ) × List Str)
  | rootPath :: paths, stored :: infos, nodes, log =>
    if rootPath ≠ stored.name then some (0, nodes, log)
    else
      match checkFileUpToDateLog fs lastTimestamp fuel rootPath nodes log with
      | none => none
      | some (false, nodes1, log1) => some (0, nodes1, log1)
      | some (true, nodes1, log1) => checkRootsLog fs lastTimestamp fuel paths infos nodes1 log1
  | _, _, nodes, log => some (1, nodes, log)

/-- The method `checkUpToDate`, with the log of the timestamp queries of the call. -/
def checkUpToDateLog (fs : FileSystem τ) (fuel : Nat) (ctx : SVDepContext τ)
    (lastTimestamp : Double τ) :
    Option (Int × SVDepContext τ × List Str) :=
  if ctx.m_rootFiles.length ≠ ctx.m_collection.root_files.length then some (0, ctx, [])
  else
    let nodes0 := resetFlags ctx.m_collection.file_info
    match checkRootsLog fs lastTimestamp fuel ctx.m_rootFiles ctx.m_collection.root_files nodes0 []
    with
    | none => none
    | some (r, nodes1, log) =>
      some (r, { ctx with m_collection := { ctx.m_collection with file_info := nodes1 } }, log)

/-- A result of a check without its log. -/
def dropLog {α β : Type} (r : α × β × List Str) : α × β := (r.1, r.2.1)

end CheckLog

/-- A loaded graph with the stored roots `a`, `c`, checked for the root list `a`, `b`:
the second position differs. -/
def exMismatchCtx : SVDepContext Nat :=
  { (SVDepContext.new : SVDepContext Nat) with
    m_rootFiles := ["a".toList, "b".toList],
    m_collection :=
      { root_files := [{ name := "a".toList, timestamp := 50, includes := [], checked := false },
                       { name := "c".toList, timestamp := 50, includes := [], checked := false }],
        file_info := [("a".toList, { name := "a".toList, timestamp := 50, includes := [],
                                     checked := false }),
                      ("c".toList, { name := "c".toList, timestamp := 50, includes := [],
                                     checked := false })] } }

/-- A snapshot cut off inside its first root. -/
def exTruncatedJson : Str := "\x7b\"root_files\": [\x7b\"name\": \"a\"".toList

/-- A snapshot whose timestamp is not a number. -/
def exBadNumberJson : Str :=
  "\x7b\"root_files\": [\x7b\"name\": \"a\", \"timestamp\": x\x7d]\x7d".toList

/-- What `loadJson` makes of `exTruncatedJson`. -/
def exTruncatedLoaded : SVDepContext Nat :=
  { (SVDepContext.new : SVDepContext Nat) with
    m_collection :=
      { root_files := [{ name := "a".toList, timestamp := 0, includes := [], checked := false }],
        file_info := [] } }

/-! ### The token stream of `process` -/

/-- The loop of `process`, keeping the tokens that `nextToken` returned, in order. -/
def processTokens : Nat → SVPreprocessor → Option (List Token × SVPreprocessor)
  | 0, pp => if isAtEnd pp then some ([], pp) else none
  | fuel + 1, pp =>
    if isAtEnd pp then some ([], pp)
    else
      let r := nextToken pp
      if r.1.type = TokenType.END_OF_FILE then some ([r.1], r.2)
      else (processTokens fuel r.2).map (fun x => (r.1 :: x.1, x.2))

/-- The tokens that `process` draws from `pp`, and the state it ends in. -/
def tokensOf (pp : SVPreprocessor) : Option (List Token × SVPreprocessor) :=
  processTokens (pp.m_rest.length + 1) pp

/-- A directive token that opens a conditional: `ifdef` or `ifndef`. -/
def isOpen (t : Token) : Bool :=
  decide (t.type = TokenType.DIRECTIVE) &&
    (decide (t.value = "ifdef".toList) || decide (t.value = "ifndef".toList))

/-- A directive token that closes a conditional: `endif`. -/
def isClose (t : Token) : Bool :=
  decide (t.type = TokenType.DIRECTIVE) && decide (t.value = "endif".toList)

/-- The depth of the conditional stack after the directive of token `t`, from the depth
`d` before it: an `endif` on an empty stack is ignored. -/
def depthStep (d : Nat) (t : Token) : Nat :=
  if isOpen t then d + 1 else if isClose t then d - 1 else d

/-- The number of opening directives among the tokens. -/
def opensOf (toks : List Token) : Nat := toks.countP isOpen

/-- The number of closing directives among the tokens. -/
def closesOf (toks : List Token) : Nat := toks.countP isClose

/-- No `endif` arrives on an empty stack: in every prefix of the token stream the
`endif` directives do not outnumber the `ifdef` and `ifndef` directives. -/
def ProperlyNested (toks : List Token) : Prop :=
  ∀ k, closesOf (toks.take k) ≤ opensOf (toks.take k)

/-! ### The text behind each token -/

/-- The characters that `scanToken` skips in front of a token. -/
def isBlank (c : Char) : Bool := c == ' ' || c == '\t' || c == '\r' || c == '\n'

/-- The white space that `scanToken` skips before it scans the token. -/
def leadingSpace (pp : SVPreprocessor) : Str :=
  (advanceWhile isBlank pp.m_rest pp.m_line pp.m_column).1

/-- The state in which `scanToken` has skipped the white space: where the token starts. -/
def tokenStart (pp : SVPreprocessor) : SVPreprocessor :=
  (runLoop pp (advanceWhile isBlank)).2

/-- The text between two read positions: what was unread `before` and no longer is
`after`. -/
def consumed (before after : Str) : Str := before.take (before.length - after.length)

/-- One call of `nextToken` in `process`: the white space skipped, the text consumed
for the token, and the token returned. -/
structure Piece where
  space : Str
  text : Str
  token : Token
deriving DecidableEq, Repr

/-- The loop of `process`, keeping for every token the text consumed for it. -/
def processPieces : Nat → SVPreprocessor → Option (List Piece × SVPreprocessor)
  | 0, pp => if isAtEnd pp then some ([], pp) else none
  | fuel + 1, pp =>
    if isAtEnd pp then some ([], pp)
    else
      let r := nextToken pp
      let piece : Piece :=
        { space := leadingSpace pp, text := consumed (tokenStart pp).m_rest r.2.m_rest,
          token := r.1 }
      if r.1.type = TokenType.END_OF_FILE then some ([piece], r.2)
      else (processPieces fuel r.2).map (fun x => (piece :: x.1, x.2))

/-- The pieces that `process` cuts the input of `pp` into. -/
def piecesOf (pp : SVPreprocessor) : Option (List Piece × SVPreprocessor) :=
  processPieces (pp.m_rest.length + 1) pp

/-- The text of a list of pieces, white space included. -/
def piecesText (pieces : List Piece) : Str :=
  (pieces.map (fun p => p.space ++ p.text)).flatten

/-! ### Lookahead -/

/-- The state `pp` with the two lookahead fields replaced. -/
def setPeek (pp : SVPreprocessor) (t : Token) (b : Bool) : SVPreprocessor :=
  { pp with m_peeked := t, m_hasPeeked := b }

/-- A call of the token interface: `peekToken()` or `nextToken()`. -/
inductive LookOp where
  | peek
  | next
deriving DecidableEq, Repr

/-- A sequence of calls of `peekToken` and `nextToken`: the tokens that the `nextToken`
calls returned, and the state reached. -/
def runOps : List LookOp → SVPreprocessor → List Token × SVPreprocessor
  | [], pp => ([], pp)
  | LookOp.peek :: ops, pp => runOps ops (peekToken pp).2
  | LookOp.next :: ops, pp =>
    let r := nextToken pp
    let rr := runOps ops r.2
    (r.1 :: rr.1, rr.2)

/-- The same sequence of calls without the `peekToken` calls. -/
def nextsOf (ops : List LookOp) : List LookOp := ops.filter (fun o => o = LookOp.next)

/-- The scanner went from `pp` to `pp1` by reading on: what is unread in `pp1` is the
end of what was unread in `pp`. -/
def Consumes (pp pp1 : SVPreprocessor) : Prop := pp1.m_rest <:+ pp.m_rest

/-- The state `a` of a run with `peekToken` calls against the state `b` of the same run
without them: they differ in the stale token of the lookahead only, or `a` holds in
its lookahead the token that `b` is about to scan, or they are the same. -/
def LookSim (a b : SVPreprocessor) : Prop :=
  (b.m_hasPeeked = false ∧ ∃ t, a = setPeek b t false) ∨
  (b.m_hasPeeked = false ∧ a = setPeek (scanToken b).2 (scanToken b).1 true) ∨
  a = b

/-- What `process` is run for: the include list, the macro table and the conditional
stack. -/
def scanResult (pp : SVPreprocessor) : List Str × List (Str × Str) × List CondState :=
  (getIncludes pp, pp.m_macros, pp.m_condStack)

/-- A text with one `endif` and one `ifdef`, the `endif` first. -/
def exEndifFirst : Str := "`endif\n`ifdef A\n".toList

/-- A text with an `ifdef` and its `endif` on the same line. -/
def exSameLine : Str := "`ifdef A `endif\n".toList

/-- A text with an `ifdef` and its `endif` on the next line. -/
def exNested : Str := "`ifdef A\n`endif\n".toList

/-- A text of one directive with its operand. -/
def exOperandText : Str := "`ifdef FOO".toList

/-- The type and the value of every token. -/
def tokenValues (toks : List Token) : List (TokenType × Str) :=
  toks.map (fun t => (t.type, t.value))

/-! ## Last specifications

The words of the last statements: failed reads, the frames of the conditional stack,
chains of conditionals, the growth of the search path, and two builds in a row. -/

/-- Three includes below `d/T`: `x.svh` exists but cannot be opened, `y.svh` can be
read and includes `w.svh`, which exists and cannot be opened either. -/
def exFailFs : FileSystem Nat :=
  { stat := fun p =>
      if p = "d/T".toList ∨ p = "d/x.svh".toList ∨ p = "d/y.svh".toList ∨ p = "d/w.svh".toList
      then some 7 else none,
    read := fun p =>
      if p = "d/T".toList then some "`include \"x.svh\"\n`include \"y.svh\"\n".toList
      else if p = "d/y.svh".toList then some "`include \"w.svh\"\n".toList
      else none }

/-- A fresh context whose root list is `["d/T"]`. -/
def exFailCtx : SVDepContext Nat :=
  { (SVDepContext.new : SVDepContext Nat) with m_rootFiles := ["d/T".toList] }

/-- The file `d/A` includes `x.svh` and then `e/y.svh`; both files lie in `d/e`. -/
def exGrowFs : FileSystem Nat :=
  { stat := fun p =>
      if p = "d/A".toList ∨ p = "d/e/x.svh".toList ∨ p = "d/e/y.svh".toList then some 7
      else none,
    read := fun p =>
      if p = "d/A".toList then some "`include \"x.svh\"\n`include \"e/y.svh\"\n".toList
      else if p = "d/e/x.svh".toList ∨ p = "d/e/y.svh".toList then some []
      else none }

/-- A fresh context whose root list is `["d/A"]`, for `exGrowFs`. -/
def exGrowCtx : SVDepContext Nat :=
  { (SVDepContext.new : SVDepContext Nat) with m_rootFiles := ["d/A".toList] }

/-- The record of a file of `exGrowFs`. -/
def exGrowInfo (name : Str) (incs : List Str) : FileInfo Nat :=
  { name := name, timestamp := 7, includes := incs, checked := false }

/-- The nodes after the first `build` of `exGrowCtx` on `exGrowFs`. -/
def exGrowNodes1 : List (Str × FileInfo Nat) :=
  [("d/A".toList, exGrowInfo "d/A".toList ["d/e/y.svh".toList]),
   ("d/e/y.svh".toList, exGrowInfo "d/e/y.svh".toList [])]

/-- The nodes after the second `build`. -/
def exGrowNodes2 : List (Str × FileInfo Nat) :=
  [("d/A".toList, exGrowInfo "d/A".toList ["d/e/x.svh".toList, "d/e/y.svh".toList]),
   ("d/e/x.svh".toList, exGrowInfo "d/e/x.svh".toList []),
   ("d/e/y.svh".toList, exGrowInfo "d/e/y.svh".toList [])]

/-- The result of a build followed, when it returned, by a second build on the context
it left. -/
def buildTwice {τ : Type} [LinearOrder τ] [Zero τ] (fs : FileSystem τ) (fuel : Nat)
    (ctx : SVDepContext τ) : Option ((Int × SVDepContext τ) × (Int × SVDepContext τ)) :=
  match build fs fuel ctx with
  | none => none
  | some r1 =>
    match build fs fuel r1.2 with
    | none => none
    | some r2 => some (r1, r2)

/-- A snapshot whose `root_files` array holds a number where a record is expected. -/
def exStuckJson : Str := "\x7b\"root_files\": [1]\x7d".toList

/-- A snapshot whose `includes` array holds a number where a string is expected. -/
def exStuckIncludesJson : Str :=
  "\x7b\"root_files\": [\x7b\"includes\": [1]\x7d]\x7d".toList

/-- The backspace character, `'\b'`. -/
def backspace : Char := Char.ofNat 8

/-- The form-feed character, `'\f'`. -/
def formFeed : Char := Char.ofNat 12

/-- The text `'"' + escapeJson(s) + '"'` that `toJson` writes for the string `s`. -/
def quoted (s : Str) : Str := ['"'] ++ escapeJson s ++ ['"']

/-- The fields of a record other than the transient `checked` flag. -/
def FileInfo.core {τ : Type} (info : FileInfo τ) : Str × τ × List Str :=
  (info.name, info.timestamp, info.includes)

/-! ### Frames of the conditional stack -/

/-- The invariant of the conditional stack: a frame that is active stands on a frame
that is active (or on none). The head of the list is the innermost frame. -/
def StackOk : List CondState → Prop
  | [] => True
  | top :: below => (top.active = true → parentActive below = true) ∧ StackOk below

/-- The directive names that continue or close a conditional. -/
def closers : List Str := ["elsif".toList, "elseif".toList, "else".toList, "endif".toList]

/-- The directive names that continue a conditional. -/
def continuers : List Str := ["elsif".toList, "elseif".toList, "else".toList]

/-- A text that uses `else`, `elsif` and `endif` with no conditional open, then a
conditional with two `else` and an `elsif` after them, around includes. -/
def exMalformedText : Str :=
  ("`else\n`elsif X\n`endif\n`include \"a.svh\"\n" ++
    "`ifdef X\n`else\n`include \"b.svh\"\n`else\n`elsif X\n`include \"c.svh\"\n`endif\n").toList

/-! ### Comments -/

/-- The two characters that close a block comment. -/
def closeMark : Str := ['*', '/']

/-- A `define` whose line ends inside a block comment that goes on over an `include`. -/
def exCommentAfterDefine : Str := "`define W 8 /* width\n`include \"x.svh\"\n*/\n".toList

/-- Directives written inside a line comment and inside a block comment, then one
outside. -/
def exCommentedText : Str :=
  "// `include \"a.svh\"\n/* `define X\n`include \"b.svh\" `ifdef Y */`include \"c.svh\"".toList

/-! ### The growth of the search path -/

section SearchPathSpec

variable {τ : Type}

/-- From `ctx` to `ctx1` no node was lost and the search path grew by a list `l` of
pairwise different directories, none of which was on the path of `ctx`, each the
directory of a path that has a node in `ctx1`. -/
def DirsGrow (ctx ctx1 : SVDepContext τ) : Prop :=
  (∀ p ∈ mapKeys ctx.m_collection.file_info, p ∈ mapKeys ctx1.m_collection.file_info) ∧
  ∃ l, ctx1.m_incdirs = ctx.m_incdirs ++ l ∧ l.Nodup ∧
    ∀ d ∈ l, d ∉ ctx.m_incdirs ∧
      ∃ p ∈ mapKeys ctx1.m_collection.file_info, getDirname p = d

/-- A context in which `addIncdir` was called twice with the directory `d`, and whose
root is `top.sv`. -/
def exDupDirCtx : SVDepContext Nat :=
  (addIncdir (addIncdir exTopCtx "d".toList).2 "d".toList).2

end SearchPathSpec

/-! ### Two builds in a row -/

section RebuildSpec

variable {τ : Type}

/-- The context `ctx` with the include cache `cache` in place of its own. -/
def withCache (ctx : SVDepContext τ) (cache : List (Str × Str)) : SVDepContext τ :=
  { ctx with m_includeCache := cache }

/-- The cache `cb` agrees with the cache `ca` on the search path `dirs`: it holds every
entry of `ca`, and what it holds beyond `ca` is what the search through `dirs` finds. -/
def CacheRel (fs : FileSystem τ) (dirs : List Str) (ca cb : List (Str × Str)) : Prop :=
  (∀ n p, mapFind n ca = some p → mapFind n cb = some p) ∧
  (∀ n p, mapFind n cb = some p → mapFind n ca = none → searchIncdirs fs n dirs = some p)

end RebuildSpec

/-- The context `exTwiceCtx` with the directory `d` already on its search path. -/
def exStableCtx : SVDepContext Nat :=
  { exTwiceCtx with m_incdirs := ["d".toList] }

/-! ### Chains of conditionals -/

/-- The context of the first two calls of `resolveInclude` in the build of `exDropCtx` on
`exDropFs`: `d/T` has its node, still without includes, and has been read. -/
def exDropFirst : SVDepContext Nat :=
  { m_incdirs := ["d".toList], m_rootFiles := ["d/T".toList],
    m_collection :=
      { root_files := [],
        file_info := [("d/T".toList, { name := "d/T".toList, timestamp := 7, includes := [],
                                       checked := false })] },
    m_json := [], m_error := [], m_includeCache := [], readLog := ["d/T".toList] }

/-- The context of the third call: `B` is memoized and `d/B` has been built. -/
def exDropThird : SVDepContext Nat :=
  { m_incdirs := ["d".toList], m_rootFiles := ["d/T".toList],
    m_collection :=
      { root_files := [],
        file_info := [("d/T".toList, { name := "d/T".toList, timestamp := 7, includes := [],
                                       checked := false }),
                      ("d/B".toList, { name := "d/B".toList, timestamp := 7, includes := [],
                                       checked := false })] },
    m_json := [], m_error := [], m_includeCache := [("B".toList, "d/B".toList)],
    readLog := ["d/T".toList, "d/B".toList] }

/-- The calls of `resolveInclude` in the build of `exDropCtx` on `exDropFs`. -/
def exDropLog : List (Resolution Nat) :=
  [{ file := "d/T".toList, name := "missing.svh".toList, ctx := exDropFirst },
   { file := "d/T".toList, name := "B".toList, ctx := exDropFirst },
   { file := "d/T".toList, name := "B".toList, ctx := exDropThird }]


/-! ## Map lemmas -/

theorem mapFind_mapSet {β : Type} (k q : Str) (v : β) (m : List (Str × β)) :
    mapFind q (mapSet k v m) = if q = k then some v else mapFind q m := by
  induction m with
  | nil =>
    by_cases h : q = k
    · subst h; simp [mapSet, mapFind]
    · have h2 : ¬ k = q := fun e => h e.symm
      simp [mapSet, mapFind, h, h2]
  | cons kv rest ih =>
    obtain ⟨k1, v1⟩ := kv
    by_cases h1 : k1 = k
    · subst h1
      by_cases h : q = k1
      · subst h; simp [mapSet, mapFind]
      · have h2 : ¬ k1 = q := fun e => h e.symm
        simp [mapSet, mapFind, h, h2]
    · by_cases h : q = k
      · subst h
        simp [mapSet, mapFind, h1, ih]
      · by_cases h3 : k1 = q
        · simp [mapSet, mapFind, h1, h3, h]
        · simp [mapSet, mapFind, h1, h3, h, ih]

theorem mapFind_mapSet_same {β : Type} (k : Str) (v : β) (m : List (Str × β)) :
    mapFind k (mapSet k v m) = some v := by
  simp [mapFind_mapSet]

theorem mapFind_mapSet_other {β : Type} (k q : Str) (v : β) (m : List (Str × β))
    (h : q ≠ k) : mapFind q (mapSet k v m) = mapFind q m := by
  simp [mapFind_mapSet, h]

theorem mapFind_isSome_iff_mem_keys {β : Type} (k : Str) (m : List (Str × β)) :
    (mapFind k m).isSome = true ↔ k ∈ mapKeys m := by
  induction m with
  | nil => simp [mapFind, mapKeys]
  | cons kv rest ih =>
    obtain ⟨k1, v1⟩ := kv
    by_cases h : k1 = k
    · subst h; simp only [mapFind, mapKeys, List.map_cons, List.mem_cons, true_or, if_true,
        Option.isSome_some]
    · have h2 : ¬ k = k1 := fun e => h e.symm
      simp only [mapKeys] at ih
      simp only [mapFind, mapKeys, List.map_cons, List.mem_cons, h, h2, if_false, false_or]
      exact ih

theorem mapFind_eq_none_iff {β : Type} (k : Str) (m : List (Str × β)) :
    mapFind k m = none ↔ k ∉ mapKeys m := by
  rw [← mapFind_isSome_iff_mem_keys]
  cases mapFind k m <;> simp

theorem mapKeys_mapSet_of_mem {β : Type} (k : Str) (v : β) (m : List (Str × β))
    (h : k ∈ mapKeys m) : mapKeys (mapSet k v m) = mapKeys m := by
  induction m with
  | nil => simp [mapKeys] at h
  | cons kv rest ih =>
    obtain ⟨k1, v1⟩ := kv
    by_cases h1 : k1 = k
    · subst h1; simp [mapSet, mapKeys]
    · have h2 : k ∈ mapKeys rest := by
        simp only [mapKeys, List.map_cons, List.mem_cons] at h
        rcases h with h | h
        · exact absurd h.symm h1
        · exact h
      have := ih h2
      simp only [mapKeys] at this
      simp [mapSet, mapKeys, h1, this]

theorem mapKeys_mapSet_of_not_mem {β : Type} (k : Str) (v : β) (m : List (Str × β))
    (h : k ∉ mapKeys m) : mapKeys (mapSet k v m) = mapKeys m ++ [k] := by
  induction m with
  | nil => simp [mapSet, mapKeys]
  | cons kv rest ih =>
    obtain ⟨k1, v1⟩ := kv
    simp only [mapKeys, List.map_cons, List.mem_cons, not_or] at h
    have h1 : ¬ k1 = k := fun e => h.1 e.symm
    have := ih h.2
    simp only [mapKeys] at this
    simp [mapSet, mapKeys, h1, this]

theorem mem_mapKeys_mapSet {β : Type} (k q : Str) (v : β) (m : List (Str × β)) :
    q ∈ mapKeys (mapSet k v m) ↔ q = k ∨ q ∈ mapKeys m := by
  rw [← mapFind_isSome_iff_mem_keys, ← mapFind_isSome_iff_mem_keys, mapFind_mapSet]
  by_cases h : q = k <;> simp [h]


theorem mapFind_mem {β : Type} (k : Str) (v : β) (m : List (Str × β))
    (h : mapFind k m = some v) : (k, v) ∈ m := by
  induction m with
  | nil => simp [mapFind] at h
  | cons kv rest ih =>
    obtain ⟨k1, v1⟩ := kv
    simp only [mapFind] at h
    split_ifs at h with h1
    · cases h
      subst h1
      exact List.mem_cons_self _ _
    · exact List.mem_cons_of_mem _ (ih h)

theorem mapFind_of_mem_nodup {β : Type} (m : List (Str × β)) (hnd : (mapKeys m).Nodup)
    (kv : Str × β) (h : kv ∈ m) : mapFind kv.1 m = some kv.2 := by
  induction m with
  | nil => cases h
  | cons kv1 rest ih =>
    obtain ⟨k1, v1⟩ := kv1
    simp only [mapKeys, List.map_cons, List.nodup_cons] at hnd
    rcases List.mem_cons.1 h with h | h
    · subst h
      simp [mapFind]
    · have hne : ¬ k1 = kv.1 := by
        intro e
        apply hnd.1
        rw [e]
        exact List.mem_map_of_mem Prod.fst h
      simp only [mapFind, hne, if_false]
      exact ih hnd.2 h

/-! ## The staleness checker -/

section CheckFlags

variable {τ : Type}

theorem FlagsRaised.flagsRefl (nodes : List (Str × FileInfo τ)) : FlagsRaised nodes nodes :=
  fun _ => Or.inl rfl

theorem FlagsRaised.isSome {nodes nodes1 : List (Str × FileInfo τ)}
    (h : FlagsRaised nodes nodes1) (q : Str) :
    (mapFind q nodes1).isSome = (mapFind q nodes).isSome := by
  rcases h q with h | ⟨info, h1, _, h3⟩
  · rw [h]
  · rw [h1, h3]; rfl

theorem FlagsRaised.nodeIncs {nodes nodes1 : List (Str × FileInfo τ)}
    (h : FlagsRaised nodes nodes1) : nodeIncs nodes1 = nodeIncs nodes := by
  funext q
  rcases h q with h | ⟨info, h1, _, h3⟩
  · simp only [svdep.nodeIncs, h]
  · simp only [svdep.nodeIncs, h1, h3, FileInfo.setChecked]

theorem FlagsRaised.flagged {nodes nodes1 : List (Str × FileInfo τ)}
    (h : FlagsRaised nodes nodes1) {q : Str} (hq : flagged nodes q) : flagged nodes1 q := by
  obtain ⟨info, h1, h2⟩ := hq
  rcases h q with h | ⟨info1, h3, h4, _⟩
  · exact ⟨info, by rw [h, h1], h2⟩
  · rw [h1] at h3
    cases h3
    rw [h2] at h4
    cases h4

end CheckFlags

section Check

variable {τ : Type} [LinearOrder τ] [Zero τ]

theorem FlagsRaised.okFile {nodes nodes1 : List (Str × FileInfo τ)}
    (h : FlagsRaised nodes nodes1) (fs : FileSystem τ) (T : Double τ) (q : Str) :
    OkFile fs T nodes1 q ↔ OkFile fs T nodes q := by
  simp only [OkFile, h.isSome q]

omit [LinearOrder τ] [Zero τ] in
theorem FlagsRaised.flagsTrans {a b c : List (Str × FileInfo τ)}
    (h1 : FlagsRaised a b) (h2 : FlagsRaised b c) : FlagsRaised a c := by
  intro q
  rcases h1 q with e1 | ⟨info, e1, e2, e3⟩
  · rcases h2 q with e4 | ⟨info1, e4, e5, e6⟩
    · exact Or.inl (by rw [e4, e1])
    · exact Or.inr ⟨info1, by rw [← e1, e4], e5, e6⟩
  · rcases h2 q with e4 | ⟨info1, e4, e5, _⟩
    · exact Or.inr ⟨info, e1, e2, by rw [e4, e3]⟩
    · rw [e3] at e4
      cases e4
      cases e5

omit [LinearOrder τ] [Zero τ] in
theorem flagsRaised_mapSet (nodes : List (Str × FileInfo τ)) (p : Str) (info : FileInfo τ)
    (h1 : mapFind p nodes = some info) (h2 : info.checked = false) :
    FlagsRaised nodes (mapSet p (info.setChecked true) nodes) := by
  intro q
  by_cases h : q = p
  · subst h
    exact Or.inr ⟨info, h1, h2, mapFind_mapSet_same _ _ _⟩
  · exact Or.inl (mapFind_mapSet_other _ _ _ _ h)

omit [LinearOrder τ] [Zero τ] in
theorem unchecked_mapSet (nodes : List (Str × FileInfo τ)) (p : Str) (info : FileInfo τ)
    (h1 : mapFind p nodes = some info) (h2 : info.checked = false) :
    unchecked (mapSet p (info.setChecked true) nodes) + 1 = unchecked nodes := by
  induction nodes with
  | nil => simp [mapFind] at h1
  | cons kv rest ih =>
    obtain ⟨k1, v1⟩ := kv
    by_cases h : k1 = p
    · subst h
      simp only [mapFind, if_true, Option.some.injEq] at h1
      subst h1
      simp [mapSet, unchecked, List.countP_cons, h2, FileInfo.setChecked]
    · simp only [mapFind, h, if_false] at h1
      have := ih h1
      simp only [unchecked] at this
      simp only [mapSet, h, if_false, unchecked, List.countP_cons]
      omega

/-- The loop over an include list inherits the postcondition of the per-file check. -/
theorem checkIncludes_post (fs : FileSystem τ) (T : Double τ)
    (check : Str → List (Str × FileInfo τ) → Option (Bool × List (Str × FileInfo τ)))
    (hcheck : ∀ p nodes b nodes1, check p nodes = some (b, nodes1) →
      CheckPost fs T [p] nodes b nodes1)
    (l : List Str) (nodes : List (Str × FileInfo τ)) (b : Bool)
    (nodes1 : List (Str × FileInfo τ))
    (h : checkIncludes check l nodes = some (b, nodes1)) :
    CheckPost fs T l nodes b nodes1 := by
  induction l generalizing nodes with
  | nil =>
    simp only [checkIncludes, Option.some.injEq, Prod.mk.injEq] at h
    obtain ⟨rfl, rfl⟩ := h
    refine ⟨FlagsRaised.flagsRefl _, fun _ => ⟨by simp, fun q h1 h2 => absurd h1 h2⟩, by simp⟩
  | cons p rest ih =>
    simp only [checkIncludes] at h
    cases hc : check p nodes with
    | none => simp [hc] at h
    | some res =>
      obtain ⟨b1, nodes2⟩ := res
      have hp := hcheck p nodes b1 nodes2 hc
      cases b1 with
      | false =>
        simp only [hc, Option.some.injEq, Prod.mk.injEq] at h
        obtain ⟨rfl, rfl⟩ := h
        refine ⟨hp.1, by simp, fun _ => ?_⟩
        obtain ⟨p1, hp1, q, hq⟩ := hp.2.2 rfl
        simp only [List.mem_singleton] at hp1
        subst hp1
        exact ⟨p1, by simp, q, hq⟩
      | true =>
        simp only [hc] at h
        have hr := ih nodes2 h
        have hstep := hp.1
        refine ⟨hstep.flagsTrans hr.1, ?_, ?_⟩
        · intro hb
          obtain ⟨hfl, hnew⟩ := hr.2.1 hb
          obtain ⟨hfl0, hnew0⟩ := hp.2.1 rfl
          refine ⟨?_, ?_⟩
          · intro r hrm
            simp only [List.mem_cons] at hrm
            rcases hrm with rfl | hrm
            · exact hr.1.flagged (hfl0 r (by simp))
            · exact hfl r hrm
          · intro q hq1 hq0
            by_cases hmid : flagged nodes2 q
            · obtain ⟨hok, hin⟩ := hnew0 q hmid hq0
              exact ⟨hok, fun r hrm => hr.1.flagged (hin r hrm)⟩
            · obtain ⟨hok, hin⟩ := hnew q hq1 hmid
              rw [hstep.nodeIncs] at hin
              exact ⟨(hstep.okFile fs T q).1 hok, hin⟩
        · intro hb
          obtain ⟨p1, hp1, q, hq1, hq2⟩ := hr.2.2 hb
          rw [hstep.nodeIncs] at hq1
          exact ⟨p1, by simp [hp1], q, hq1, fun hok => hq2 ((hstep.okFile fs T q).2 hok)⟩

/-- The postcondition of `checkFileUpToDate`. -/
theorem checkFileUpToDate_post (fs : FileSystem τ) (T : Double τ) (fuel : Nat) :
    ∀ (p : Str) (nodes : List (Str × FileInfo τ)) (b : Bool)
      (nodes1 : List (Str × FileInfo τ)),
      checkFileUpToDate fs T fuel p nodes = some (b, nodes1) →
      CheckPost fs T [p] nodes b nodes1 := by
  induction fuel with
  | zero => intro p nodes b nodes1 h; simp [checkFileUpToDate] at h
  | succ fuel ih =>
    intro p nodes b nodes1 h
    simp only [checkFileUpToDate] at h
    cases hf : mapFind p nodes with
    | none =>
      simp only [hf, Option.some.injEq, Prod.mk.injEq] at h
      obtain ⟨rfl, rfl⟩ := h
      refine ⟨FlagsRaised.flagsRefl _, by simp, fun _ => ⟨p, by simp, p, Reach.refl p, ?_⟩⟩
      simp [OkFile, hf]
    | some info =>
      simp only [hf] at h
      by_cases hck : info.checked = true
      · simp only [hck, if_true, Option.some.injEq, Prod.mk.injEq] at h
        obtain ⟨rfl, rfl⟩ := h
        refine ⟨FlagsRaised.flagsRefl _, fun _ => ⟨?_, fun q h1 h2 => absurd h1 h2⟩, by simp⟩
        intro p1 hp1
        simp only [List.mem_singleton] at hp1
        subst hp1
        exact ⟨info, hf, hck⟩
      · have hck2 : info.checked = false := by simpa using hck
        simp only [hck2, Bool.false_eq_true, if_false] at h
        have hset := flagsRaised_mapSet nodes p info hf hck2
        have hsome : (mapFind p nodes).isSome = true := by rw [hf]; rfl
        by_cases hz : getFileTimestamp fs p = 0
        · simp only [hz, if_true, Option.some.injEq, Prod.mk.injEq] at h
          obtain ⟨rfl, rfl⟩ := h
          refine ⟨hset, by simp, fun _ => ⟨p, by simp, p, Reach.refl p, ?_⟩⟩
          simp [OkFile, hz]
        · simp only [hz, if_false] at h
          by_cases hgt : Double.gt (Double.num (getFileTimestamp fs p)) T = true
          · simp only [hgt, if_true, Option.some.injEq, Prod.mk.injEq] at h
            obtain ⟨rfl, rfl⟩ := h
            refine ⟨hset, by simp, fun _ => ⟨p, by simp, p, Reach.refl p, ?_⟩⟩
            intro hok
            rw [hok.2.2] at hgt
            cases hgt
          · have hgt2 : Double.gt (Double.num (getFileTimestamp fs p)) T = false := by
              simpa using hgt
            simp only [hgt2, Bool.false_eq_true, if_false] at h
            have hloop := checkIncludes_post fs T _ ih info.includes _ b nodes1 h
            have hincs : nodeIncs nodes p = info.includes := by
              simp only [nodeIncs, hf]
            refine ⟨hset.flagsTrans hloop.1, ?_, ?_⟩
            · intro hb
              obtain ⟨hfl, hnew⟩ := hloop.2.1 hb
              have hpfl : flagged nodes1 p :=
                hloop.1.flagged ⟨_, mapFind_mapSet_same _ _ _, rfl⟩
              refine ⟨?_, ?_⟩
              · intro p1 hp1
                simp only [List.mem_singleton] at hp1
                subst hp1
                exact hpfl
              · intro q hq1 hq0
                by_cases hqp : q = p
                · subst hqp
                  refine ⟨⟨hsome, hz, hgt2⟩, ?_⟩
                  rw [hincs]
                  exact hfl
                · have hmid : ¬ flagged (mapSet p (info.setChecked true) nodes) q := by
                    intro ⟨i1, e1, e2⟩
                    rw [mapFind_mapSet_other _ _ _ _ hqp] at e1
                    exact hq0 ⟨i1, e1, e2⟩
                  obtain ⟨hok, hin⟩ := hnew q hq1 hmid
                  rw [hset.nodeIncs] at hin
                  exact ⟨(hset.okFile fs T q).1 hok, hin⟩
            · intro hb
              obtain ⟨r, hr, q, hq1, hq2⟩ := hloop.2.2 hb
              rw [hset.nodeIncs] at hq1
              refine ⟨p, by simp, q, Reach.step (by rw [hincs]; exact hr) hq1, ?_⟩
              exact fun hok => hq2 ((hset.okFile fs T q).2 hok)

omit [LinearOrder τ] [Zero τ] in
/-- With more fuel than unchecked entries the loop over an include list answers. -/
theorem checkIncludes_total
    (check : Str → List (Str × FileInfo τ) → Option (Bool × List (Str × FileInfo τ)))
    (n : Nat)
    (hcheck : ∀ p nodes, unchecked nodes < n →
      ∃ b nodes1, check p nodes = some (b, nodes1) ∧ unchecked nodes1 ≤ unchecked nodes)
    (l : List Str) (nodes : List (Str × FileInfo τ)) (h : unchecked nodes < n) :
    ∃ b nodes1, checkIncludes check l nodes = some (b, nodes1) ∧
      unchecked nodes1 ≤ unchecked nodes := by
  induction l generalizing nodes with
  | nil => exact ⟨true, nodes, rfl, le_refl _⟩
  | cons p rest ih =>
    obtain ⟨b1, nodes2, hc, hle⟩ := hcheck p nodes h
    cases b1 with
    | false => exact ⟨false, nodes2, by simp [checkIncludes, hc], hle⟩
    | true =>
      obtain ⟨b, nodes1, hr, hle2⟩ := ih nodes2 (lt_of_le_of_lt hle h)
      exact ⟨b, nodes1, by simp [checkIncludes, hc, hr], le_trans hle2 hle⟩

/-- With more fuel than unchecked entries `checkFileUpToDate` answers. -/
theorem checkFileUpToDate_total (fs : FileSystem τ) (T : Double τ) (fuel : Nat) :
    ∀ (p : Str) (nodes : List (Str × FileInfo τ)), unchecked nodes < fuel →
      ∃ b nodes1, checkFileUpToDate fs T fuel p nodes = some (b, nodes1) ∧
        unchecked nodes1 ≤ unchecked nodes := by
  induction fuel with
  | zero => intro p nodes h; omega
  | succ fuel ih =>
    intro p nodes h
    simp only [checkFileUpToDate]
    cases hf : mapFind p nodes with
    | none => exact ⟨false, nodes, rfl, le_refl _⟩
    | some info =>
      by_cases hck : info.checked = true
      · exact ⟨true, nodes, by simp [hck], le_refl _⟩
      · have hck2 : info.checked = false := by simpa using hck
        have hcnt := unchecked_mapSet nodes p info hf hck2
        simp only [hck2, Bool.false_eq_true, if_false]
        by_cases hz : getFileTimestamp fs p = 0
        · exact ⟨false, mapSet p (info.setChecked true) nodes, by simp [hz], by omega⟩
        · by_cases hgt : Double.gt (Double.num (getFileTimestamp fs p)) T = true
          · exact ⟨false, mapSet p (info.setChecked true) nodes, by simp [hz, hgt],
              by omega⟩
          · simp only [hz, hgt, if_false]
            obtain ⟨b, nodes1, hr, hle⟩ := checkIncludes_total _ fuel ih info.includes
              (mapSet p (info.setChecked true) nodes) (by omega)
            exact ⟨b, nodes1, hr, by omega⟩

/-- The postcondition of the loop of `checkUpToDate` over the root positions. -/
theorem checkRoots_post (fs : FileSystem τ) (T : Double τ) (fuel : Nat) (paths : List Str) :
    ∀ (infos : List (FileInfo τ)) (nodes : List (Str × FileInfo τ)) (r : Int)
      (nodes1 : List (Str × FileInfo τ)),
      paths.length = infos.length →
      checkRoots fs T fuel paths infos nodes = some (r, nodes1) →
      (r = 1 ∨ r = 0) ∧ FlagsRaised nodes nodes1 ∧
      (r = 1 → paths = infos.map FileInfo.name ∧ (∀ p ∈ paths, flagged nodes1 p) ∧
        ∀ q, flagged nodes1 q → ¬ flagged nodes q →
          OkFile fs T nodes q ∧ ∀ x ∈ nodeIncs nodes q, flagged nodes1 x) ∧
      (r = 0 → paths ≠ infos.map FileInfo.name ∨
        ∃ p ∈ paths, ∃ q, Reach (nodeIncs nodes) p q ∧ ¬ OkFile fs T nodes q) := by
  induction paths with
  | nil =>
    intro infos nodes r nodes1 hlen h
    cases infos with
    | cons i is => simp at hlen
    | nil =>
      simp only [checkRoots, Option.some.injEq, Prod.mk.injEq] at h
      obtain ⟨rfl, rfl⟩ := h
      exact ⟨Or.inl rfl, FlagsRaised.flagsRefl _,
        fun _ => ⟨rfl, by simp, fun q h1 h2 => absurd h1 h2⟩, by simp⟩
  | cons p rest ih =>
    intro infos nodes r nodes1 hlen h
    cases infos with
    | nil => simp at hlen
    | cons i is =>
      simp only [List.length_cons, Nat.add_right_cancel_iff] at hlen
      simp only [checkRoots] at h
      by_cases hne : p = i.name
      · simp only [hne, ne_eq, not_true_eq_false, if_false] at h
        cases hc : checkFileUpToDate fs T fuel i.name nodes with
        | none => simp [hc] at h
        | some res =>
          obtain ⟨b1, nodes2⟩ := res
          have hp := checkFileUpToDate_post fs T fuel i.name nodes b1 nodes2 hc
          cases b1 with
          | false =>
            simp only [hc, Option.some.injEq, Prod.mk.injEq] at h
            obtain ⟨rfl, rfl⟩ := h
            refine ⟨Or.inr rfl, hp.1, by simp, fun _ => Or.inr ?_⟩
            obtain ⟨p1, hp1, q, hq⟩ := hp.2.2 rfl
            simp only [List.mem_singleton] at hp1
            subst hp1
            exact ⟨i.name, by simp [hne], q, hq⟩
          | true =>
            simp only [hc] at h
            obtain ⟨h01, hfr, h1, h0⟩ := ih is nodes2 r nodes1 hlen h
            have hstep := hp.1
            obtain ⟨hfl0, hnew0⟩ := hp.2.1 rfl
            refine ⟨h01, hstep.flagsTrans hfr, ?_, ?_⟩
            · intro hr
              obtain ⟨hnames, hfl, hnew⟩ := h1 hr
              refine ⟨by simp [hne, hnames], ?_, ?_⟩
              · intro x hx
                simp only [List.mem_cons] at hx
                rcases hx with hx | hx
                · rw [hx, hne]
                  exact hfr.flagged (hfl0 i.name (by simp))
                · exact hfl x hx
              · intro q hq1 hq0
                by_cases hmid : flagged nodes2 q
                · obtain ⟨hok, hin⟩ := hnew0 q hmid hq0
                  exact ⟨hok, fun x hx => hfr.flagged (hin x hx)⟩
                · obtain ⟨hok, hin⟩ := hnew q hq1 hmid
                  rw [hstep.nodeIncs] at hin
                  exact ⟨(hstep.okFile fs T q).1 hok, hin⟩
            · intro hr
              rcases h0 hr with hn | ⟨p1, hp1, q, hq1, hq2⟩
              · left
                intro e
                simp only [List.map_cons, List.cons.injEq] at e
                exact hn e.2
              · right
                rw [hstep.nodeIncs] at hq1
                exact ⟨p1, by simp [hp1], q, hq1,
                  fun hok => hq2 ((hstep.okFile fs T q).2 hok)⟩
      · simp only [ne_eq, hne, not_false_eq_true, if_true, Option.some.injEq,
          Prod.mk.injEq] at h
        obtain ⟨rfl, rfl⟩ := h
        refine ⟨Or.inr rfl, FlagsRaised.flagsRefl _, by simp, fun _ => Or.inl ?_⟩
        intro e
        simp only [List.map_cons, List.cons.injEq] at e
        exact hne e.1

/-- With more fuel than unchecked entries the loop over the roots answers. -/
theorem checkRoots_total (fs : FileSystem τ) (T : Double τ) (fuel : Nat) (paths : List Str) :
    ∀ (infos : List (FileInfo τ)) (nodes : List (Str × FileInfo τ)),
      unchecked nodes < fuel →
      ∃ r nodes1, checkRoots fs T fuel paths infos nodes = some (r, nodes1) := by
  induction paths with
  | nil => intro infos nodes _; exact ⟨1, nodes, by simp [checkRoots]⟩
  | cons p rest ih =>
    intro infos nodes h
    cases infos with
    | nil => exact ⟨1, nodes, by simp [checkRoots]⟩
    | cons i is =>
      simp only [checkRoots]
      by_cases hne : p = i.name
      · subst hne
        obtain ⟨b, nodes2, hc, hle⟩ := checkFileUpToDate_total fs T fuel i.name nodes h
        cases b with
        | false => exact ⟨0, nodes2, by simp [hc]⟩
        | true =>
          obtain ⟨r, nodes1, hr⟩ := ih is nodes2 (lt_of_le_of_lt hle h)
          exact ⟨r, nodes1, by simp [hc, hr]⟩
      · exact ⟨0, nodes, by simp [hne]⟩

/-- Every path reached from a flagged path is flagged, once the flagged set is closed
under include lists. -/
theorem flagged_of_reach (incs : Str → List Str) (F : Str → Prop)
    (hclosed : ∀ q, F q → ∀ x ∈ incs q, F x) {p q : Str} (h : Reach incs p q) (hp : F p) :
    F q := by
  induction h with
  | refl p => exact hp
  | step hmem _ ih => exact ih (hclosed _ hp _ hmem)

omit [LinearOrder τ] [Zero τ] in
theorem mapFind_resetFlags (q : Str) (nodes : List (Str × FileInfo τ)) :
    mapFind q (resetFlags nodes) =
      (mapFind q nodes).map (fun i => i.setChecked false) := by
  induction nodes with
  | nil => rfl
  | cons kv rest ih =>
    obtain ⟨k1, v1⟩ := kv
    simp only [resetFlags] at ih
    by_cases h : k1 = q
    · simp [resetFlags, mapFind, h]
    · simp [resetFlags, mapFind, h, ih]

omit [LinearOrder τ] [Zero τ] in
theorem unchecked_resetFlags (nodes : List (Str × FileInfo τ)) :
    unchecked (resetFlags nodes) = nodes.length := by
  induction nodes with
  | nil => rfl
  | cons kv rest ih =>
    simp only [unchecked, resetFlags] at ih
    simp [unchecked, resetFlags, List.countP_cons, ih, FileInfo.setChecked]

omit [LinearOrder τ] [Zero τ] in
theorem nodeIncs_resetFlags (nodes : List (Str × FileInfo τ)) :
    nodeIncs (resetFlags nodes) = nodeIncs nodes := by
  funext q
  simp only [nodeIncs, mapFind_resetFlags]
  cases mapFind q nodes <;> rfl

theorem okFile_resetFlags (fs : FileSystem τ) (T : Double τ) (nodes : List (Str × FileInfo τ))
    (q : Str) :
    OkFile fs T (resetFlags nodes) q ↔
      OkFile fs T nodes q := by
  simp only [OkFile, mapFind_resetFlags]
  cases mapFind q nodes <;> simp

omit [LinearOrder τ] [Zero τ] in
theorem not_flagged_resetFlags (nodes : List (Str × FileInfo τ)) (q : Str) :
    ¬ flagged (resetFlags nodes) q := by
  intro ⟨info, h1, h2⟩
  rw [mapFind_resetFlags] at h1
  cases hf : mapFind q nodes with
  | none => simp [hf] at h1
  | some i =>
    simp only [hf, Option.map_some', Option.some.injEq] at h1
    subst h1
    simp [FileInfo.setChecked] at h2

/-- The full characterisation of `checkUpToDate`, shared by the statements below. -/
theorem checkUpToDate_spec (fs : FileSystem τ) (ctx : SVDepContext τ) (T : Double τ) (fuel : Nat)
    (hfuel : ctx.m_collection.file_info.length < fuel) :
    ∃ r ctx1, checkUpToDate fs fuel ctx T = some (r, ctx1) ∧ (r = 1 ∨ r = 0) ∧
      (r = 1 ↔ (ctx.m_rootFiles = ctx.m_collection.root_files.map FileInfo.name ∧
        ∀ q, Reachable ctx.m_collection.file_info ctx.m_rootFiles q →
          OkFile fs T ctx.m_collection.file_info q)) := by
  by_cases hlen : ctx.m_rootFiles.length = ctx.m_collection.root_files.length
  · have hun := unchecked_resetFlags ctx.m_collection.file_info
    obtain ⟨r, nodes1, hr⟩ := checkRoots_total fs T fuel ctx.m_rootFiles
      ctx.m_collection.root_files
      (resetFlags ctx.m_collection.file_info)
      (by rw [hun]; exact hfuel)
    obtain ⟨h01, hfr, h1, h0⟩ := checkRoots_post fs T fuel ctx.m_rootFiles
      ctx.m_collection.root_files _ r nodes1 hlen hr
    refine ⟨r, { ctx with m_collection := { ctx.m_collection with file_info := nodes1 } },
      by simp only [checkUpToDate, hlen, ne_eq, not_true_eq_false, if_false, hr], h01, ?_, ?_⟩
    · intro hr1
      obtain ⟨hnames, hfl, hnew⟩ := h1 hr1
      refine ⟨hnames, ?_⟩
      intro q ⟨p, hp, hreach⟩
      have hclosed : ∀ q, flagged nodes1 q → ∀ x ∈ nodeIncs ctx.m_collection.file_info q,
          flagged nodes1 x := by
        intro q hq x hx
        have := (hnew q hq (not_flagged_resetFlags _ q)).2 x
        rw [nodeIncs_resetFlags] at this
        exact this hx
      have hq := flagged_of_reach _ _ hclosed hreach (hfl p hp)
      exact (okFile_resetFlags fs T _ q).1 (hnew q hq (not_flagged_resetFlags _ q)).1
    · intro ⟨hnames, hall⟩
      rcases h01 with h | h
      · exact h
      · exfalso
        rcases h0 h with hn | ⟨p, hp, q, hq1, hq2⟩
        · exact hn hnames
        · rw [nodeIncs_resetFlags] at hq1
          exact hq2 ((okFile_resetFlags fs T _ q).2 (hall q ⟨p, hp, hq1⟩))
  · refine ⟨0, ctx, by simp [checkUpToDate, hlen], Or.inr rfl, ?_⟩
    constructor
    · intro h; cases h
    · intro ⟨hnames, _⟩
      exfalso
      apply hlen
      rw [hnames, List.length_map]

omit [Zero τ] in
/-- Against a number the comparison `>` of `double` is that of the numbers. -/
theorem Double.gt_num (a b : τ) : Double.gt (Double.num a) (Double.num b) = false ↔ a ≤ b := by
  simp [Double.gt]

omit [Zero τ] in
/-- Nothing is greater than NaN. -/
theorem Double.gt_nan (a : Double τ) : Double.gt a Double.nan = false := by
  cases a <;> rfl

omit [Zero τ] in
/-- Against a number the comparison `<=` of `double` is that of the numbers. -/
theorem Double.le_num (a b : τ) : Double.le (Double.num a) (Double.num b) = true ↔ a ≤ b := by
  simp [Double.le]

omit [Zero τ] in
/-- Nothing is `<=` NaN. -/
theorem Double.le_nan (a : Double τ) : Double.le a Double.nan = false := by
  cases a <;> rfl

end Check

/-! ## The preprocessor: frame and progress lemmas -/

@[simp] theorem setCursor_m_rest (pp : SVPreprocessor) (cur : Cursor) :
    (setCursor pp cur).m_rest = cur.rest := rfl

@[simp] theorem setCursor_m_includes (pp : SVPreprocessor) (cur : Cursor) :
    (setCursor pp cur).m_includes = pp.m_includes := rfl

@[simp] theorem setCursor_m_macros (pp : SVPreprocessor) (cur : Cursor) :
    (setCursor pp cur).m_macros = pp.m_macros := rfl

@[simp] theorem setCursor_m_condStack (pp : SVPreprocessor) (cur : Cursor) :
    (setCursor pp cur).m_condStack = pp.m_condStack := rfl

@[simp] theorem setCursor_m_hasPeeked (pp : SVPreprocessor) (cur : Cursor) :
    (setCursor pp cur).m_hasPeeked = pp.m_hasPeeked := rfl

@[simp] theorem runLoop_fst (pp : SVPreprocessor) (loop : Str → Nat → Nat → Str × Cursor) :
    (runLoop pp loop).1 = (loop pp.m_rest pp.m_line pp.m_column).1 := rfl

@[simp] theorem runLoop_snd (pp : SVPreprocessor) (loop : Str → Nat → Nat → Str × Cursor) :
    (runLoop pp loop).2 = setCursor pp (loop pp.m_rest pp.m_line pp.m_column).2 := rfl

theorem cursor_advance_length (cur : Cursor) : cur.advance.rest.length ≤ cur.rest.length := by
  unfold Cursor.advance
  split
  · simp
  · next c cs h => simp [h]

theorem advance_length (pp : SVPreprocessor) : (advance pp).m_rest.length ≤ pp.m_rest.length := by
  simpa [advance, cursor] using cursor_advance_length (cursor pp)

theorem advance_cons (pp : SVPreprocessor) (c : Char) (cs : Str) (h : pp.m_rest = c :: cs) :
    (advance pp).m_rest = cs := by
  simp [advance, cursor, Cursor.advance, h]

@[simp] theorem advance_m_includes (pp : SVPreprocessor) :
    (advance pp).m_includes = pp.m_includes := rfl

@[simp] theorem advance_m_macros (pp : SVPreprocessor) :
    (advance pp).m_macros = pp.m_macros := rfl

@[simp] theorem advance_m_condStack (pp : SVPreprocessor) :
    (advance pp).m_condStack = pp.m_condStack := rfl

@[simp] theorem advance_m_hasPeeked (pp : SVPreprocessor) :
    (advance pp).m_hasPeeked = pp.m_hasPeeked := rfl

theorem advanceWhile_length (p : Char → Bool) (s : Str) (l c : Nat) :
    (advanceWhile p s l c).2.rest.length ≤ s.length := by
  induction s generalizing l c with
  | nil => simp [advanceWhile]
  | cons a s ih =>
    by_cases h : p a = true
    · have := ih (stepLine a l) (stepColumn a c)
      simp only [advanceWhile, h, if_true, List.length_cons]
      omega
    · simp [advanceWhile, h]

theorem advanceWhile_cons_true (p : Char → Bool) (a : Char) (s : Str) (l c : Nat)
    (h : p a = true) : (advanceWhile p (a :: s) l c).2.rest.length ≤ s.length := by
  have := advanceWhile_length p s (stepLine a l) (stepColumn a c)
  simp only [advanceWhile, h, if_true]
  exact this

theorem skipToEndOfLineLoop_length (s : Str) (l c : Nat) :
    (skipToEndOfLineLoop s l c).2.rest.length ≤ s.length := by
  induction s, l, c using skipToEndOfLineLoop.induct <;> simp_all [skipToEndOfLineLoop] <;> omega

theorem scanStringLoop_length (s : Str) (l c : Nat) :
    (scanStringLoop s l c).2.rest.length ≤ s.length := by
  induction s, l, c using scanStringLoop.induct <;> simp_all [scanStringLoop] <;> omega

theorem scanNumberLoop_length_aux (n : Nat) : ∀ (s : Str) (l c : Nat), s.length ≤ n →
    (scanNumberLoop s l c).2.rest.length ≤ s.length := by
  induction n with
  | zero =>
    intro s l c h
    have : s = [] := List.length_eq_zero.mp (Nat.le_zero.mp h)
    subst this
    simp [scanNumberLoop]
  | succ n ih =>
    intro s l c h
    cases s with
    | nil => simp [scanNumberLoop]
    | cons a cs =>
      simp only [List.length_cons, Nat.add_le_add_iff_right] at h
      rw [scanNumberLoop.eq_def]
      simp only []
      split_ifs with h1 h2 h4
      · cases cs with
        | nil => simp
        | cons d ds =>
          simp only []
          split_ifs with h3
          · have := ih ds l (c + 2) (by simp only [List.length_cons] at h; omega)
            simp only [List.length_cons]
            omega
          · have := ih (d :: ds) l (c + 1) h
            simp only [List.length_cons] at this ⊢
            omega
      · have := ih cs l (c + 1) h
        simp only [List.length_cons]
        omega
      · have := ih cs l (c + 1) h
        simp only [List.length_cons]
        omega
      · simp

theorem scanNumberLoop_length (s : Str) (l c : Nat) :
    (scanNumberLoop s l c).2.rest.length ≤ s.length :=
  scanNumberLoop_length_aux s.length s l c (le_refl _)

theorem scanNumberLoop_digit (a : Char) (cs : Str) (l c : Nat) (h : isdigit a = true) :
    (scanNumberLoop (a :: cs) l c).2.rest.length ≤ cs.length := by
  have hq : (a == '\'') = false := by
    by_cases e : a = '\''
    · subst e; revert h; decide
    · simpa using e
  rw [scanNumberLoop.eq_def]
  simp only [h, hq, Bool.true_or, if_true, Bool.false_eq_true, if_false]
  exact scanNumberLoop_length cs l (c + 1)

theorem scanLineCommentLoop_length (s : Str) (l c : Nat) :
    (scanLineCommentLoop s l c).2.rest.length ≤ s.length := by
  induction s generalizing l c with
  | nil => simp [scanLineCommentLoop]
  | cons a s ih =>
    by_cases h : a = '\n'
    · simp [scanLineCommentLoop, h]
    · have := ih l (c + 1)
      simp only [scanLineCommentLoop, h, if_false, List.length_cons]
      omega

theorem scanBlockCommentLoop_length (s : Str) (l c : Nat) :
    (scanBlockCommentLoop s l c).2.rest.length ≤ s.length := by
  induction s, l, c using scanBlockCommentLoop.induct <;> simp_all [scanBlockCommentLoop] <;> omega

theorem defineBodyLoop_length (s : Str) (l c : Nat) :
    (defineBodyLoop s l c).2.rest.length ≤ s.length := by
  induction s, l, c using defineBodyLoop.induct <;> simp_all [defineBodyLoop] <;> omega

theorem includeNameLoop_length (close : Char) (s : Str) (l c : Nat) :
    (includeNameLoop close s l c).2.rest.length ≤ s.length := by
  induction s generalizing l c with
  | nil => simp [includeNameLoop]
  | cons a s ih =>
    by_cases h : a = close
    · simp [includeNameLoop, h]
    · by_cases h2 : a = '\n'
      · subst h2
        simp [includeNameLoop, h]
      · have := ih l (c + 1)
        simp only [includeNameLoop, h, h2, if_false, List.length_cons]
        omega

/-! ### Every handler is a `PPStep` -/

theorem PPStep.stepRefl (pp : SVPreprocessor) : PPStep pp pp := ⟨le_refl _, ⟨[], by simp⟩, id⟩

theorem PPStep.stepTrans {a b c : SVPreprocessor} (h1 : PPStep a b) (h2 : PPStep b c) :
    PPStep a c := by
  obtain ⟨l1, ⟨x1, e1⟩, f1⟩ := h1
  obtain ⟨l2, ⟨x2, e2⟩, f2⟩ := h2
  exact ⟨le_trans l2 l1, ⟨x1 ++ x2, by rw [e2, e1, List.append_assoc]⟩, fun h => f1 (f2 h)⟩

theorem ppStep_setCursor (pp : SVPreprocessor) (cur : Cursor)
    (h : cur.rest.length ≤ pp.m_rest.length) : PPStep pp (setCursor pp cur) :=
  ⟨h, ⟨[], by simp⟩, id⟩

theorem ppStep_runLoop (pp : SVPreprocessor) (loop : Str → Nat → Nat → Str × Cursor)
    (h : ∀ s l c, (loop s l c).2.rest.length ≤ s.length) : PPStep pp (runLoop pp loop).2 := by
  rw [runLoop_snd]
  exact ppStep_setCursor _ _ (h _ _ _)

theorem ppStep_advance (pp : SVPreprocessor) : PPStep pp (advance pp) :=
  ⟨advance_length pp, ⟨[], by simp⟩, id⟩

theorem ppStep_skipWhitespaceNotNewline (pp : SVPreprocessor) :
    PPStep pp (skipWhitespaceNotNewline pp) :=
  ppStep_runLoop pp _ (advanceWhile_length _)

theorem ppStep_parseIdentifier (pp : SVPreprocessor) : PPStep pp (parseIdentifier pp).2 :=
  ppStep_runLoop pp _ (advanceWhile_length _)

theorem ppStep_skipToEndOfLine (pp : SVPreprocessor) : PPStep pp (skipToEndOfLine pp) :=
  ppStep_runLoop pp _ skipToEndOfLineLoop_length

theorem ppStep_recordInclude (pp : SVPreprocessor) (name : Str) :
    PPStep pp (recordInclude pp name) := by
  unfold recordInclude
  split_ifs
  · exact ⟨le_refl _, ⟨[name], rfl⟩, id⟩
  · exact PPStep.stepRefl _

theorem ppStep_setMacros (pp : SVPreprocessor) (m : List (Str × Str)) :
    PPStep pp { pp with m_macros := m } := ⟨le_refl _, ⟨[], by simp⟩, id⟩

theorem ppStep_setCondStack (pp : SVPreprocessor) (st : List CondState) :
    PPStep pp { pp with m_condStack := st } := ⟨le_refl _, ⟨[], by simp⟩, id⟩

theorem ppStep_handleInclude (pp : SVPreprocessor) : PPStep pp (handleInclude pp) := by
  have h1 := ppStep_skipWhitespaceNotNewline pp
  unfold handleInclude
  simp only []
  split
  · exact h1
  · split_ifs
    · exact h1.stepTrans ((ppStep_advance _).stepTrans
        ((ppStep_runLoop _ _ (includeNameLoop_length _)).stepTrans (ppStep_recordInclude _ _)))
    · exact h1.stepTrans ((ppStep_advance _).stepTrans
        ((ppStep_runLoop _ _ (includeNameLoop_length _)).stepTrans (ppStep_recordInclude _ _)))
    · exact h1.stepTrans (ppStep_skipToEndOfLine _)
    · exact h1

theorem ppStep_handleDefine (pp : SVPreprocessor) : PPStep pp (handleDefine pp) := by
  have h1 := (ppStep_skipWhitespaceNotNewline pp).stepTrans
    (ppStep_parseIdentifier (skipWhitespaceNotNewline pp))
  unfold handleDefine
  simp only []
  by_cases hn : (parseIdentifier (skipWhitespaceNotNewline pp)).1 = []
  · rw [if_pos hn]
    exact h1.stepTrans (ppStep_skipToEndOfLine _)
  · rw [if_neg hn]
    refine h1.stepTrans (PPStep.stepTrans ?_ (ppStep_setMacros _ _))
    refine PPStep.stepTrans ?_ (ppStep_runLoop _ _ defineBodyLoop_length)
    by_cases hp : peek (parseIdentifier (skipWhitespaceNotNewline pp)).2 = '('
    · rw [if_pos hp]
      exact (ppStep_runLoop _ _ (advanceWhile_length _)).stepTrans
        ((ppStep_advance _).stepTrans (ppStep_skipWhitespaceNotNewline _))
    · rw [if_neg hp]
      exact ppStep_skipWhitespaceNotNewline _

theorem ppStep_handleUndef (pp : SVPreprocessor) : PPStep pp (handleUndef pp) := by
  have h1 := (ppStep_skipWhitespaceNotNewline pp).stepTrans
    (ppStep_parseIdentifier (skipWhitespaceNotNewline pp))
  unfold handleUndef
  simp only []
  split_ifs
  · exact h1.stepTrans ((ppStep_setMacros _ _).stepTrans (ppStep_skipToEndOfLine _))
  · exact h1.stepTrans (ppStep_skipToEndOfLine _)

theorem ppStep_handleIfdef (pp : SVPreprocessor) (invert : Bool) :
    PPStep pp (handleIfdef pp invert) := by
  have h1 := (ppStep_skipWhitespaceNotNewline pp).stepTrans
    (ppStep_parseIdentifier (skipWhitespaceNotNewline pp))
  unfold handleIfdef
  exact h1.stepTrans ((ppStep_setCondStack _ _).stepTrans (ppStep_skipToEndOfLine _))

theorem ppStep_handleElsif (pp : SVPreprocessor) : PPStep pp (handleElsif pp) := by
  have h1 := (ppStep_skipWhitespaceNotNewline pp).stepTrans
    (ppStep_parseIdentifier (skipWhitespaceNotNewline pp))
  unfold handleElsif
  split
  · exact ppStep_skipToEndOfLine _
  · split_ifs
    · exact ppStep_skipToEndOfLine _
    · exact h1.stepTrans ((ppStep_setCondStack _ _).stepTrans (ppStep_skipToEndOfLine _))

theorem ppStep_handleElse (pp : SVPreprocessor) : PPStep pp (handleElse pp) := by
  unfold handleElse
  split
  · exact PPStep.stepRefl _
  · split_ifs
    · exact PPStep.stepRefl _
    · exact ppStep_setCondStack _ _

theorem ppStep_handleEndif (pp : SVPreprocessor) : PPStep pp (handleEndif pp) := by
  unfold handleEndif
  split
  · exact PPStep.stepRefl _
  · exact ppStep_setCondStack _ _

theorem ppStep_handleDirective (pp : SVPreprocessor) (d : Str) :
    PPStep pp (handleDirective pp d) := by
  unfold handleDirective
  split_ifs
  · exact ppStep_handleInclude _
  · exact ppStep_skipToEndOfLine _
  · exact ppStep_handleDefine _
  · exact ppStep_skipToEndOfLine _
  · exact ppStep_handleUndef _
  · exact ppStep_skipToEndOfLine _
  · exact ppStep_handleIfdef _ _
  · exact ppStep_handleIfdef _ _
  · exact ppStep_handleElsif _
  · exact ppStep_handleElse _
  · exact ppStep_handleEndif _
  · exact ppStep_skipToEndOfLine _
  · exact PPStep.stepRefl _

/-! ### Scanning a token -/

theorem PPStep.length_le {a b : SVPreprocessor} (h : PPStep a b) :
    b.m_rest.length ≤ a.m_rest.length := h.1

theorem PPStep.of_advance {pp pp1 : SVPreprocessor} {c : Char} {cs : Str}
    (h : pp.m_rest = c :: cs) (h1 : PPStep (advance pp) pp1) : pp1.m_rest.length ≤ cs.length := by
  have := h1.1
  rw [advance_cons pp c cs h] at this
  exact this

theorem ppStep_scanLineComment (pp : SVPreprocessor) : PPStep pp (scanLineComment pp).2 :=
  (ppStep_advance pp).stepTrans ((ppStep_advance _).stepTrans
    (ppStep_runLoop _ _ scanLineCommentLoop_length))

theorem ppStep_scanBlockComment (pp : SVPreprocessor) : PPStep pp (scanBlockComment pp).2 :=
  (ppStep_advance pp).stepTrans ((ppStep_advance _).stepTrans
    (ppStep_runLoop _ _ scanBlockCommentLoop_length))

theorem ppStep_scanString (pp : SVPreprocessor) : PPStep pp (scanString pp).2 :=
  (ppStep_advance pp).stepTrans (ppStep_runLoop _ _ scanStringLoop_length)

theorem ppStep_scanNumber (pp : SVPreprocessor) : PPStep pp (scanNumber pp).2 :=
  ppStep_runLoop _ _ scanNumberLoop_length

theorem ppStep_scanIdentifier (pp : SVPreprocessor) : PPStep pp (scanIdentifier pp).2 :=
  ppStep_runLoop _ _ (advanceWhile_length _)

theorem ppStep_afterAdvance_scanDirective (pp : SVPreprocessor) :
    PPStep (advance pp) (scanDirective pp).2 := by
  unfold scanDirective
  simp only []
  split_ifs
  · exact (ppStep_runLoop _ _ (advanceWhile_length _)).stepTrans (ppStep_handleDirective _ _)
  · exact ppStep_runLoop _ _ (advanceWhile_length _)

theorem ppStep_scanDirective (pp : SVPreprocessor) : PPStep pp (scanDirective pp).2 :=
  (ppStep_advance pp).stepTrans (ppStep_afterAdvance_scanDirective pp)

theorem scanLineComment_lt (pp : SVPreprocessor) (c : Char) (cs : Str)
    (h : pp.m_rest = c :: cs) : (scanLineComment pp).2.m_rest.length ≤ cs.length :=
  PPStep.of_advance h ((ppStep_advance _).stepTrans (ppStep_runLoop _ _ scanLineCommentLoop_length))

theorem scanBlockComment_lt (pp : SVPreprocessor) (c : Char) (cs : Str)
    (h : pp.m_rest = c :: cs) : (scanBlockComment pp).2.m_rest.length ≤ cs.length :=
  PPStep.of_advance h ((ppStep_advance _).stepTrans (ppStep_runLoop _ _ scanBlockCommentLoop_length))

theorem scanString_lt (pp : SVPreprocessor) (c : Char) (cs : Str)
    (h : pp.m_rest = c :: cs) : (scanString pp).2.m_rest.length ≤ cs.length :=
  PPStep.of_advance h (ppStep_runLoop _ _ scanStringLoop_length)

theorem scanDirective_lt (pp : SVPreprocessor) (c : Char) (cs : Str)
    (h : pp.m_rest = c :: cs) : (scanDirective pp).2.m_rest.length ≤ cs.length :=
  PPStep.of_advance h (ppStep_afterAdvance_scanDirective pp)

theorem scanNumber_lt (pp : SVPreprocessor) (c : Char) (cs : Str)
    (h : pp.m_rest = c :: cs) (hd : isdigit c = true) :
    (scanNumber pp).2.m_rest.length ≤ cs.length := by
  simp only [scanNumber, runLoop_snd, setCursor_m_rest, h]
  exact scanNumberLoop_digit c cs _ _ hd

theorem scanIdentifier_lt (pp : SVPreprocessor) (c : Char) (cs : Str)
    (h : pp.m_rest = c :: cs) (hd : (isalpha c || c == '_' || c == '$') = true) :
    (scanIdentifier pp).2.m_rest.length ≤ cs.length := by
  simp only [scanIdentifier, runLoop_snd, setCursor_m_rest, h]
  apply advanceWhile_cons_true
  simp only [isalnum]
  simp only [Bool.or_eq_true] at hd ⊢
  tauto

/-- The step `scanToken` never gives input back and only appends includes. -/
theorem ppStep_scanToken (pp : SVPreprocessor) : PPStep pp (scanToken pp).2 := by
  have h1 : PPStep pp (runLoop pp
      (advanceWhile (fun c => c == ' ' || c == '\t' || c == '\r' || c == '\n'))).2 :=
    ppStep_runLoop _ _ (advanceWhile_length _)
  unfold scanToken
  simp only []
  split
  · exact h1
  · split_ifs
    · exact h1.stepTrans (ppStep_scanLineComment _)
    · exact h1.stepTrans (ppStep_scanBlockComment _)
    · exact h1.stepTrans (ppStep_scanDirective _)
    · exact h1.stepTrans (ppStep_scanString _)
    · exact h1.stepTrans (ppStep_scanNumber _)
    · exact h1.stepTrans (ppStep_scanIdentifier _)
    · exact h1.stepTrans (ppStep_advance _)

/-- The step `scanToken` answers `END_OF_FILE` or consumes at least one character. -/
theorem scanToken_progress (pp : SVPreprocessor) :
    (scanToken pp).1.type = TokenType.END_OF_FILE ∨
      (scanToken pp).2.m_rest.length < pp.m_rest.length := by
  have h1 : PPStep pp (runLoop pp
      (advanceWhile (fun c => c == ' ' || c == '\t' || c == '\r' || c == '\n'))).2 :=
    ppStep_runLoop _ _ (advanceWhile_length _)
  have hlen := h1.1
  unfold scanToken
  simp only []
  split
  · left; rfl
  · next c cs hrest =>
    right
    rw [hrest] at hlen
    simp only [List.length_cons] at hlen
    split_ifs with h2 h3 h4 h5 h6 h7
    · exact lt_of_le_of_lt (scanLineComment_lt _ c cs hrest) (by omega)
    · exact lt_of_le_of_lt (scanBlockComment_lt _ c cs hrest) (by omega)
    · exact lt_of_le_of_lt (scanDirective_lt _ c cs hrest) (by omega)
    · exact lt_of_le_of_lt (scanString_lt _ c cs hrest) (by omega)
    · exact lt_of_le_of_lt (scanNumber_lt _ c cs hrest h6) (by omega)
    · exact lt_of_le_of_lt (scanIdentifier_lt _ c cs hrest h7) (by omega)
    · have := advance_cons _ c cs hrest
      simp only [this]
      omega

/-- The loop of `process` answers when `fuel` exceeds the unread input, counting one
more iteration for a token held in the lookahead. -/
theorem processLoop_total (fuel : Nat) : ∀ (pp : SVPreprocessor),
    pp.m_rest.length + (if pp.m_hasPeeked then 1 else 0) ≤ fuel →
    ∃ pp1, processLoop fuel pp = some pp1 := by
  induction fuel with
  | zero =>
    intro pp h
    have : pp.m_rest = [] := List.length_eq_zero.mp (by omega)
    exact ⟨pp, by simp [processLoop, isAtEnd, this]⟩
  | succ fuel ih =>
    intro pp h
    simp only [processLoop]
    by_cases he : isAtEnd pp = true
    · exact ⟨pp, by simp [he]⟩
    · simp only [he, Bool.false_eq_true, if_false]
      by_cases ht : (nextToken pp).1.type = TokenType.END_OF_FILE
      · exact ⟨(nextToken pp).2, by simp [ht]⟩
      · simp only [ht, if_false]
        apply ih
        by_cases hp : pp.m_hasPeeked = true
        · simp only [nextToken, hp, if_true] at h ⊢
          simp only [Bool.false_eq_true, if_false]
          omega
        · have hp2 : pp.m_hasPeeked = false := by simpa using hp
          have hs : nextToken pp = scanToken pp := by simp [nextToken, hp2]
          rw [hs] at ht ⊢
          have hprog := scanToken_progress pp
          have hflag : (scanToken pp).2.m_hasPeeked = false := by
            by_contra hc
            have := (ppStep_scanToken pp).2.2 (by simpa using hc)
            rw [hp2] at this
            cases this
          rcases hprog with h1 | h1
          · exact absurd h1 ht
          · simp only [hflag, hp2, Bool.false_eq_true, if_false] at h ⊢
            omega

theorem process_total (pp : SVPreprocessor) : ∃ pp1, process pp = some pp1 := by
  apply processLoop_total
  split_ifs <;> omega

theorem advanceWhile_append (p : Char → Bool) (xs rest : Str)
    (hxs : ∀ x ∈ xs, p x = true) (hrest : ∀ c ∈ rest.head?, p c = false) (l c : Nat) :
    (advanceWhile p (xs ++ rest) l c).1 = xs ∧ (advanceWhile p (xs ++ rest) l c).2.rest = rest := by
  induction xs generalizing l c with
  | nil =>
    cases rest with
    | nil => simp [advanceWhile]
    | cons r rs =>
      have : p r = false := hrest r (by simp)
      simp [advanceWhile, this]
  | cons x xs ih =>
    have hx : p x = true := hxs x (by simp)
    have := ih (fun y hy => hxs y (by simp [hy])) (stepLine x l) (stepColumn x c)
    simp [advanceWhile, hx, this]

/-- Scanning a directive: leading white space, the backtick and the name are consumed
and the handler of the directive runs on what follows. -/
theorem scanToken_directive (pp : SVPreprocessor) (ws name rest : Str)
    (h : pp.m_rest = ws ++ backtick :: (name ++ rest))
    (hws : ∀ x ∈ ws, (x == ' ' || x == '\t' || x == '\r' || x == '\n') = true)
    (hname : ∀ x ∈ name, (isalnum x || x == '_') = true) (hne : name ≠ [])
    (hrest : ∀ c ∈ rest.head?, (isalnum c || c == '_') = false) :
    ∃ pp1, (scanToken pp).2 = handleDirective pp1 name ∧
      (scanToken pp).1.type = TokenType.DIRECTIVE ∧ pp1.m_rest = rest ∧
      pp1.m_includes = pp.m_includes ∧ pp1.m_macros = pp.m_macros ∧
      pp1.m_condStack = pp.m_condStack ∧ pp1.m_hasPeeked = pp.m_hasPeeked := by
  have hA := advanceWhile_append (fun c => c == ' ' || c == '\t' || c == '\r' || c == '\n')
    ws (backtick :: (name ++ rest)) hws (by simp [backtick]) pp.m_line pp.m_column
  rw [← h] at hA
  have hB := fun l c => advanceWhile_append (fun c => isalnum c || c == '_') name rest
    hname hrest l c
  unfold scanToken
  simp only [runLoop_snd, setCursor_m_rest, hA.2]
  have e1 : ¬ (backtick = '/' ∧ (name ++ rest).head? = some '/') := by
    intro hh; exact absurd hh.1 (by decide)
  have e2 : ¬ (backtick = '/' ∧ (name ++ rest).head? = some '*') := by
    intro hh; exact absurd hh.1 (by decide)
  rw [if_neg e1, if_neg e2]
  simp only [if_true]
  unfold scanDirective
  have hadv : (advance (setCursor pp (advanceWhile
      (fun c => c == ' ' || c == '\t' || c == '\r' || c == '\n')
      pp.m_rest pp.m_line pp.m_column).2)).m_rest = name ++ rest :=
    advance_cons _ backtick _ (by simp [hA.2])
  simp only [runLoop_snd, runLoop_fst, hadv, (hB _ _).1, ne_eq, hne, not_false_eq_true, if_true]
  refine ⟨_, rfl, rfl, ?_, rfl, rfl, rfl, rfl⟩
  simp [(hB _ _).2]

theorem handleDirective_else (pp : SVPreprocessor) :
    handleDirective pp "else".toList = handleElse pp := by
  unfold handleDirective
  rw [if_neg (by decide), if_neg (by decide), if_neg (by decide), if_neg (by decide),
    if_neg (by decide), if_neg (by decide), if_pos rfl]

theorem handleDirective_endif (pp : SVPreprocessor) :
    handleDirective pp "endif".toList = handleEndif pp := by
  unfold handleDirective
  rw [if_neg (by decide), if_neg (by decide), if_neg (by decide), if_neg (by decide),
    if_neg (by decide), if_neg (by decide), if_neg (by decide), if_pos rfl]

theorem isActive_of_stack (pp : SVPreprocessor) (top : CondState) (below : List CondState)
    (h : pp.m_condStack = top :: below) : isActive pp = top.active := by
  simp [isActive, h]

section BuildLemmas

variable {τ : Type} [LinearOrder τ] [Zero τ]

omit [LinearOrder τ] [Zero τ] in
theorem BuildInv.congr {fs : FileSystem τ} {ctx ctx1 : SVDepContext τ}
    (h : BuildInv fs ctx) (hc : ctx1.m_collection.file_info = ctx.m_collection.file_info)
    (hl : ctx1.readLog = ctx.readLog) (he : ctx1.m_error = ctx.m_error) : BuildInv fs ctx1 := by
  constructor
  · rw [hc]; exact h.named
  · rw [hc]; exact h.closed
  · rw [hc]; exact h.unflagged
  · rw [hc]; exact h.keysNodup
  · rw [hl]; exact h.logNodup
  · rw [hl, hc]; exact h.logKeys
  · rw [hl, hc]; exact h.keysLog
  · rw [hl, he]; exact h.error

omit [LinearOrder τ] [Zero τ] in
theorem BuildFrame.frameRefl (ctx : SVDepContext τ) : BuildFrame ctx ctx :=
  ⟨fun _ _ => rfl, rfl, rfl, fun _ _ h => h, ⟨[], by simp⟩, ⟨[], by simp⟩⟩

omit [LinearOrder τ] [Zero τ] in
theorem BuildFrame.keys {a b : SVDepContext τ} (h : BuildFrame a b) {p : Str}
    (hp : p ∈ mapKeys a.m_collection.file_info) : p ∈ mapKeys b.m_collection.file_info := by
  rw [← mapFind_isSome_iff_mem_keys] at hp ⊢
  rw [h.nodes p ((mapFind_isSome_iff_mem_keys _ _).1 hp)]
  exact hp

omit [LinearOrder τ] [Zero τ] in
theorem BuildFrame.frameTrans {a b c : SVDepContext τ} (h1 : BuildFrame a b) (h2 : BuildFrame b c) :
    BuildFrame a c := by
  constructor
  · intro p hp
    rw [h2.nodes p (h1.keys hp), h1.nodes p hp]
  · rw [h2.rootFiles, h1.rootFiles]
  · rw [h2.roots, h1.roots]
  · intro k v h
    exact h2.cache k v (h1.cache k v h)
  · obtain ⟨l1, e1⟩ := h1.dirs
    obtain ⟨l2, e2⟩ := h2.dirs
    exact ⟨l1 ++ l2, by rw [e2, e1, List.append_assoc]⟩
  · obtain ⟨l1, e1⟩ := h1.log
    obtain ⟨l2, e2⟩ := h2.log
    exact ⟨l1 ++ l2, by rw [e2, e1, List.append_assoc]⟩

omit [LinearOrder τ] [Zero τ] in
/-- Edges of nodes that exist are kept when existing nodes are. -/
theorem nodeIncs_mem_of_kept {a b : List (Str × FileInfo τ)}
    (h : ∀ p, p ∈ mapKeys a → mapFind p b = mapFind p a) {p r : Str}
    (hr : r ∈ nodeIncs a p) : r ∈ nodeIncs b p := by
  have hp : p ∈ mapKeys a := by
    rw [← mapFind_isSome_iff_mem_keys]
    unfold nodeIncs at hr
    cases hf : mapFind p a with
    | none => simp [hf] at hr
    | some i => rfl
  unfold nodeIncs at hr ⊢
  rw [h p hp]
  exact hr

omit [LinearOrder τ] [Zero τ] in
theorem reach_of_kept {a b : List (Str × FileInfo τ)}
    (h : ∀ p, p ∈ mapKeys a → mapFind p b = mapFind p a) {p q : Str}
    (hr : Reach (nodeIncs a) p q) : Reach (nodeIncs b) p q := by
  induction hr with
  | refl p => exact Reach.refl p
  | step hmem _ ih => exact Reach.step (nodeIncs_mem_of_kept h hmem) ih

omit [LinearOrder τ] [Zero τ] in
theorem mem_keys_of_kept {a b : List (Str × FileInfo τ)}
    (h : ∀ p, p ∈ mapKeys a → mapFind p b = mapFind p a) {p : Str}
    (hp : p ∈ mapKeys a) : p ∈ mapKeys b := by
  rw [← mapFind_isSome_iff_mem_keys] at hp ⊢
  rw [h p ((mapFind_isSome_iff_mem_keys _ _).1 hp)]
  exact hp

omit [LinearOrder τ] [Zero τ] in
theorem BuildFrame.reach {a b : SVDepContext τ} (h : BuildFrame a b) {p q : Str}
    (hr : Reach (nodeIncs a.m_collection.file_info) p q) :
    Reach (nodeIncs b.m_collection.file_info) p q :=
  reach_of_kept h.nodes hr

omit [LinearOrder τ] [Zero τ] in
theorem reach_trans {incs : Str → List Str} {p q r : Str} (h1 : Reach incs p q)
    (h2 : Reach incs q r) : Reach incs p r := by
  induction h1 with
  | refl p => exact h2
  | step hmem _ ih => exact Reach.step hmem (ih h2)

/-! ### The primitive steps -/

omit [LinearOrder τ] [Zero τ] in
theorem searchIncdirs_exists (fs : FileSystem τ) (n : Str) (dirs : List Str) (p : Str)
    (h : searchIncdirs fs n dirs = some p) : (fs.stat p).isSome = true ∧ p ≠ [] := by
  induction dirs with
  | nil => simp [searchIncdirs] at h
  | cons d rest ih =>
    simp only [searchIncdirs] at h
    split_ifs at h with hs
    · cases h
      exact ⟨hs, by simp⟩
    · exact ih h

omit [LinearOrder τ] [Zero τ] in
theorem resolveInclude_frame (fs : FileSystem τ) (ctx : SVDepContext τ) (n : Str) :
    BuildFrame ctx (resolveInclude fs ctx n).2 ∧
    (resolveInclude fs ctx n).2.m_collection = ctx.m_collection ∧
    (resolveInclude fs ctx n).2.readLog = ctx.readLog ∧
    (resolveInclude fs ctx n).2.m_error = ctx.m_error ∧
    (resolveInclude fs ctx n).2.m_incdirs = ctx.m_incdirs := by
  unfold resolveInclude
  cases hc : mapFind n ctx.m_includeCache with
  | some p => exact ⟨BuildFrame.frameRefl _, rfl, rfl, rfl, rfl⟩
  | none =>
    cases hs : searchIncdirs fs n ctx.m_incdirs with
    | none => exact ⟨BuildFrame.frameRefl _, rfl, rfl, rfl, rfl⟩
    | some full =>
      refine ⟨⟨fun _ _ => rfl, rfl, rfl, ?_, ⟨[], by simp⟩, ⟨[], by simp⟩⟩, rfl, rfl, rfl, rfl⟩
      intro k v hk
      have hne : k ≠ n := by
        intro e
        rw [e, hc] at hk
        cases hk
      simp only []
      rw [mapFind_mapSet_other _ _ _ _ hne]
      exact hk

omit [LinearOrder τ] [Zero τ] in
theorem setIncdirs_frame (ctx : SVDepContext τ) (d : Str) :
    BuildFrame ctx { ctx with m_incdirs := addSearchDir d ctx.m_incdirs } := by
  refine ⟨fun _ _ => rfl, rfl, rfl, fun _ _ h => h, ?_, ⟨[], by simp⟩⟩
  unfold addSearchDir
  split_ifs
  · exact ⟨[], by simp⟩
  · exact ⟨[d], rfl⟩

omit [LinearOrder τ] [Zero τ] in
theorem storeNode_frame (ctx : SVDepContext τ) (path : Str) (info : FileInfo τ)
    (h : path ∉ mapKeys ctx.m_collection.file_info) : BuildFrame ctx (storeNode ctx path info) := by
  refine ⟨?_, rfl, rfl, fun _ _ h => h, ⟨[], by simp [storeNode]⟩, ⟨[], by simp [storeNode]⟩⟩
  intro p hp
  have : p ≠ path := fun e => h (e ▸ hp)
  simp only [storeNode]
  exact mapFind_mapSet_other _ _ _ _ this

omit [LinearOrder τ] [Zero τ] in
theorem readFile_frame (fs : FileSystem τ) (ctx : SVDepContext τ) (path : Str) :
    BuildFrame ctx (readFile fs ctx path).2 ∧
    (readFile fs ctx path).2.m_collection = ctx.m_collection ∧
    (readFile fs ctx path).2.readLog = ctx.readLog ++ [path] := by
  unfold readFile
  cases fs.read path with
  | none => exact ⟨⟨fun _ _ => rfl, rfl, rfl, fun _ _ h => h, ⟨[], by simp⟩, ⟨[path], rfl⟩⟩, rfl, rfl⟩
  | some c => exact ⟨⟨fun _ _ => rfl, rfl, rfl, fun _ _ h => h, ⟨[], by simp⟩, ⟨[path], rfl⟩⟩, rfl, rfl⟩

omit [LinearOrder τ] [Zero τ] in
theorem readFile_error (fs : FileSystem τ) (ctx : SVDepContext τ) (path : Str) :
    (fs.read path = none → (readFile fs ctx path).2.m_error ≠ []) ∧
    (fs.read path ≠ none → (readFile fs ctx path).2.m_error = ctx.m_error) := by
  unfold readFile
  cases fs.read path with
  | none =>
    refine ⟨fun _ => ?_, fun h => absurd rfl h⟩
    simp only []
    intro h
    have := congrArg List.length h
    simp at this
  | some c => exact ⟨fun h => Option.noConfusion h, fun _ => rfl⟩

omit [LinearOrder τ] [Zero τ] in
/-- Storing the placeholder of a new path and reading the file keeps the invariant. -/
theorem buildInv_placeholder (fs : FileSystem τ) (ctx : SVDepContext τ) (path : Str)
    (info : FileInfo τ) (hinv : BuildInv fs ctx)
    (hnew : path ∉ mapKeys ctx.m_collection.file_info)
    (hname : info.name = path) (hincs : info.includes = []) (hflag : info.checked = false) :
    BuildInv fs (readFile fs (storeNode ctx path info) path).2 := by
  obtain ⟨_, hcoll, hlog⟩ := readFile_frame fs (storeNode ctx path info) path
  have herr := readFile_error fs (storeNode ctx path info) path
  constructor
  · intro p i hp
    rw [hcoll] at hp
    simp only [storeNode, mapFind_mapSet] at hp
    split_ifs at hp with e
    · cases hp; rw [e]; exact hname
    · exact hinv.named p i hp
  · intro p i hp q hq
    rw [hcoll] at hp ⊢
    simp only [storeNode, mapFind_mapSet] at hp
    simp only [storeNode, mem_mapKeys_mapSet]
    split_ifs at hp with e
    · cases hp; rw [hincs] at hq; cases hq
    · exact Or.inr (hinv.closed p i hp q hq)
  · intro p i hp
    rw [hcoll] at hp
    simp only [storeNode, mapFind_mapSet] at hp
    split_ifs at hp with e
    · cases hp; exact hflag
    · exact hinv.unflagged p i hp
  · rw [hcoll]
    simp only [storeNode]
    rw [mapKeys_mapSet_of_not_mem _ _ _ hnew, List.nodup_append]
    refine ⟨hinv.keysNodup, by simp, ?_⟩
    intro a ha hb
    simp only [List.mem_singleton] at hb
    subst hb
    exact hnew ha
  · rw [hlog]
    simp only [storeNode]
    rw [List.nodup_append]
    refine ⟨hinv.logNodup, by simp, ?_⟩
    intro a ha hb
    simp only [List.mem_singleton] at hb
    subst hb
    exact hnew (hinv.logKeys a ha)
  · intro p hp
    rw [hlog] at hp
    rw [hcoll]
    simp only [storeNode, mem_mapKeys_mapSet]
    simp only [storeNode, List.mem_append, List.mem_singleton] at hp
    rcases hp with hp | hp
    · exact Or.inr (hinv.logKeys p hp)
    · exact Or.inl hp
  · intro p hp
    rw [hcoll] at hp
    rw [hlog]
    simp only [storeNode, mem_mapKeys_mapSet] at hp
    simp only [storeNode, List.mem_append, List.mem_singleton]
    rcases hp with hp | hp
    · exact Or.inr hp
    · exact Or.inl (hinv.keysLog p hp)
  · rw [hlog]
    have h1 : (storeNode ctx path info).m_error = ctx.m_error := rfl
    have h2 : (storeNode ctx path info).readLog = ctx.readLog := rfl
    by_cases hr : fs.read path = none
    · constructor
      · intro _; exact ⟨path, by simp, hr⟩
      · intro _; exact herr.1 hr
    · rw [herr.2 hr, h1, h2, hinv.error]
      constructor
      · rintro ⟨p, hp, hn⟩; exact ⟨p, by simp [hp], hn⟩
      · rintro ⟨p, hp, hn⟩
        simp only [List.mem_append, List.mem_singleton] at hp
        rcases hp with hp | hp
        · exact ⟨p, hp, hn⟩
        · subst hp; exact absurd hn hr

omit [LinearOrder τ] [Zero τ] in
/-- Overwriting the node of `path` with its complete record keeps the invariant. -/
theorem buildInv_storeFinal (fs : FileSystem τ) (ctx : SVDepContext τ) (path : Str)
    (info : FileInfo τ) (hinv : BuildInv fs ctx)
    (hname : info.name = path) (hflag : info.checked = false)
    (hmem : path ∈ mapKeys ctx.m_collection.file_info)
    (hincs : ∀ q ∈ info.includes, q ∈ mapKeys ctx.m_collection.file_info) :
    BuildInv fs (storeNode ctx path info) := by
  constructor
  · intro p i hp
    simp only [storeNode, mapFind_mapSet] at hp
    split_ifs at hp with e
    · cases hp; rw [e]; exact hname
    · exact hinv.named p i hp
  · intro p i hp q hq
    simp only [storeNode, mapFind_mapSet] at hp
    simp only [storeNode, mem_mapKeys_mapSet]
    split_ifs at hp with e
    · cases hp; exact Or.inr (hincs q hq)
    · exact Or.inr (hinv.closed p i hp q hq)
  · intro p i hp
    simp only [storeNode, mapFind_mapSet] at hp
    split_ifs at hp with e
    · cases hp; exact hflag
    · exact hinv.unflagged p i hp
  · simp only [storeNode]
    rw [mapKeys_mapSet_of_mem _ _ _ hmem]
    exact hinv.keysNodup
  · exact hinv.logNodup
  · intro p hp
    simp only [storeNode, mem_mapKeys_mapSet]
    exact Or.inr (hinv.logKeys p hp)
  · intro p hp
    simp only [storeNode] at hp
    rw [mapKeys_mapSet_of_mem _ _ _ hmem] at hp
    exact hinv.keysLog p hp
  · exact hinv.error

omit [LinearOrder τ] [Zero τ] in
theorem reach_mapSet (nodes : List (Str × FileInfo τ)) (path : Str) (info : FileInfo τ)
    (h : ∀ r ∈ nodeIncs nodes path, r ∈ info.includes) {x y : Str}
    (hr : Reach (nodeIncs nodes) x y) : Reach (nodeIncs (mapSet path info nodes)) x y := by
  induction hr with
  | refl p => exact Reach.refl p
  | @step p r q hmem _ ih =>
    refine Reach.step ?_ ih
    by_cases e : p = path
    · subst e
      simp only [nodeIncs, mapFind_mapSet_same]
      exact h r hmem
    · simp only [nodeIncs, mapFind_mapSet_other _ _ _ _ e]
      exact hmem

omit [LinearOrder τ] [Zero τ] in
/-- The postcondition of the loop over the raw include names. -/
theorem buildIncludes_post (fs : FileSystem τ)
    (recurse : Str → SVDepContext τ → Option (FileInfo τ × SVDepContext τ))
    (hrec : ∀ p c i c1, BuildInv fs c → recurse p c = some (i, c1) → BuildPost fs p c i c1)
    (incs : List Str) :
    ∀ (info : FileInfo τ) (ctx : SVDepContext τ) (info1 : FileInfo τ) (ctx1 : SVDepContext τ),
      BuildInv fs ctx → (∀ q ∈ info.includes, q ∈ mapKeys ctx.m_collection.file_info) →
      buildIncludes fs recurse incs info ctx = some (info1, ctx1) →
      IncludesPost fs ctx info info1 ctx1 := by
  induction incs with
  | nil =>
    intro info ctx info1 ctx1 hinv hk h
    simp only [buildIncludes, Option.some.injEq, Prod.mk.injEq] at h
    obtain ⟨rfl, rfl⟩ := h
    exact ⟨BuildFrame.frameRefl _, hinv, rfl, rfl, rfl, hk, fun _ h => h,
      fun q h1 h2 => absurd h1 h2⟩
  | cons inc rest ih =>
    intro info ctx info1 ctx1 hinv hk h
    simp only [buildIncludes] at h
    obtain ⟨hfr, hcoll, hlog, herr, _⟩ := resolveInclude_frame fs ctx inc
    have hinvR : BuildInv fs (resolveInclude fs ctx inc).2 := hinv.congr (by rw [hcoll]) hlog herr
    by_cases hne : (resolveInclude fs ctx inc).1 = []
    · simp only [hne, ne_eq, not_true_eq_false, if_false] at h
      have hk2 : ∀ q ∈ info.includes,
          q ∈ mapKeys (resolveInclude fs ctx inc).2.m_collection.file_info := by
        rw [hcoll]; exact hk
      have hp := ih info _ info1 ctx1 hinvR hk2 h
      refine ⟨hfr.frameTrans hp.frame, hp.inv, hp.name, hp.timestamp, hp.checked, hp.incKeys,
        hp.incsMono, ?_⟩
      intro q hq hnq
      exact hp.reach q hq (by rw [hcoll]; exact hnq)
    · simp only [hne, ne_eq, not_false_eq_true, if_true] at h
      have hfrA := setIncdirs_frame (resolveInclude fs ctx inc).2
        (getDirname (resolveInclude fs ctx inc).1)
      have hinvA : BuildInv fs { (resolveInclude fs ctx inc).2 with
          m_incdirs := addSearchDir (getDirname (resolveInclude fs ctx inc).1)
            (resolveInclude fs ctx inc).2.m_incdirs } := hinvR.congr rfl rfl rfl
      cases hc : recurse (resolveInclude fs ctx inc).1 { (resolveInclude fs ctx inc).2 with
          m_incdirs := addSearchDir (getDirname (resolveInclude fs ctx inc).1)
            (resolveInclude fs ctx inc).2.m_incdirs } with
      | none => simp [hc] at h
      | some res =>
        obtain ⟨i, ctx2⟩ := res
        simp only [hc] at h
        have hpost := hrec _ _ i ctx2 hinvA hc
        have hfr02 : BuildFrame ctx ctx2 := hfr.frameTrans (hfrA.frameTrans hpost.frame)
        have hk2 : ∀ q ∈ ({ info with includes := info.includes ++
            [(resolveInclude fs ctx inc).1] } : FileInfo τ).includes,
            q ∈ mapKeys ctx2.m_collection.file_info := by
          intro q hq
          simp only [List.mem_append, List.mem_singleton] at hq
          rcases hq with hq | hq
          · exact hfr02.keys (hk q hq)
          · rw [hq, ← mapFind_isSome_iff_mem_keys, hpost.key]; rfl
        have hp := ih _ ctx2 info1 ctx1 hpost.inv hk2 h
        refine ⟨hfr02.frameTrans hp.frame, hp.inv, hp.name, hp.timestamp, hp.checked, hp.incKeys,
          ?_, ?_⟩
        · intro q hq
          exact hp.incsMono q (by simp [hq])
        · intro q hq hnq
          by_cases hmid : q ∈ mapKeys ctx2.m_collection.file_info
          · have hr := hpost.reach q hmid (by
              show q ∉ mapKeys (resolveInclude fs ctx inc).2.m_collection.file_info
              rw [hcoll]; exact hnq)
            exact ⟨_, hp.incsMono _ (by simp), hp.frame.reach hr⟩
          · exact hp.reach q hq hmid

omit [LinearOrder τ] in
/-- The postcondition of `buildFileInfo`. -/
theorem buildFileInfo_post (fs : FileSystem τ) (fuel : Nat) :
    ∀ (path : Str) (ctx : SVDepContext τ) (info : FileInfo τ) (ctx1 : SVDepContext τ),
      BuildInv fs ctx → buildFileInfo fs fuel path ctx = some (info, ctx1) →
      BuildPost fs path ctx info ctx1 := by
  induction fuel with
  | zero => intro path ctx info ctx1 _ h; simp [buildFileInfo] at h
  | succ fuel ih =>
    intro path ctx info ctx1 hinv h
    simp only [buildFileInfo] at h
    cases hf : mapFind path ctx.m_collection.file_info with
    | some stored =>
      simp only [hf, Option.some.injEq, Prod.mk.injEq] at h
      obtain ⟨rfl, rfl⟩ := h
      exact ⟨BuildFrame.frameRefl _, hinv, hf, hinv.named _ _ hf, fun q h1 h2 => absurd h1 h2⟩
    | none =>
      simp only [hf] at h
      have hnew : path ∉ mapKeys ctx.m_collection.file_info := (mapFind_eq_none_iff _ _).1 hf
      have hinvR := buildInv_placeholder fs ctx path
        { (FileInfo.default : FileInfo τ) with
          name := path, timestamp := getFileTimestamp fs path } hinv hnew rfl rfl rfl
      obtain ⟨hfrR, hcollR, _⟩ := readFile_frame fs (storeNode ctx path
        { (FileInfo.default : FileInfo τ) with
          name := path, timestamp := getFileTimestamp fs path }) path
      have hfr0 := (storeNode_frame ctx path
        { (FileInfo.default : FileInfo τ) with
          name := path, timestamp := getFileTimestamp fs path } hnew).frameTrans hfrR
      have hkeyR : mapFind path (readFile fs (storeNode ctx path
          { (FileInfo.default : FileInfo τ) with
            name := path, timestamp := getFileTimestamp fs path }) path).2.m_collection.file_info =
          some { (FileInfo.default : FileInfo τ) with
            name := path, timestamp := getFileTimestamp fs path } := by
        rw [hcollR]
        exact mapFind_mapSet_same _ _ _
      have hkeysR : ∀ q, q ∈ mapKeys (readFile fs (storeNode ctx path
          { (FileInfo.default : FileInfo τ) with
            name := path, timestamp := getFileTimestamp fs path }) path).2.m_collection.file_info →
          q = path ∨ q ∈ mapKeys ctx.m_collection.file_info := by
        intro q hq
        rw [hcollR] at hq
        exact (mem_mapKeys_mapSet _ _ _ _).1 hq
      split_ifs at h with hearly
      · simp only [Option.some.injEq, Prod.mk.injEq] at h
        obtain ⟨rfl, rfl⟩ := h
        refine ⟨hfr0, hinvR, hkeyR, rfl, ?_⟩
        intro q hq hnq
        rcases hkeysR q hq with e | e
        · rw [e]; exact Reach.refl _
        · exact absurd e hnq
      · cases hs : scanIncludes (readFile fs (storeNode ctx path
            { (FileInfo.default : FileInfo τ) with
              name := path, timestamp := getFileTimestamp fs path }) path).1 path with
        | none => simp [hs] at h
        | some includes =>
          simp only [hs] at h
          cases hb : buildIncludes fs (buildFileInfo fs fuel) includes
              { (FileInfo.default : FileInfo τ) with
                name := path, timestamp := getFileTimestamp fs path }
              (readFile fs (storeNode ctx path
                { (FileInfo.default : FileInfo τ) with
                  name := path, timestamp := getFileTimestamp fs path }) path).2 with
          | none => simp [hb] at h
          | some res =>
            obtain ⟨info1, ctx2⟩ := res
            simp only [hb, Option.some.injEq, Prod.mk.injEq] at h
            obtain ⟨rfl, rfl⟩ := h
            have hp := buildIncludes_post fs _ ih includes _ _ info1 ctx2 hinvR
              (by intro q hq; simp [FileInfo.default] at hq) hb
            have hfr02 := hfr0.frameTrans hp.frame
            have hplace : mapFind path ctx2.m_collection.file_info =
                some { (FileInfo.default : FileInfo τ) with
                  name := path, timestamp := getFileTimestamp fs path } := by
              rw [hp.frame.nodes path ((mapFind_isSome_iff_mem_keys _ _).1 (by rw [hkeyR]; rfl))]
              exact hkeyR
            refine ⟨?_, buildInv_storeFinal fs ctx2 path info1 hp.inv hp.name hp.checked
                ((mapFind_isSome_iff_mem_keys _ _).1 (by rw [hplace]; rfl)) hp.incKeys,
              mapFind_mapSet_same _ _ _, hp.name, ?_⟩
            · refine ⟨?_, hfr02.rootFiles, hfr02.roots, hfr02.cache, hfr02.dirs, hfr02.log⟩
              intro p hpk
              have : p ≠ path := fun e => hnew (e ▸ hpk)
              simp only [storeNode]
              rw [mapFind_mapSet_other _ _ _ _ this]
              exact hfr02.nodes p hpk
            · intro q hq hnq
              simp only [storeNode, mem_mapKeys_mapSet] at hq
              rcases hq with e | hq
              · rw [e]; exact Reach.refl _
              · by_cases hmid : q ∈ mapKeys (readFile fs (storeNode ctx path
                    { (FileInfo.default : FileInfo τ) with
                      name := path, timestamp := getFileTimestamp fs path })
                    path).2.m_collection.file_info
                · rcases hkeysR q hmid with e | e
                  · rw [e]; exact Reach.refl _
                  · exact absurd e hnq
                · obtain ⟨i, hi, hr⟩ := hp.reach q hq hmid
                  have hr2 := reach_mapSet ctx2.m_collection.file_info path info1
                    (by
                      intro r hr
                      simp only [nodeIncs, hplace, FileInfo.default] at hr
                      cases hr) hr
                  refine Reach.step ?_ hr2
                  simp only [storeNode, nodeIncs, mapFind_mapSet_same]
                  exact hi

omit [LinearOrder τ] in
/-- The postcondition of the loop of `build` over the root files. -/
theorem buildRoots_post (fs : FileSystem τ) (fuel : Nat) (roots : List Str) :
    ∀ (ctx : SVDepContext τ) (r : Int) (ctx1 : SVDepContext τ),
      BuildInv fs ctx → buildRoots fs fuel roots ctx = some (r, ctx1) →
      RootsPost fs roots ctx r ctx1 := by
  induction roots with
  | nil =>
    intro ctx r ctx1 hinv h
    simp only [buildRoots, Option.some.injEq, Prod.mk.injEq] at h
    obtain ⟨rfl, rfl⟩ := h
    exact ⟨fun _ _ => rfl, rfl, fun _ _ h => h, ⟨[], by simp⟩, hinv, Or.inl rfl,
      (fun h => absurd h (by decide)), fun _ => ⟨id, [], by simp, rfl, by simp⟩,
      fun q h1 h2 => absurd h1 h2⟩
  | cons rootPath rest ih =>
    intro ctx r ctx1 hinv h
    simp only [buildRoots] at h
    have hfrA := setIncdirs_frame ctx (getDirname rootPath)
    have hinvA : BuildInv fs { ctx with
        m_incdirs := addSearchDir (getDirname rootPath) ctx.m_incdirs } :=
      hinv.congr rfl rfl rfl
    cases hc : buildFileInfo fs fuel rootPath { ctx with
        m_incdirs := addSearchDir (getDirname rootPath) ctx.m_incdirs } with
    | none => simp [hc] at h
    | some res =>
      obtain ⟨info, ctx2⟩ := res
      simp only [hc] at h
      have hpost := buildFileInfo_post fs fuel rootPath _ info ctx2 hinvA hc
      have hfr := hfrA.frameTrans hpost.frame
      split_ifs at h with herr
      · simp only [Option.some.injEq, Prod.mk.injEq] at h
        obtain ⟨rfl, rfl⟩ := h
        refine ⟨hfr.nodes, hfr.rootFiles, hfr.cache, hfr.dirs, hpost.inv, Or.inr rfl,
          fun _ => herr, (fun h => absurd h (by decide)), ?_⟩
        intro q hq hnq
        exact ⟨rootPath, by simp, hpost.reach q hq hnq⟩
      · have herr2 : ctx2.m_error = [] := by simpa using herr
        have hinv3 : BuildInv fs { ctx2 with m_collection :=
            { ctx2.m_collection with root_files := ctx2.m_collection.root_files ++ [info] } } :=
          hpost.inv.congr rfl rfl rfl
        have hp := ih _ r ctx1 hinv3 h
        have hkept : ∀ p, p ∈ mapKeys ctx.m_collection.file_info →
            mapFind p ctx1.m_collection.file_info = mapFind p ctx.m_collection.file_info := by
          intro p hpk
          rw [hp.nodes p (hfr.keys hpk)]
          exact hfr.nodes p hpk
        refine ⟨hkept, by rw [hp.rootFiles]; exact hfr.rootFiles,
          fun k v hk => hp.cache k v (hfr.cache k v hk), ?_, hp.inv, hp.result, hp.failed, ?_, ?_⟩
        · obtain ⟨l1, e1⟩ := hfr.dirs
          obtain ⟨l2, e2⟩ := hp.dirs
          exact ⟨l1 ++ l2, by rw [e2]; simp only []; rw [e1, List.append_assoc]⟩
        · intro hr
          obtain ⟨he, infos, e1, e2, e3⟩ := hp.succeeded hr
          refine ⟨fun _ => he herr2, info :: infos, ?_, ?_, ?_⟩
          · rw [e1]
            simp only []
            rw [hfr.roots, List.append_assoc]
            rfl
          · simp [e2, hpost.name]
          · intro i hi
            simp only [List.mem_cons] at hi
            rcases hi with rfl | hi
            · have hk : i.name ∈ mapKeys ctx2.m_collection.file_info := by
                rw [hpost.name, ← mapFind_isSome_iff_mem_keys, hpost.key]; rfl
              rw [hp.nodes i.name hk]
              simp only []
              rw [hpost.name]
              exact hpost.key
            · exact e3 i hi
        · intro q hq hnq
          by_cases hmid : q ∈ mapKeys ctx2.m_collection.file_info
          · exact ⟨rootPath, by simp, reach_of_kept hp.nodes (hpost.reach q hmid hnq)⟩
          · obtain ⟨x, hx, hr⟩ := hp.reach q hq hmid
            exact ⟨x, by simp [hx], hr⟩

omit [LinearOrder τ] [Zero τ] in
/-- The state in which `build` enters its loop satisfies the invariant. -/
theorem buildInv_cleared (fs : FileSystem τ) (ctx : SVDepContext τ) :
    BuildInv fs { ctx with m_collection := FileCollection.clear, m_error := [], readLog := [] } := by
  constructor
  · intro p i h; simp [FileCollection.clear, mapFind] at h
  · intro p i h; simp [FileCollection.clear, mapFind] at h
  · intro p i h; simp [FileCollection.clear, mapFind] at h
  · simp [FileCollection.clear, mapKeys]
  · simp
  · intro p h; simp at h
  · intro p h; simp [FileCollection.clear, mapKeys] at h
  · simp

omit [LinearOrder τ] in
/-- The postcondition of `build`. -/
theorem build_post (fs : FileSystem τ) (fuel : Nat) (ctx : SVDepContext τ) (r : Int)
    (ctx1 : SVDepContext τ) (h : build fs fuel ctx = some (r, ctx1)) :
    RootsPost fs ctx.m_rootFiles
      { ctx with m_collection := FileCollection.clear, m_error := [], readLog := [] } r ctx1 :=
  buildRoots_post fs fuel ctx.m_rootFiles _ r ctx1 (buildInv_cleared fs ctx) h

/-! ### Termination on a finite file system -/

omit [LinearOrder τ] [Zero τ] in
theorem pending_mono (U : List Str) (a b : List (Str × FileInfo τ))
    (h : ∀ p, p ∈ mapKeys a → p ∈ mapKeys b) : pending U b ≤ pending U a := by
  unfold pending
  apply Finset.card_le_card
  intro x hx
  simp only [Finset.mem_sdiff, List.mem_toFinset] at hx ⊢
  exact ⟨hx.1, fun hxa => hx.2 (h x hxa)⟩

omit [LinearOrder τ] [Zero τ] in
theorem pending_lt (U : List Str) (a b : List (Str × FileInfo τ)) (path : Str)
    (h : ∀ p, p ∈ mapKeys a → p ∈ mapKeys b) (hU : path ∈ U) (hna : path ∉ mapKeys a)
    (hb : path ∈ mapKeys b) : pending U b < pending U a := by
  unfold pending
  apply Finset.card_lt_card
  rw [Finset.ssubset_iff_of_subset]
  · exact ⟨path, by simp [hU, hna], by simp [hb]⟩
  · intro x hx
    simp only [Finset.mem_sdiff, List.mem_toFinset] at hx ⊢
    exact ⟨hx.1, fun hxa => hx.2 (h x hxa)⟩

omit [LinearOrder τ] [Zero τ] in
theorem resolveInclude_cacheIn (fs : FileSystem τ) (U : List Str)
    (hstat : ∀ p, (fs.stat p).isSome = true → p ∈ U) (ctx : SVDepContext τ) (n : Str)
    (hc : CacheIn U ctx) :
    CacheIn U (resolveInclude fs ctx n).2 ∧
      ((resolveInclude fs ctx n).1 ≠ [] → (resolveInclude fs ctx n).1 ∈ U) := by
  unfold resolveInclude
  cases hf : mapFind n ctx.m_includeCache with
  | some p => exact ⟨hc, fun _ => hc n p hf⟩
  | none =>
    cases hs : searchIncdirs fs n ctx.m_incdirs with
    | none => exact ⟨hc, fun h => absurd rfl h⟩
    | some full =>
      have hfull : full ∈ U := hstat full (searchIncdirs_exists fs n _ full hs).1
      refine ⟨?_, fun _ => hfull⟩
      intro k v hk
      simp only [mapFind_mapSet] at hk
      split_ifs at hk
      · cases hk; exact hfull
      · exact hc k v hk

omit [LinearOrder τ] [Zero τ] in
/-- The loop over the raw include names answers when the recursive call does. -/
theorem buildIncludes_total (fs : FileSystem τ) (U : List Str)
    (hstat : ∀ p, (fs.stat p).isSome = true → p ∈ U)
    (recurse : Str → SVDepContext τ → Option (FileInfo τ × SVDepContext τ)) (n : Nat)
    (hpost : ∀ p c i c1, BuildInv fs c → recurse p c = some (i, c1) → BuildPost fs p c i c1)
    (hrec : ∀ p c, BuildInv fs c → p ∈ U → CacheIn U c →
      pending U c.m_collection.file_info < n →
      ∃ i c1, recurse p c = some (i, c1) ∧ CacheIn U c1)
    (incs : List Str) :
    ∀ (info : FileInfo τ) (ctx : SVDepContext τ), BuildInv fs ctx →
      (∀ q ∈ info.includes, q ∈ mapKeys ctx.m_collection.file_info) → CacheIn U ctx →
      pending U ctx.m_collection.file_info < n →
      ∃ info1 ctx1, buildIncludes fs recurse incs info ctx = some (info1, ctx1) ∧
        CacheIn U ctx1 := by
  induction incs with
  | nil => intro info ctx _ _ hc _; exact ⟨info, ctx, rfl, hc⟩
  | cons inc rest ih =>
    intro info ctx hinv hk hc hn
    obtain ⟨hfr, hcoll, hlog, herr, _⟩ := resolveInclude_frame fs ctx inc
    obtain ⟨hcR, hU⟩ := resolveInclude_cacheIn fs U hstat ctx inc hc
    have hinvR : BuildInv fs (resolveInclude fs ctx inc).2 :=
      hinv.congr (by rw [hcoll]) hlog herr
    simp only [buildIncludes]
    by_cases hne : (resolveInclude fs ctx inc).1 = []
    · simp only [hne, ne_eq, not_true_eq_false, if_false]
      exact ih info _ hinvR (by rw [hcoll]; exact hk) hcR (by rw [hcoll]; exact hn)
    · simp only [hne, ne_eq, not_false_eq_true, if_true]
      have hinvA : BuildInv fs { (resolveInclude fs ctx inc).2 with
          m_incdirs := addSearchDir (getDirname (resolveInclude fs ctx inc).1)
            (resolveInclude fs ctx inc).2.m_incdirs } := hinvR.congr rfl rfl rfl
      obtain ⟨i, ctx2, hr, hc2⟩ := hrec (resolveInclude fs ctx inc).1
        { (resolveInclude fs ctx inc).2 with
          m_incdirs := addSearchDir (getDirname (resolveInclude fs ctx inc).1)
            (resolveInclude fs ctx inc).2.m_incdirs } hinvA (hU hne) hcR
        (by simp only []; rw [hcoll]; exact hn)
      have hp := hpost _ _ i ctx2 hinvA hr
      have hkeys : ∀ p, p ∈ mapKeys ctx.m_collection.file_info →
          p ∈ mapKeys ctx2.m_collection.file_info := by
        intro p hpk
        apply hp.frame.keys
        simp only []
        rw [hcoll]
        exact hpk
      obtain ⟨info1, ctx1, hb, hc1⟩ := ih
        { info with includes := info.includes ++ [(resolveInclude fs ctx inc).1] } ctx2 hp.inv
        (by
          intro q hq
          simp only [List.mem_append, List.mem_singleton] at hq
          rcases hq with hq | hq
          · exact hkeys q (hk q hq)
          · rw [hq, ← mapFind_isSome_iff_mem_keys, hp.key]; rfl) hc2
        (lt_of_le_of_lt (pending_mono U _ _ hkeys) hn)
      exact ⟨info1, ctx1, by simp only [hr]; exact hb, hc1⟩

omit [LinearOrder τ] in
/-- With more fuel than paths of `U` without a node, `buildFileInfo` answers. -/
theorem buildFileInfo_total (fs : FileSystem τ) (U : List Str)
    (hstat : ∀ p, (fs.stat p).isSome = true → p ∈ U) (fuel : Nat) :
    ∀ (path : Str) (ctx : SVDepContext τ), BuildInv fs ctx → path ∈ U → CacheIn U ctx →
      pending U ctx.m_collection.file_info < fuel →
      ∃ info ctx1, buildFileInfo fs fuel path ctx = some (info, ctx1) ∧ CacheIn U ctx1 := by
  induction fuel with
  | zero => intro path ctx _ _ _ h; omega
  | succ fuel ih =>
    intro path ctx hinv hU hc hn
    simp only [buildFileInfo]
    cases hf : mapFind path ctx.m_collection.file_info with
    | some stored => exact ⟨stored, ctx, rfl, hc⟩
    | none =>
      simp only []
      have hnew : path ∉ mapKeys ctx.m_collection.file_info := (mapFind_eq_none_iff _ _).1 hf
      have hinvR := buildInv_placeholder fs ctx path
        { (FileInfo.default : FileInfo τ) with
          name := path, timestamp := getFileTimestamp fs path } hinv hnew rfl rfl rfl
      obtain ⟨hfrR, hcollR, _⟩ := readFile_frame fs (storeNode ctx path
        { (FileInfo.default : FileInfo τ) with
          name := path, timestamp := getFileTimestamp fs path }) path
      have hcR : CacheIn U (readFile fs (storeNode ctx path
          { (FileInfo.default : FileInfo τ) with
            name := path, timestamp := getFileTimestamp fs path }) path).2 := by
        intro k v hk
        apply hc k v
        unfold readFile at hk
        cases hrd : fs.read path with
        | none => simpa [hrd, storeNode] using hk
        | some c => simpa [hrd, storeNode] using hk
      have hpend : pending U (readFile fs (storeNode ctx path
          { (FileInfo.default : FileInfo τ) with
            name := path, timestamp := getFileTimestamp fs path }) path).2.m_collection.file_info
          < fuel := by
        rw [hcollR]
        have := pending_lt U ctx.m_collection.file_info
          (storeNode ctx path { (FileInfo.default : FileInfo τ) with
            name := path, timestamp := getFileTimestamp fs path }).m_collection.file_info path
          (by intro p hp; simp only [storeNode, mem_mapKeys_mapSet]; exact Or.inr hp) hU hnew
          (by simp [storeNode, mem_mapKeys_mapSet])
        omega
      split_ifs with hearly
      · exact ⟨_, _, rfl, hcR⟩
      · obtain ⟨pp1, hpp⟩ := process_total (setInput SVPreprocessor.new
          (readFile fs (storeNode ctx path
            { (FileInfo.default : FileInfo τ) with
              name := path, timestamp := getFileTimestamp fs path }) path).1 path)
        have hs : scanIncludes (readFile fs (storeNode ctx path
            { (FileInfo.default : FileInfo τ) with
              name := path, timestamp := getFileTimestamp fs path }) path).1 path =
            some (getIncludes pp1) := by
          simp [scanIncludes, hpp]
        simp only [hs]
        obtain ⟨info1, ctx2, hb, hc2⟩ := buildIncludes_total fs U hstat (buildFileInfo fs fuel)
          fuel (buildFileInfo_post fs fuel) ih (getIncludes pp1)
          { (FileInfo.default : FileInfo τ) with
            name := path, timestamp := getFileTimestamp fs path } _ hinvR
          (by intro q hq; simp [FileInfo.default] at hq) hcR hpend
        simp only [hb]
        exact ⟨info1, storeNode ctx2 path info1, rfl, hc2⟩

omit [LinearOrder τ] in
/-- With more fuel than paths of `U`, the loop of `build` over the roots answers. -/
theorem buildRoots_total (fs : FileSystem τ) (U : List Str)
    (hstat : ∀ p, (fs.stat p).isSome = true → p ∈ U) (fuel : Nat) (roots : List Str) :
    ∀ (ctx : SVDepContext τ), BuildInv fs ctx → (∀ x ∈ roots, x ∈ U) → CacheIn U ctx →
      pending U ctx.m_collection.file_info < fuel →
      ∃ r ctx1, buildRoots fs fuel roots ctx = some (r, ctx1) := by
  induction roots with
  | nil => intro ctx _ _ _ _; exact ⟨0, ctx, rfl⟩
  | cons rootPath rest ih =>
    intro ctx hinv hroots hc hn
    have hinvA : BuildInv fs { ctx with
        m_incdirs := addSearchDir (getDirname rootPath) ctx.m_incdirs } :=
      hinv.congr rfl rfl rfl
    obtain ⟨info, ctx2, hb, hc2⟩ := buildFileInfo_total fs U hstat fuel rootPath
      { ctx with m_incdirs := addSearchDir (getDirname rootPath) ctx.m_incdirs } hinvA
      (hroots rootPath (by simp)) hc hn
    have hpost := buildFileInfo_post fs fuel rootPath _ info ctx2 hinvA hb
    simp only [buildRoots, hb]
    split_ifs with herr
    · exact ⟨-1, ctx2, rfl⟩
    · apply ih
      · exact hpost.inv.congr rfl rfl rfl
      · intro x hx; exact hroots x (by simp [hx])
      · exact hc2
      · exact lt_of_le_of_lt (pending_mono U _ _ (fun p hp => hpost.frame.keys hp)) hn

omit [LinearOrder τ] in
/-- On a file system whose existing paths all lie in the list `L`, `build` answers with
any fuel above the number of paths it can ever meet. -/
theorem build_total (fs : FileSystem τ) (L : List Str)
    (hfin : ∀ p, (fs.stat p).isSome = true → p ∈ L) (ctx : SVDepContext τ) (fuel : Nat)
    (hfuel : L.length + ctx.m_rootFiles.length + ctx.m_includeCache.length < fuel) :
    ∃ r ctx1, build fs fuel ctx = some (r, ctx1) := by
  have hcache : ∀ k v, mapFind k ctx.m_includeCache = some v →
      v ∈ ctx.m_includeCache.map Prod.snd := by
    intro k v
    induction ctx.m_includeCache with
    | nil => intro h; simp [mapFind] at h
    | cons kv rest ih =>
      obtain ⟨k1, v1⟩ := kv
      intro h
      simp only [mapFind] at h
      split_ifs at h
      · cases h; simp
      · simp [ih h]
  apply buildRoots_total fs (L ++ ctx.m_rootFiles ++ ctx.m_includeCache.map Prod.snd)
  · intro p hp; simp [hfin p hp]
  · exact buildInv_cleared fs ctx
  · intro x hx; simp [hx]
  · intro k v hk
    have := hcache k v hk
    simp only [List.mem_append]
    exact Or.inr this
  · unfold pending
    refine lt_of_le_of_lt (le_trans (Finset.card_le_card Finset.sdiff_subset)
      (List.toFinset_card_le _)) ?_
    simp only [List.length_append, List.length_map]
    exact hfuel

/-! ### The memo of resolved includes only grows -/

omit [LinearOrder τ] [Zero τ] in
theorem CacheExt.cacheRefl (ctx : SVDepContext τ) : CacheExt ctx ctx := fun _ _ h => h

omit [LinearOrder τ] [Zero τ] in
theorem CacheExt.cacheTrans {a b c : SVDepContext τ} (h1 : CacheExt a b) (h2 : CacheExt b c) :
    CacheExt a c := fun k v h => h2 k v (h1 k v h)

omit [LinearOrder τ] [Zero τ] in
theorem resolveInclude_cacheExt (fs : FileSystem τ) (ctx : SVDepContext τ) (n : Str) :
    CacheExt ctx (resolveInclude fs ctx n).2 := (resolveInclude_frame fs ctx n).1.cache

omit [LinearOrder τ] [Zero τ] in
theorem buildIncludes_cacheExt (fs : FileSystem τ)
    (recurse : Str → SVDepContext τ → Option (FileInfo τ × SVDepContext τ))
    (hrec : ∀ p c i c1, recurse p c = some (i, c1) → CacheExt c c1) (incs : List Str) :
    ∀ (info : FileInfo τ) (ctx : SVDepContext τ) (info1 : FileInfo τ) (ctx1 : SVDepContext τ),
      buildIncludes fs recurse incs info ctx = some (info1, ctx1) → CacheExt ctx ctx1 := by
  induction incs with
  | nil =>
    intro info ctx info1 ctx1 h
    simp only [buildIncludes, Option.some.injEq, Prod.mk.injEq] at h
    obtain ⟨_, rfl⟩ := h
    exact CacheExt.cacheRefl _
  | cons inc rest ih =>
    intro info ctx info1 ctx1 h
    simp only [buildIncludes] at h
    have h0 := resolveInclude_cacheExt fs ctx inc
    split_ifs at h with hne
    · cases hc : recurse (resolveInclude fs ctx inc).1 { (resolveInclude fs ctx inc).2 with
          m_incdirs := addSearchDir (getDirname (resolveInclude fs ctx inc).1)
            (resolveInclude fs ctx inc).2.m_incdirs } with
      | none => simp [hc] at h
      | some res =>
        obtain ⟨i, ctx2⟩ := res
        simp only [hc] at h
        have h1 : CacheExt (resolveInclude fs ctx inc).2 ctx2 := by
          have := hrec _ _ i ctx2 hc
          exact this
        exact h0.cacheTrans (h1.cacheTrans (ih _ _ _ _ h))
    · exact h0.cacheTrans (ih _ _ _ _ h)

omit [LinearOrder τ] in
theorem buildFileInfo_cacheExt (fs : FileSystem τ) (fuel : Nat) :
    ∀ (path : Str) (ctx : SVDepContext τ) (info : FileInfo τ) (ctx1 : SVDepContext τ),
      buildFileInfo fs fuel path ctx = some (info, ctx1) → CacheExt ctx ctx1 := by
  induction fuel with
  | zero => intro path ctx info ctx1 h; simp [buildFileInfo] at h
  | succ fuel ih =>
    intro path ctx info ctx1 h
    simp only [buildFileInfo] at h
    cases hf : mapFind path ctx.m_collection.file_info with
    | some stored =>
      simp only [hf, Option.some.injEq, Prod.mk.injEq] at h
      obtain ⟨_, rfl⟩ := h
      exact CacheExt.cacheRefl _
    | none =>
      simp only [hf] at h
      have hR : CacheExt ctx (readFile fs (storeNode ctx path
          { (FileInfo.default : FileInfo τ) with
            name := path, timestamp := getFileTimestamp fs path }) path).2 := by
        have := (readFile_frame fs (storeNode ctx path
          { (FileInfo.default : FileInfo τ) with
            name := path, timestamp := getFileTimestamp fs path }) path).1.cache
        exact this
      split_ifs at h with hearly
      · simp only [Option.some.injEq, Prod.mk.injEq] at h
        obtain ⟨_, rfl⟩ := h
        exact hR
      · cases hs : scanIncludes (readFile fs (storeNode ctx path
            { (FileInfo.default : FileInfo τ) with
              name := path, timestamp := getFileTimestamp fs path }) path).1 path with
        | none => simp [hs] at h
        | some includes =>
          simp only [hs] at h
          cases hb : buildIncludes fs (buildFileInfo fs fuel) includes
              { (FileInfo.default : FileInfo τ) with
                name := path, timestamp := getFileTimestamp fs path }
              (readFile fs (storeNode ctx path
                { (FileInfo.default : FileInfo τ) with
                  name := path, timestamp := getFileTimestamp fs path }) path).2 with
          | none => simp [hb] at h
          | some res =>
            obtain ⟨info1, ctx2⟩ := res
            simp only [hb, Option.some.injEq, Prod.mk.injEq] at h
            obtain ⟨_, rfl⟩ := h
            have := buildIncludes_cacheExt fs _ ih includes _ _ _ _ hb
            exact hR.cacheTrans this

/-- No step of a context drops or changes a cached resolution. -/
theorem ctxStep_cacheExt {ctx ctx1 : SVDepContext τ} (h : CtxStep ctx ctx1) :
    CacheExt ctx ctx1 := by
  cases h with
  | addIncdir => exact CacheExt.cacheRefl _
  | addRootFile => exact CacheExt.cacheRefl _
  | build fs fuel _ r _ hb => exact (build_post fs fuel ctx r ctx1 hb).cache
  | buildFileInfo fs fuel path _ info _ hb => exact buildFileInfo_cacheExt fs fuel path ctx info ctx1 hb
  | resolveInclude fs _ n => exact resolveInclude_cacheExt fs ctx n
  | searchDir => exact CacheExt.cacheRefl _
  | checkUpToDate fs fuel _ T r _ hc =>
    unfold checkUpToDate at hc
    split_ifs at hc
    · cases hc; exact CacheExt.cacheRefl _
    · cases hr : checkRoots fs T fuel ctx.m_rootFiles ctx.m_collection.root_files
          (resetFlags ctx.m_collection.file_info) with
      | none => simp [hr] at hc
      | some res =>
        simp only [hr, Option.some.injEq, Prod.mk.injEq] at hc
        obtain ⟨_, rfl⟩ := hc
        exact CacheExt.cacheRefl _
  | getJson => exact CacheExt.cacheRefl _
  | loadJson stod n _ json r _ hl =>
    unfold loadJson at hl
    cases hj : fromJson stod n json with
    | error e => simp [hj] at hl
    | ok res =>
      obtain ⟨b, c⟩ := res
      cases b with
      | false =>
        simp only [hj, Except.ok.injEq, Prod.mk.injEq] at hl
        obtain ⟨_, rfl⟩ := hl
        exact CacheExt.cacheRefl _
      | true =>
        simp only [hj, Except.ok.injEq, Prod.mk.injEq] at hl
        obtain ⟨_, rfl⟩ := hl
        exact CacheExt.cacheRefl _

theorem later_cacheExt {ctx ctx1 : SVDepContext τ}
    (h : Relation.ReflTransGen CtxStep ctx ctx1) : CacheExt ctx ctx1 := by
  induction h with
  | refl => exact CacheExt.cacheRefl _
  | tail _ hstep ih => exact ih.cacheTrans (ctxStep_cacheExt hstep)

end BuildLemmas

/-! ## The snapshot round trip -/

theorem jsonSkipWhitespace_cons (c : Char) (r : Str)
    (h : (c == ' ' || c == '\t' || c == '\n' || c == '\r') = false) :
    jsonSkipWhitespace (c :: r) = c :: r := by
  simp [jsonSkipWhitespace, List.dropWhile, h]

theorem jsonSkipWhitespace_space (r : Str) :
    jsonSkipWhitespace (' ' :: r) = jsonSkipWhitespace r := by
  simp [jsonSkipWhitespace, List.dropWhile]

theorem jsonStringLoop_plain (k r : Str) (h : ∀ c ∈ k, c ≠ '"' ∧ c ≠ '\\') :
    jsonStringLoop (k ++ '"' :: r) = (k, r) := by
  induction k with
  | nil => simp [jsonStringLoop]
  | cons c cs ih =>
    have hc := h c (by simp)
    have := ih (fun x hx => h x (by simp [hx]))
    rw [List.cons_append, jsonStringLoop.eq_def]
    simp [hc.1, hc.2, this]

theorem escapeChar_loop (c : Char) (r : Str) (h : jsonSafeChar c = true) :
    jsonStringLoop (escapeChar c ++ r) = (c :: (jsonStringLoop r).1, (jsonStringLoop r).2) := by
  by_cases h1 : c = '"'
  · subst h1; simp [escapeChar, jsonStringLoop, jsonUnescape]
  by_cases h2 : c = '\\'
  · subst h2; simp [escapeChar, jsonStringLoop, jsonUnescape]
  by_cases h3 : c = '\n'
  · subst h3; simp [escapeChar, jsonStringLoop, jsonUnescape]
  by_cases h4 : c = '\r'
  · subst h4; simp [escapeChar, jsonStringLoop, jsonUnescape]
  by_cases h5 : c = '\t'
  · subst h5; simp [escapeChar, jsonStringLoop, jsonUnescape]
  have h6 : 32 ≤ c.toNat := by
    simpa [jsonSafeChar, h3, h4, h5] using h
  have h7 : c ≠ Char.ofNat 8 := by
    intro e; rw [e] at h6; revert h6; decide
  have h8 : c ≠ Char.ofNat 12 := by
    intro e; rw [e] at h6; revert h6; decide
  have h9 : ¬ c.toNat ≤ 31 := by omega
  have : escapeChar c = [c] := by
    simp [escapeChar, h1, h2, h3, h4, h5, h7, h8, h9]
  rw [this, List.singleton_append, jsonStringLoop.eq_def]
  simp [h1, h2]

theorem jsonStringLoop_escaped (s r : Str) (h : jsonSafe s) :
    jsonStringLoop (escapeJson s ++ '"' :: r) = (s, r) := by
  induction s with
  | nil => simp [escapeJson, jsonStringLoop]
  | cons c cs ih =>
    have hc := h c (by simp)
    have := ih (fun x hx => h x (by simp [hx]))
    simp only [escapeJson] at this
    simp only [escapeJson, List.map_cons, List.flatten_cons, List.append_assoc]
    rw [escapeChar_loop c _ hc, this]


theorem jsonParseString_quoted (s r : Str) (h : jsonSafe s) :
    jsonParseString ('"' :: (escapeJson s ++ '"' :: r)) = (s, r) := by
  simp only [jsonParseString, jsonSkipWhitespace_cons '"' _ (by decide), ne_eq,
    not_true_eq_false, if_false]
  exact jsonStringLoop_escaped s r h

theorem jsonParseString_space_quoted (s r : Str) (h : jsonSafe s) :
    jsonParseString (' ' :: '"' :: (escapeJson s ++ '"' :: r)) = (s, r) := by
  rw [← jsonParseString_quoted s r h]
  simp only [jsonParseString, jsonSkipWhitespace_space]

theorem jsonParseString_key (k r : Str) (h : ∀ c ∈ k, c ≠ '"' ∧ c ≠ '\\') :
    jsonParseString ('"' :: (k ++ '"' :: r)) = (k, r) := by
  simp only [jsonParseString, jsonSkipWhitespace_cons '"' _ (by decide), ne_eq,
    not_true_eq_false, if_false]
  exact jsonStringLoop_plain k r h

theorem jsonMatch_here (c : Char) (r : Str)
    (h : (c == ' ' || c == '\t' || c == '\n' || c == '\r') = false) :
    jsonMatch c (c :: r) = (true, r) := by
  simp [jsonMatch, jsonSkipWhitespace_cons c r h]

theorem jsonMatch_space (c : Char) (r : Str)
    (h : (c == ' ' || c == '\t' || c == '\n' || c == '\r') = false) :
    jsonMatch c (' ' :: c :: r) = (true, r) := by
  simp [jsonMatch, jsonSkipWhitespace_space, jsonSkipWhitespace_cons c r h]

theorem jsonMatch_miss (c d : Char) (r : Str)
    (h : (d == ' ' || d == '\t' || d == '\n' || d == '\r') = false) (hne : d ≠ c) :
    jsonMatch c (d :: r) = (false, d :: r) := by
  simp [jsonMatch, jsonSkipWhitespace_cons d r h, hne]

theorem numberChar_not_ws (c : Char) (h : isNumberChar c = true) :
    (c == ' ' || c == '\t' || c == '\n' || c == '\r') = false := by
  by_cases h1 : c = ' '
  · subst h1; revert h; decide
  by_cases h2 : c = '\t'
  · subst h2; revert h; decide
  by_cases h3 : c = '\n'
  · subst h3; revert h; decide
  by_cases h4 : c = '\r'
  · subst h4; revert h; decide
  simp [h1, h2, h3, h4]

theorem takeWhile_append_stop (p : Char → Bool) (s : Str) (d : Char) (r : Str)
    (hs : ∀ c ∈ s, p c = true) (hd : p d = false) :
    (s ++ d :: r).takeWhile p = s ∧ (s ++ d :: r).dropWhile p = d :: r := by
  induction s with
  | nil => simp [List.takeWhile, List.dropWhile, hd]
  | cons c cs ih =>
    have hc := hs c (by simp)
    have := ih (fun x hx => hs x (by simp [hx]))
    simp [List.takeWhile, List.dropWhile, hc, this]

/-- Reading back a printed timestamp. -/
theorem jsonParseNumber_fmt {τ : Type} (stod : Str → Option τ) (str : Str) (t : τ) (r : Str)
    (hstod : stod str = some t) (hchars : ∀ c ∈ str, isNumberChar c = true) :
    jsonParseNumber stod (' ' :: (str ++ ',' :: r)) = Except.ok (t, ',' :: r) := by
  have hws : jsonSkipWhitespace (' ' :: (str ++ ',' :: r)) = str ++ ',' :: r := by
    rw [jsonSkipWhitespace_space]
    cases str with
    | nil => exact jsonSkipWhitespace_cons ',' r (by decide)
    | cons c cs => exact jsonSkipWhitespace_cons c _ (numberChar_not_ws c (hchars c (by simp)))
  simp only [jsonParseNumber, hws]
  cases str with
  | nil =>
    have h0 : isNumberChar ',' = false := by decide
    have h4 : ¬ (',' = '-') := by decide
    simp [List.takeWhile, List.dropWhile, h0, h4, hstod]
  | cons c cs =>
    have hcs : ∀ x ∈ cs, isNumberChar x = true := fun x hx => hchars x (by simp [hx])
    have hsplit := takeWhile_append_stop isNumberChar cs ',' r hcs (by decide)
    by_cases hm : c = '-'
    · subst hm
      simp [hsplit.1, hsplit.2, hstod]
    · have hsplit2 := takeWhile_append_stop isNumberChar (c :: cs) ',' r hchars (by decide)
      simp only [List.cons_append] at hsplit2
      simp [hm, hsplit2.1, hsplit2.2, hstod]


theorem jsonIncludesLoop_space (fuel : Nat) (t : Str) (acc : List Str) (ht : t ≠ []) :
    jsonIncludesLoop fuel (' ' :: t) acc = jsonIncludesLoop fuel t acc := by
  cases fuel with
  | zero => simp [jsonIncludesLoop, ht]
  | succ f => simp [jsonIncludesLoop, ht, jsonSkipWhitespace_space]

theorem jsonIncludesLoop_close (fuel : Nat) (r : Str) (acc : List Str) :
    jsonIncludesLoop (fuel + 1) (']' :: r) acc = Except.ok (acc, r) := by
  simp [jsonIncludesLoop, jsonSkipWhitespace_cons ']' r (by decide)]

theorem joinComma_cons_ne_nil (x : Str) (xs : List Str) (r : Str) (c : Char) :
    joinComma (x :: xs) ++ c :: r ≠ [] := by
  intro h
  have := congrArg List.length h
  simp at this

theorem jsonIncludesLoop_step (f : Nat) (x rest : Str) (acc : List Str) (hx : jsonSafe x) :
    jsonIncludesLoop (f + 1) ('"' :: (escapeJson x ++ '"' :: rest)) acc =
      jsonIncludesLoop f (jsonMatch ',' rest).2 (acc ++ [x]) := by
  have h1 : jsonSkipWhitespace ('"' :: (escapeJson x ++ '"' :: rest)) =
      '"' :: (escapeJson x ++ '"' :: rest) := jsonSkipWhitespace_cons _ _ (by decide)
  simp only [jsonIncludesLoop, h1, jsonParseString_quoted x _ hx]
  simp

/-- Reading back a printed include list. -/
theorem jsonIncludesLoop_items (incs : List Str) :
    ∀ (fuel : Nat) (acc : List Str) (r : Str), incs.length < fuel →
      (∀ inc ∈ incs, jsonSafe inc) →
      jsonIncludesLoop fuel
        (joinComma (incs.map (fun inc => ['"'] ++ escapeJson inc ++ ['"'])) ++ ']' :: r) acc =
        Except.ok (acc ++ incs, r) := by
  induction incs with
  | nil =>
    intro fuel acc r hf _
    obtain ⟨f, rfl⟩ : ∃ f, fuel = f + 1 := ⟨fuel - 1, by simp at hf; omega⟩
    simpa [joinComma] using jsonIncludesLoop_close f r acc
  | cons x xs ih =>
    intro fuel acc r hf hsafe
    obtain ⟨f, rfl⟩ : ∃ f, fuel = f + 1 := ⟨fuel - 1, by simp at hf; omega⟩
    have hx := hsafe x (by simp)
    have hxs : ∀ inc ∈ xs, jsonSafe inc := fun i hi => hsafe i (by simp [hi])
    have hlen : xs.length < f := by simp at hf; omega
    have h2 := ih f (acc ++ [x]) r hlen hxs
    cases xs with
    | nil =>
      have htext : joinComma ([x].map (fun inc => ['"'] ++ escapeJson inc ++ ['"'])) ++ ']' :: r =
          '"' :: (escapeJson x ++ '"' :: ']' :: r) := by
        simp [joinComma]
      simp only [List.map_nil, joinComma, List.nil_append] at h2
      rw [htext, jsonIncludesLoop_step f x _ acc hx,
        jsonMatch_miss ',' ']' r (by decide) (by decide), h2]
      simp
    | cons y ys =>
      have htext : joinComma ((x :: y :: ys).map (fun inc => ['"'] ++ escapeJson inc ++ ['"'])) ++
          ']' :: r = '"' :: (escapeJson x ++ '"' :: ',' :: ' ' ::
            (joinComma ((y :: ys).map (fun inc => ['"'] ++ escapeJson inc ++ ['"'])) ++
              ']' :: r)) := by
        simp only [List.map_cons, joinComma, List.append_assoc, List.cons_append,
          List.nil_append]
        rfl
      have h3 := jsonIncludesLoop_space f
        (joinComma ((y :: ys).map (fun inc => ['"'] ++ escapeJson inc ++ ['"'])) ++ ']' :: r)
        (acc ++ [x]) (by
          simp only [List.map_cons]
          exact joinComma_cons_ne_nil _ _ _ _)
      rw [htext, jsonIncludesLoop_step f x _ acc hx, jsonMatch_here ',' _ (by decide), h3, h2]
      simp


section ParserLemmas

variable {τ : Type} [Zero τ]

set_option linter.unusedSectionVars false

theorem jsonFileInfoLoop_space (stod : Str → Option τ) (n fuel : Nat) (t : Str)
    (info : FileInfo τ) (ht : t ≠ []) :
    jsonFileInfoLoop stod n fuel (' ' :: t) info = jsonFileInfoLoop stod n fuel t info := by
  cases fuel with
  | zero => simp [jsonFileInfoLoop, ht]
  | succ f => simp [jsonFileInfoLoop, ht, jsonSkipWhitespace_space]

theorem jsonFileInfoLoop_close (stod : Str → Option τ) (n fuel : Nat) (r : Str)
    (info : FileInfo τ) :
    jsonFileInfoLoop stod n (fuel + 1) ('\x7d' :: r) info = Except.ok (info, r) := by
  simp [jsonFileInfoLoop, jsonSkipWhitespace_cons '\x7d' r (by decide)]

theorem jsonFileInfoLoop_step (stod : Str → Option τ) (n f : Nat) (key v : Str)
    (info : FileInfo τ) (hkey : ∀ c ∈ key, c ≠ '"' ∧ c ≠ '\\') :
    jsonFileInfoLoop stod n (f + 1) ('"' :: (key ++ '"' :: ':' :: v)) info =
      match jsonField stod n key v info with
      | Except.error e => Except.error e
      | Except.ok (info1, rest2) => jsonFileInfoLoop stod n f (jsonMatch ',' rest2).2 info1 := by
  have h1 : jsonSkipWhitespace ('"' :: (key ++ '"' :: ':' :: v)) =
      '"' :: (key ++ '"' :: ':' :: v) := jsonSkipWhitespace_cons _ _ (by decide)
  simp only [jsonFileInfoLoop, h1, jsonParseString_key key _ hkey,
    jsonMatch_here ':' v (by decide)]
  simp only [reduceCtorEq, if_false, List.head?_cons, Option.some.injEq, Bool.not_true,
    Bool.false_eq_true]
  refine (if_neg (by decide)).trans ?_
  cases jsonField stod n key v info <;> rfl

theorem writeFileInfo_shape (fmt : τ → Str) (info : FileInfo τ) (r : Str) :
    writeFileInfo fmt info ++ r =
      '\x7b' :: '"' :: ("name".toList ++ '"' :: ':' :: ' ' :: '"' :: (escapeJson info.name ++
        '"' :: ',' :: ' ' :: '"' :: ("timestamp".toList ++ '"' :: ':' :: ' ' ::
          (fmt info.timestamp ++ ',' :: ' ' :: '"' :: ("includes".toList ++ '"' :: ':' :: ' ' ::
            '[' :: (joinComma (info.includes.map (fun inc => ['"'] ++ escapeJson inc ++ ['"'])) ++
              ']' :: '\x7d' :: r)))))) := by
  simp only [writeFileInfo, List.append_assoc]
  rfl

theorem plain_name : ∀ c ∈ "name".toList, c ≠ '"' ∧ c ≠ '\\' := by decide
theorem plain_timestamp : ∀ c ∈ "timestamp".toList, c ≠ '"' ∧ c ≠ '\\' := by decide
theorem plain_includes : ∀ c ∈ "includes".toList, c ≠ '"' ∧ c ≠ '\\' := by decide
theorem plain_root_files : ∀ c ∈ "root_files".toList, c ≠ '"' ∧ c ≠ '\\' := by decide
theorem plain_file_info : ∀ c ∈ "file_info".toList, c ≠ '"' ∧ c ≠ '\\' := by decide

/-- Reading back one printed record. -/
theorem jsonParseFileInfo_write (fmt : τ → Str) (stod : Str → Option τ) (n : Nat)
    (info : FileInfo τ) (r : Str) (hs : infoSurvives fmt stod info)
    (hn : info.includes.length + 4 ≤ n) :
    jsonParseFileInfo stod n (writeFileInfo fmt info ++ r) =
      Except.ok (info.setChecked false, r) := by
  obtain ⟨f, rfl⟩ : ∃ f, n = f + 4 := ⟨n - 4, by omega⟩
  obtain ⟨hname, hincs, hstod, hchars⟩ := hs
  rw [writeFileInfo_shape]
  simp only [jsonParseFileInfo, jsonMatch_here '\x7b' _ (by decide), Bool.not_true,
    Bool.false_eq_true, if_false]
  -- the member "name"
  rw [jsonFileInfoLoop_step stod (f + 4) (f + 3) _ _ _ plain_name]
  have hf1 : ∀ (v : Str) (i : FileInfo τ), jsonField stod (f + 4) "name".toList
      (' ' :: '"' :: (escapeJson info.name ++ '"' :: v)) i =
      Except.ok ({ i with name := info.name }, v) := by
    intro v i
    simp only [jsonField, if_true, jsonParseString_space_quoted info.name v hname]
  rw [hf1]
  simp only []
  rw [jsonMatch_here ',' _ (by decide), jsonFileInfoLoop_space _ _ _ _ _ (by simp)]
  -- the member "timestamp"
  rw [jsonFileInfoLoop_step stod (f + 4) (f + 2) _ _ _ plain_timestamp]
  have hf2 : ∀ (v : Str) (i : FileInfo τ), jsonField stod (f + 4) "timestamp".toList
      (' ' :: (fmt info.timestamp ++ ',' :: v)) i =
      Except.ok ({ i with timestamp := info.timestamp }, ',' :: v) := by
    intro v i
    have hne : ¬ ("timestamp".toList = "name".toList) := by decide
    simp only [jsonField, hne, if_false, if_true,
      jsonParseNumber_fmt stod _ info.timestamp v hstod hchars]
  rw [hf2]
  simp only []
  rw [jsonMatch_here ',' _ (by decide), jsonFileInfoLoop_space _ _ _ _ _ (by simp)]
  -- the member "includes"
  rw [jsonFileInfoLoop_step stod (f + 4) (f + 1) _ _ _ plain_includes]
  have hf3 : ∀ (v : Str) (i : FileInfo τ), i.includes = [] →
      jsonField stod (f + 4) "includes".toList
      (' ' :: '[' :: (joinComma (info.includes.map (fun inc => ['"'] ++ escapeJson inc ++ ['"'])) ++
        ']' :: v)) i =
      Except.ok ({ i with includes := info.includes }, v) := by
    intro v i hi
    have hne1 : ¬ ("includes".toList = "name".toList) := by decide
    have hne2 : ¬ ("includes".toList = "timestamp".toList) := by decide
    simp only [jsonField, hne1, hne2, if_false, if_true, jsonMatch_space '[' _ (by decide),
      hi, jsonIncludesLoop_items info.includes (f + 4) [] v (by omega) hincs,
      List.nil_append]
  rw [hf3 _ _ rfl]
  simp only []
  rw [jsonMatch_miss ',' '\x7d' r (by decide) (by decide), jsonFileInfoLoop_close]
  rfl


theorem writeFileInfo_head (fmt : τ → Str) (info : FileInfo τ) (r : Str) :
    ∃ t, writeFileInfo fmt info ++ r = '\x7b' :: t := ⟨_, writeFileInfo_shape fmt info r⟩

theorem jsonParseFileInfo_space (stod : Str → Option τ) (n : Nat) (t : Str) :
    jsonParseFileInfo stod n (' ' :: t) = jsonParseFileInfo stod n t := by
  simp [jsonParseFileInfo, jsonMatch, jsonSkipWhitespace_space]

theorem jsonRootsLoop_space (stod : Str → Option τ) (n fuel : Nat) (t : Str)
    (acc : List (FileInfo τ)) (ht : t ≠ []) :
    jsonRootsLoop stod n fuel (' ' :: t) acc = jsonRootsLoop stod n fuel t acc := by
  cases fuel with
  | zero => simp [jsonRootsLoop, ht]
  | succ f => simp [jsonRootsLoop, ht, jsonSkipWhitespace_space]

theorem jsonRootsLoop_close (stod : Str → Option τ) (n fuel : Nat) (r : Str)
    (acc : List (FileInfo τ)) :
    jsonRootsLoop stod n (fuel + 1) (']' :: r) acc = Except.ok (acc, r) := by
  simp [jsonRootsLoop, jsonSkipWhitespace_cons ']' r (by decide)]

theorem jsonRootsLoop_step (fmt : τ → Str) (stod : Str → Option τ) (n f : Nat)
    (info : FileInfo τ) (rest : Str) (acc : List (FileInfo τ))
    (hs : infoSurvives fmt stod info) (hn : info.includes.length + 4 ≤ n) :
    jsonRootsLoop stod n (f + 1) (writeFileInfo fmt info ++ rest) acc =
      jsonRootsLoop stod n f (jsonMatch ',' rest).2 (acc ++ [info.setChecked false]) := by
  have hp := jsonParseFileInfo_write fmt stod n info rest hs hn
  obtain ⟨t, ht⟩ := writeFileInfo_head fmt info rest
  rw [ht] at hp ⊢
  have h1 : jsonSkipWhitespace ('\x7b' :: t) = '\x7b' :: t :=
    jsonSkipWhitespace_cons _ _ (by decide)
  simp only [jsonRootsLoop, h1, hp]
  simp only [reduceCtorEq, if_false, List.head?_cons, Option.some.injEq]
  rw [if_neg (by decide)]

/-- Reading back the printed list of roots. -/
theorem jsonRootsLoop_items (fmt : τ → Str) (stod : Str → Option τ) (n : Nat)
    (infos : List (FileInfo τ)) :
    ∀ (fuel : Nat) (acc : List (FileInfo τ)) (r : Str), infos.length < fuel →
      (∀ i ∈ infos, infoSurvives fmt stod i ∧ i.includes.length + 4 ≤ n) →
      jsonRootsLoop stod n fuel (joinComma (infos.map (writeFileInfo fmt)) ++ ']' :: r) acc =
        Except.ok (acc ++ infos.map (fun i => i.setChecked false), r) := by
  induction infos with
  | nil =>
    intro fuel acc r hf _
    obtain ⟨f, rfl⟩ : ∃ f, fuel = f + 1 := ⟨fuel - 1, by simp at hf; omega⟩
    simpa [joinComma] using jsonRootsLoop_close stod n f r acc
  | cons x xs ih =>
    intro fuel acc r hf hall
    obtain ⟨f, rfl⟩ : ∃ f, fuel = f + 1 := ⟨fuel - 1, by simp at hf; omega⟩
    have hx := hall x (by simp)
    have hxs : ∀ i ∈ xs, infoSurvives fmt stod i ∧ i.includes.length + 4 ≤ n :=
      fun i hi => hall i (by simp [hi])
    have hlen : xs.length < f := by simp at hf; omega
    have h2 := ih f (acc ++ [x.setChecked false]) r hlen hxs
    cases xs with
    | nil =>
      have htext : joinComma ([x].map (writeFileInfo fmt)) ++ ']' :: r =
          writeFileInfo fmt x ++ ']' :: r := by
        simp [joinComma]
      simp only [List.map_nil, joinComma, List.nil_append] at h2
      rw [htext, jsonRootsLoop_step fmt stod n f x _ acc hx.1 hx.2,
        jsonMatch_miss ',' ']' r (by decide) (by decide), h2]
      simp
    | cons y ys =>
      have htext : joinComma ((x :: y :: ys).map (writeFileInfo fmt)) ++ ']' :: r =
          writeFileInfo fmt x ++ ',' :: ' ' ::
            (joinComma ((y :: ys).map (writeFileInfo fmt)) ++ ']' :: r) := by
        simp only [List.map_cons, joinComma, List.append_assoc, List.cons_append,
          List.nil_append]
        rfl
      have h3 := jsonRootsLoop_space stod n f
        (joinComma ((y :: ys).map (writeFileInfo fmt)) ++ ']' :: r)
        (acc ++ [x.setChecked false]) (by
          simp only [List.map_cons]
          exact joinComma_cons_ne_nil _ _ _ _)
      rw [htext, jsonRootsLoop_step fmt stod n f x _ acc hx.1 hx.2,
        jsonMatch_here ',' _ (by decide), h3, h2]
      simp

theorem jsonNodesLoop_space (stod : Str → Option τ) (n fuel : Nat) (t : Str)
    (acc : List (Str × FileInfo τ)) (ht : t ≠ []) :
    jsonNodesLoop stod n fuel (' ' :: t) acc = jsonNodesLoop stod n fuel t acc := by
  cases fuel with
  | zero => simp [jsonNodesLoop, ht]
  | succ f => simp [jsonNodesLoop, ht, jsonSkipWhitespace_space]

theorem jsonNodesLoop_close (stod : Str → Option τ) (n fuel : Nat) (r : Str)
    (acc : List (Str × FileInfo τ)) :
    jsonNodesLoop stod n (fuel + 1) ('\x7d' :: r) acc = Except.ok (acc, r) := by
  simp [jsonNodesLoop, jsonSkipWhitespace_cons '\x7d' r (by decide)]

theorem jsonNodesLoop_step (fmt : τ → Str) (stod : Str → Option τ) (n f : Nat)
    (k : Str) (info : FileInfo τ) (rest : Str) (acc : List (Str × FileInfo τ))
    (hk : jsonSafe k) (hs : infoSurvives fmt stod info) (hn : info.includes.length + 4 ≤ n) :
    jsonNodesLoop stod n (f + 1)
        ('"' :: (escapeJson k ++ '"' :: ':' :: ' ' :: (writeFileInfo fmt info ++ rest))) acc =
      jsonNodesLoop stod n f (jsonMatch ',' rest).2 (mapSet k (info.setChecked false) acc) := by
  have hp := jsonParseFileInfo_write fmt stod n info rest hs hn
  have h1 : jsonSkipWhitespace ('"' :: (escapeJson k ++ '"' :: ':' :: ' ' ::
      (writeFileInfo fmt info ++ rest))) = '"' :: (escapeJson k ++ '"' :: ':' :: ' ' ::
      (writeFileInfo fmt info ++ rest)) := jsonSkipWhitespace_cons _ _ (by decide)
  simp only [jsonNodesLoop, h1, jsonParseString_quoted k _ hk, jsonMatch_here ':' _ (by decide),
    jsonParseFileInfo_space, hp]
  simp only [reduceCtorEq, if_false, List.head?_cons, Option.some.injEq, Bool.not_true,
    Bool.false_eq_true]
  rw [if_neg (by decide)]

/-- Reading back the printed map of nodes. -/
theorem jsonNodesLoop_items (fmt : τ → Str) (stod : Str → Option τ) (n : Nat)
    (nodes : List (Str × FileInfo τ)) :
    ∀ (fuel : Nat) (acc : List (Str × FileInfo τ)) (r : Str), nodes.length < fuel →
      (∀ kv ∈ nodes, jsonSafe kv.1 ∧ infoSurvives fmt stod kv.2 ∧
        kv.2.includes.length + 4 ≤ n) →
      jsonNodesLoop stod n fuel (joinComma (nodes.map
        (fun kv => ['"'] ++ escapeJson kv.1 ++ "\": ".toList ++ writeFileInfo fmt kv.2)) ++
        '\x7d' :: r) acc =
        Except.ok (nodes.foldl (fun m kv => mapSet kv.1 (kv.2.setChecked false) m) acc, r) := by
  induction nodes with
  | nil =>
    intro fuel acc r hf _
    obtain ⟨f, rfl⟩ : ∃ f, fuel = f + 1 := ⟨fuel - 1, by simp at hf; omega⟩
    simpa [joinComma] using jsonNodesLoop_close stod n f r acc
  | cons x xs ih =>
    intro fuel acc r hf hall
    obtain ⟨f, rfl⟩ : ∃ f, fuel = f + 1 := ⟨fuel - 1, by simp at hf; omega⟩
    have hx := hall x (by simp)
    have hxs : ∀ kv ∈ xs, jsonSafe kv.1 ∧ infoSurvives fmt stod kv.2 ∧
        kv.2.includes.length + 4 ≤ n := fun i hi => hall i (by simp [hi])
    have hlen : xs.length < f := by simp at hf; omega
    have h2 := ih f (mapSet x.1 (x.2.setChecked false) acc) r hlen hxs
    cases xs with
    | nil =>
      have htext : joinComma ([x].map
          (fun kv => ['"'] ++ escapeJson kv.1 ++ "\": ".toList ++ writeFileInfo fmt kv.2)) ++
          '\x7d' :: r = '"' :: (escapeJson x.1 ++ '"' :: ':' :: ' ' ::
            (writeFileInfo fmt x.2 ++ '\x7d' :: r)) := by
        simp only [List.map_cons, List.map_nil, joinComma, List.append_assoc, List.cons_append,
          List.nil_append]
        rfl
      simp only [List.map_nil, joinComma, List.nil_append] at h2
      rw [htext, jsonNodesLoop_step fmt stod n f x.1 x.2 _ acc hx.1 hx.2.1 hx.2.2,
        jsonMatch_miss ',' '\x7d' r (by decide) (by decide), h2]
      simp
    | cons y ys =>
      have htext : joinComma ((x :: y :: ys).map
          (fun kv => ['"'] ++ escapeJson kv.1 ++ "\": ".toList ++ writeFileInfo fmt kv.2)) ++
          '\x7d' :: r = '"' :: (escapeJson x.1 ++ '"' :: ':' :: ' ' ::
            (writeFileInfo fmt x.2 ++ ',' :: ' ' :: (joinComma ((y :: ys).map
            (fun kv => ['"'] ++ escapeJson kv.1 ++ "\": ".toList ++ writeFileInfo fmt kv.2)) ++
            '\x7d' :: r))) := by
        simp only [List.map_cons, joinComma, List.append_assoc, List.cons_append,
          List.nil_append]
        rfl
      have h3 := jsonNodesLoop_space stod n f
        (joinComma ((y :: ys).map
          (fun kv => ['"'] ++ escapeJson kv.1 ++ "\": ".toList ++ writeFileInfo fmt kv.2)) ++
          '\x7d' :: r)
        (mapSet x.1 (x.2.setChecked false) acc) (by
          simp only [List.map_cons]
          exact joinComma_cons_ne_nil _ _ _ _)
      rw [htext, jsonNodesLoop_step fmt stod n f x.1 x.2 _ acc hx.1 hx.2.1 hx.2.2,
        jsonMatch_here ',' _ (by decide), h3, h2]
      simp


theorem jsonTopLoop_space (stod : Str → Option τ) (n fuel : Nat) (t : Str)
    (c : FileCollection τ) (ht : t ≠ []) :
    jsonTopLoop stod n fuel (' ' :: t) c = jsonTopLoop stod n fuel t c := by
  cases fuel with
  | zero => simp [jsonTopLoop, ht]
  | succ f => simp [jsonTopLoop, ht, jsonSkipWhitespace_space]

theorem jsonTopLoop_close (stod : Str → Option τ) (n fuel : Nat) (r : Str)
    (c : FileCollection τ) :
    jsonTopLoop stod n (fuel + 1) ('\x7d' :: r) c = Except.ok (c, r) := by
  simp [jsonTopLoop, jsonSkipWhitespace_cons '\x7d' r (by decide)]

theorem jsonTopLoop_step (stod : Str → Option τ) (n f : Nat) (key v : Str)
    (c : FileCollection τ) (hkey : ∀ x ∈ key, x ≠ '"' ∧ x ≠ '\\') :
    jsonTopLoop stod n (f + 1) ('"' :: (key ++ '"' :: ':' :: v)) c =
      match jsonTopField stod n key v c with
      | Except.error e => Except.error e
      | Except.ok (c1, rest2) => jsonTopLoop stod n f (jsonMatch ',' rest2).2 c1 := by
  have h1 : jsonSkipWhitespace ('"' :: (key ++ '"' :: ':' :: v)) =
      '"' :: (key ++ '"' :: ':' :: v) := jsonSkipWhitespace_cons _ _ (by decide)
  simp only [jsonTopLoop, h1, jsonParseString_key key _ hkey,
    jsonMatch_here ':' v (by decide)]
  simp only [reduceCtorEq, if_false, List.head?_cons, Option.some.injEq, Bool.not_true,
    Bool.false_eq_true]
  refine (if_neg (by decide)).trans ?_
  cases jsonTopField stod n key v c <;> rfl

theorem toJson_shape (fmt : τ → Str) (c : FileCollection τ) :
    toJson fmt c =
      '\x7b' :: '"' :: ("root_files".toList ++ '"' :: ':' :: ' ' :: '[' ::
        (joinComma (c.root_files.map (writeFileInfo fmt)) ++ ']' :: ',' :: ' ' :: '"' ::
          ("file_info".toList ++ '"' :: ':' :: ' ' :: '\x7b' ::
            (joinComma (c.file_info.map
              (fun kv => ['"'] ++ escapeJson kv.1 ++ "\": ".toList ++ writeFileInfo fmt kv.2)) ++
              '\x7d' :: '\x7d' :: [])))) := by
  simp only [toJson, List.append_assoc]
  rfl

/-- Parsing the text written by `toJson` gives back every record, with the `checked`
flags down and the map rebuilt by assignments in the order written. -/
theorem jsonParse_toJson (fmt : τ → Str) (stod : Str → Option τ) (n : Nat)
    (c : FileCollection τ) (c0 : FileCollection τ)
    (hroots : ∀ i ∈ c.root_files, infoSurvives fmt stod i ∧ i.includes.length + 4 ≤ n)
    (hnodes : ∀ kv ∈ c.file_info, jsonSafe kv.1 ∧ infoSurvives fmt stod kv.2 ∧
      kv.2.includes.length + 4 ≤ n)
    (hn : 3 ≤ n) (hr : c.root_files.length < n) (hf : c.file_info.length < n) :
    jsonParse stod n (toJson fmt c) c0 = Except.ok (true,
      { root_files := c0.root_files ++ c.root_files.map (fun i => i.setChecked false),
        file_info := c.file_info.foldl
          (fun m kv => mapSet kv.1 (kv.2.setChecked false) m) c0.file_info }) := by
  obtain ⟨f, rfl⟩ : ∃ f, n = f + 3 := ⟨n - 3, by omega⟩
  rw [toJson_shape]
  simp only [jsonParse, jsonMatch_here '\x7b' _ (by decide), Bool.not_true,
    Bool.false_eq_true, if_false]
  rw [jsonTopLoop_step stod (f + 3) (f + 2) _ _ _ plain_root_files]
  have h1 : ∀ (v : Str), jsonTopField stod (f + 3) "root_files".toList
      (' ' :: '[' :: (joinComma (c.root_files.map (writeFileInfo fmt)) ++ ']' :: v)) c0 =
      Except.ok ({ c0 with root_files :=
        c0.root_files ++ c.root_files.map (fun i => i.setChecked false) }, v) := by
    intro v
    simp only [jsonTopField, if_true, jsonMatch_space '[' _ (by decide),
      jsonRootsLoop_items fmt stod (f + 3) c.root_files (f + 3) c0.root_files v hr hroots]
  rw [h1]
  simp only []
  rw [jsonMatch_here ',' _ (by decide), jsonTopLoop_space _ _ _ _ _ (by simp)]
  rw [jsonTopLoop_step stod (f + 3) (f + 1) _ _ _ plain_file_info]
  have h2 : ∀ (v : Str) (c1 : FileCollection τ), jsonTopField stod (f + 3) "file_info".toList
      (' ' :: '\x7b' :: (joinComma (c.file_info.map
        (fun kv => ['"'] ++ escapeJson kv.1 ++ "\": ".toList ++ writeFileInfo fmt kv.2)) ++
        '\x7d' :: v)) c1 =
      Except.ok ({ c1 with file_info := (c.file_info.foldl
        (fun m kv => mapSet kv.1 (kv.2.setChecked false) m) c1.file_info) }, v) := by
    intro v c1
    have hne : ¬ ("file_info".toList = "root_files".toList) := by decide
    simp only [jsonTopField, hne, if_false, if_true, jsonMatch_space '\x7b' _ (by decide),
      jsonNodesLoop_items fmt stod (f + 3) c.file_info (f + 3) c1.file_info v hf hnodes]
  rw [h2]
  simp only []
  rw [jsonMatch_miss ',' '\x7d' [] (by decide) (by decide), jsonTopLoop_close]

omit [Zero τ] in
theorem foldl_mapSet_fresh (g : FileInfo τ → FileInfo τ) (nodes : List (Str × FileInfo τ)) :
    ∀ (acc : List (Str × FileInfo τ)), (mapKeys nodes).Nodup →
      (∀ k ∈ mapKeys nodes, k ∉ mapKeys acc) →
      nodes.foldl (fun m kv => mapSet kv.1 (g kv.2) m) acc =
        acc ++ nodes.map (fun kv => (kv.1, g kv.2)) := by
  induction nodes with
  | nil => intro acc _ _; simp
  | cons x xs ih =>
    intro acc hnd hfresh
    simp only [mapKeys, List.map_cons, List.nodup_cons] at hnd
    have hx : x.1 ∉ mapKeys acc :=
      hfresh x.1 (by simp only [mapKeys, List.map_cons, List.mem_cons, true_or])
    have hset : mapSet x.1 (g x.2) acc = acc ++ [(x.1, g x.2)] := by
      clear ih hfresh hnd
      induction acc with
      | nil => rfl
      | cons a as iha =>
        simp only [mapKeys, List.map_cons, List.mem_cons, not_or] at hx
        have h1 : ¬ a.1 = x.1 := fun e => hx.1 e.symm
        simp only [mapSet, h1, if_false, List.cons_append, List.cons.injEq, true_and]
        exact iha hx.2
    simp only [List.foldl_cons, hset]
    rw [ih (acc ++ [(x.1, g x.2)]) hnd.2]
    · simp only [List.map_cons, List.append_assoc, List.singleton_append]
    · intro k hk hmem
      simp only [mapKeys, List.map_append, List.map_cons, List.map_nil, List.mem_append,
        List.mem_singleton] at hmem
      rcases hmem with hmem | hmem
      · exact hfresh k (by simp only [mapKeys, List.map_cons, List.mem_cons]; exact Or.inr hk)
          hmem
      · subst hmem
        exact hnd.1 hk

omit [Zero τ] in
theorem includes_le_snapshotFuel (c : FileCollection τ) :
    (∀ i ∈ c.root_files, i.includes.length + 4 ≤ snapshotFuel c) ∧
    (∀ kv ∈ c.file_info, kv.2.includes.length + 4 ≤ snapshotFuel c) := by
  constructor
  · intro i hi
    have := List.single_le_sum (l := c.root_files.map (fun i => i.includes.length))
      (by intro x _; exact Nat.zero_le x) i.includes.length
      (List.mem_map.2 ⟨i, hi, rfl⟩)
    unfold snapshotFuel
    omega
  · intro kv hkv
    have := List.single_le_sum (l := c.file_info.map (fun kv => kv.2.includes.length))
      (by intro x _; exact Nat.zero_le x) kv.2.includes.length
      (List.mem_map.2 ⟨kv, hkv, rfl⟩)
    unfold snapshotFuel
    omega

/-- A collection with distinct keys whose records survive the snapshot is read back
unchanged, up to the `checked` flags. -/
theorem fromJson_toJson (fmt : τ → Str) (stod : Str → Option τ) (n : Nat)
    (c : FileCollection τ) (hn : snapshotFuel c ≤ n)
    (hkeys : (mapKeys c.file_info).Nodup)
    (hroots : ∀ i ∈ c.root_files, infoSurvives fmt stod i)
    (hnodes : ∀ kv ∈ c.file_info, jsonSafe kv.1 ∧ infoSurvives fmt stod kv.2) :
    fromJson stod n (toJson fmt c) = Except.ok (true, c.unchecked) := by
  have hb := includes_le_snapshotFuel c
  have hn2 : 4 + c.root_files.length + c.file_info.length ≤ n := by
    unfold snapshotFuel at hn
    omega
  rw [fromJson, jsonParse_toJson fmt stod n c FileCollection.clear
    (fun i hi => ⟨hroots i hi, le_trans (hb.1 i hi) hn⟩)
    (fun kv hkv => ⟨(hnodes kv hkv).1, (hnodes kv hkv).2, le_trans (hb.2 kv hkv) hn⟩)
    (by omega) (by omega) (by omega)]
  rw [foldl_mapSet_fresh (fun i => i.setChecked false) c.file_info
    (FileCollection.clear : FileCollection τ).file_info hkeys
    (by intro k _ h; simp [FileCollection.clear, mapKeys] at h)]
  simp only [FileCollection.clear, FileCollection.unchecked, List.nil_append]

end ParserLemmas


/-! ## The statements -/

section Claims

variable {τ : Type} [LinearOrder τ] [Zero τ]

omit [LinearOrder τ] [Zero τ] in
/-- A path reached from a path with a node has a node, when every stored include has one. -/
theorem reach_mem_keys (nodes : List (Str × FileInfo τ))
    (hclosed : ∀ p info, mapFind p nodes = some info → ∀ q ∈ info.includes, q ∈ mapKeys nodes)
    {p q : Str} (h : Reach (nodeIncs nodes) p q) (hp : p ∈ mapKeys nodes) :
    q ∈ mapKeys nodes := by
  induction h with
  | refl p => exact hp
  | @step p r q hmem _ ih =>
    apply ih
    unfold nodeIncs at hmem
    cases hf : mapFind p nodes with
    | none => simp [hf] at hmem
    | some info =>
      simp only [hf] at hmem
      exact hclosed p info hf r hmem

/-- C1 as written fails at a reference timestamp that is NaN. The root list `["top.sv"]`
matches the stored roots and `top.sv` has a node and exists, with the current timestamp
100; `100 <= NaN` is false, so condition (b) of the statement fails, yet
`checkUpToDate(NaN)` returns 1: the code asks whether the timestamp is greater than the
reference, and nothing is greater than NaN. -/
theorem nan_reference_up_to_date :
    (exTopBuilt 100).m_rootFiles = (exTopBuilt 100).m_collection.root_files.map FileInfo.name ∧
    Reachable (exTopBuilt 100).m_collection.file_info (exTopBuilt 100).m_rootFiles
      "top.sv".toList ∧
    getFileTimestamp exTopFs "top.sv".toList = 100 ∧
    Double.le (Double.num (getFileTimestamp exTopFs "top.sv".toList)) Double.nan = false ∧
    (checkUpToDate exTopFs 2 (exTopBuilt 100) Double.nan).map Prod.fst = some 1 :=
  ⟨by decide, ⟨"top.sv".toList, by decide, Reach.refl _⟩, by decide, by decide, by decide⟩

/-- C1, amended. For every reference timestamp `T` of the type `double`, with fuel above
the number of nodes, `checkUpToDate` returns, its result is 1 or 0, and it is 1 exactly
when (a) the current root list equals the list of stored root names, position by
position, and (b) every path reached from the root paths through the stored include
lists has a node, exists now (its timestamp is not zero) and has a current timestamp
that is not greater than `T` in the comparison of `double`. When `T` is a number `x`,
(b) asks for a current timestamp `≤ x`: a timestamp equal to `T` passes and a greater
one does not. When `T` is NaN, (b) asks for the node and the existence only. -/
theorem checkUpToDate_iff (fs : FileSystem τ) (ctx : SVDepContext τ) (T : Double τ)
    (fuel : Nat) (hfuel : ctx.m_collection.file_info.length < fuel) :
    ∃ r ctx1, checkUpToDate fs fuel ctx T = some (r, ctx1) ∧ (r = 1 ∨ r = 0) ∧
      (r = 1 ↔ (ctx.m_rootFiles = ctx.m_collection.root_files.map FileInfo.name ∧
        ∀ q, Reachable ctx.m_collection.file_info ctx.m_rootFiles q →
          (mapFind q ctx.m_collection.file_info).isSome = true ∧
          getFileTimestamp fs q ≠ 0 ∧
          Double.gt (Double.num (getFileTimestamp fs q)) T = false)) ∧
      (∀ x, T = Double.num x →
        (r = 1 ↔ (ctx.m_rootFiles = ctx.m_collection.root_files.map FileInfo.name ∧
          ∀ q, Reachable ctx.m_collection.file_info ctx.m_rootFiles q →
            (mapFind q ctx.m_collection.file_info).isSome = true ∧
            getFileTimestamp fs q ≠ 0 ∧ getFileTimestamp fs q ≤ x))) ∧
      (T = Double.nan →
        (r = 1 ↔ (ctx.m_rootFiles = ctx.m_collection.root_files.map FileInfo.name ∧
          ∀ q, Reachable ctx.m_collection.file_info ctx.m_rootFiles q →
            (mapFind q ctx.m_collection.file_info).isSome = true ∧
            getFileTimestamp fs q ≠ 0))) := by
  obtain ⟨r, ctx1, hrun, h01, hiff⟩ := checkUpToDate_spec fs ctx T fuel hfuel
  refine ⟨r, ctx1, hrun, h01, hiff, ?_, ?_⟩
  · intro x hx
    subst hx
    rw [hiff]
    simp only [OkFile, Double.gt_num]
  · intro hT
    subst hT
    rw [hiff]
    simp only [OkFile, Double.gt_nan, and_true]

/-- C1 amended, at the graph of `top.sv` with timestamp 100 and reference timestamp 100. -/
theorem checkUpToDate_iff_witness :
    (exTopBuilt 100).m_collection.file_info.length < 2 ∧
    (checkUpToDate exTopFs 2 (exTopBuilt 100) (Double.num 100)).map Prod.fst = some 1 ∧
    (checkUpToDate exTopFs 2 (exTopBuilt 100) (Double.num 99)).map Prod.fst = some 0 ∧
    ∃ r ctx1, checkUpToDate exTopFs 2 (exTopBuilt 100) (Double.num 100) = some (r, ctx1) ∧
      (r = 1 ∨ r = 0) ∧
      (r = 1 ↔ ((exTopBuilt 100).m_rootFiles =
          (exTopBuilt 100).m_collection.root_files.map FileInfo.name ∧
        ∀ q, Reachable (exTopBuilt 100).m_collection.file_info (exTopBuilt 100).m_rootFiles q →
          (mapFind q (exTopBuilt 100).m_collection.file_info).isSome = true ∧
          getFileTimestamp exTopFs q ≠ 0 ∧
          Double.gt (Double.num (getFileTimestamp exTopFs q)) (Double.num 100) = false)) ∧
      (∀ x, Double.num 100 = Double.num x →
        (r = 1 ↔ ((exTopBuilt 100).m_rootFiles =
            (exTopBuilt 100).m_collection.root_files.map FileInfo.name ∧
          ∀ q, Reachable (exTopBuilt 100).m_collection.file_info (exTopBuilt 100).m_rootFiles q →
            (mapFind q (exTopBuilt 100).m_collection.file_info).isSome = true ∧
            getFileTimestamp exTopFs q ≠ 0 ∧ getFileTimestamp exTopFs q ≤ x))) ∧
      (Double.num 100 = Double.nan →
        (r = 1 ↔ ((exTopBuilt 100).m_rootFiles =
            (exTopBuilt 100).m_collection.root_files.map FileInfo.name ∧
          ∀ q, Reachable (exTopBuilt 100).m_collection.file_info (exTopBuilt 100).m_rootFiles q →
            (mapFind q (exTopBuilt 100).m_collection.file_info).isSome = true ∧
            getFileTimestamp exTopFs q ≠ 0))) :=
  ⟨by decide, by decide, by decide,
    checkUpToDate_iff exTopFs (exTopBuilt 100) (Double.num 100) 2 (by decide)⟩

/-- C2 as written fails at a reference timestamp that is NaN. The build of the root list
`["top.sv"]` succeeds, the one recorded file `top.sv` has the present, non-zero
timestamp 100, file system and root list are unchanged, and `NaN >= 100` (that is,
`100 <= NaN`) is false; yet `checkUpToDate(NaN)` returns 1. -/
theorem nan_reference_after_build :
    build exTopFs 3 exTopCtx = some (0, exTopBuilt 100) ∧
    (∀ p ∈ mapKeys (exTopBuilt 100).m_collection.file_info, getFileTimestamp exTopFs p ≠ 0) ∧
    "top.sv".toList ∈ mapKeys (exTopBuilt 100).m_collection.file_info ∧
    Double.le (Double.num (getFileTimestamp exTopFs "top.sv".toList)) Double.nan = false ∧
    (checkUpToDate exTopFs 2 (exTopBuilt 100) Double.nan).map Prod.fst = some 1 :=
  ⟨by decide, by decide, by decide, by decide, by decide⟩

/-- C2, amended. After a `build` that returned 0, on the same file system and with the
root list untouched, if every file recorded in `nodes` has a timestamp that is present
and not zero, then for every reference timestamp `T` of the type `double`,
`checkUpToDate T` returns 1 exactly when no file recorded in `nodes` has a current
timestamp greater than `T` in the comparison of `double`, and 0 otherwise. When `T` is a
number `x`: exactly when `x` is at least the current timestamp of every file recorded
in `nodes`. When `T` is NaN the result is 1. -/
theorem checkUpToDate_after_build (fs : FileSystem τ) (fuel fuel2 : Nat)
    (ctx ctx1 : SVDepContext τ) (T : Double τ)
    (hbuild : build fs fuel ctx = some (0, ctx1))
    (hpresent : ∀ p ∈ mapKeys ctx1.m_collection.file_info, getFileTimestamp fs p ≠ 0)
    (hfuel2 : ctx1.m_collection.file_info.length < fuel2) :
    ∃ r ctx2, checkUpToDate fs fuel2 ctx1 T = some (r, ctx2) ∧ (r = 1 ∨ r = 0) ∧
      (r = 1 ↔ ∀ p ∈ mapKeys ctx1.m_collection.file_info,
        Double.gt (Double.num (getFileTimestamp fs p)) T = false) ∧
      (∀ x, T = Double.num x →
        (r = 1 ↔ ∀ p ∈ mapKeys ctx1.m_collection.file_info, getFileTimestamp fs p ≤ x)) ∧
      (T = Double.nan → r = 1) := by
  have post := build_post fs fuel ctx 0 ctx1 hbuild
  obtain ⟨_, infos, hroots, hnames, hstored⟩ := post.succeeded rfl
  have hrf : ctx1.m_rootFiles = ctx.m_rootFiles := post.rootFiles
  have hmatch : ctx1.m_rootFiles = ctx1.m_collection.root_files.map FileInfo.name := by
    rw [hrf, hroots]
    simp [FileCollection.clear, hnames]
  have hrootKeys : ∀ x ∈ ctx1.m_rootFiles, x ∈ mapKeys ctx1.m_collection.file_info := by
    intro x hx
    rw [hrf, ← hnames] at hx
    obtain ⟨i, hi, rfl⟩ := List.mem_map.1 hx
    rw [← mapFind_isSome_iff_mem_keys, hstored i hi]
    rfl
  obtain ⟨r, ctx2, hrun, h01, hiff⟩ := checkUpToDate_spec fs ctx1 T fuel2 hfuel2
  have hmain : r = 1 ↔ ∀ p ∈ mapKeys ctx1.m_collection.file_info,
      Double.gt (Double.num (getFileTimestamp fs p)) T = false := by
    rw [hiff]
    constructor
    · rintro ⟨_, hall⟩ p hp
      obtain ⟨x, hx, hreach⟩ := post.reach p hp (by simp [FileCollection.clear, mapKeys])
      exact (hall p ⟨x, by rw [hrf]; exact hx, hreach⟩).2.2
    · intro hall
      refine ⟨hmatch, ?_⟩
      rintro q ⟨x, hx, hreach⟩
      have hq : q ∈ mapKeys ctx1.m_collection.file_info :=
        reach_mem_keys _ post.inv.closed hreach (hrootKeys x hx)
      exact ⟨(mapFind_isSome_iff_mem_keys _ _).2 hq, hpresent q hq, hall q hq⟩
  refine ⟨r, ctx2, hrun, h01, hmain, ?_, ?_⟩
  · intro x hx
    subst hx
    rw [hmain]
    simp only [Double.gt_num]
  · intro hT
    subst hT
    rw [hmain]
    intro p _
    exact Double.gt_nan _

/-- C2 amended, at the root list `["top.sv"]` with `top.sv` of timestamp 100 and no
includes: the build succeeds, the check gives 1 for `T = 100` and 0 for `T = 99`. -/
theorem checkUpToDate_after_build_witness :
    build exTopFs 3 exTopCtx = some (0, exTopBuilt 100) ∧
    (checkUpToDate exTopFs 2 (exTopBuilt 100) (Double.num 100)).map Prod.fst = some 1 ∧
    (checkUpToDate exTopFs 2 (exTopBuilt 100) (Double.num 99)).map Prod.fst = some 0 ∧
    ∃ r ctx2, checkUpToDate exTopFs 2 (exTopBuilt 100) (Double.num 99) = some (r, ctx2) ∧
      (r = 1 ∨ r = 0) ∧
      (r = 1 ↔ ∀ p ∈ mapKeys (exTopBuilt 100).m_collection.file_info,
        Double.gt (Double.num (getFileTimestamp exTopFs p)) (Double.num 99) = false) ∧
      (∀ x, Double.num 99 = Double.num x →
        (r = 1 ↔ ∀ p ∈ mapKeys (exTopBuilt 100).m_collection.file_info,
          getFileTimestamp exTopFs p ≤ x)) ∧
      (Double.num 99 = Double.nan → r = 1) :=
  ⟨by decide, by decide, by decide,
    checkUpToDate_after_build exTopFs 3 2 exTopCtx (exTopBuilt 100) (Double.num 99) (by decide)
      (by decide) (by decide)⟩

/-- C3 as written fails: the root list matches the stored roots and every file has a
current timestamp (50) that is `≤ T` (100), yet `checkUpToDate` returns 0, because the
root lists an include for which the graph has no node. -/
theorem staleness_needs_nodes :
    exDanglingCtx.m_rootFiles = exDanglingCtx.m_collection.root_files.map FileInfo.name ∧
    (∀ p, getFileTimestamp exAllFs p ≠ 0 ∧ getFileTimestamp exAllFs p ≤ 100 ∧
      Double.le (Double.num (getFileTimestamp exAllFs p)) (Double.num 100) = true) ∧
    (checkUpToDate exAllFs 2 exDanglingCtx (Double.num 100)).map Prod.fst = some 0 :=
  ⟨by decide, fun _ => ⟨by simp [getFileTimestamp, exAllFs], by simp [getFileTimestamp, exAllFs],
    by simp [getFileTimestamp, exAllFs, Double.le]⟩, by decide⟩

/-- C3, amended. If the root list matches the stored roots and every path reached from
a root through the stored include lists has a node, exists and has a current timestamp
`≤ T`, then `checkUpToDate T` is 1; and once the timestamp of any one path reached
from a root is raised above `T`, everything else unchanged, `checkUpToDate T` is 0.
The reference timestamp `T` is any value of the type `double` and the two comparisons
are those of `double`; for a number `T` they are `≤` and `<` of the numbers. -/
theorem staleness_monotone (fs : FileSystem τ) (ctx : SVDepContext τ) (T : Double τ)
    (fuel : Nat) (hfuel : ctx.m_collection.file_info.length < fuel)
    (hroots : ctx.m_rootFiles = ctx.m_collection.root_files.map FileInfo.name)
    (hall : ∀ q, Reachable ctx.m_collection.file_info ctx.m_rootFiles q →
      (mapFind q ctx.m_collection.file_info).isSome = true ∧
      getFileTimestamp fs q ≠ 0 ∧ Double.le (Double.num (getFileTimestamp fs q)) T = true) :
    (∃ ctx1, checkUpToDate fs fuel ctx T = some (1, ctx1)) ∧
    (∀ f t, Reachable ctx.m_collection.file_info ctx.m_rootFiles f →
      Double.gt (Double.num t) T = true →
      ∃ ctx1, checkUpToDate (touch fs f t) fuel ctx T = some (0, ctx1)) ∧
    (∀ x, T = Double.num x →
      (∀ a, Double.le (Double.num a) T = true ↔ a ≤ x) ∧
      (∀ t, Double.gt (Double.num t) T = true ↔ x < t)) := by
  refine ⟨?_, ?_, ?_⟩
  · obtain ⟨r, ctx1, hrun, _, hiff⟩ := checkUpToDate_spec fs ctx T fuel hfuel
    have hr : r = 1 := by
      refine hiff.2 ⟨hroots, fun q hq => ⟨(hall q hq).1, (hall q hq).2.1, ?_⟩⟩
      have h := (hall q hq).2.2
      cases T with
      | nan => rfl
      | num x =>
        rw [Double.le_num] at h
        exact (Double.gt_num _ _).2 h
    subst hr
    exact ⟨ctx1, hrun⟩
  · intro f t hf ht
    obtain ⟨r, ctx1, hrun, h01, hiff⟩ := checkUpToDate_spec (touch fs f t) ctx T fuel hfuel
    rcases h01 with h1 | h0
    · exfalso
      have := ((hiff.1 h1).2 f hf).2.2
      simp only [getFileTimestamp, touch, if_true] at this
      rw [this] at ht
      cases ht
    · subst h0
      exact ⟨ctx1, hrun⟩
  · intro x hx
    subst hx
    exact ⟨fun a => Double.le_num a x, fun t => by simp [Double.gt]⟩

/-- C3 amended, at the built graph of `top.sv` (timestamp 100) with `T = 100`: the
check gives 1, and 0 once `top.sv` is touched at time 101. -/
theorem staleness_monotone_witness :
    (∃ ctx1, checkUpToDate exTopFs 2 (exTopBuilt 100) (Double.num 100) = some (1, ctx1)) ∧
    (∀ f t, Reachable (exTopBuilt 100).m_collection.file_info (exTopBuilt 100).m_rootFiles f →
      Double.gt (Double.num t) (Double.num 100) = true →
      ∃ ctx1, checkUpToDate (touch exTopFs f t) 2 (exTopBuilt 100) (Double.num 100) =
        some (0, ctx1)) ∧
    (∀ x, Double.num 100 = Double.num x →
      (∀ a, Double.le (Double.num a) (Double.num 100) = true ↔ a ≤ x) ∧
      (∀ t, Double.gt (Double.num t) (Double.num 100) = true ↔ x < t)) :=
  staleness_monotone exTopFs (exTopBuilt 100) (Double.num 100) 2 (by decide) (by decide)
    (by
      intro q hq
      obtain ⟨r, ctx1, hrun, _, hiff⟩ := checkUpToDate_spec exTopFs (exTopBuilt 100)
        (Double.num 100) 2 (by decide)
      have hr : r = 1 := by
        have h : (checkUpToDate exTopFs 2 (exTopBuilt 100) (Double.num 100)).map Prod.fst =
            some 1 := by
          decide
        rw [hrun] at h
        simpa using h
      have hq2 := (hiff.1 hr).2 q hq
      exact ⟨hq2.1, hq2.2.1, (Double.le_num _ _).2 ((Double.gt_num _ _).1 hq2.2.2)⟩)

omit [LinearOrder τ] in
/-- C4. On a file system whose existing paths all lie in a finite list, cyclic includes
or not, `build` returns with any fuel above the number of paths it can meet; the paths
it read are pairwise distinct and are exactly the paths that got a node, and no path
has two nodes. For the two files `d/A` and `d/B` that include each other, built from
the root `d/A`, the nodes are exactly `d/A` and `d/B`, each once. -/
theorem build_terminates_reads_once (fs : FileSystem τ) (L : List Str)
    (hfin : ∀ p, (fs.stat p).isSome = true → p ∈ L) (ctx : SVDepContext τ) (fuel : Nat)
    (hfuel : L.length + ctx.m_rootFiles.length + ctx.m_includeCache.length < fuel) :
    (∃ r ctx1, build fs fuel ctx = some (r, ctx1) ∧ ctx1.readLog.Nodup ∧
      (mapKeys ctx1.m_collection.file_info).Nodup ∧
      ∀ p, p ∈ ctx1.readLog ↔ p ∈ mapKeys ctx1.m_collection.file_info) ∧
    (build exCycleFs 3 exCycleCtx).map (fun res => mapKeys res.2.m_collection.file_info) =
      some ["d/A".toList, "d/B".toList] := by
  refine ⟨?_, by decide⟩
  obtain ⟨r, ctx1, h⟩ := build_total fs L hfin ctx fuel hfuel
  have post := build_post fs fuel ctx r ctx1 h
  exact ⟨r, ctx1, h, post.inv.logNodup, post.inv.keysNodup,
    fun p => ⟨post.inv.logKeys p, post.inv.keysLog p⟩⟩

/-- C4, at the two files that include each other: the build returns with fuel 4. -/
theorem build_terminates_reads_once_witness :
    (∀ p, (exCycleFs.stat p).isSome = true → p ∈ exCycleRoots) ∧
    ((∃ r ctx1, build exCycleFs 4 exCycleCtx = some (r, ctx1) ∧ ctx1.readLog.Nodup ∧
      (mapKeys ctx1.m_collection.file_info).Nodup ∧
      ∀ p, p ∈ ctx1.readLog ↔ p ∈ mapKeys ctx1.m_collection.file_info) ∧
    (build exCycleFs 3 exCycleCtx).map (fun res => mapKeys res.2.m_collection.file_info) =
      some ["d/A".toList, "d/B".toList]) :=
  have hfin : ∀ p, (exCycleFs.stat p).isSome = true → p ∈ exCycleRoots := by
    intro p hp
    simp only [exCycleFs] at hp
    split_ifs at hp with h
    · rcases h with h | h <;> simp [exCycleRoots, h]
    · cases hp
  ⟨hfin, build_terminates_reads_once exCycleFs exCycleRoots hfin exCycleCtx 4 (by decide)⟩

omit [LinearOrder τ] in
/-- C5. On a finite file system `build` returns 0 or -1; it returns -1 exactly when the
read of some file it reached (a root or a resolved include) failed, and then the error
message is not empty; when every read succeeded it returns 0 and the error message is
empty. -/
theorem build_fails_iff_read_fails (fs : FileSystem τ) (L : List Str)
    (hfin : ∀ p, (fs.stat p).isSome = true → p ∈ L) (ctx : SVDepContext τ) (fuel : Nat)
    (hfuel : L.length + ctx.m_rootFiles.length + ctx.m_includeCache.length < fuel) :
    ∃ r ctx1, build fs fuel ctx = some (r, ctx1) ∧ (r = 0 ∨ r = -1) ∧
      (r = -1 ↔ ∃ p ∈ ctx1.readLog, fs.read p = none) ∧
      (r = -1 → getError ctx1 ≠ []) ∧ (r = 0 → getError ctx1 = []) := by
  obtain ⟨r, ctx1, h⟩ := build_total fs L hfin ctx fuel hfuel
  have post := build_post fs fuel ctx r ctx1 h
  have hok : r = 0 → ctx1.m_error = [] := fun hr => (post.succeeded hr).1 rfl
  refine ⟨r, ctx1, h, post.result, ?_, post.failed, hok⟩
  constructor
  · intro hr
    exact post.inv.error.1 (post.failed hr)
  · intro hex
    rcases post.result with h0 | h1
    · exact absurd (hok h0) (post.inv.error.2 hex)
    · exact h1

/-- C5, at a root that cannot be read: the build returns -1. -/
theorem build_fails_iff_read_fails_witness :
    (∀ p, (exTopFs.stat p).isSome = true → p ∈ ["top.sv".toList]) ∧
    (build exTopFs 3 exGoneCtx).map Prod.fst = some (-1) ∧
    ∃ r ctx1, build exTopFs 3 exGoneCtx = some (r, ctx1) ∧ (r = 0 ∨ r = -1) ∧
      (r = -1 ↔ ∃ p ∈ ctx1.readLog, exTopFs.read p = none) ∧
      (r = -1 → getError ctx1 ≠ []) ∧ (r = 0 → getError ctx1 = []) :=
  have hfin : ∀ p, (exTopFs.stat p).isSome = true → p ∈ ["top.sv".toList] := by
    intro p hp
    simp only [exTopFs] at hp
    split_ifs at hp with h
    · simp [h]
    · cases hp
  ⟨hfin, by decide,
    build_fails_iff_read_fails exTopFs ["top.sv".toList] hfin exGoneCtx 3 (by decide)⟩

/-- C8 as written fails. A file modified one nanosecond after second 100 is built with
that timestamp, the snapshot prints it with six decimals, and `fromJson` reads back
second 100 sharp; and a file name that holds a backspace is written as `x\b` and read
back as `xb`. In both cases `fromJson` succeeds on a graph that differs from the one
built. -/
theorem snapshot_loses_precision :
    (build exNanoFs 3 exTopCtx = some (0, exTopBuilt 100000000001) ∧
      fromJson stodFixed 10 (toJson fmtFixed6 (exTopBuilt 100000000001).m_collection) =
        Except.ok (true, exNanoLoaded) ∧
      exNanoLoaded ≠ (exTopBuilt 100000000001).m_collection) ∧
    (build exCtrlFs 3 exCtrlCtx = some (0, exCtrlBuilt) ∧
      fromJson stodFixed 10 (toJson fmtFixed6 exCtrlBuilt.m_collection) =
        Except.ok (true, exCtrlLoaded) ∧
      exCtrlLoaded ≠ exCtrlBuilt.m_collection) :=
  ⟨⟨by decide, rfl, by decide⟩, ⟨by decide, rfl, by decide⟩⟩

omit [LinearOrder τ] [Zero τ] in
theorem setChecked_of_unflagged (info : FileInfo τ) (h : info.checked = false) :
    info.setChecked false = info := by
  cases info
  simp only [FileInfo.setChecked] at *
  rw [h]

omit [LinearOrder τ] in
/-- C8, amended. For every graph that a successful `build` produced, whose paths hold
no control character other than newline, carriage return and tab, and whose timestamps
are printed by `fmt` (six decimals) as texts of number characters from which `stod`
recovers them, `fromJson` of `toJson` succeeds, given fuel for the loops of the parser,
and yields the same roots sequence and nodes mapping, field for field. -/
theorem snapshot_roundtrip (fs : FileSystem τ) (fmt : τ → Str) (stod : Str → Option τ)
    (fuel n : Nat) (ctx ctx1 : SVDepContext τ)
    (hbuild : build fs fuel ctx = some (0, ctx1))
    (hn : snapshotFuel ctx1.m_collection ≤ n)
    (hsafe : ∀ p ∈ mapKeys ctx1.m_collection.file_info, jsonSafe p)
    (htime : ∀ kv ∈ ctx1.m_collection.file_info,
      stod (fmt kv.2.timestamp) = some kv.2.timestamp ∧
      ∀ c ∈ fmt kv.2.timestamp, isNumberChar c = true) :
    fromJson stod n (toJson fmt ctx1.m_collection) = Except.ok (true, ctx1.m_collection) := by
  have post := build_post fs fuel ctx 0 ctx1 hbuild
  have inv := post.inv
  obtain ⟨-, infos, hroots, -, hstored⟩ := post.succeeded rfl
  simp only [FileCollection.clear, List.nil_append] at hroots
  have hnode : ∀ kv ∈ ctx1.m_collection.file_info,
      jsonSafe kv.1 ∧ infoSurvives fmt stod kv.2 := by
    intro kv hkv
    have hf := mapFind_of_mem_nodup _ inv.keysNodup kv hkv
    have hk : kv.1 ∈ mapKeys ctx1.m_collection.file_info := List.mem_map_of_mem Prod.fst hkv
    refine ⟨hsafe _ hk, ?_, ?_, (htime kv hkv).1, (htime kv hkv).2⟩
    · rw [inv.named _ _ hf]
      exact hsafe _ hk
    · intro inc hinc
      exact hsafe _ (inv.closed _ _ hf inc hinc)
  have hrootNode : ∀ i ∈ ctx1.m_collection.root_files,
      (i.name, i) ∈ ctx1.m_collection.file_info := by
    intro i hi
    rw [hroots] at hi
    exact mapFind_mem _ _ _ (hstored i hi)
  have hsame : ctx1.m_collection.unchecked = ctx1.m_collection := by
    have h1 : ctx1.m_collection.root_files.map (fun i => i.setChecked false) =
        ctx1.m_collection.root_files := by
      conv_rhs => rw [← List.map_id ctx1.m_collection.root_files]
      apply List.map_congr_left
      intro i hi
      have hf := mapFind_of_mem_nodup _ inv.keysNodup _ (hrootNode i hi)
      exact setChecked_of_unflagged i (inv.unflagged _ _ hf)
    have h2 : ctx1.m_collection.file_info.map (fun kv => (kv.1, kv.2.setChecked false)) =
        ctx1.m_collection.file_info := by
      conv_rhs => rw [← List.map_id ctx1.m_collection.file_info]
      apply List.map_congr_left
      intro kv hkv
      have hf := mapFind_of_mem_nodup _ inv.keysNodup kv hkv
      rw [setChecked_of_unflagged kv.2 (inv.unflagged _ _ hf)]
      rfl
    cases hc : ctx1.m_collection with
    | mk roots nodes =>
      rw [hc] at h1 h2
      simp only [FileCollection.unchecked]
      simp only at h1 h2
      rw [h1, h2]
  have key := fromJson_toJson fmt stod n ctx1.m_collection hn inv.keysNodup
    (fun i hi => (hnode _ (hrootNode i hi)).2) hnode
  rw [hsame] at key
  exact key

/-- C8 amended, at `top.sv` modified at second 100 sharp: the snapshot of the built
graph is read back as the same graph. -/
theorem snapshot_roundtrip_witness :
    build exSecFs 3 exTopCtx = some (0, exTopBuilt 100000000000) ∧
    fromJson stodFixed 10 (toJson fmtFixed6 (exTopBuilt 100000000000).m_collection) =
      Except.ok (true, (exTopBuilt 100000000000).m_collection) :=
  ⟨by decide,
    snapshot_roundtrip exSecFs fmtFixed6 stodFixed 3 10 exTopCtx (exTopBuilt 100000000000)
      (by decide) (by decide)
      (by
        intro p hp
        simp only [exTopBuilt, mapKeys, List.map_cons, List.map_nil, List.mem_singleton] at hp
        subst hp
        intro c hc
        revert c
        decide)
      (by
        intro kv hkv
        simp only [exTopBuilt, List.mem_singleton] at hkv
        subst hkv
        exact ⟨by decide, by decide⟩)⟩

omit [LinearOrder τ] [Zero τ] in
theorem searchIncdirs_split (fs : FileSystem τ) (n : Str) (pre : List Str) (d : Str)
    (post : List Str) (hpre : ∀ e ∈ pre, (fs.stat (e ++ ['/'] ++ n)).isSome = false)
    (hd : (fs.stat (d ++ ['/'] ++ n)).isSome = true) :
    searchIncdirs fs n (pre ++ d :: post) = some (d ++ ['/'] ++ n) := by
  induction pre with
  | nil => simp only [List.nil_append, searchIncdirs, hd, if_true]
  | cons e rest ih =>
    have he := hpre e (List.mem_cons_self _ _)
    simp only [List.cons_append, searchIncdirs, he, Bool.false_eq_true, if_false]
    exact ih (fun x hx => hpre x (List.mem_cons_of_mem _ hx))

omit [LinearOrder τ] [Zero τ] in
theorem searchIncdirs_none (fs : FileSystem τ) (n : Str) (dirs : List Str)
    (h : ∀ e ∈ dirs, (fs.stat (e ++ ['/'] ++ n)).isSome = false) :
    searchIncdirs fs n dirs = none := by
  induction dirs with
  | nil => rfl
  | cons e rest ih =>
    have he := h e (List.mem_cons_self _ _)
    simp only [searchIncdirs, he, Bool.false_eq_true, if_false]
    exact ih (fun x hx => h x (List.mem_cons_of_mem _ hx))

omit [LinearOrder τ] [Zero τ] in
/-- C9. For a raw include name `n` that is not memoized and the search path
`ctx.m_incdirs`: when `d` is the entry at the smallest index `i` for which the path
`d + "/" + n` exists, `resolveInclude` returns that path; when no entry gives an
existing path it returns the empty string. Directories are only ever appended
(`addIncdir`, `addSearchDir`), so an earlier one has the smaller index and wins. -/
theorem resolveInclude_first_existing (fs : FileSystem τ) (ctx : SVDepContext τ) (n : Str)
    (hmiss : mapFind n ctx.m_includeCache = none) :
    (∀ (i : Nat) (d : Str), ctx.m_incdirs[i]? = some d →
      (fs.stat (d ++ ['/'] ++ n)).isSome = true →
      (∀ (j : Nat) (e : Str), j < i → ctx.m_incdirs[j]? = some e →
        (fs.stat (e ++ ['/'] ++ n)).isSome = false) →
      (resolveInclude fs ctx n).1 = d ++ ['/'] ++ n) ∧
    ((∀ e ∈ ctx.m_incdirs, (fs.stat (e ++ ['/'] ++ n)).isSome = false) →
      (resolveInclude fs ctx n).1 = []) ∧
    (∀ d, (addIncdir ctx d).2.m_incdirs = ctx.m_incdirs ++ [d]) ∧
    (∀ d dirs, ∃ l, addSearchDir d dirs = dirs ++ l) := by
  refine ⟨?_, ?_, fun d => rfl, ?_⟩
  · intro i d hi hd hmin
    have hlt : i < ctx.m_incdirs.length := by
      rcases Nat.lt_or_ge i ctx.m_incdirs.length with h | h
      · exact h
      · rw [List.getElem?_eq_none h] at hi
        cases hi
    have hget : ctx.m_incdirs[i] = d := by
      rw [List.getElem?_eq_getElem hlt] at hi
      exact Option.some.inj hi
    have hsplit : ctx.m_incdirs = ctx.m_incdirs.take i ++ d :: ctx.m_incdirs.drop (i + 1) := by
      rw [← hget, ← List.drop_eq_getElem_cons hlt, List.take_append_drop]
    have hpre : ∀ e ∈ ctx.m_incdirs.take i, (fs.stat (e ++ ['/'] ++ n)).isSome = false := by
      intro e he
      obtain ⟨j, hj, rfl⟩ := List.getElem_of_mem he
      have hj2 : j < i := by
        rw [List.length_take] at hj
        omega
      apply hmin j _ hj2
      rw [List.getElem_take]
      exact List.getElem?_eq_getElem _
    have hs := searchIncdirs_split fs n _ d (ctx.m_incdirs.drop (i + 1)) hpre hd
    rw [← hsplit] at hs
    simp only [resolveInclude, hmiss, hs]
  · intro hnone
    simp only [resolveInclude, hmiss, searchIncdirs_none fs n _ hnone]
  · intro d dirs
    unfold addSearchDir
    split_ifs
    · exact ⟨[], by simp⟩
    · exact ⟨[d], rfl⟩

/-- C9, at the search path `["inc1", "inc2"]` where only `inc2/x.svh` exists: the
name `x.svh` resolves to `inc2/x.svh`. -/
theorem resolveInclude_first_existing_witness :
    (resolveInclude exSearchFs exSearchCtx "x.svh".toList).1 = "inc2/x.svh".toList :=
  (resolveInclude_first_existing exSearchFs exSearchCtx "x.svh".toList (by decide)).1
    1 "inc2".toList (by decide) (by decide)
    (fun j e hj he => by
      have h0 : j = 0 := by omega
      subst h0
      have he2 : e = "inc1".toList := by
        simp only [exSearchCtx, SVDepContext.new, List.getElem?_cons_zero] at he
        exact (Option.some.inj he).symm
      subst he2
      decide)

omit [LinearOrder τ] [Zero τ] in
theorem resolveInclude_cached (fs : FileSystem τ) (ctx : SVDepContext τ) (n p : Str)
    (h : mapFind n ctx.m_includeCache = some p) : resolveInclude fs ctx n = (p, ctx) := by
  simp only [resolveInclude, h]

omit [LinearOrder τ] [Zero τ] in
theorem resolveInclude_caches (fs : FileSystem τ) (ctx : SVDepContext τ) (n : Str)
    (hfound : (resolveInclude fs ctx n).1 ≠ []) :
    mapFind n (resolveInclude fs ctx n).2.m_includeCache = some (resolveInclude fs ctx n).1 := by
  unfold resolveInclude at hfound ⊢
  cases hc : mapFind n ctx.m_includeCache with
  | some p => simp only [hc]
  | none =>
    cases hs : searchIncdirs fs n ctx.m_incdirs with
    | some q => simp only [hc, hs, mapFind_mapSet_same]
    | none =>
      simp only [hc, hs] at hfound
      exact absurd rfl hfound

/-- C10. Once `resolveInclude` has returned a path `p` for the name `n` (found: not the
empty string), every later `resolveInclude` of `n` on the same context returns `p`:
after any sequence of calls of the methods of the context (adding directories, builds,
checks, loads, other resolutions) and on any later file system `fs2`. -/
theorem resolveInclude_memoized (fs : FileSystem τ) (ctx : SVDepContext τ) (n : Str)
    (hfound : (resolveInclude fs ctx n).1 ≠ []) (ctx2 : SVDepContext τ)
    (hlater : Relation.ReflTransGen CtxStep (resolveInclude fs ctx n).2 ctx2)
    (fs2 : FileSystem τ) :
    (resolveInclude fs2 ctx2 n).1 = (resolveInclude fs ctx n).1 := by
  have hc := later_cacheExt hlater n _ (resolveInclude_caches fs ctx n hfound)
  rw [resolveInclude_cached fs2 ctx2 n _ hc]

/-- C10, at the search path `["inc1", "inc2"]`: `x.svh` resolved to `inc2/x.svh`
stays so after the directory `inc0` is added and `inc1/x.svh` has appeared. -/
theorem resolveInclude_memoized_witness :
    (resolveInclude exSearchFsLater exSearchCtx "x.svh".toList).1 = "inc1/x.svh".toList ∧
    (resolveInclude exSearchFsLater
      (addIncdir (resolveInclude exSearchFs exSearchCtx "x.svh".toList).2 "inc0".toList).2
      "x.svh".toList).1 = "inc2/x.svh".toList :=
  ⟨by decide,
    (resolveInclude_memoized exSearchFs exSearchCtx "x.svh".toList (by decide) _
      (Relation.ReflTransGen.single (CtxStep.addIncdir _ "inc0".toList)) exSearchFsLater).trans
      (by decide)⟩

end Claims

/-! ## More on the build -/

section BuildLemmas2

variable {τ : Type} [LinearOrder τ] [Zero τ]

omit [LinearOrder τ] [Zero τ] in
/-- A name that does not resolve leaves the context as it is. -/
theorem resolveInclude_unresolved (fs : FileSystem τ) (ctx : SVDepContext τ) (n : Str)
    (h : (resolveInclude fs ctx n).1 = []) : (resolveInclude fs ctx n).2 = ctx := by
  unfold resolveInclude at h ⊢
  cases hc : mapFind n ctx.m_includeCache with
  | some p => simp only [hc]
  | none =>
    cases hs : searchIncdirs fs n ctx.m_incdirs with
    | none => simp only [hc, hs]
    | some q =>
      simp only [hc, hs] at h
      exact absurd h (searchIncdirs_exists fs n _ q hs).2

omit [LinearOrder τ] in
/-- Every entry of `root_files` is the node stored under its name, during and after the
loop over the roots, whatever the loop returns. -/
theorem buildRoots_rootsStored (fs : FileSystem τ) (fuel : Nat) (roots : List Str) :
    ∀ (ctx : SVDepContext τ) (r : Int) (ctx1 : SVDepContext τ),
      BuildInv fs ctx → buildRoots fs fuel roots ctx = some (r, ctx1) →
      (∀ i ∈ ctx.m_collection.root_files, mapFind i.name ctx.m_collection.file_info = some i) →
      ∀ i ∈ ctx1.m_collection.root_files, mapFind i.name ctx1.m_collection.file_info = some i := by
  induction roots with
  | nil =>
    intro ctx r ctx1 _ h hst
    simp only [buildRoots, Option.some.injEq, Prod.mk.injEq] at h
    obtain ⟨-, rfl⟩ := h
    exact hst
  | cons rootPath rest ih =>
    intro ctx r ctx1 hinv h hst
    simp only [buildRoots] at h
    have hfrA := setIncdirs_frame ctx (getDirname rootPath)
    have hinvA : BuildInv fs { ctx with
        m_incdirs := addSearchDir (getDirname rootPath) ctx.m_incdirs } :=
      hinv.congr rfl rfl rfl
    cases hc : buildFileInfo fs fuel rootPath { ctx with
        m_incdirs := addSearchDir (getDirname rootPath) ctx.m_incdirs } with
    | none => simp [hc] at h
    | some res =>
      obtain ⟨info, ctx2⟩ := res
      simp only [hc] at h
      have hpost := buildFileInfo_post fs fuel rootPath _ info ctx2 hinvA hc
      have hfr := hfrA.frameTrans hpost.frame
      have hst2 : ∀ i ∈ ctx2.m_collection.root_files,
          mapFind i.name ctx2.m_collection.file_info = some i := by
        intro i hi
        rw [hfr.roots] at hi
        have hk : i.name ∈ mapKeys ctx.m_collection.file_info := by
          rw [← mapFind_isSome_iff_mem_keys, hst i hi]; rfl
        rw [hfr.nodes _ hk]
        exact hst i hi
      split_ifs at h with herr
      · simp only [Option.some.injEq, Prod.mk.injEq] at h
        obtain ⟨-, rfl⟩ := h
        exact hst2
      · have hinv3 : BuildInv fs { ctx2 with m_collection :=
            { ctx2.m_collection with root_files := ctx2.m_collection.root_files ++ [info] } } :=
          hpost.inv.congr rfl rfl rfl
        apply ih _ r ctx1 hinv3 h
        intro i hi
        simp only [List.mem_append, List.mem_singleton] at hi
        rcases hi with hi | hi
        · exact hst2 i hi
        · subst hi
          simp only []
          rw [hpost.name]
          exact hpost.key

/-! ### Reading and scanning -/

omit [LinearOrder τ] [Zero τ] in
theorem readFile_content (fs : FileSystem τ) (ctx : SVDepContext τ) (path content : Str)
    (h : fs.read path = some content) : (readFile fs ctx path).1 = content := by
  simp only [readFile, h]

theorem scanIncludes_empty (path : Str) : scanIncludes [] path = some [] := by
  simp [scanIncludes, process, processLoop, setInput, isAtEnd, getIncludes]

end BuildLemmas2

/-! ## The check and its log -/

section CheckLogLemmas

variable {τ : Type} [LinearOrder τ] [Zero τ]

omit [LinearOrder τ] [Zero τ] in
theorem checkIncludesLog_erase
    (checkL : Str → List (Str × FileInfo τ) → List Str →
      Option (Bool × List (Str × FileInfo τ) × List Str))
    (check : Str → List (Str × FileInfo τ) → Option (Bool × List (Str × FileInfo τ)))
    (hc : ∀ p nodes log, (checkL p nodes log).map dropLog = check p nodes)
    (incs : List Str) : ∀ (nodes : List (Str × FileInfo τ)) (log : List Str),
    (checkIncludesLog checkL incs nodes log).map dropLog = checkIncludes check incs nodes := by
  induction incs with
  | nil => intro nodes log; rfl
  | cons inc rest ih =>
    intro nodes log
    have h := hc inc nodes log
    simp only [checkIncludesLog, checkIncludes]
    cases hL : checkL inc nodes log with
    | none =>
      rw [hL] at h
      simp only [Option.map_none'] at h
      rw [← h]
      rfl
    | some res =>
      obtain ⟨b, nodes1, log1⟩ := res
      rw [hL] at h
      simp only [Option.map_some', dropLog] at h
      rw [← h]
      cases b with
      | false => rfl
      | true => exact ih nodes1 log1

/-- Dropping the log of `checkFileUpToDateLog` gives `checkFileUpToDate`. -/
theorem checkFileUpToDateLog_erase (fs : FileSystem τ) (T : Double τ) (fuel : Nat) :
    ∀ (path : Str) (nodes : List (Str × FileInfo τ)) (log : List Str),
    (checkFileUpToDateLog fs T fuel path nodes log).map dropLog =
      checkFileUpToDate fs T fuel path nodes := by
  induction fuel with
  | zero => intro path nodes log; rfl
  | succ fuel ih =>
    intro path nodes log
    simp only [checkFileUpToDateLog, checkFileUpToDate]
    cases mapFind path nodes with
    | none => rfl
    | some info =>
      simp only []
      split_ifs
      · rfl
      · rfl
      · rfl
      · exact checkIncludesLog_erase _ _ ih _ _ _

theorem checkRootsLog_erase (fs : FileSystem τ) (T : Double τ) (fuel : Nat) (paths : List Str) :
    ∀ (infos : List (FileInfo τ)) (nodes : List (Str × FileInfo τ)) (log : List Str),
    (checkRootsLog fs T fuel paths infos nodes log).map dropLog =
      checkRoots fs T fuel paths infos nodes := by
  induction paths with
  | nil => intro infos nodes log; simp [checkRootsLog, checkRoots, dropLog]
  | cons p ps ih =>
    intro infos nodes log
    cases infos with
    | nil => simp [checkRootsLog, checkRoots, dropLog]
    | cons i is =>
      simp only [checkRootsLog, checkRoots]
      split_ifs
      · rfl
      · have h := checkFileUpToDateLog_erase fs T fuel p nodes log
        cases hL : checkFileUpToDateLog fs T fuel p nodes log with
        | none =>
          rw [hL] at h
          simp only [Option.map_none'] at h
          rw [← h]
          rfl
        | some res =>
          obtain ⟨b, nodes1, log1⟩ := res
          rw [hL] at h
          simp only [Option.map_some', dropLog] at h
          rw [← h]
          cases b with
          | false => rfl
          | true => exact ih is nodes1 log1

/-- Dropping the log of `checkUpToDateLog` gives `checkUpToDate`. -/
theorem checkUpToDateLog_erase (fs : FileSystem τ) (fuel : Nat) (ctx : SVDepContext τ) (T : Double τ) :
    (checkUpToDateLog fs fuel ctx T).map dropLog = checkUpToDate fs fuel ctx T := by
  unfold checkUpToDateLog checkUpToDate
  split_ifs
  · rfl
  · have h := checkRootsLog_erase fs T fuel ctx.m_rootFiles ctx.m_collection.root_files
      (resetFlags ctx.m_collection.file_info) []
    simp only []
    cases hL : checkRootsLog fs T fuel ctx.m_rootFiles ctx.m_collection.root_files
        (resetFlags ctx.m_collection.file_info) [] with
    | none =>
      rw [hL] at h
      simp only [Option.map_none'] at h
      rw [← h]
      rfl
    | some res =>
      obtain ⟨r, nodes1, log1⟩ := res
      rw [hL] at h
      simp only [Option.map_some', dropLog] at h
      rw [← h]
      rfl

/-- The loop over the roots stops at the first position whose path differs from the
stored name: nodes and log are those of the loop over the positions before it. -/
theorem checkRootsLog_mismatch (fs : FileSystem τ) (T : Double τ) (fuel : Nat) (p : Str)
    (i : FileInfo τ) (ps : List Str) (is : List (FileInfo τ)) (hne : p ≠ i.name)
    (pre : List Str) : ∀ (preI : List (FileInfo τ)) (nodes : List (Str × FileInfo τ))
      (log : List Str), pre.length = preI.length →
    (checkRootsLog fs T fuel (pre ++ p :: ps) (preI ++ i :: is) nodes log).map Prod.snd =
      (checkRootsLog fs T fuel pre preI nodes log).map Prod.snd := by
  induction pre with
  | nil =>
    intro preI nodes log hl
    cases preI with
    | nil => simp [checkRootsLog, hne]
    | cons _ _ => simp at hl
  | cons q qs ih =>
    intro preI nodes log hl
    cases preI with
    | nil => simp at hl
    | cons j js =>
      simp only [List.cons_append, checkRootsLog]
      split_ifs
      · rfl
      · cases checkFileUpToDateLog fs T fuel q nodes log with
        | none => rfl
        | some res =>
          obtain ⟨b, nodes1, log1⟩ := res
          cases b with
          | false => rfl
          | true => exact ih js nodes1 log1 (by simpa using hl)

end CheckLogLemmas

/-! ## The preprocessor: what each token consumes -/

theorem suffix_cons1 {α : Type} {t s : List α} (a : α) (h : t <:+ s) : t <:+ a :: s :=
  h.trans (List.suffix_cons a s)

theorem consumed_append {α : Type} (pre rest : List α) :
    (pre ++ rest).take ((pre ++ rest).length - rest.length) = pre := by
  simp

theorem consumed_of_suffix (before after : Str) (h : after <:+ before) :
    consumed before after ++ after = before := by
  obtain ⟨pre, rfl⟩ := h
  unfold consumed
  rw [consumed_append]

theorem consumed_of_append (pre rest : Str) : consumed (pre ++ rest) rest = pre := by
  unfold consumed
  exact consumed_append pre rest

/-! ### The loops give back a suffix of what they were given -/

theorem advanceWhile_split (p : Char → Bool) (s : Str) (l c : Nat) :
    (advanceWhile p s l c).1 ++ (advanceWhile p s l c).2.rest = s ∧
    (∀ x ∈ (advanceWhile p s l c).1, p x = true) ∧
    (∀ x ∈ (advanceWhile p s l c).2.rest.head?, p x = false) := by
  induction s generalizing l c with
  | nil => simp [advanceWhile]
  | cons a s ih =>
    by_cases h : p a = true
    · obtain ⟨h1, h2, h3⟩ := ih (stepLine a l) (stepColumn a c)
      simp only [advanceWhile, h, if_true, List.cons_append, h1, List.mem_cons, true_and]
      refine ⟨?_, h3⟩
      rintro x (rfl | hx)
      · exact h
      · exact h2 x hx
    · have h1 : p a = false := by simpa using h
      simp [advanceWhile, h1]

theorem advanceWhile_suffix (p : Char → Bool) (s : Str) (l c : Nat) :
    (advanceWhile p s l c).2.rest <:+ s :=
  ⟨_, (advanceWhile_split p s l c).1⟩

theorem skipToEndOfLineLoop_suffix (s : Str) (l c : Nat) :
    (skipToEndOfLineLoop s l c).2.rest <:+ s := by
  induction s, l, c using skipToEndOfLineLoop.induct <;> simp_all [skipToEndOfLineLoop] <;>
    first
    | exact suffix_cons1 _ (by assumption)
    | exact suffix_cons1 _ (suffix_cons1 _ (by assumption))
    | exact suffix_cons1 _ (suffix_cons1 _ (suffix_cons1 _ (by assumption)))

theorem scanStringLoop_suffix (s : Str) (l c : Nat) :
    (scanStringLoop s l c).2.rest <:+ s := by
  induction s, l, c using scanStringLoop.induct <;> simp_all [scanStringLoop] <;>
    first
    | exact suffix_cons1 _ (by assumption)
    | exact suffix_cons1 _ (suffix_cons1 _ (by assumption))

theorem scanBlockCommentLoop_suffix (s : Str) (l c : Nat) :
    (scanBlockCommentLoop s l c).2.rest <:+ s := by
  induction s, l, c using scanBlockCommentLoop.induct <;> simp_all [scanBlockCommentLoop] <;>
    first
    | exact suffix_cons1 _ (by assumption)
    | exact suffix_cons1 _ (suffix_cons1 _ (List.suffix_refl _))

theorem defineBodyLoop_suffix (s : Str) (l c : Nat) :
    (defineBodyLoop s l c).2.rest <:+ s := by
  induction s, l, c using defineBodyLoop.induct <;> simp_all [defineBodyLoop] <;>
    first
    | exact suffix_cons1 _ (by assumption)
    | exact suffix_cons1 _ (suffix_cons1 _ (by assumption))
    | exact suffix_cons1 _ (suffix_cons1 _ (suffix_cons1 _ (by assumption)))

theorem scanLineCommentLoop_suffix (s : Str) (l c : Nat) :
    (scanLineCommentLoop s l c).2.rest <:+ s := by
  induction s generalizing l c with
  | nil => simp [scanLineCommentLoop]
  | cons a s ih =>
    by_cases h : a = '\n'
    · simp [scanLineCommentLoop, h, List.suffix_cons]
    · simp only [scanLineCommentLoop, h, if_false]
      exact suffix_cons1 _ (ih _ _)

theorem includeNameLoop_suffix (close : Char) (s : Str) (l c : Nat) :
    (includeNameLoop close s l c).2.rest <:+ s := by
  induction s generalizing l c with
  | nil => simp [includeNameLoop]
  | cons a s ih =>
    by_cases h : a = close
    · simp [includeNameLoop, h, List.suffix_cons]
    · by_cases h2 : a = '\n'
      · subst h2
        simp [includeNameLoop, h]
      · simp only [includeNameLoop, h, h2, if_false]
        exact suffix_cons1 _ (ih _ _)

theorem scanNumberLoop_split_aux (n : Nat) : ∀ (s : Str) (l c : Nat), s.length ≤ n →
    (scanNumberLoop s l c).1 ++ (scanNumberLoop s l c).2.rest = s := by
  induction n with
  | zero =>
    intro s l c h
    have : s = [] := List.length_eq_zero.mp (Nat.le_zero.mp h)
    subst this
    simp [scanNumberLoop]
  | succ n ih =>
    intro s l c h
    cases s with
    | nil => simp [scanNumberLoop]
    | cons a cs =>
      simp only [List.length_cons, Nat.add_le_add_iff_right] at h
      rw [scanNumberLoop.eq_def]
      simp only []
      split_ifs with h1 h2 h4
      · cases cs with
        | nil => simp
        | cons d ds =>
          simp only []
          split_ifs with h3
          · have := ih ds l (c + 2) (by simp only [List.length_cons] at h; omega)
            simp only [List.cons_append, this]
          · have := ih (d :: ds) l (c + 1) h
            simp only [List.cons_append, this]
      · have := ih cs l (c + 1) h
        simp only [List.cons_append, this]
      · have := ih cs l (c + 1) h
        simp only [List.cons_append, this]
      · simp

/-- The value of a number token is the text consumed for it. -/
theorem scanNumberLoop_split (s : Str) (l c : Nat) :
    (scanNumberLoop s l c).1 ++ (scanNumberLoop s l c).2.rest = s :=
  scanNumberLoop_split_aux s.length s l c (le_refl _)

theorem scanNumberLoop_suffix (s : Str) (l c : Nat) : (scanNumberLoop s l c).2.rest <:+ s :=
  ⟨_, scanNumberLoop_split s l c⟩

/-! ### Every handler gives back a suffix -/

theorem Consumes.sameRest {a b : SVPreprocessor} (h : b.m_rest = a.m_rest) : Consumes a b := by
  unfold Consumes
  rw [h]

theorem Consumes.andThen {a b c : SVPreprocessor} (h1 : Consumes a b) (h2 : Consumes b c) :
    Consumes a c := List.IsSuffix.trans h2 h1

theorem consumes_runLoop (pp : SVPreprocessor) (loop : Str → Nat → Nat → Str × Cursor)
    (h : ∀ s l c, (loop s l c).2.rest <:+ s) : Consumes pp (runLoop pp loop).2 := by
  unfold Consumes
  rw [runLoop_snd, setCursor_m_rest]
  exact h _ _ _

theorem consumes_advance (pp : SVPreprocessor) : Consumes pp (advance pp) := by
  unfold Consumes
  cases h : pp.m_rest with
  | nil => simp [advance, cursor, Cursor.advance, h]
  | cons c cs =>
    rw [advance_cons pp c cs h]
    exact List.suffix_cons _ _

theorem consumes_skipWhitespaceNotNewline (pp : SVPreprocessor) :
    Consumes pp (skipWhitespaceNotNewline pp) :=
  consumes_runLoop pp _ (advanceWhile_suffix _)

theorem consumes_parseIdentifier (pp : SVPreprocessor) : Consumes pp (parseIdentifier pp).2 :=
  consumes_runLoop pp _ (advanceWhile_suffix _)

theorem consumes_skipToEndOfLine (pp : SVPreprocessor) : Consumes pp (skipToEndOfLine pp) :=
  consumes_runLoop pp _ skipToEndOfLineLoop_suffix

theorem consumes_recordInclude (pp : SVPreprocessor) (name : Str) :
    Consumes pp (recordInclude pp name) := by
  unfold recordInclude
  split_ifs
  · exact Consumes.sameRest rfl
  · exact Consumes.sameRest rfl

theorem consumes_handleInclude (pp : SVPreprocessor) : Consumes pp (handleInclude pp) := by
  have h1 := consumes_skipWhitespaceNotNewline pp
  unfold handleInclude
  simp only []
  split
  · exact h1
  · split_ifs
    · exact h1.andThen ((consumes_advance _).andThen
        ((consumes_runLoop _ _ (includeNameLoop_suffix _)).andThen (consumes_recordInclude _ _)))
    · exact h1.andThen ((consumes_advance _).andThen
        ((consumes_runLoop _ _ (includeNameLoop_suffix _)).andThen (consumes_recordInclude _ _)))
    · exact h1.andThen (consumes_skipToEndOfLine _)
    · exact h1

theorem consumes_handleDefine (pp : SVPreprocessor) : Consumes pp (handleDefine pp) := by
  have h1 := (consumes_skipWhitespaceNotNewline pp).andThen
    (consumes_parseIdentifier (skipWhitespaceNotNewline pp))
  unfold handleDefine
  simp only []
  by_cases hn : (parseIdentifier (skipWhitespaceNotNewline pp)).1 = []
  · rw [if_pos hn]
    exact h1.andThen (consumes_skipToEndOfLine _)
  · rw [if_neg hn]
    refine h1.andThen (Consumes.andThen ?_ (Consumes.sameRest rfl))
    refine Consumes.andThen ?_ (consumes_runLoop _ _ defineBodyLoop_suffix)
    by_cases hp : peek (parseIdentifier (skipWhitespaceNotNewline pp)).2 = '('
    · rw [if_pos hp]
      exact (consumes_runLoop _ _ (advanceWhile_suffix _)).andThen
        ((consumes_advance _).andThen (consumes_skipWhitespaceNotNewline _))
    · rw [if_neg hp]
      exact consumes_skipWhitespaceNotNewline _

theorem consumes_handleUndef (pp : SVPreprocessor) : Consumes pp (handleUndef pp) := by
  have h1 := (consumes_skipWhitespaceNotNewline pp).andThen
    (consumes_parseIdentifier (skipWhitespaceNotNewline pp))
  unfold handleUndef
  simp only []
  split_ifs
  · exact h1.andThen (Consumes.andThen (Consumes.sameRest rfl) (consumes_skipToEndOfLine _))
  · exact h1.andThen (consumes_skipToEndOfLine _)

theorem consumes_handleIfdef (pp : SVPreprocessor) (invert : Bool) :
    Consumes pp (handleIfdef pp invert) := by
  have h1 := (consumes_skipWhitespaceNotNewline pp).andThen
    (consumes_parseIdentifier (skipWhitespaceNotNewline pp))
  unfold handleIfdef
  exact h1.andThen (Consumes.andThen (Consumes.sameRest rfl) (consumes_skipToEndOfLine _))

theorem consumes_handleElsif (pp : SVPreprocessor) : Consumes pp (handleElsif pp) := by
  have h1 := (consumes_skipWhitespaceNotNewline pp).andThen
    (consumes_parseIdentifier (skipWhitespaceNotNewline pp))
  unfold handleElsif
  split
  · exact consumes_skipToEndOfLine _
  · split_ifs
    · exact consumes_skipToEndOfLine _
    · exact h1.andThen (Consumes.andThen (Consumes.sameRest rfl) (consumes_skipToEndOfLine _))

theorem consumes_handleElse (pp : SVPreprocessor) : Consumes pp (handleElse pp) := by
  unfold handleElse
  split
  · exact Consumes.sameRest rfl
  · split_ifs
    · exact Consumes.sameRest rfl
    · exact Consumes.sameRest rfl

theorem consumes_handleEndif (pp : SVPreprocessor) : Consumes pp (handleEndif pp) := by
  unfold handleEndif
  split
  · exact Consumes.sameRest rfl
  · exact Consumes.sameRest rfl

theorem consumes_handleDirective (pp : SVPreprocessor) (d : Str) :
    Consumes pp (handleDirective pp d) := by
  unfold handleDirective
  split_ifs
  · exact consumes_handleInclude _
  · exact consumes_skipToEndOfLine _
  · exact consumes_handleDefine _
  · exact consumes_skipToEndOfLine _
  · exact consumes_handleUndef _
  · exact consumes_skipToEndOfLine _
  · exact consumes_handleIfdef _ _
  · exact consumes_handleIfdef _ _
  · exact consumes_handleElsif _
  · exact consumes_handleElse _
  · exact consumes_handleEndif _
  · exact consumes_skipToEndOfLine _
  · exact Consumes.sameRest rfl

theorem consumes_scanDirective (pp : SVPreprocessor) : Consumes pp (scanDirective pp).2 := by
  unfold scanDirective
  simp only []
  split_ifs
  · exact (consumes_advance pp).andThen
      ((consumes_runLoop _ _ (advanceWhile_suffix _)).andThen (consumes_handleDirective _ _))
  · exact (consumes_advance pp).andThen (consumes_runLoop _ _ (advanceWhile_suffix _))

/-- After the white space, `scanToken` gives back a suffix of the unread input. -/
theorem consumes_scanToken (pp : SVPreprocessor) : Consumes (tokenStart pp) (scanToken pp).2 := by
  unfold scanToken
  show Consumes (tokenStart pp) (match (tokenStart pp).m_rest with
    | [] => (makeToken (tokenStart pp) TokenType.END_OF_FILE [], tokenStart pp)
    | c :: cs =>
      if c = '/' ∧ cs.head? = some '/' then scanLineComment (tokenStart pp)
      else if c = '/' ∧ cs.head? = some '*' then scanBlockComment (tokenStart pp)
      else if c = backtick then scanDirective (tokenStart pp)
      else if c = '"' then scanString (tokenStart pp)
      else if isdigit c then scanNumber (tokenStart pp)
      else if isalpha c || c == '_' || c == '$' then scanIdentifier (tokenStart pp)
      else (makeToken (advance (tokenStart pp)) TokenType.OPERATOR [c], advance (tokenStart pp))).2
  split
  · exact Consumes.sameRest rfl
  · split_ifs
    · exact (consumes_advance _).andThen ((consumes_advance _).andThen
        (consumes_runLoop _ _ scanLineCommentLoop_suffix))
    · exact (consumes_advance _).andThen ((consumes_advance _).andThen
        (consumes_runLoop _ _ scanBlockCommentLoop_suffix))
    · exact consumes_scanDirective _
    · exact (consumes_advance _).andThen (consumes_runLoop _ _ scanStringLoop_suffix)
    · exact consumes_runLoop _ _ scanNumberLoop_suffix
    · exact consumes_runLoop _ _ (advanceWhile_suffix _)
    · exact consumes_advance _

/-! ### The pieces of the input -/

theorem leadingSpace_split (pp : SVPreprocessor) :
    leadingSpace pp ++ (tokenStart pp).m_rest = pp.m_rest ∧
    (∀ x ∈ leadingSpace pp, isBlank x = true) ∧
    (∀ x ∈ (tokenStart pp).m_rest.head?, isBlank x = false) :=
  advanceWhile_split isBlank pp.m_rest pp.m_line pp.m_column

theorem scanToken_eq (pp : SVPreprocessor) :
    scanToken pp = match (tokenStart pp).m_rest with
      | [] => (makeToken (tokenStart pp) TokenType.END_OF_FILE [], tokenStart pp)
      | c :: cs =>
        if c = '/' ∧ cs.head? = some '/' then scanLineComment (tokenStart pp)
        else if c = '/' ∧ cs.head? = some '*' then scanBlockComment (tokenStart pp)
        else if c = backtick then scanDirective (tokenStart pp)
        else if c = '"' then scanString (tokenStart pp)
        else if isdigit c then scanNumber (tokenStart pp)
        else if isalpha c || c == '_' || c == '$' then scanIdentifier (tokenStart pp)
        else (makeToken (advance (tokenStart pp)) TokenType.OPERATOR [c],
          advance (tokenStart pp)) := rfl

theorem scanNumber_value (q : SVPreprocessor) :
    (scanNumber q).1.value = consumed q.m_rest (scanNumber q).2.m_rest := by
  have hs := scanNumberLoop_split q.m_rest q.m_line q.m_column
  have := consumed_of_append (scanNumberLoop q.m_rest q.m_line q.m_column).1
    (scanNumberLoop q.m_rest q.m_line q.m_column).2.rest
  rw [hs] at this
  exact this.symm

theorem scanIdentifier_value (q : SVPreprocessor) :
    (scanIdentifier q).1.value = consumed q.m_rest (scanIdentifier q).2.m_rest := by
  have hs := (advanceWhile_split (fun c => isalnum c || c == '_' || c == '$')
    q.m_rest q.m_line q.m_column).1
  have := consumed_of_append
    (advanceWhile (fun c => isalnum c || c == '_' || c == '$') q.m_rest q.m_line q.m_column).1
    (advanceWhile (fun c => isalnum c || c == '_' || c == '$') q.m_rest q.m_line q.m_column).2.rest
  rw [hs] at this
  exact this.symm

/-- The token that `scanToken` returns and the text it consumed for it: the text is
empty exactly for `END_OF_FILE`; it starts where the white space ends; the value of an
identifier, a number or an operator is that text. -/
theorem scanToken_piece (pp : SVPreprocessor) :
    consumed (tokenStart pp).m_rest (scanToken pp).2.m_rest ++ (scanToken pp).2.m_rest =
      (tokenStart pp).m_rest ∧
    ((scanToken pp).1.type = TokenType.END_OF_FILE →
      (tokenStart pp).m_rest = [] ∧ (scanToken pp).2.m_rest = []) ∧
    ((scanToken pp).1.type ≠ TokenType.END_OF_FILE →
      consumed (tokenStart pp).m_rest (scanToken pp).2.m_rest ≠ []) ∧
    ((scanToken pp).1.type = TokenType.IDENTIFIER ∨ (scanToken pp).1.type = TokenType.NUMBER ∨
      (scanToken pp).1.type = TokenType.OPERATOR →
      (scanToken pp).1.value = consumed (tokenStart pp).m_rest (scanToken pp).2.m_rest) := by
  have hsplit := consumed_of_suffix _ _ (consumes_scanToken pp)
  refine ⟨hsplit, ?_, ?_, ?_⟩
  · intro ht
    rw [scanToken_eq] at ht ⊢
    split at ht
    · next h0 =>
      refine ⟨h0, ?_⟩
      simp only [h0]
    · exfalso
      split_ifs at ht <;> cases ht
  · intro ht hc
    rw [hc, List.nil_append] at hsplit
    have hlen : (scanToken pp).2.m_rest.length = (tokenStart pp).m_rest.length := by rw [hsplit]
    rw [scanToken_eq] at ht hlen
    split at ht
    · exact ht rfl
    · next c cs hrest =>
      simp only [hrest] at hlen
      simp only [List.length_cons] at hlen
      split_ifs at hlen with h2 h3 h4 h5 h6 h7
      · have := scanLineComment_lt _ c cs hrest; omega
      · have := scanBlockComment_lt _ c cs hrest; omega
      · have := scanDirective_lt _ c cs hrest; omega
      · have := scanString_lt _ c cs hrest; omega
      · have := scanNumber_lt _ c cs hrest h6; omega
      · have := scanIdentifier_lt _ c cs hrest h7; omega
      · have := advance_cons _ c cs hrest
        simp only [this] at hlen
        omega
  · intro ht
    rw [scanToken_eq] at ht ⊢
    split at ht
    · rcases ht with ht | ht | ht <;> cases ht
    · next c cs hrest =>
      simp only [hrest]
      split_ifs at ht ⊢ with h2 h3 h4 h5 h6 h7
      · rcases ht with ht | ht | ht <;> cases ht
      · rcases ht with ht | ht | ht <;> cases ht
      · rcases ht with ht | ht | ht <;> cases ht
      · rcases ht with ht | ht | ht <;> cases ht
      · rw [← hrest]
        exact scanNumber_value _
      · rw [← hrest]
        exact scanIdentifier_value _
      · have := advance_cons _ c cs hrest
        simp only [this, makeToken]
        exact (consumed_of_append [c] cs).symm

theorem processTokens_erase (fuel : Nat) : ∀ (pp : SVPreprocessor),
    (processTokens fuel pp).map Prod.snd = processLoop fuel pp := by
  induction fuel with
  | zero =>
    intro pp
    simp only [processTokens, processLoop]
    split_ifs <;> rfl
  | succ fuel ih =>
    intro pp
    simp only [processTokens, processLoop]
    split_ifs
    · rfl
    · rfl
    · rw [← ih, Option.map_map]
      rfl

theorem processPieces_erase (fuel : Nat) : ∀ (pp : SVPreprocessor),
    (processPieces fuel pp).map (fun r => (r.1.map Piece.token, r.2)) = processTokens fuel pp := by
  induction fuel with
  | zero =>
    intro pp
    simp only [processPieces, processTokens]
    split_ifs <;> rfl
  | succ fuel ih =>
    intro pp
    simp only [processPieces, processTokens]
    split_ifs
    · rfl
    · rfl
    · rw [← ih, Option.map_map, Option.map_map]
      rfl

theorem scanToken_keeps_flag (pp : SVPreprocessor) (h : pp.m_hasPeeked = false) :
    (scanToken pp).2.m_hasPeeked = false := by
  by_contra hc
  have := (ppStep_scanToken pp).2.2 (by simpa using hc)
  rw [h] at this
  cases this

/-- The pieces of a run of `process` spell the input, the white space of each piece is
white space, and the text of each piece is as `scanToken_piece` says. -/
theorem processPieces_spec (fuel : Nat) : ∀ (pp : SVPreprocessor) (pieces : List Piece)
    (pp1 : SVPreprocessor), pp.m_hasPeeked = false →
    processPieces fuel pp = some (pieces, pp1) →
    piecesText pieces = pp.m_rest ∧ pp1.m_rest = [] ∧
    ∀ p ∈ pieces, (∀ x ∈ p.space, isBlank x = true) ∧
      (∀ x ∈ p.text.head?, isBlank x = false) ∧
      (p.token.type = TokenType.END_OF_FILE → p.text = []) ∧
      (p.token.type ≠ TokenType.END_OF_FILE → p.text ≠ []) ∧
      (p.token.type = TokenType.IDENTIFIER ∨ p.token.type = TokenType.NUMBER ∨
        p.token.type = TokenType.OPERATOR → p.token.value = p.text) := by
  induction fuel with
  | zero =>
    intro pp pieces pp1 _ h
    simp only [processPieces] at h
    split_ifs at h with he
    simp only [Option.some.injEq, Prod.mk.injEq] at h
    obtain ⟨rfl, rfl⟩ := h
    have : pp.m_rest = [] := by simpa [isAtEnd] using he
    exact ⟨by simp [piecesText, this], this, by simp⟩
  | succ fuel ih =>
    intro pp pieces pp1 hpk h
    simp only [processPieces] at h
    have hnt : nextToken pp = scanToken pp := by simp [nextToken, hpk]
    have hgood : (∀ x ∈ leadingSpace pp, isBlank x = true) ∧
        (∀ x ∈ (consumed (tokenStart pp).m_rest (scanToken pp).2.m_rest).head?,
          isBlank x = false) ∧
        ((scanToken pp).1.type = TokenType.END_OF_FILE →
          consumed (tokenStart pp).m_rest (scanToken pp).2.m_rest = []) ∧
        ((scanToken pp).1.type ≠ TokenType.END_OF_FILE →
          consumed (tokenStart pp).m_rest (scanToken pp).2.m_rest ≠ []) ∧
        ((scanToken pp).1.type = TokenType.IDENTIFIER ∨
          (scanToken pp).1.type = TokenType.NUMBER ∨
          (scanToken pp).1.type = TokenType.OPERATOR →
          (scanToken pp).1.value = consumed (tokenStart pp).m_rest (scanToken pp).2.m_rest) := by
      obtain ⟨h1, h2, h3, h4⟩ := scanToken_piece pp
      obtain ⟨-, l2, l3⟩ := leadingSpace_split pp
      refine ⟨l2, ?_, ?_, h3, h4⟩
      · intro x hx
        apply l3 x
        rw [← h1]
        cases hcons : consumed (tokenStart pp).m_rest (scanToken pp).2.m_rest with
        | nil => rw [hcons] at hx; cases hx
        | cons a as =>
          rw [hcons] at hx
          simpa using hx
      · intro ht
        have := h2 ht
        unfold consumed
        rw [this.1]
        exact List.take_nil
    have htext : leadingSpace pp ++ consumed (tokenStart pp).m_rest (scanToken pp).2.m_rest ++
        (scanToken pp).2.m_rest = pp.m_rest := by
      rw [List.append_assoc, (scanToken_piece pp).1]
      exact (leadingSpace_split pp).1
    split_ifs at h with he ht
    · simp only [Option.some.injEq, Prod.mk.injEq] at h
      obtain ⟨rfl, rfl⟩ := h
      have : pp.m_rest = [] := by simpa [isAtEnd] using he
      exact ⟨by simp [piecesText, this], this, by simp⟩
    · simp only [Option.some.injEq, Prod.mk.injEq] at h
      obtain ⟨rfl, rfl⟩ := h
      rw [hnt] at ht ⊢
      have hend := ((scanToken_piece pp).2.1 ht).2
      refine ⟨?_, hend, ?_⟩
      · rw [← htext, hend]
        simp [piecesText]
      · intro p hp
        simp only [List.mem_singleton] at hp
        subst hp
        exact hgood
    · cases hrec : processPieces fuel (nextToken pp).2 with
      | none => simp [hrec] at h
      | some res =>
        obtain ⟨rest, pp2⟩ := res
        simp only [hrec, Option.map_some', Option.some.injEq, Prod.mk.injEq] at h
        obtain ⟨rfl, rfl⟩ := h
        rw [hnt] at hrec ⊢
        obtain ⟨i1, i2, i3⟩ := ih _ rest pp2 (scanToken_keeps_flag pp hpk) hrec
        refine ⟨?_, i2, ?_⟩
        · rw [← htext]
          simp only [piecesText, List.map_cons, List.flatten_cons] at i1 ⊢
          rw [i1]
        · intro p hp
          simp only [List.mem_cons] at hp
          rcases hp with rfl | hp
          · exact hgood
          · exact i3 p hp

/-! ### The depth of the conditional stack -/

theorem handleInclude_condStack (pp : SVPreprocessor) :
    (handleInclude pp).m_condStack = pp.m_condStack := by
  unfold handleInclude
  simp only []
  split
  · rfl
  · split_ifs
    · simp only [recordInclude]; split_ifs <;> rfl
    · simp only [recordInclude]; split_ifs <;> rfl
    · rfl
    · rfl

theorem handleDefine_condStack (pp : SVPreprocessor) :
    (handleDefine pp).m_condStack = pp.m_condStack := by
  unfold handleDefine
  simp only []
  split_ifs <;> rfl

theorem handleUndef_condStack (pp : SVPreprocessor) :
    (handleUndef pp).m_condStack = pp.m_condStack := by
  unfold handleUndef
  simp only []
  split_ifs <;> rfl

theorem handleIfdef_condStack_length (pp : SVPreprocessor) (invert : Bool) :
    (handleIfdef pp invert).m_condStack.length = pp.m_condStack.length + 1 := rfl

theorem handleElsif_condStack_length (pp : SVPreprocessor) :
    (handleElsif pp).m_condStack.length = pp.m_condStack.length := by
  unfold handleElsif
  split
  · rfl
  · next state below h =>
    split_ifs
    · rfl
    · simp only [skipToEndOfLine, runLoop_snd, setCursor_m_condStack, h, List.length_cons]

theorem handleElse_condStack_length (pp : SVPreprocessor) :
    (handleElse pp).m_condStack.length = pp.m_condStack.length := by
  unfold handleElse
  split
  · rfl
  · next state below h =>
    split_ifs
    · rfl
    · simp only [h, List.length_cons]

theorem handleEndif_condStack_length (pp : SVPreprocessor) :
    (handleEndif pp).m_condStack.length = pp.m_condStack.length - 1 := by
  unfold handleEndif
  split
  · next h => simp [h]
  · next state below h => simp [h]

theorem skipToEndOfLine_condStack (pp : SVPreprocessor) :
    (skipToEndOfLine pp).m_condStack = pp.m_condStack := rfl

/-- What a directive does to the depth of the conditional stack. -/
theorem handleDirective_depth (pp : SVPreprocessor) (d : Str) :
    (handleDirective pp d).m_condStack.length =
      if d = "ifdef".toList ∨ d = "ifndef".toList then pp.m_condStack.length + 1
      else if d = "endif".toList then pp.m_condStack.length - 1
      else pp.m_condStack.length := by
  unfold handleDirective
  split_ifs <;>
    simp_all [handleInclude_condStack, handleDefine_condStack, handleUndef_condStack,
      handleIfdef_condStack_length, handleElsif_condStack_length, handleElse_condStack_length,
      handleEndif_condStack_length, skipToEndOfLine_condStack]

theorem depthStep_other (d : Nat) (t : Token) (h : t.type ≠ TokenType.DIRECTIVE) :
    depthStep d t = d := by
  simp [depthStep, isOpen, isClose, h]

theorem depthStep_directive (d : Nat) (t : Token) (h : t.type = TokenType.DIRECTIVE) :
    depthStep d t =
      if t.value = "ifdef".toList ∨ t.value = "ifndef".toList then d + 1
      else if t.value = "endif".toList then d - 1
      else d := by
  simp only [depthStep, isOpen, isClose, h, decide_True, Bool.true_and, Bool.or_eq_true,
    decide_eq_true_eq]

theorem scanDirective_depth (q : SVPreprocessor) :
    (scanDirective q).2.m_condStack.length =
      depthStep q.m_condStack.length (scanDirective q).1 := by
  rw [depthStep_directive _ _ rfl]
  unfold scanDirective
  simp only [makeToken]
  have hst : (runLoop (advance q) (advanceWhile fun c => isalnum c || c == '_')).2.m_condStack =
      q.m_condStack := rfl
  generalize runLoop (advance q) (advanceWhile fun c => isalnum c || c == '_') = r at hst ⊢
  obtain ⟨name, q1⟩ := r
  simp only at hst ⊢
  by_cases hne : name = []
  · subst hne
    simp only [ne_eq, not_true_eq_false, if_false, hst]
    rw [if_neg (by decide), if_neg (by decide)]
  · simp only [ne_eq, hne, not_false_eq_true, if_true]
    rw [handleDirective_depth, hst]

/-- The depth of the conditional stack after `scanToken` is the depth before it,
stepped by the token returned. -/
theorem scanToken_depth (pp : SVPreprocessor) :
    (scanToken pp).2.m_condStack.length = depthStep pp.m_condStack.length (scanToken pp).1 := by
  rw [scanToken_eq]
  split
  · rw [depthStep_other _ _ (by simp [makeToken])]
    rfl
  · split_ifs
    · rw [depthStep_other _ _ (by simp [scanLineComment, makeToken])]
      rfl
    · rw [depthStep_other _ _ (by simp [scanBlockComment, makeToken])]
      rfl
    · exact scanDirective_depth (tokenStart pp)
    · rw [depthStep_other _ _ (by simp [scanString, makeToken])]
      rfl
    · rw [depthStep_other _ _ (by simp [scanNumber, makeToken])]
      rfl
    · rw [depthStep_other _ _ (by simp [scanIdentifier, makeToken])]
      rfl
    · rw [depthStep_other _ _ (by simp [makeToken])]
      rfl

theorem processTokens_depth (fuel : Nat) : ∀ (pp : SVPreprocessor) (toks : List Token)
    (pp1 : SVPreprocessor), pp.m_hasPeeked = false →
    processTokens fuel pp = some (toks, pp1) →
    pp1.m_condStack.length = toks.foldl depthStep pp.m_condStack.length := by
  induction fuel with
  | zero =>
    intro pp toks pp1 _ h
    simp only [processTokens] at h
    split_ifs at h
    simp only [Option.some.injEq, Prod.mk.injEq] at h
    obtain ⟨rfl, rfl⟩ := h
    rfl
  | succ fuel ih =>
    intro pp toks pp1 hpk h
    simp only [processTokens] at h
    have hnt : nextToken pp = scanToken pp := by simp [nextToken, hpk]
    rw [hnt] at h
    split_ifs at h
    · simp only [Option.some.injEq, Prod.mk.injEq] at h
      obtain ⟨rfl, rfl⟩ := h
      rfl
    · simp only [Option.some.injEq, Prod.mk.injEq] at h
      obtain ⟨rfl, rfl⟩ := h
      simp only [List.foldl_cons, List.foldl_nil]
      exact scanToken_depth pp
    · cases hrec : processTokens fuel (scanToken pp).2 with
      | none => simp [hrec] at h
      | some res =>
        obtain ⟨rest, pp2⟩ := res
        simp only [hrec, Option.map_some', Option.some.injEq, Prod.mk.injEq] at h
        obtain ⟨rfl, rfl⟩ := h
        rw [ih _ rest pp2 (scanToken_keeps_flag pp hpk) hrec, scanToken_depth pp]
        rfl

theorem isClose_of_isOpen (t : Token) (h : isOpen t = true) : isClose t = false := by
  simp only [isOpen, Bool.and_eq_true, decide_eq_true_eq, Bool.or_eq_true] at h
  simp only [isClose, Bool.and_eq_false_imp, decide_eq_true_eq, decide_eq_false_iff_not]
  intro _ e
  rcases h.2 with h2 | h2
  · rw [e] at h2; revert h2; decide
  · rw [e] at h2; revert h2; decide

/-- When no `endif` arrives at depth zero, the depth after the tokens is the depth
before them plus the opening directives minus the closing ones. -/
theorem foldl_depthStep (toks : List Token) : ∀ (d : Nat),
    (∀ k, closesOf (toks.take k) ≤ d + opensOf (toks.take k)) →
    toks.foldl depthStep d + closesOf toks = d + opensOf toks := by
  induction toks with
  | nil => intro d _; simp [closesOf, opensOf]
  | cons t ts ih =>
    intro d h
    simp only [List.foldl_cons]
    by_cases ho : isOpen t = true
    · have hc := isClose_of_isOpen t ho
      have hstep : depthStep d t = d + 1 := by simp [depthStep, ho]
      have := ih (d + 1) (by
        intro k
        have hk := h (k + 1)
        simp only [List.take_succ_cons, closesOf, opensOf, List.countP_cons, ho, hc, if_true,
          Bool.false_eq_true, if_false, Nat.add_zero] at hk
        simp only [closesOf, opensOf]
        omega)
      rw [hstep]
      simp only [closesOf, opensOf, List.countP_cons, ho, hc, if_true, Bool.false_eq_true,
        if_false, Nat.add_zero] at this ⊢
      omega
    · have ho2 : isOpen t = false := by simpa using ho
      by_cases hc : isClose t = true
      · have hstep : depthStep d t = d - 1 := by simp [depthStep, ho2, hc]
        have h1 := h 1
        simp only [List.take_succ_cons, List.take_zero, closesOf, opensOf, List.countP_cons,
          List.countP_nil, ho2, hc, if_true, Bool.false_eq_true, if_false, Nat.add_zero,
          Nat.zero_add] at h1
        have := ih (d - 1) (by
          intro k
          have hk := h (k + 1)
          simp only [List.take_succ_cons, closesOf, opensOf, List.countP_cons, ho2, hc, if_true,
            Bool.false_eq_true, if_false, Nat.add_zero] at hk
          simp only [closesOf, opensOf]
          omega)
        rw [hstep]
        simp only [closesOf, opensOf, List.countP_cons, ho2, hc, if_true, Bool.false_eq_true,
          if_false, Nat.add_zero] at this ⊢
        omega
      · have hc2 : isClose t = false := by simpa using hc
        have hstep : depthStep d t = d := by simp [depthStep, ho2, hc2]
        have := ih d (by
          intro k
          have hk := h (k + 1)
          simp only [List.take_succ_cons, closesOf, opensOf, List.countP_cons, ho2, hc2,
            Bool.false_eq_true, if_false, Nat.add_zero] at hk
          simp only [closesOf, opensOf]
          exact hk)
        rw [hstep]
        simp only [closesOf, opensOf, List.countP_cons, ho2, hc2, Bool.false_eq_true,
          if_false, Nat.add_zero] at this ⊢
        exact this

/-! ### The scanner does not read the lookahead -/

theorem setPeek_m_rest (pp : SVPreprocessor) (t : Token) (b : Bool) :
    (setPeek pp t b).m_rest = pp.m_rest := rfl
theorem setPeek_m_line (pp : SVPreprocessor) (t : Token) (b : Bool) :
    (setPeek pp t b).m_line = pp.m_line := rfl
theorem setPeek_m_column (pp : SVPreprocessor) (t : Token) (b : Bool) :
    (setPeek pp t b).m_column = pp.m_column := rfl
theorem setPeek_m_condStack (pp : SVPreprocessor) (t : Token) (b : Bool) :
    (setPeek pp t b).m_condStack = pp.m_condStack := rfl
theorem setPeek_m_macros (pp : SVPreprocessor) (t : Token) (b : Bool) :
    (setPeek pp t b).m_macros = pp.m_macros := rfl

theorem setCursor_setPeek (pp : SVPreprocessor) (t : Token) (b : Bool) (cur : Cursor) :
    setCursor (setPeek pp t b) cur = setPeek (setCursor pp cur) t b := rfl

theorem advance_setPeek (pp : SVPreprocessor) (t : Token) (b : Bool) :
    advance (setPeek pp t b) = setPeek (advance pp) t b := rfl

theorem skipToEndOfLine_setPeek (pp : SVPreprocessor) (t : Token) (b : Bool) :
    skipToEndOfLine (setPeek pp t b) = setPeek (skipToEndOfLine pp) t b := rfl

theorem skipWs_setPeek (pp : SVPreprocessor) (t : Token) (b : Bool) :
    skipWhitespaceNotNewline (setPeek pp t b) = setPeek (skipWhitespaceNotNewline pp) t b := rfl

theorem parseIdentifier_setPeek (pp : SVPreprocessor) (t : Token) (b : Bool) :
    parseIdentifier (setPeek pp t b) = ((parseIdentifier pp).1, setPeek (parseIdentifier pp).2 t b) := rfl

theorem recordInclude_setPeek (pp : SVPreprocessor) (t : Token) (b : Bool) (f : Str) :
    recordInclude (setPeek pp t b) f = setPeek (recordInclude pp f) t b := by
  unfold recordInclude
  split_ifs <;> rfl

theorem runLoop_setPeek (pp : SVPreprocessor) (t : Token) (b : Bool) (loop : Str → Nat → Nat → Str × Cursor) :
    runLoop (setPeek pp t b) loop = ((runLoop pp loop).1, setPeek (runLoop pp loop).2 t b) := rfl

theorem handleInclude_setPeek (pp : SVPreprocessor) (t : Token) (b : Bool) :
    handleInclude (setPeek pp t b) = setPeek (handleInclude pp) t b := by
  unfold handleInclude
  simp only [skipWs_setPeek, setPeek_m_rest, advance_setPeek, runLoop_setPeek, recordInclude_setPeek, skipToEndOfLine_setPeek]
  split
  · rfl
  · split_ifs <;> rfl

theorem peek_setPeek (pp : SVPreprocessor) (t : Token) (b : Bool) :
    peek (setPeek pp t b) = peek pp := rfl

theorem handleDefine_setPeek (pp : SVPreprocessor) (t : Token) (b : Bool) :
    handleDefine (setPeek pp t b) = setPeek (handleDefine pp) t b := by
  unfold handleDefine
  simp only [skipWs_setPeek, parseIdentifier_setPeek]
  generalize parseIdentifier (skipWhitespaceNotNewline pp) = r
  obtain ⟨name, q⟩ := r
  simp only [peek_setPeek]
  by_cases hn : name = []
  · simp only [hn, if_true, skipToEndOfLine_setPeek]
  · simp only [hn, if_false]
    by_cases hp : peek q = '('
    · simp only [hp, if_true, runLoop_setPeek, skipWs_setPeek, advance_setPeek]
      rfl
    · simp only [hp, if_false, runLoop_setPeek, skipWs_setPeek, advance_setPeek]
      rfl

theorem handleUndef_setPeek (pp : SVPreprocessor) (t : Token) (b : Bool) :
    handleUndef (setPeek pp t b) = setPeek (handleUndef pp) t b := by
  unfold handleUndef
  simp only [skipWs_setPeek, parseIdentifier_setPeek]
  split_ifs <;> rfl

theorem handleIfdef_setPeek (pp : SVPreprocessor) (t : Token) (b : Bool) (inv : Bool) :
    handleIfdef (setPeek pp t b) inv = setPeek (handleIfdef pp inv) t b := rfl

theorem isMacroDefined_setPeek (pp : SVPreprocessor) (t : Token) (b : Bool) (n : Str) :
    isMacroDefined (setPeek pp t b) n = isMacroDefined pp n := rfl

theorem handleElsif_setPeek (pp : SVPreprocessor) (t : Token) (b : Bool) :
    handleElsif (setPeek pp t b) = setPeek (handleElsif pp) t b := by
  unfold handleElsif
  simp only [setPeek_m_condStack, skipWs_setPeek, parseIdentifier_setPeek,
    isMacroDefined_setPeek, skipToEndOfLine_setPeek]
  generalize pp.m_condStack = st
  cases st with
  | nil => rfl
  | cons state below =>
    simp only []
    split_ifs <;> rfl

theorem handleElse_setPeek (pp : SVPreprocessor) (t : Token) (b : Bool) :
    handleElse (setPeek pp t b) = setPeek (handleElse pp) t b := by
  unfold handleElse
  simp only [setPeek_m_condStack]
  split
  · rfl
  · split_ifs <;> rfl

theorem handleEndif_setPeek (pp : SVPreprocessor) (t : Token) (b : Bool) :
    handleEndif (setPeek pp t b) = setPeek (handleEndif pp) t b := by
  unfold handleEndif
  simp only [setPeek_m_condStack]
  split <;> rfl

theorem isActive_setPeek (pp : SVPreprocessor) (t : Token) (b : Bool) :
    isActive (setPeek pp t b) = isActive pp := rfl

theorem ite_setPeek (c : Prop) [Decidable c] (x y x1 y1 : SVPreprocessor) (t : Token) (b : Bool)
    (hx : x1 = setPeek x t b) (hy : y1 = setPeek y t b) :
    (if c then x1 else y1) = setPeek (if c then x else y) t b := by
  split_ifs
  · exact hx
  · exact hy

theorem handleDirective_setPeek (pp : SVPreprocessor) (t : Token) (b : Bool) (d : Str) :
    handleDirective (setPeek pp t b) d = setPeek (handleDirective pp d) t b := by
  unfold handleDirective
  simp only [isActive_setPeek]
  refine ite_setPeek _ _ _ _ _ t b
    (ite_setPeek _ _ _ _ _ t b (handleInclude_setPeek pp t b) (skipToEndOfLine_setPeek pp t b)) ?_
  refine ite_setPeek _ _ _ _ _ t b
    (ite_setPeek _ _ _ _ _ t b (handleDefine_setPeek pp t b) (skipToEndOfLine_setPeek pp t b)) ?_
  refine ite_setPeek _ _ _ _ _ t b
    (ite_setPeek _ _ _ _ _ t b (handleUndef_setPeek pp t b) (skipToEndOfLine_setPeek pp t b)) ?_
  refine ite_setPeek _ _ _ _ _ t b (handleIfdef_setPeek pp t b false) ?_
  refine ite_setPeek _ _ _ _ _ t b (handleIfdef_setPeek pp t b true) ?_
  refine ite_setPeek _ _ _ _ _ t b (handleElsif_setPeek pp t b) ?_
  refine ite_setPeek _ _ _ _ _ t b (handleElse_setPeek pp t b) ?_
  refine ite_setPeek _ _ _ _ _ t b (handleEndif_setPeek pp t b) ?_
  exact ite_setPeek _ _ _ _ _ t b (skipToEndOfLine_setPeek pp t b) rfl

theorem scanDirective_setPeek (pp : SVPreprocessor) (t : Token) (b : Bool) :
    scanDirective (setPeek pp t b) = ((scanDirective pp).1, setPeek (scanDirective pp).2 t b) := by
  unfold scanDirective
  simp only [advance_setPeek, runLoop_setPeek, handleDirective_setPeek]
  generalize runLoop (advance pp) (advanceWhile fun c => isalnum c || c == '_') = r
  split_ifs
  · rfl
  · rfl

theorem scanToken_setPeek (pp : SVPreprocessor) (t : Token) (b : Bool) :
    scanToken (setPeek pp t b) = ((scanToken pp).1, setPeek (scanToken pp).2 t b) := by
  unfold scanToken
  simp only [runLoop_setPeek, setPeek_m_rest, scanDirective_setPeek]
  split
  · rfl
  · split_ifs <;> rfl

/-! ### Runs with and without `peekToken` -/

theorem peekToken_twice (pp : SVPreprocessor) :
    peekToken (peekToken pp).2 = ((peekToken pp).1, (peekToken pp).2) := by
  unfold peekToken
  by_cases h : pp.m_hasPeeked = true
  · simp [h]
  · have h2 : pp.m_hasPeeked = false := by simpa using h
    simp [h2]

theorem nextToken_after_peek (pp : SVPreprocessor) :
    (nextToken (peekToken pp).2).1 = (peekToken pp).1 := by
  unfold peekToken nextToken
  by_cases h : pp.m_hasPeeked = true
  · simp [h]
  · have h2 : pp.m_hasPeeked = false := by simpa using h
    simp [h2]

theorem lookSim_peek {a b : SVPreprocessor} (h : LookSim a b) : LookSim (peekToken a).2 b := by
  rcases h with ⟨hb, t, rfl⟩ | ⟨hb, rfl⟩ | rfl
  · right; left
    refine ⟨hb, ?_⟩
    have : peekToken (setPeek b t false) =
        ((scanToken (setPeek b t false)).1,
          setPeek (scanToken (setPeek b t false)).2 (scanToken (setPeek b t false)).1 true) := rfl
    rw [this, scanToken_setPeek]
    rfl
  · right; left
    exact ⟨hb, rfl⟩
  · by_cases hp : a.m_hasPeeked = true
    · right; right
      simp [peekToken, hp]
    · have hp2 : a.m_hasPeeked = false := by simpa using hp
      right; left
      refine ⟨hp2, ?_⟩
      simp only [peekToken, hp2, Bool.not_false, if_true]
      rfl

theorem lookSim_next {a b : SVPreprocessor} (h : LookSim a b) :
    (nextToken a).1 = (nextToken b).1 ∧ LookSim (nextToken a).2 (nextToken b).2 := by
  rcases h with ⟨hb, t, rfl⟩ | ⟨hb, rfl⟩ | rfl
  · have h1 : nextToken (setPeek b t false) = scanToken (setPeek b t false) := rfl
    have h2 : nextToken b = scanToken b := by simp [nextToken, hb]
    rw [h1, h2, scanToken_setPeek]
    exact ⟨rfl, Or.inl ⟨scanToken_keeps_flag b hb, t, rfl⟩⟩
  · have h1 : nextToken (setPeek (scanToken b).2 (scanToken b).1 true) =
        ((scanToken b).1, setPeek (scanToken b).2 (scanToken b).1 false) := rfl
    have h2 : nextToken b = scanToken b := by simp [nextToken, hb]
    rw [h1, h2]
    exact ⟨rfl, Or.inl ⟨scanToken_keeps_flag b hb, _, rfl⟩⟩
  · exact ⟨rfl, Or.inr (Or.inr rfl)⟩

theorem runOps_sim (ops : List LookOp) : ∀ (a b : SVPreprocessor), LookSim a b →
    (runOps ops a).1 = (runOps (nextsOf ops) b).1 ∧
    LookSim (runOps ops a).2 (runOps (nextsOf ops) b).2 := by
  induction ops with
  | nil => intro a b h; exact ⟨rfl, h⟩
  | cons o ops ih =>
    intro a b h
    cases o with
    | peek =>
      have e : nextsOf (LookOp.peek :: ops) = nextsOf ops := by
        simp [nextsOf]
      rw [e]
      exact ih _ _ (lookSim_peek h)
    | next =>
      have e : nextsOf (LookOp.next :: ops) = LookOp.next :: nextsOf ops := by
        simp [nextsOf]
      rw [e]
      obtain ⟨h1, h2⟩ := lookSim_next h
      obtain ⟨h3, h4⟩ := ih _ _ h2
      simp only [runOps]
      exact ⟨by rw [h1, h3], h4⟩

theorem processLoop_setPeek (fuel : Nat) : ∀ (b : SVPreprocessor) (t : Token),
    b.m_hasPeeked = false →
    processLoop fuel (setPeek b t false) = (processLoop fuel b).map (fun q => setPeek q t false) := by
  induction fuel with
  | zero =>
    intro b t _
    simp only [processLoop]
    have : isAtEnd (setPeek b t false) = isAtEnd b := rfl
    rw [this]
    split_ifs <;> rfl
  | succ fuel ih =>
    intro b t hb
    simp only [processLoop]
    have e0 : isAtEnd (setPeek b t false) = isAtEnd b := rfl
    have e1 : nextToken (setPeek b t false) = scanToken (setPeek b t false) := rfl
    have e2 : nextToken b = scanToken b := by simp [nextToken, hb]
    rw [e0, e1, e2, scanToken_setPeek]
    simp only []
    split_ifs
    · rfl
    · rfl
    · exact ih _ t (scanToken_keeps_flag b hb)

theorem processLoop_mono (fuel : Nat) : ∀ (pp r : SVPreprocessor),
    processLoop fuel pp = some r → processLoop (fuel + 1) pp = some r := by
  induction fuel with
  | zero =>
    intro pp r h
    simp only [processLoop] at h ⊢
    split_ifs at h ⊢ with he
    exact h
  | succ fuel ih =>
    intro pp r h
    rw [processLoop] at h ⊢
    by_cases he : isAtEnd pp = true
    · rw [if_pos he] at h ⊢
      exact h
    · rw [if_neg he] at h ⊢
      simp only [] at h ⊢
      by_cases ht : (nextToken pp).1.type = TokenType.END_OF_FILE
      · rw [if_pos ht] at h ⊢
        exact h
      · rw [if_neg ht] at h ⊢
        exact ih _ _ h

theorem processLoop_le {f g : Nat} (hfg : f ≤ g) (pp r : SVPreprocessor)
    (h : processLoop f pp = some r) : processLoop g pp = some r := by
  induction hfg with
  | refl => exact h
  | step _ ih => exact processLoop_mono _ _ _ ih

theorem processLoop_atEnd (fuel : Nat) (pp : SVPreprocessor) (h : isAtEnd pp = true) :
    processLoop fuel pp = some pp := by
  cases fuel <;> simp [processLoop, h]

theorem scanToken_atEnd (b : SVPreprocessor) (h : isAtEnd b = true) :
    scanResult (scanToken b).2 = scanResult b ∧ isAtEnd (scanToken b).2 = true := by
  have hr : b.m_rest = [] := by simpa [isAtEnd] using h
  have hs : (tokenStart b).m_rest = [] := by
    simp [tokenStart, hr, advanceWhile]
  rw [scanToken_eq]
  simp only [hs]
  exact ⟨rfl, by simp [isAtEnd, hs]⟩

/-- Draining the input from two states that match gives the same include list, macro
table and conditional stack. -/
theorem process_sim {a b : SVPreprocessor} (h : LookSim a b) :
    (process a).map scanResult = (process b).map scanResult := by
  rcases h with ⟨hb, t, rfl⟩ | ⟨hb, rfl⟩ | rfl
  · have : process (setPeek b t false) = (process b).map (fun q => setPeek q t false) :=
      processLoop_setPeek _ b t hb
    rw [this, Option.map_map]
    rfl
  · have e2 : nextToken b = scanToken b := by simp [nextToken, hb]
    have hflag := scanToken_keeps_flag b hb
    have ha : process (setPeek (scanToken b).2 (scanToken b).1 true) =
        if isAtEnd (scanToken b).2 then some (setPeek (scanToken b).2 (scanToken b).1 true)
        else if (scanToken b).1.type = TokenType.END_OF_FILE then
          some (setPeek (scanToken b).2 (scanToken b).1 false)
        else processLoop (scanToken b).2.m_rest.length
          (setPeek (scanToken b).2 (scanToken b).1 false) := rfl
    have hbp : process b =
        if isAtEnd b then some b
        else if (scanToken b).1.type = TokenType.END_OF_FILE then some (scanToken b).2
        else processLoop b.m_rest.length (scanToken b).2 := by
      simp only [process, processLoop, e2]
    rw [ha, hbp]
    by_cases hbe : isAtEnd b = true
    · obtain ⟨h1, h2⟩ := scanToken_atEnd b hbe
      rw [if_pos hbe, if_pos h2]
      simp only [Option.map_some']
      rw [← h1]
      rfl
    · rw [if_neg hbe]
      by_cases hae : isAtEnd (scanToken b).2 = true
      · rw [if_pos hae]
        split_ifs
        · rfl
        · rw [processLoop_atEnd _ _ hae]
          rfl
      · rw [if_neg hae]
        split_ifs
        · rfl
        · obtain ⟨r, hr⟩ := processLoop_total (scanToken b).2.m_rest.length (scanToken b).2
            (by simp [hflag])
          rw [processLoop_setPeek _ _ _ hflag, hr,
            processLoop_le (ppStep_scanToken b).1 _ _ hr]
          rfl
  · rfl

/-! ### A `define` line and the `ifdef` after it -/

section Claims2

variable {τ : Type} [LinearOrder τ] [Zero τ]

omit [LinearOrder τ] in
/-- C11. After every `build` call, whatever it returns, every path in the include list
of an entry of `nodes` or of an entry of `roots` is a key of `nodes`. -/
theorem build_graph_closed (fs : FileSystem τ) (fuel : Nat) (ctx : SVDepContext τ) (r : Int)
    (ctx1 : SVDepContext τ) (h : build fs fuel ctx = some (r, ctx1)) :
    (∀ kv ∈ ctx1.m_collection.file_info, ∀ q ∈ kv.2.includes,
      q ∈ mapKeys ctx1.m_collection.file_info) ∧
    (∀ i ∈ ctx1.m_collection.root_files, ∀ q ∈ i.includes,
      q ∈ mapKeys ctx1.m_collection.file_info) := by
  have post := build_post fs fuel ctx r ctx1 h
  have hroots := buildRoots_rootsStored fs fuel ctx.m_rootFiles _ r ctx1
    (buildInv_cleared fs ctx) h (by intro i hi; simp [FileCollection.clear] at hi)
  constructor
  · intro kv hkv q hq
    exact post.inv.closed kv.1 kv.2 (mapFind_of_mem_nodup _ post.inv.keysNodup kv hkv) q hq
  · intro i hi q hq
    exact post.inv.closed i.name i (hroots i hi) q hq

/-- C11, at the two files that include each other, with `d/A` listed twice as a root. -/
theorem build_graph_closed_witness :
    build exCycleFs 5 exTwiceCtx = some (0, exTwiceBuilt) ∧
    (∀ kv ∈ exTwiceBuilt.m_collection.file_info, ∀ q ∈ kv.2.includes,
      q ∈ mapKeys exTwiceBuilt.m_collection.file_info) ∧
    (∀ i ∈ exTwiceBuilt.m_collection.root_files, ∀ q ∈ i.includes,
      q ∈ mapKeys exTwiceBuilt.m_collection.file_info) :=
  ⟨by decide, build_graph_closed exCycleFs 5 exTwiceCtx 0 exTwiceBuilt (by decide)⟩

omit [LinearOrder τ] in
/-- C13. After a `build` that returned 0, `roots` holds one entry per root path, in
argument order and named by it, every root path has a node, and that node is the
entry of `roots` (name, timestamp, includes and flag), also when a root is listed twice
or is included by another file. -/
theorem build_roots_are_nodes (fs : FileSystem τ) (fuel : Nat) (ctx ctx1 : SVDepContext τ)
    (h : build fs fuel ctx = some (0, ctx1)) :
    ctx1.m_collection.root_files.map FileInfo.name = ctx.m_rootFiles ∧
    ctx1.m_collection.root_files.length = ctx.m_rootFiles.length ∧
    (∀ (k : Nat) (i : FileInfo τ), ctx1.m_collection.root_files[k]? = some i →
      ctx.m_rootFiles[k]? = some i.name ∧
      mapFind i.name ctx1.m_collection.file_info = some i) ∧
    (∀ p ∈ ctx.m_rootFiles, p ∈ mapKeys ctx1.m_collection.file_info) := by
  have post := build_post fs fuel ctx 0 ctx1 h
  obtain ⟨-, infos, hroots, hnames, hstored⟩ := post.succeeded rfl
  simp only [FileCollection.clear, List.nil_append] at hroots
  have hmap : ctx1.m_collection.root_files.map FileInfo.name = ctx.m_rootFiles := by
    rw [hroots]; exact hnames
  refine ⟨hmap, ?_, ?_, ?_⟩
  · rw [← hmap, List.length_map]
  · intro k i hk
    constructor
    · rw [← hmap, List.getElem?_map, hk]
      rfl
    · apply hstored
      rw [← hroots]
      exact List.getElem?_mem hk
  · intro p hp
    rw [← hmap] at hp
    obtain ⟨i, hi, rfl⟩ := List.mem_map.1 hp
    rw [← mapFind_isSome_iff_mem_keys, hstored i (by rw [← hroots]; exact hi)]
    rfl

/-- C13, at the roots `d/A`, `d/B`, `d/A` of the two files that include each other. -/
theorem build_roots_are_nodes_witness :
    exTwiceBuilt.m_collection.root_files.map FileInfo.name = exTwiceCtx.m_rootFiles ∧
    exTwiceBuilt.m_collection.root_files.length = exTwiceCtx.m_rootFiles.length ∧
    (∀ (k : Nat) (i : FileInfo Nat), exTwiceBuilt.m_collection.root_files[k]? = some i →
      exTwiceCtx.m_rootFiles[k]? = some i.name ∧
      mapFind i.name exTwiceBuilt.m_collection.file_info = some i) ∧
    (∀ p ∈ exTwiceCtx.m_rootFiles, p ∈ mapKeys exTwiceBuilt.m_collection.file_info) :=
  build_roots_are_nodes exCycleFs 5 exTwiceCtx exTwiceBuilt (by decide)

/-- C18 as written fails. A snapshot cut off inside its first root is accepted:
`loadJson` returns 0 and keeps the root read so far. A snapshot whose timestamp is not
a number makes `std::stod` throw; `loadJson` does not return at all. -/
theorem truncated_snapshot_accepted :
    loadJson stodFixed 10 (SVDepContext.new : SVDepContext Nat) exTruncatedJson =
      Except.ok (0, exTruncatedLoaded) ∧
    exTruncatedLoaded.m_collection ≠ FileCollection.clear ∧
    loadJson stodFixed 10 (SVDepContext.new : SVDepContext Nat) exBadNumberJson =
      Except.error Fault.stodThrew :=
  ⟨rfl, by decide, rfl⟩

omit [LinearOrder τ] in
/-- C18, amended. `loadJson` returns failure exactly when the first character of the
input after white space is not an opening brace (the empty input included); it then
leaves the graph empty, roots and nodes, and sets the error message. Any other input
on which the parser returns is accepted with what was read. -/
theorem loadJson_rejects_non_object (stod : Str → Option τ) (n : Nat) (ctx : SVDepContext τ)
    (json : Str) :
    ((jsonSkipWhitespace json).head? ≠ some '\x7b' →
      loadJson stod n ctx json = Except.ok (-1, { ctx with
        m_collection := FileCollection.clear, m_error := "Failed to parse JSON".toList })) ∧
    (∀ r ctx1, loadJson stod n ctx json = Except.ok (r, ctx1) →
      (r = -1 ∨ r = 0) ∧
      (r = -1 ↔ (jsonSkipWhitespace json).head? ≠ some '\x7b') ∧
      (r = -1 → ctx1.m_collection = FileCollection.clear ∧ ctx1.m_error ≠ [])) := by
  have hm : (jsonMatch '\x7b' json).1 = true ↔ (jsonSkipWhitespace json).head? = some '\x7b' := by
    unfold jsonMatch
    cases jsonSkipWhitespace json with
    | nil => simp
    | cons d ds =>
      by_cases hd : d = '\x7b'
      · simp [hd]
      · simp [hd]
  constructor
  · intro hne
    have hf : (jsonMatch '\x7b' json).1 = false := by
      cases hb : (jsonMatch '\x7b' json).1 with
      | false => rfl
      | true => exact absurd (hm.1 hb) hne
    simp [loadJson, fromJson, jsonParse, hf]
  · intro r ctx1 h
    cases hb : (jsonMatch '\x7b' json).1 with
    | false =>
      have hne : (jsonSkipWhitespace json).head? ≠ some '\x7b' := by
        intro e
        rw [hm.2 e] at hb
        cases hb
      simp only [loadJson, fromJson, jsonParse, hb, Bool.not_false, if_true, Except.ok.injEq,
        Prod.mk.injEq] at h
      obtain ⟨rfl, rfl⟩ := h
      refine ⟨Or.inl rfl, ⟨fun _ => hne, fun _ => rfl⟩, fun _ => ⟨rfl, ?_⟩⟩
      show "Failed to parse JSON".toList ≠ []
      decide
    | true =>
      have he := hm.1 hb
      simp only [loadJson, fromJson, jsonParse, hb, Bool.not_true, Bool.false_eq_true,
        if_false] at h
      cases hl : jsonTopLoop stod n n (jsonMatch '\x7b' json).2 FileCollection.clear with
      | error e => simp [hl] at h
      | ok res =>
        simp only [hl, Except.ok.injEq, Prod.mk.injEq] at h
        obtain ⟨rfl, -⟩ := h
        refine ⟨Or.inr rfl, ⟨fun h => absurd h (by decide), fun h => absurd he h⟩,
          fun h => absurd h (by decide)⟩

/-- C19 as written fails: a macro defined before `setInput`, by `defineMacro` or by a
`define` of the input scanned before, is still defined after it. -/
theorem setInput_keeps_macros :
    isMacroDefined (setInput (defineMacro SVPreprocessor.new "FOO".toList "1".toList) [] [])
      "FOO".toList = true ∧
    (process (setInput SVPreprocessor.new "`define FOO\n".toList [])).map
      (fun pp => isMacroDefined (setInput pp "next".toList []) "FOO".toList) = some true :=
  ⟨by decide, by decide⟩

/-- C19, amended. After `setInput(content)`, whatever was scanned or defined before,
the conditional stack and the include list are empty, the lookahead is cleared and the
position is at the start of `content`; the macro table is the one from before. The
table of a newly constructed preprocessor, which is what the build uses for each file,
is empty. -/
theorem setInput_resets (pp : SVPreprocessor) (content file : Str) :
    (setInput pp content file).m_condStack = [] ∧
    (setInput pp content file).m_includes = [] ∧
    (setInput pp content file).m_hasPeeked = false ∧
    (setInput pp content file).m_rest = content ∧
    (setInput pp content file).m_line = 1 ∧ (setInput pp content file).m_column = 1 ∧
    (setInput pp content file).m_macros = pp.m_macros ∧
    (setInput SVPreprocessor.new content file).m_macros = [] :=
  ⟨rfl, rfl, rfl, rfl, rfl, rfl, rfl, rfl⟩

/-- C20 as written fails: the stored roots are `a`, `c` and the root list is `a`, `b`;
the check returns 0, but only after it has queried the timestamp of `a`. -/
theorem mismatch_after_first_root_queries :
    exMismatchCtx.m_rootFiles ≠ exMismatchCtx.m_collection.root_files.map FileInfo.name ∧
    (checkUpToDateLog exAllFs 3 exMismatchCtx (Double.num 100)).map (fun r => (r.1, r.2.2)) =
      some (0, ["a".toList]) ∧
    (checkUpToDate exAllFs 3 exMismatchCtx (Double.num 100)).map Prod.fst = some 0 :=
  ⟨by decide, by decide, by decide⟩

/-- C20, amended. If the root list differs from the list of stored root names, in length
or at some position, `checkUpToDate` returns 0. No timestamp is queried when the lengths
differ or when the first position differs. When the first difference is at a later
position, the timestamps queried are those that the check of the positions before it
queries. (`checkUpToDateLog` is `checkUpToDate` with the log of its queries.) -/
theorem root_mismatch_returns_zero (fs : FileSystem τ) (ctx : SVDepContext τ) (T : Double τ)
    (fuel : Nat) (hfuel : ctx.m_collection.file_info.length < fuel) :
    (checkUpToDateLog fs fuel ctx T).map dropLog = checkUpToDate fs fuel ctx T ∧
    (ctx.m_rootFiles ≠ ctx.m_collection.root_files.map FileInfo.name →
      ∃ ctx1, checkUpToDate fs fuel ctx T = some (0, ctx1)) ∧
    (ctx.m_rootFiles.length ≠ ctx.m_collection.root_files.length →
      checkUpToDateLog fs fuel ctx T = some (0, ctx, [])) ∧
    (∀ p i ps is, ctx.m_rootFiles = p :: ps → ctx.m_collection.root_files = i :: is →
      p ≠ i.name → (checkUpToDateLog fs fuel ctx T).map (fun r => r.2.2) = some []) ∧
    (∀ pre preI p i ps is, ctx.m_rootFiles = pre ++ p :: ps →
      ctx.m_collection.root_files = preI ++ i :: is → pre.length = preI.length →
      ps.length = is.length → p ≠ i.name →
      (checkUpToDateLog fs fuel ctx T).map (fun r => r.2.2) =
        (checkUpToDateLog fs fuel
          { ctx with m_rootFiles := pre,
                     m_collection := { ctx.m_collection with root_files := preI } } T).map
          (fun r => r.2.2)) := by
  refine ⟨checkUpToDateLog_erase fs fuel ctx T, ?_, ?_, ?_, ?_⟩
  · intro hne
    obtain ⟨r, ctx1, hrun, h01, hiff⟩ := checkUpToDate_spec fs ctx T fuel hfuel
    rcases h01 with h1 | h0
    · exact absurd (hiff.1 h1).1 hne
    · subst h0
      exact ⟨ctx1, hrun⟩
  · intro hlen
    simp only [checkUpToDateLog, hlen, ne_eq, not_false_eq_true, if_true]
  · intro p i ps is h1 h2 hne
    simp only [checkUpToDateLog, h1, h2, checkRootsLog, hne, ne_eq, not_false_eq_true, if_true]
    split_ifs <;> rfl
  · intro pre preI p i ps is h1 h2 hl hl2 hne
    have key := checkRootsLog_mismatch fs T fuel p i ps is hne pre preI
      (resetFlags ctx.m_collection.file_info) [] hl
    have e1 : ¬ (pre ++ p :: ps).length ≠ (preI ++ i :: is).length := by
      simp [hl, hl2]
    have e2 : ¬ pre.length ≠ preI.length := by simp [hl]
    simp only [checkUpToDateLog, h1, h2, if_neg e1, if_neg e2]
    cases hA : checkRootsLog fs T fuel (pre ++ p :: ps) (preI ++ i :: is)
        (resetFlags ctx.m_collection.file_info) [] with
    | none =>
      rw [hA] at key
      cases hB : checkRootsLog fs T fuel pre preI (resetFlags ctx.m_collection.file_info) [] with
      | none => rfl
      | some b => rw [hB] at key; cases key
    | some a =>
      rw [hA] at key
      cases hB : checkRootsLog fs T fuel pre preI (resetFlags ctx.m_collection.file_info) [] with
      | none => rw [hB] at key; cases key
      | some b =>
        rw [hB] at key
        simp only [Option.map_some', Option.some.injEq] at key
        simp only [Option.map_some', Option.some.injEq]
        exact congrArg Prod.snd key

/-- C20 amended, at the stored roots `a`, `c` checked for the root list `a`, `b`. -/
theorem root_mismatch_returns_zero_witness :
    exMismatchCtx.m_collection.file_info.length < 3 ∧
    (checkUpToDateLog exAllFs 3 exMismatchCtx (Double.num 100)).map dropLog =
      checkUpToDate exAllFs 3 exMismatchCtx (Double.num 100) ∧
    ∃ ctx1, checkUpToDate exAllFs 3 exMismatchCtx (Double.num 100) = some (0, ctx1) :=
  ⟨by decide, (root_mismatch_returns_zero exAllFs exMismatchCtx (Double.num 100) 3 (by decide)).1,
    (root_mismatch_returns_zero exAllFs exMismatchCtx (Double.num 100) 3 (by decide)).2.1 (by decide)⟩

/-- C14. Single-token lookahead, in every scanner state `pp`: a second `peekToken` returns
the token of the first and changes nothing; a `nextToken` after a `peekToken` returns the
peeked token; and for every sequence `ops` of `peekToken` and `nextToken` calls, the tokens
returned by the `nextToken` calls are those of the same sequence without the `peekToken`
calls, and `process` run to the end from either state ends, with the same include list,
macro table and conditional stack. -/
theorem lookahead_transparent (pp : SVPreprocessor) (ops : List LookOp) :
    peekToken (peekToken pp).2 = ((peekToken pp).1, (peekToken pp).2) ∧
    (nextToken (peekToken pp).2).1 = (peekToken pp).1 ∧
    (runOps ops pp).1 = (runOps (nextsOf ops) pp).1 ∧
    (∃ pp1 pp2, process (runOps ops pp).2 = some pp1 ∧
      process (runOps (nextsOf ops) pp).2 = some pp2 ∧
      getIncludes pp1 = getIncludes pp2 ∧ pp1.m_macros = pp2.m_macros ∧
      pp1.m_condStack = pp2.m_condStack) := by
  have hsim := runOps_sim ops pp pp (Or.inr (Or.inr rfl))
  refine ⟨peekToken_twice pp, nextToken_after_peek pp, hsim.1, ?_⟩
  obtain ⟨pp1, h1⟩ := process_total (runOps ops pp).2
  obtain ⟨pp2, h2⟩ := process_total (runOps (nextsOf ops) pp).2
  have hp := process_sim hsim.2
  rw [h1, h2] at hp
  simp only [Option.map_some', Option.some.injEq, scanResult, Prod.mk.injEq] at hp
  exact ⟨pp1, pp2, h1, h2, hp.1, hp.2.1, hp.2.2⟩

/-- C16 as stated fails: the text of `exEndifFirst` has one `endif` and one `ifdef`, both
are scanned as directives, and `process` ends with one frame on the conditional stack; in
`exSameLine` the `endif` stands on the line of its `ifdef`, is skipped with the rest of
that line, and the frame of the `ifdef` stays on the stack. -/
theorem equal_counts_stack_not_empty :
    (tokensOf (setInput SVPreprocessor.new exEndifFirst "t.sv".toList)).map
        (fun r => (tokenValues r.1, opensOf r.1, closesOf r.1, r.2.m_condStack.length)) =
      some ([(TokenType.DIRECTIVE, "endif".toList), (TokenType.DIRECTIVE, "ifdef".toList)],
        1, 1, 1) ∧
    (process (setInput SVPreprocessor.new exEndifFirst "t.sv".toList)).map
        (fun pp1 => pp1.m_condStack.length) = some 1 ∧
    (tokensOf (setInput SVPreprocessor.new exSameLine "t.sv".toList)).map
        (fun r => (tokenValues r.1, r.2.m_condStack.length)) =
      some ([(TokenType.DIRECTIVE, "ifdef".toList)], 1) := by
  refine ⟨?_, ?_, ?_⟩ <;> rfl

/-- C16 amended. For every input, `process` ends, and the depth of the conditional stack
at the end is the depth computed over the directive tokens that were scanned, an `endif`
on an empty stack being ignored. If in no prefix of the token stream the `endif`
directives outnumber the `ifdef` and `ifndef` directives, and over the whole stream the
two counts are equal, the conditional stack is empty after `process`. -/
theorem nested_balance_empties_stack (pp0 : SVPreprocessor) (content file : Str) :
    ∃ toks pp1, tokensOf (setInput pp0 content file) = some (toks, pp1) ∧
      process (setInput pp0 content file) = some pp1 ∧
      pp1.m_condStack.length = toks.foldl depthStep 0 ∧
      (ProperlyNested toks → opensOf toks = closesOf toks → pp1.m_condStack = []) := by
  obtain ⟨pp1, h1⟩ := process_total (setInput pp0 content file)
  have he := processTokens_erase ((setInput pp0 content file).m_rest.length + 1)
    (setInput pp0 content file)
  have h1b : processLoop ((setInput pp0 content file).m_rest.length + 1)
      (setInput pp0 content file) = some pp1 := h1
  rw [h1b] at he
  cases ht : processTokens ((setInput pp0 content file).m_rest.length + 1)
      (setInput pp0 content file) with
  | none => rw [ht] at he; cases he
  | some r =>
    obtain ⟨toks, q⟩ := r
    rw [ht] at he
    simp only [Option.map_some', Option.some.injEq] at he
    subst he
    have hd := processTokens_depth _ _ toks q rfl ht
    have hd0 : q.m_condStack.length = toks.foldl depthStep 0 := hd
    refine ⟨toks, q, ht, h1, hd0, ?_⟩
    intro hn hb
    have hf := foldl_depthStep toks 0 (fun k => by simpa using hn k)
    have : toks.foldl depthStep 0 = 0 := by omega
    exact List.length_eq_zero.mp (hd0.trans this)

/-- C17 as stated fails: over the text of `exOperandText`, an `ifdef` with its operand
`FOO`, `process` draws one token, the directive of value `ifdef`; the characters of the
operand are consumed with it and are part of no token. -/
theorem operand_in_no_token :
    (tokensOf (setInput SVPreprocessor.new exOperandText "t.sv".toList)).map
        (fun r => (tokenValues r.1, r.2.m_rest)) =
      some ([(TokenType.DIRECTIVE, "ifdef".toList)], []) ∧
    'F' ∈ exOperandText ∧ 'F' ∉ "ifdef".toList := by
  refine ⟨rfl, by decide, by decide⟩

/-- C17 amended. For every source text, `process` ends and cuts the text into pieces, one
for each token it draws, in order: the white space skipped in front of the token and the
text consumed for the token, which for a directive includes the operands its handler
reads. The pieces put together are the whole text, so every character is either skipped
white space or part of the text of exactly one token. The text of a token starts with a
character that is not white space, is empty for the end-of-file token alone, and is the
value of the token when the token is an identifier, a number or an operator. -/
theorem pieces_cover_input (pp0 : SVPreprocessor) (content file : Str) :
    ∃ pieces pp1, piecesOf (setInput pp0 content file) = some (pieces, pp1) ∧
      process (setInput pp0 content file) = some pp1 ∧
      tokensOf (setInput pp0 content file) = some (pieces.map Piece.token, pp1) ∧
      piecesText pieces = content ∧ pp1.m_rest = [] ∧
      ∀ p ∈ pieces, (∀ x ∈ p.space, isBlank x = true) ∧
        (∀ x ∈ p.text.head?, isBlank x = false) ∧
        (p.token.type = TokenType.END_OF_FILE → p.text = []) ∧
        (p.token.type ≠ TokenType.END_OF_FILE → p.text ≠ []) ∧
        (p.token.type = TokenType.IDENTIFIER ∨ p.token.type = TokenType.NUMBER ∨
          p.token.type = TokenType.OPERATOR → p.token.value = p.text) := by
  obtain ⟨pp1, h1⟩ := process_total (setInput pp0 content file)
  have he := processTokens_erase ((setInput pp0 content file).m_rest.length + 1)
    (setInput pp0 content file)
  have hp := processPieces_erase ((setInput pp0 content file).m_rest.length + 1)
    (setInput pp0 content file)
  have h1b : processLoop ((setInput pp0 content file).m_rest.length + 1)
      (setInput pp0 content file) = some pp1 := h1
  rw [h1b, ← hp, Option.map_map] at he
  cases hq : processPieces ((setInput pp0 content file).m_rest.length + 1)
      (setInput pp0 content file) with
  | none => rw [hq] at he; cases he
  | some r =>
    obtain ⟨pieces, q⟩ := r
    rw [hq] at he hp
    simp only [Option.map_some', Option.some.injEq, Function.comp] at he
    subst he
    obtain ⟨s1, s2, s3⟩ := processPieces_spec _ _ pieces q rfl hq
    exact ⟨pieces, q, hq, h1, hp.symm, s1, s2, s3⟩

end Claims2

/-! ## The build and the log of its resolutions -/

section TraceLemmas

variable {τ : Type} [LinearOrder τ] [Zero τ]

omit [LinearOrder τ] [Zero τ] in
theorem callsOf_append (p : Str) (a b : List (Resolution τ)) :
    callsOf p (a ++ b) = callsOf p a ++ callsOf p b := by
  simp [callsOf]

omit [LinearOrder τ] [Zero τ] in
theorem callsOf_eq_nil (p : Str) (l : List (Resolution τ)) (h : ∀ e ∈ l, e.file ≠ p) :
    callsOf p l = [] := by
  simp only [callsOf, List.filter_eq_nil_iff, decide_eq_true_eq]
  exact h

/-! ### Dropping the log gives the build -/

omit [LinearOrder τ] [Zero τ] in
theorem buildIncludesLog_erase (fs : FileSystem τ) (path : Str)
    (recL : Str → SVDepContext τ → List (Resolution τ) →
      Option (FileInfo τ × SVDepContext τ × List (Resolution τ)))
    (rec : Str → SVDepContext τ → Option (FileInfo τ × SVDepContext τ))
    (hrec : ∀ p c log, (recL p c log).map dropCalls = rec p c) (names : List Str) :
    ∀ (info : FileInfo τ) (ctx : SVDepContext τ) (log : List (Resolution τ)),
      (buildIncludesLog fs path recL names info ctx log).map dropCalls =
        buildIncludes fs rec names info ctx := by
  induction names with
  | nil => intro info ctx log; rfl
  | cons inc rest ih =>
    intro info ctx log
    simp only [buildIncludesLog, buildIncludes]
    split_ifs with hne
    · have h := hrec (resolveInclude fs ctx inc).1
        { (resolveInclude fs ctx inc).2 with
          m_incdirs := addSearchDir (getDirname (resolveInclude fs ctx inc).1)
            (resolveInclude fs ctx inc).2.m_incdirs }
        (log ++ [{ file := path, name := inc, ctx := ctx }])
      cases hL : recL (resolveInclude fs ctx inc).1
          { (resolveInclude fs ctx inc).2 with
            m_incdirs := addSearchDir (getDirname (resolveInclude fs ctx inc).1)
              (resolveInclude fs ctx inc).2.m_incdirs }
          (log ++ [{ file := path, name := inc, ctx := ctx }]) with
      | none =>
        rw [hL] at h
        simp only [Option.map_none'] at h
        rw [← h]
        rfl
      | some res =>
        obtain ⟨i, c2, log2⟩ := res
        rw [hL] at h
        simp only [Option.map_some', dropCalls] at h
        rw [← h]
        exact ih _ c2 log2
    · exact ih _ _ _

omit [LinearOrder τ] in
/-- Dropping the log of `buildFileInfoLog` gives `buildFileInfo`. -/
theorem buildFileInfoLog_erase (fs : FileSystem τ) (fuel : Nat) :
    ∀ (path : Str) (ctx : SVDepContext τ) (log : List (Resolution τ)),
      (buildFileInfoLog fs fuel path ctx log).map dropCalls = buildFileInfo fs fuel path ctx := by
  induction fuel with
  | zero => intro path ctx log; rfl
  | succ fuel ih =>
    intro path ctx log
    simp only [buildFileInfoLog, buildFileInfo]
    cases mapFind path ctx.m_collection.file_info with
    | some stored => rfl
    | none =>
      simp only []
      split_ifs with hearly
      · rfl
      · cases hs : scanIncludes (readFile fs (storeNode ctx path
            { (FileInfo.default : FileInfo τ) with
              name := path, timestamp := getFileTimestamp fs path }) path).1 path with
        | none => rfl
        | some names =>
          simp only []
          have h := buildIncludesLog_erase fs path (buildFileInfoLog fs fuel)
            (buildFileInfo fs fuel) ih names
            { (FileInfo.default : FileInfo τ) with
              name := path, timestamp := getFileTimestamp fs path }
            (readFile fs (storeNode ctx path
              { (FileInfo.default : FileInfo τ) with
                name := path, timestamp := getFileTimestamp fs path }) path).2 log
          cases hL : buildIncludesLog fs path (buildFileInfoLog fs fuel) names
              { (FileInfo.default : FileInfo τ) with
                name := path, timestamp := getFileTimestamp fs path }
              (readFile fs (storeNode ctx path
                { (FileInfo.default : FileInfo τ) with
                  name := path, timestamp := getFileTimestamp fs path }) path).2 log with
          | none =>
            rw [hL] at h
            simp only [Option.map_none'] at h
            rw [← h]
            rfl
          | some res =>
            obtain ⟨i, c2, log2⟩ := res
            rw [hL] at h
            simp only [Option.map_some', dropCalls] at h
            rw [← h]
            rfl

omit [LinearOrder τ] in
theorem buildRootsLog_erase (fs : FileSystem τ) (fuel : Nat) (roots : List Str) :
    ∀ (ctx : SVDepContext τ) (log : List (Resolution τ)),
      (buildRootsLog fs fuel roots ctx log).map dropCalls = buildRoots fs fuel roots ctx := by
  induction roots with
  | nil => intro ctx log; rfl
  | cons rootPath rest ih =>
    intro ctx log
    simp only [buildRootsLog, buildRoots]
    have h := buildFileInfoLog_erase fs fuel rootPath
      { ctx with m_incdirs := addSearchDir (getDirname rootPath) ctx.m_incdirs } log
    cases hL : buildFileInfoLog fs fuel rootPath
        { ctx with m_incdirs := addSearchDir (getDirname rootPath) ctx.m_incdirs } log with
    | none =>
      rw [hL] at h
      simp only [Option.map_none'] at h
      rw [← h]
      rfl
    | some res =>
      obtain ⟨i, c2, log2⟩ := res
      rw [hL] at h
      simp only [Option.map_some', dropCalls] at h
      rw [← h]
      simp only []
      split_ifs with herr
      · rfl
      · exact ih _ log2

omit [LinearOrder τ] in
/-- Dropping the log of `buildLog` gives `build`. -/
theorem buildLog_erase (fs : FileSystem τ) (fuel : Nat) (ctx : SVDepContext τ) :
    (buildLog fs fuel ctx).map dropCalls = build fs fuel ctx :=
  buildRootsLog_erase fs fuel ctx.m_rootFiles _ []

/-! ### What the log records -/

omit [LinearOrder τ] [Zero τ] in
/-- A stretch that records no call and leaves the nodes alone. -/
theorem TracePost.traceSilent (fs : FileSystem τ) (own : List Str) {a b : SVDepContext τ}
    (hd : DuringBuild fs a b)
    (hn : b.m_collection.file_info = a.m_collection.file_info) : TracePost fs own a b [] := by
  refine ⟨hd, ?_, List.Pairwise.nil, ?_, ?_, ?_, ?_⟩
  · intro e he; cases he
  · intro s _; rw [hn]
  · intro e he; cases he
  · intro e he; cases he
  · intro s info content h0 h1 _
    rw [hn, h0] at h1
    cases h1

omit [LinearOrder τ] [Zero τ] in
/-- More files in progress. -/
theorem TracePost.traceWiden {fs : FileSystem τ} {own : List Str} {a b : SVDepContext τ}
    {new : List (Resolution τ)} (h : TracePost fs own a b new) (own1 : List Str)
    (hsub : ∀ o ∈ own, o ∈ own1) : TracePost fs own1 a b new :=
  ⟨h.during, h.calls, h.order, h.kept, h.noded,
    fun e he => (h.fresh e he).imp (hsub _) id, h.exact⟩

omit [LinearOrder τ] [Zero τ] in
/-- One stretch after another. -/
theorem TracePost.traceSeq {fs : FileSystem τ} {own : List Str} {a b c : SVDepContext τ}
    {new1 new2 : List (Resolution τ)} (h1 : TracePost fs own a b new1)
    (h2 : TracePost fs own b c new2)
    (hown : ∀ o ∈ own, (mapFind o a.m_collection.file_info).isSome = true) :
    TracePost fs own a c (new1 ++ new2) := by
  have hkeep : ∀ s, (mapFind s a.m_collection.file_info).isSome = true →
      (mapFind s b.m_collection.file_info).isSome = true := by
    intro s hs
    rw [h1.kept s hs]
    exact hs
  refine ⟨h1.during.trans h2.during, ?_, ?_, ?_, ?_, ?_, ?_⟩
  · intro e he
    rcases List.mem_append.1 he with he | he
    · exact ⟨(h1.calls e he).1, (h1.calls e he).2.trans h2.during⟩
    · exact ⟨h1.during.trans (h2.calls e he).1, (h2.calls e he).2⟩
  · rw [List.pairwise_append]
    refine ⟨h1.order, h2.order, ?_⟩
    intro x hx y hy
    exact (h1.calls x hx).2.trans (h2.calls y hy).1
  · intro s hs
    rw [h2.kept s (hkeep s hs), h1.kept s hs]
  · intro e he
    rcases List.mem_append.1 he with he | he
    · have := h1.noded e he
      rw [h2.kept _ this]
      exact this
    · exact h2.noded e he
  · intro e he
    rcases List.mem_append.1 he with he | he
    · exact h1.fresh e he
    · rcases h2.fresh e he with ho | hnone
      · exact Or.inl ho
      · right
        cases hf : mapFind e.file a.m_collection.file_info with
        | none => rfl
        | some i =>
          have := hkeep e.file (by rw [hf]; rfl)
          rw [hnone] at this
          cases this
  · intro s info content h0 hc hr
    rw [callsOf_append]
    have hsown : s ∉ own := by
      intro hs
      have := hown s hs
      rw [h0] at this
      cases this
    cases hb : mapFind s b.m_collection.file_info with
    | some i =>
      have hsome : (mapFind s b.m_collection.file_info).isSome = true := by rw [hb]; rfl
      have hc2 := h2.kept s hsome
      rw [hc, hb] at hc2
      cases hc2
      have h2nil : callsOf s new2 = [] := by
        apply callsOf_eq_nil
        intro e he hes
        rcases h2.fresh e he with ho | hnone
        · exact hsown (hes ▸ ho)
        · rw [hes, hb] at hnone
          cases hnone
      rw [h2nil, List.append_nil]
      exact h1.exact s info content h0 hb hr
    | none =>
      have h1nil : callsOf s new1 = [] := by
        apply callsOf_eq_nil
        intro e he hes
        have := h1.noded e he
        rw [hes, hb] at this
        cases this
      rw [h1nil, List.nil_append]
      exact h2.exact s info content hb hc hr

omit [LinearOrder τ] [Zero τ] in
/-- The stretch of one call of `resolveInclude` by the include loop of `path`. -/
theorem tracePost_call (fs : FileSystem τ) (path inc : Str) (ctx : SVDepContext τ)
    (hp : (mapFind path ctx.m_collection.file_info).isSome = true) :
    TracePost fs [path] ctx (resolveInclude fs ctx inc).2
      [{ file := path, name := inc, ctx := ctx }] := by
  obtain ⟨-, hcoll, -, -, -⟩ := resolveInclude_frame fs ctx inc
  refine ⟨Relation.ReflTransGen.single (BuildStep.resolve ctx inc), ?_,
    List.pairwise_singleton _ _, ?_, ?_, ?_, ?_⟩
  · intro e he
    simp only [List.mem_singleton] at he
    subst he
    exact ⟨Relation.ReflTransGen.refl, Relation.ReflTransGen.refl⟩
  · intro s _; rw [hcoll]
  · intro e he
    simp only [List.mem_singleton] at he
    subst he
    rw [hcoll]
    exact hp
  · intro e he
    simp only [List.mem_singleton] at he
    subst he
    exact Or.inl (List.mem_singleton.2 rfl)
  · intro s info content h0 h1 _
    rw [hcoll, h0] at h1
    cases h1

omit [LinearOrder τ] [Zero τ] in
/-- The include loop of `path`: the calls it records for `path` are those of the raw
names, one per name and in their order, and the include list grows by the paths of the
calls that resolved. -/
theorem buildIncludesLog_trace (fs : FileSystem τ) (path : Str)
    (recL : Str → SVDepContext τ → List (Resolution τ) →
      Option (FileInfo τ × SVDepContext τ × List (Resolution τ)))
    (hrec : ∀ p c log i c1 log1, recL p c log = some (i, c1, log1) →
      ∃ new, log1 = log ++ new ∧ TracePost fs [] c c1 new)
    (names : List Str) :
    ∀ (info : FileInfo τ) (ctx : SVDepContext τ) (log : List (Resolution τ))
      (info1 : FileInfo τ) (ctx1 : SVDepContext τ) (log1 : List (Resolution τ)),
      (mapFind path ctx.m_collection.file_info).isSome = true →
      buildIncludesLog fs path recL names info ctx log = some (info1, ctx1, log1) →
      ∃ new, log1 = log ++ new ∧ TracePost fs [path] ctx ctx1 new ∧
        (callsOf path new).map Resolution.name = names ∧
        info1.includes = info.includes ++ (callsOf path new).filterMap (Resolution.path fs) := by
  induction names with
  | nil =>
    intro info ctx log info1 ctx1 log1 _ h
    simp only [buildIncludesLog, Option.some.injEq, Prod.mk.injEq] at h
    obtain ⟨rfl, rfl, rfl⟩ := h
    exact ⟨[], by simp, TracePost.traceSilent fs _ Relation.ReflTransGen.refl rfl, rfl,
      by simp [callsOf]⟩
  | cons inc rest ih =>
    intro info ctx log info1 ctx1 log1 hp h
    simp only [buildIncludesLog] at h
    have hown : ∀ o ∈ [path], (mapFind o ctx.m_collection.file_info).isSome = true := by
      intro o ho
      simp only [List.mem_singleton] at ho
      subst ho
      exact hp
    have hA := tracePost_call fs path inc ctx hp
    have hpA : (mapFind path (resolveInclude fs ctx inc).2.m_collection.file_info).isSome = true := by
      rw [hA.kept path hp]
      exact hp
    have hself : callsOf path [({ file := path, name := inc, ctx := ctx } : Resolution τ)] =
        [{ file := path, name := inc, ctx := ctx }] := by
      simp [callsOf]
    by_cases hne : (resolveInclude fs ctx inc).1 = []
    · simp only [hne, ne_eq, not_true_eq_false, if_false] at h
      obtain ⟨newR, hlog, hR, hnames, hincs⟩ := ih info _ _ info1 ctx1 log1 hpA h
      refine ⟨[{ file := path, name := inc, ctx := ctx }] ++ newR, ?_, hA.traceSeq hR hown, ?_, ?_⟩
      · rw [hlog, List.append_assoc]
      · rw [callsOf_append, hself]
        simp [hnames]
      · rw [callsOf_append, hself, hincs]
        simp [Resolution.path, hne]
    · simp only [hne, ne_eq, not_false_eq_true, if_true] at h
      cases hc : recL (resolveInclude fs ctx inc).1
          { (resolveInclude fs ctx inc).2 with
            m_incdirs := addSearchDir (getDirname (resolveInclude fs ctx inc).1)
              (resolveInclude fs ctx inc).2.m_incdirs }
          (log ++ [{ file := path, name := inc, ctx := ctx }]) with
      | none => simp [hc] at h
      | some res =>
        obtain ⟨i, ctx2, log2⟩ := res
        simp only [hc] at h
        obtain ⟨newC, hlogC, hC⟩ := hrec _ _ _ i ctx2 log2 hc
        have hB : TracePost fs [path] (resolveInclude fs ctx inc).2
            { (resolveInclude fs ctx inc).2 with
              m_incdirs := addSearchDir (getDirname (resolveInclude fs ctx inc).1)
                (resolveInclude fs ctx inc).2.m_incdirs } [] :=
          TracePost.traceSilent fs _ (Relation.ReflTransGen.single (BuildStep.searchDir _ _)) rfl
        have hAB := hA.traceSeq hB hown
        have hownB : ∀ o ∈ [path], (mapFind o ({ (resolveInclude fs ctx inc).2 with
            m_incdirs := addSearchDir (getDirname (resolveInclude fs ctx inc).1)
              (resolveInclude fs ctx inc).2.m_incdirs } :
              SVDepContext τ).m_collection.file_info).isSome = true := by
          intro o ho
          simp only [List.mem_singleton] at ho
          subst ho
          exact hpA
        have hC1 : TracePost fs [path] _ ctx2 newC := hC.traceWiden [path] (by simp)
        have hp2 : (mapFind path ctx2.m_collection.file_info).isSome = true := by
          rw [hC.kept path hpA]
          exact hpA
        obtain ⟨newR, hlog, hR, hnames, hincs⟩ := ih _ ctx2 log2 info1 ctx1 log1 hp2 h
        have hABC := hAB.traceSeq hC1 hown
        have hcnil : callsOf path newC = [] := by
          apply callsOf_eq_nil
          intro e he hes
          rcases hC.fresh e he with ho | hnone
          · cases ho
          · rw [hes] at hnone
            have := hpA
            simp only [] at hnone
            rw [hnone] at this
            cases this
        refine ⟨([{ file := path, name := inc, ctx := ctx }] ++ []) ++ newC ++ newR, ?_,
          hABC.traceSeq hR hown, ?_, ?_⟩
        · rw [hlog, hlogC]
          simp
        · simp only [callsOf_append, hself, hcnil, List.append_nil, List.map_append,
            List.map_cons, List.map_nil, hnames]
          simp [callsOf]
        · simp only [callsOf_append, hself, hcnil, List.append_nil, hincs]
          simp [callsOf, Resolution.path, hne]

omit [LinearOrder τ] in
/-- A call of `buildFileInfoLog`: the files that get a node in it end with the include
list that their recorded calls give. -/
theorem buildFileInfoLog_trace (fs : FileSystem τ) (fuel : Nat) :
    ∀ (path : Str) (ctx : SVDepContext τ) (log : List (Resolution τ)) (info : FileInfo τ)
      (ctx1 : SVDepContext τ) (log1 : List (Resolution τ)),
      buildFileInfoLog fs fuel path ctx log = some (info, ctx1, log1) →
      ∃ new, log1 = log ++ new ∧ TracePost fs [] ctx ctx1 new := by
  induction fuel with
  | zero => intro path ctx log info ctx1 log1 h; simp [buildFileInfoLog] at h
  | succ fuel ih =>
    intro path ctx log info ctx1 log1 h
    simp only [buildFileInfoLog] at h
    cases hf : mapFind path ctx.m_collection.file_info with
    | some stored =>
      simp only [hf, Option.some.injEq, Prod.mk.injEq] at h
      obtain ⟨-, rfl, rfl⟩ := h
      exact ⟨[], by simp, TracePost.traceSilent fs _ Relation.ReflTransGen.refl rfl⟩
    | none =>
      simp only [hf] at h
      obtain ⟨-, hcollR, -⟩ := readFile_frame fs (storeNode ctx path
        { (FileInfo.default : FileInfo τ) with
          name := path, timestamp := getFileTimestamp fs path }) path
      have hdP : DuringBuild fs ctx (readFile fs (storeNode ctx path
          { (FileInfo.default : FileInfo τ) with
            name := path, timestamp := getFileTimestamp fs path }) path).2 :=
        (Relation.ReflTransGen.single (BuildStep.store ctx path _)).trans
          (Relation.ReflTransGen.single (BuildStep.read _ path))
      have hfindR : ∀ q, mapFind q (readFile fs (storeNode ctx path
          { (FileInfo.default : FileInfo τ) with
            name := path, timestamp := getFileTimestamp fs path }) path).2.m_collection.file_info =
          if q = path then some { (FileInfo.default : FileInfo τ) with
            name := path, timestamp := getFileTimestamp fs path }
          else mapFind q ctx.m_collection.file_info := by
        intro q
        rw [hcollR]
        simp only [storeNode]
        exact mapFind_mapSet _ _ _ _
      have hne : ∀ s, (mapFind s ctx.m_collection.file_info).isSome = true → s ≠ path := by
        intro s hs e
        rw [e, hf] at hs
        cases hs
      split_ifs at h with hearly
      · simp only [Option.some.injEq, Prod.mk.injEq] at h
        obtain ⟨-, rfl, rfl⟩ := h
        refine ⟨[], by simp, hdP, ?_, List.Pairwise.nil, ?_, ?_, ?_, ?_⟩
        · intro e he; cases he
        · intro s hs
          rw [hfindR, if_neg (hne s hs)]
        · intro e he; cases he
        · intro e he; cases he
        · intro s info content h0 h1 hr
          rw [hfindR] at h1
          by_cases e : s = path
          · subst e
            rw [if_pos rfl] at h1
            cases h1
            have hcont := readFile_content fs (storeNode ctx s
              { (FileInfo.default : FileInfo τ) with
                name := s, timestamp := getFileTimestamp fs s }) s content hr
            rw [hearly.1] at hcont
            subst hcont
            exact ⟨scanIncludes_empty s, rfl⟩
          · rw [if_neg e, h0] at h1
            cases h1
      · cases hs : scanIncludes (readFile fs (storeNode ctx path
            { (FileInfo.default : FileInfo τ) with
              name := path, timestamp := getFileTimestamp fs path }) path).1 path with
        | none => simp [hs] at h
        | some names =>
          simp only [hs] at h
          cases hb : buildIncludesLog fs path (buildFileInfoLog fs fuel) names
              { (FileInfo.default : FileInfo τ) with
                name := path, timestamp := getFileTimestamp fs path }
              (readFile fs (storeNode ctx path
                { (FileInfo.default : FileInfo τ) with
                  name := path, timestamp := getFileTimestamp fs path }) path).2 log with
          | none => simp [hb] at h
          | some res =>
            obtain ⟨info1, ctx2, log2⟩ := res
            simp only [hb, Option.some.injEq, Prod.mk.injEq] at h
            obtain ⟨rfl, rfl, rfl⟩ := h
            have hpR : (mapFind path (readFile fs (storeNode ctx path
                { (FileInfo.default : FileInfo τ) with
                  name := path, timestamp := getFileTimestamp fs path })
                path).2.m_collection.file_info).isSome = true := by
              rw [hfindR, if_pos rfl]
              rfl
            obtain ⟨new, hlog, hL, hnames, hincs⟩ := buildIncludesLog_trace fs path
              (buildFileInfoLog fs fuel) (fun p c l i c1 l1 hh => ih p c l i c1 l1 hh)
              names _ _ log info1 ctx2 log2 hpR hb
            have hdS : DuringBuild fs ctx2 (storeNode ctx2 path info1) :=
              Relation.ReflTransGen.single (BuildStep.store ctx2 path info1)
            refine ⟨new, hlog, hdP.trans (hL.during.trans hdS), ?_, hL.order, ?_, ?_, ?_, ?_⟩
            · intro e he
              exact ⟨hdP.trans (hL.calls e he).1, (hL.calls e he).2.trans hdS⟩
            · intro s hs
              have hsp := hne s hs
              have hsR : (mapFind s (readFile fs (storeNode ctx path
                  { (FileInfo.default : FileInfo τ) with
                    name := path, timestamp := getFileTimestamp fs path })
                  path).2.m_collection.file_info).isSome = true := by
                rw [hfindR, if_neg hsp]
                exact hs
              simp only [storeNode]
              rw [mapFind_mapSet_other _ _ _ _ hsp, hL.kept s hsR, hfindR, if_neg hsp]
            · intro e he
              have := hL.noded e he
              simp only [storeNode]
              rw [mapFind_mapSet]
              split_ifs
              · rfl
              · exact this
            · intro e he
              right
              rcases hL.fresh e he with ho | hnone
              · simp only [List.mem_singleton] at ho
                rw [ho]
                exact hf
              · rw [hfindR] at hnone
                split_ifs at hnone
                exact hnone
            · intro s info content h0 h1 hr
              by_cases e : s = path
              · subst e
                simp only [storeNode, mapFind_mapSet_same, Option.some.injEq] at h1
                subst h1
                have hcont := readFile_content fs (storeNode ctx s
                  { (FileInfo.default : FileInfo τ) with
                    name := s, timestamp := getFileTimestamp fs s }) s content hr
                rw [hcont] at hs
                refine ⟨by rw [hs, hnames], ?_⟩
                rw [hincs]
                rfl
              · simp only [storeNode] at h1
                rw [mapFind_mapSet_other _ _ _ _ e] at h1
                exact hL.exact s info content (by rw [hfindR, if_neg e]; exact h0) h1 hr

omit [LinearOrder τ] in
/-- The loop of `buildLog` over the roots. -/
theorem buildRootsLog_trace (fs : FileSystem τ) (fuel : Nat) (roots : List Str) :
    ∀ (ctx : SVDepContext τ) (log : List (Resolution τ)) (r : Int) (ctx1 : SVDepContext τ)
      (log1 : List (Resolution τ)),
      buildRootsLog fs fuel roots ctx log = some (r, ctx1, log1) →
      ∃ new, log1 = log ++ new ∧ TracePost fs [] ctx ctx1 new := by
  induction roots with
  | nil =>
    intro ctx log r ctx1 log1 h
    simp only [buildRootsLog, Option.some.injEq, Prod.mk.injEq] at h
    obtain ⟨-, rfl, rfl⟩ := h
    exact ⟨[], by simp, TracePost.traceSilent fs _ Relation.ReflTransGen.refl rfl⟩
  | cons rootPath rest ih =>
    intro ctx log r ctx1 log1 h
    simp only [buildRootsLog] at h
    have hA : TracePost fs [] ctx { ctx with
        m_incdirs := addSearchDir (getDirname rootPath) ctx.m_incdirs } [] :=
      TracePost.traceSilent fs _ (Relation.ReflTransGen.single (BuildStep.searchDir _ _)) rfl
    cases hc : buildFileInfoLog fs fuel rootPath { ctx with
        m_incdirs := addSearchDir (getDirname rootPath) ctx.m_incdirs } log with
    | none => simp [hc] at h
    | some res =>
      obtain ⟨info, ctx2, log2⟩ := res
      simp only [hc] at h
      obtain ⟨newF, hlogF, hF⟩ := buildFileInfoLog_trace fs fuel rootPath _ log info ctx2 log2 hc
      have hAF := hA.traceSeq hF (by intro o ho; cases ho)
      split_ifs at h with herr
      · simp only [Option.some.injEq, Prod.mk.injEq] at h
        obtain ⟨-, rfl, rfl⟩ := h
        exact ⟨[] ++ newF, by rw [hlogF]; simp, hAF⟩
      · obtain ⟨newR, hlogR, hR⟩ := ih _ log2 r ctx1 log1 h
        have hP : TracePost fs [] ctx2 { ctx2 with m_collection :=
            { ctx2.m_collection with root_files := ctx2.m_collection.root_files ++ [info] } } [] :=
          TracePost.traceSilent fs _ (Relation.ReflTransGen.single (BuildStep.root _ _)) rfl
        have h1 := hAF.traceSeq hP (by intro o ho; cases ho)
        have h2 := h1.traceSeq hR (by intro o ho; cases ho)
        exact ⟨(([] ++ newF) ++ []) ++ newR, by rw [hlogR, hlogF]; simp, h2⟩

omit [LinearOrder τ] [Zero τ] in
/-- An elementary build step keeps what the cache holds. -/
theorem buildStep_cache (fs : FileSystem τ) {a b : SVDepContext τ} (h : BuildStep fs a b)
    (k v : Str) (hk : mapFind k a.m_includeCache = some v) :
    mapFind k b.m_includeCache = some v := by
  cases h with
  | resolve n => exact (resolveInclude_frame fs a n).1.cache k v hk
  | searchDir d => exact hk
  | store path info => exact hk
  | read path => exact (readFile_frame fs a path).1.cache k v hk
  | root info => exact hk

omit [LinearOrder τ] [Zero τ] in
theorem duringBuild_cache (fs : FileSystem τ) {a b : SVDepContext τ} (h : DuringBuild fs a b)
    (k v : Str) (hk : mapFind k a.m_includeCache = some v) :
    mapFind k b.m_includeCache = some v := by
  induction h with
  | refl => exact hk
  | tail _ hstep ih => exact buildStep_cache fs hstep k v ih

omit [LinearOrder τ] in
/-- A run of the loop over the roots is a run of the loop with the log. -/
theorem buildRootsLog_of_buildRoots (fs : FileSystem τ) (fuel : Nat) (roots : List Str)
    (ctx : SVDepContext τ) (log : List (Resolution τ)) (r : Int) (ctx1 : SVDepContext τ)
    (h : buildRoots fs fuel roots ctx = some (r, ctx1)) :
    ∃ log1, buildRootsLog fs fuel roots ctx log = some (r, ctx1, log1) := by
  have he := buildRootsLog_erase fs fuel roots ctx log
  rw [h] at he
  cases hL : buildRootsLog fs fuel roots ctx log with
  | none =>
    rw [hL] at he
    cases he
  | some res =>
    obtain ⟨r1, c1, log1⟩ := res
    rw [hL] at he
    simp only [Option.map_some', dropCalls, Option.some.injEq, Prod.mk.injEq] at he
    obtain ⟨rfl, rfl⟩ := he
    exact ⟨log1, rfl⟩

omit [LinearOrder τ] in
/-- The loop of `build` over the roots is a sequence of elementary build steps. -/
theorem buildRoots_during (fs : FileSystem τ) (fuel : Nat) (roots : List Str)
    (ctx : SVDepContext τ) (r : Int) (ctx1 : SVDepContext τ)
    (h : buildRoots fs fuel roots ctx = some (r, ctx1)) : DuringBuild fs ctx ctx1 := by
  obtain ⟨log1, hL⟩ := buildRootsLog_of_buildRoots fs fuel roots ctx [] r ctx1 h
  obtain ⟨new, -, hT⟩ := buildRootsLog_trace fs fuel roots ctx [] r ctx1 log1 hL
  exact hT.during

omit [LinearOrder τ] in
/-- C12. A `build` that returns is the logged build without its log; `log` holds the
calls of `resolveInclude` of the pass in call order, each with the file whose include
loop made it, the raw name, and the context of the moment. For every file `p` that the
build read successfully, with `content` its content: `p` has a node; the raw names that
a fresh preprocessor (empty macro table) reports for `content` are, in source order, the
names of the calls recorded for `p`, one call per occurrence; and the include list
stored for `p` is exactly the list of the paths these calls returned, in that order,
without the calls that did not resolve (duplicates kept). The calls are ordered in
time: each was made in a context of this pass, reached from the context every earlier
call left. A call that did not resolve left its context as it was (no node, no error);
a call that resolved returned a non-empty path, which the cache holds for the name at the
end of the pass. -/
theorem stored_includes_resolved (fs : FileSystem τ) (fuel : Nat) (ctx : SVDepContext τ)
    (r : Int) (ctx1 : SVDepContext τ) (h : build fs fuel ctx = some (r, ctx1)) :
    ∃ log, buildLog fs fuel ctx = some (r, ctx1, log) ∧
      (∀ p ∈ ctx1.readLog, ∀ content, fs.read p = some content →
        ∃ info, mapFind p ctx1.m_collection.file_info = some info ∧
          scanIncludes content p = some ((callsOf p log).map Resolution.name) ∧
          info.includes = (callsOf p log).filterMap (Resolution.path fs)) ∧
      log.Pairwise (CalledBefore fs) ∧
      (∀ e ∈ log,
        DuringBuild fs
          { ctx with m_collection := FileCollection.clear, m_error := [], readLog := [] }
          e.ctx ∧
        DuringBuild fs (e.after fs) ctx1 ∧
        (e.path fs = none → e.after fs = e.ctx) ∧
        (∀ q, e.path fs = some q →
          q ≠ [] ∧ mapFind e.name ctx1.m_includeCache = some q)) ∧
      (∀ (c : SVDepContext τ) (n : Str), (resolveInclude fs c n).1 = [] →
        (resolveInclude fs c n).2 = c) ∧
      (SVPreprocessor.new).m_macros = [] := by
  obtain ⟨log, hL⟩ := buildRootsLog_of_buildRoots fs fuel ctx.m_rootFiles _ [] r ctx1 h
  obtain ⟨new, hnew, hT⟩ := buildRootsLog_trace fs fuel ctx.m_rootFiles _ [] r ctx1 log hL
  rw [List.nil_append] at hnew
  subst hnew
  have post := build_post fs fuel ctx r ctx1 h
  refine ⟨log, hL, ?_, hT.order, ?_, resolveInclude_unresolved fs, rfl⟩
  · intro p hp content hr
    have hk := post.inv.logKeys p hp
    rw [← mapFind_isSome_iff_mem_keys] at hk
    cases hf : mapFind p ctx1.m_collection.file_info with
    | none =>
      rw [hf] at hk
      cases hk
    | some info =>
      exact ⟨info, rfl, hT.exact p info content (by simp [FileCollection.clear, mapFind]) hf hr⟩
  · intro e he
    refine ⟨(hT.calls e he).1, (hT.calls e he).2, ?_, ?_⟩
    · intro hnone
      apply resolveInclude_unresolved
      unfold Resolution.path at hnone
      split_ifs at hnone with h0
      exact h0
    · intro q hq
      unfold Resolution.path at hq
      split_ifs at hq with h0
      simp only [Option.some.injEq] at hq
      subst hq
      exact ⟨h0, duringBuild_cache fs (hT.calls e he).2 _ _
        (resolveInclude_caches fs e.ctx e.name h0)⟩

/-- C12, at the file `d/T` that includes `missing.svh` (nowhere) and twice `B`: three
calls are recorded for `d/T`, the first returns nothing, the other two return `d/B`, and
the stored list is `["d/B", "d/B"]`. -/
theorem stored_includes_resolved_witness :
    build exDropFs 4 exDropCtx = some (0, exDropBuilt) ∧
    buildLog exDropFs 4 exDropCtx = some (0, exDropBuilt, exDropLog) ∧
    scanIncludes "`include \"missing.svh\"\n`include \"B\"\n`include \"B\"\n".toList "d/T".toList =
      some ["missing.svh".toList, "B".toList, "B".toList] ∧
    (callsOf "d/T".toList exDropLog).map Resolution.name =
      ["missing.svh".toList, "B".toList, "B".toList] ∧
    (callsOf "d/T".toList exDropLog).map (Resolution.path exDropFs) =
      [none, some "d/B".toList, some "d/B".toList] ∧
    (mapFind "d/T".toList exDropBuilt.m_collection.file_info).map FileInfo.includes =
      some ["d/B".toList, "d/B".toList] ∧
    ∃ log, buildLog exDropFs 4 exDropCtx = some (0, exDropBuilt, log) ∧
      (∀ p ∈ exDropBuilt.readLog, ∀ content, exDropFs.read p = some content →
        ∃ info, mapFind p exDropBuilt.m_collection.file_info = some info ∧
          scanIncludes content p = some ((callsOf p log).map Resolution.name) ∧
          info.includes = (callsOf p log).filterMap (Resolution.path exDropFs)) ∧
      log.Pairwise (CalledBefore exDropFs) ∧
      (∀ e ∈ log,
        DuringBuild exDropFs
          { exDropCtx with m_collection := FileCollection.clear, m_error := [], readLog := [] }
          e.ctx ∧
        DuringBuild exDropFs (e.after exDropFs) exDropBuilt ∧
        (e.path exDropFs = none → e.after exDropFs = e.ctx) ∧
        (∀ q, e.path exDropFs = some q →
          q ≠ [] ∧ mapFind e.name exDropBuilt.m_includeCache = some q)) ∧
      (∀ (c : SVDepContext Nat) (n : Str), (resolveInclude exDropFs c n).1 = [] →
        (resolveInclude exDropFs c n).2 = c) ∧
      (SVPreprocessor.new).m_macros = [] :=
  ⟨by decide, by decide, by decide, by decide, by decide, by decide,
    stored_includes_resolved exDropFs 4 exDropCtx 0 exDropBuilt (by decide)⟩

end TraceLemmas

/-! ## The build: search path and repeated builds -/

section DirsGrowLemmas

variable {τ : Type} [LinearOrder τ] [Zero τ]

omit [LinearOrder τ] [Zero τ] in
theorem DirsGrow.sameDirs {a b : SVDepContext τ} (hd : b.m_incdirs = a.m_incdirs)
    (hk : ∀ p ∈ mapKeys a.m_collection.file_info, p ∈ mapKeys b.m_collection.file_info) :
    DirsGrow a b :=
  ⟨hk, [], by simp [hd], List.nodup_nil, fun _ h => absurd h (List.not_mem_nil _)⟩

omit [LinearOrder τ] [Zero τ] in
theorem DirsGrow.growThen {a b c : SVDepContext τ} (h1 : DirsGrow a b) (h2 : DirsGrow b c) :
    DirsGrow a c := by
  obtain ⟨k1, l1, e1, n1, w1⟩ := h1
  obtain ⟨k2, l2, e2, n2, w2⟩ := h2
  refine ⟨fun p hp => k2 p (k1 p hp), l1 ++ l2, by rw [e2, e1, List.append_assoc], ?_, ?_⟩
  · rw [List.nodup_append]
    refine ⟨n1, n2, ?_⟩
    intro d hd1 hd2
    exact (w2 d hd2).1 (by rw [e1]; exact List.mem_append_right _ hd1)
  · intro d hd
    rcases List.mem_append.1 hd with hd1 | hd2
    · obtain ⟨hn, p, hp, hpd⟩ := w1 d hd1
      exact ⟨hn, p, k2 p hp, hpd⟩
    · obtain ⟨hn, p, hp, hpd⟩ := w2 d hd2
      refine ⟨fun hin => hn ?_, p, hp, hpd⟩
      rw [e1]
      exact List.mem_append_left _ hin

omit [LinearOrder τ] [Zero τ] in
/-- The directory of `p` is put on the search path if it is not there, and then the
node of `p` is built. -/
theorem DirsGrow.growAdd {a b c : SVDepContext τ} (p : Str) (h : DirsGrow b c)
    (hk : b.m_collection = a.m_collection)
    (hd : b.m_incdirs = addSearchDir (getDirname p) a.m_incdirs)
    (hp : p ∈ mapKeys c.m_collection.file_info) : DirsGrow a c := by
  by_cases hin : getDirname p ∈ a.m_incdirs
  · have hd2 : b.m_incdirs = a.m_incdirs := by rw [hd, addSearchDir, if_pos hin]
    exact (DirsGrow.sameDirs hd2 (by rw [hk]; exact fun _ hq => hq)).growThen h
  · have hd2 : b.m_incdirs = a.m_incdirs ++ [getDirname p] := by
      rw [hd, addSearchDir, if_neg hin]
    obtain ⟨k2, l2, e2, n2, w2⟩ := h
    refine ⟨fun q hq => k2 q (by rw [hk]; exact hq), getDirname p :: l2, ?_, ?_, ?_⟩
    · rw [e2, hd2]; simp
    · rw [List.nodup_cons]
      refine ⟨fun hm => (w2 _ hm).1 (by rw [hd2]; simp), n2⟩
    · intro d hdm
      rcases List.mem_cons.1 hdm with rfl | hdm
      · exact ⟨hin, p, hp, rfl⟩
      · obtain ⟨hn, q, hq, hqd⟩ := w2 d hdm
        exact ⟨fun hh => hn (by rw [hd2]; exact List.mem_append_left _ hh), q, hq, hqd⟩

omit [LinearOrder τ] [Zero τ] in
theorem buildIncludes_dirsGrow (fs : FileSystem τ)
    (recurse : Str → SVDepContext τ → Option (FileInfo τ × SVDepContext τ))
    (hrec : ∀ p c i c1, recurse p c = some (i, c1) →
      DirsGrow c c1 ∧ p ∈ mapKeys c1.m_collection.file_info)
    (names : List Str) :
    ∀ (info : FileInfo τ) (ctx : SVDepContext τ) (info1 : FileInfo τ) (ctx1 : SVDepContext τ),
      buildIncludes fs recurse names info ctx = some (info1, ctx1) → DirsGrow ctx ctx1 := by
  induction names with
  | nil =>
    intro info ctx info1 ctx1 h
    simp only [buildIncludes, Option.some.injEq, Prod.mk.injEq] at h
    obtain ⟨-, rfl⟩ := h
    exact DirsGrow.sameDirs rfl (fun _ h => h)
  | cons n rest ih =>
    intro info ctx info1 ctx1 h
    simp only [buildIncludes] at h
    obtain ⟨-, hcoll, -, -, hdirs⟩ := resolveInclude_frame fs ctx n
    have h0 : DirsGrow ctx (resolveInclude fs ctx n).2 :=
      DirsGrow.sameDirs hdirs (by rw [hcoll]; exact fun _ h => h)
    by_cases hne : (resolveInclude fs ctx n).1 = []
    · simp only [hne, ne_eq, not_true_eq_false, if_false] at h
      exact h0.growThen (ih _ _ _ _ h)
    · simp only [hne, ne_eq, not_false_eq_true, if_true] at h
      cases hc : recurse (resolveInclude fs ctx n).1 { (resolveInclude fs ctx n).2 with
          m_incdirs := addSearchDir (getDirname (resolveInclude fs ctx n).1)
            (resolveInclude fs ctx n).2.m_incdirs } with
      | none => simp [hc] at h
      | some res =>
        obtain ⟨i, ctx2⟩ := res
        simp only [hc] at h
        obtain ⟨hg, hp⟩ := hrec _ _ _ _ hc
        have h1 : DirsGrow (resolveInclude fs ctx n).2 ctx2 :=
          DirsGrow.growAdd (resolveInclude fs ctx n).1 hg rfl rfl hp
        exact h0.growThen (h1.growThen (ih _ _ _ _ h))

omit [LinearOrder τ] in
theorem buildFileInfo_dirsGrow (fs : FileSystem τ) (fuel : Nat) :
    ∀ (path : Str) (ctx : SVDepContext τ) (info : FileInfo τ) (ctx1 : SVDepContext τ),
      buildFileInfo fs fuel path ctx = some (info, ctx1) →
      DirsGrow ctx ctx1 ∧ path ∈ mapKeys ctx1.m_collection.file_info := by
  induction fuel with
  | zero => intro path ctx info ctx1 h; simp [buildFileInfo] at h
  | succ fuel ih =>
    intro path ctx info ctx1 h
    simp only [buildFileInfo] at h
    cases hf : mapFind path ctx.m_collection.file_info with
    | some stored =>
      simp only [hf, Option.some.injEq, Prod.mk.injEq] at h
      obtain ⟨-, rfl⟩ := h
      refine ⟨DirsGrow.sameDirs rfl (fun _ h => h), ?_⟩
      rw [← mapFind_isSome_iff_mem_keys, hf]
      rfl
    | none =>
      simp only [hf] at h
      obtain ⟨-, hcollR, -⟩ := readFile_frame fs (storeNode ctx path
        { (FileInfo.default : FileInfo τ) with
          name := path, timestamp := getFileTimestamp fs path }) path
      have hdirsR : (readFile fs (storeNode ctx path
          { (FileInfo.default : FileInfo τ) with
            name := path, timestamp := getFileTimestamp fs path }) path).2.m_incdirs =
          ctx.m_incdirs := by
        unfold readFile
        cases fs.read path <;> rfl
      have hkeysR : ∀ q, q ∈ mapKeys (readFile fs (storeNode ctx path
          { (FileInfo.default : FileInfo τ) with
            name := path, timestamp := getFileTimestamp fs path }) path).2.m_collection.file_info ↔
          q = path ∨ q ∈ mapKeys ctx.m_collection.file_info := by
        intro q
        rw [hcollR]
        exact mem_mapKeys_mapSet _ _ _ _
      have hgR : DirsGrow ctx (readFile fs (storeNode ctx path
          { (FileInfo.default : FileInfo τ) with
            name := path, timestamp := getFileTimestamp fs path }) path).2 :=
        DirsGrow.sameDirs hdirsR (fun q hq => (hkeysR q).2 (Or.inr hq))
      split_ifs at h with hearly
      · simp only [Option.some.injEq, Prod.mk.injEq] at h
        obtain ⟨-, rfl⟩ := h
        exact ⟨hgR, (hkeysR path).2 (Or.inl rfl)⟩
      · cases hs : scanIncludes (readFile fs (storeNode ctx path
            { (FileInfo.default : FileInfo τ) with
              name := path, timestamp := getFileTimestamp fs path }) path).1 path with
        | none => simp [hs] at h
        | some names =>
          simp only [hs] at h
          cases hb : buildIncludes fs (buildFileInfo fs fuel) names
              { (FileInfo.default : FileInfo τ) with
                name := path, timestamp := getFileTimestamp fs path }
              (readFile fs (storeNode ctx path
                { (FileInfo.default : FileInfo τ) with
                  name := path, timestamp := getFileTimestamp fs path }) path).2 with
          | none => simp [hb] at h
          | some res =>
            obtain ⟨info1, ctx2⟩ := res
            simp only [hb, Option.some.injEq, Prod.mk.injEq] at h
            obtain ⟨rfl, rfl⟩ := h
            have hg2 := buildIncludes_dirsGrow fs (buildFileInfo fs fuel)
              (fun p c i c1 hh => ih p c i c1 hh) names _ _ _ _ hb
            have hst : DirsGrow ctx2 (storeNode ctx2 path info1) :=
              DirsGrow.sameDirs rfl (fun q hq => (mem_mapKeys_mapSet _ _ _ _).2 (Or.inr hq))
            exact ⟨hgR.growThen (hg2.growThen hst), (mem_mapKeys_mapSet _ _ _ _).2 (Or.inl rfl)⟩

omit [LinearOrder τ] in
theorem buildRoots_dirsGrow (fs : FileSystem τ) (fuel : Nat) (roots : List Str) :
    ∀ (ctx : SVDepContext τ) (r : Int) (ctx1 : SVDepContext τ),
      buildRoots fs fuel roots ctx = some (r, ctx1) → DirsGrow ctx ctx1 := by
  induction roots with
  | nil =>
    intro ctx r ctx1 h
    simp only [buildRoots, Option.some.injEq, Prod.mk.injEq] at h
    obtain ⟨-, rfl⟩ := h
    exact DirsGrow.sameDirs rfl (fun _ h => h)
  | cons rootPath rest ih =>
    intro ctx r ctx1 h
    simp only [buildRoots] at h
    cases hc : buildFileInfo fs fuel rootPath { ctx with
        m_incdirs := addSearchDir (getDirname rootPath) ctx.m_incdirs } with
    | none => simp [hc] at h
    | some res =>
      obtain ⟨info, ctx2⟩ := res
      simp only [hc] at h
      obtain ⟨hg, hp⟩ := buildFileInfo_dirsGrow fs fuel _ _ _ _ hc
      have h1 : DirsGrow ctx ctx2 := DirsGrow.growAdd rootPath hg rfl rfl hp
      split_ifs at h with herr
      · simp only [Option.some.injEq, Prod.mk.injEq] at h
        obtain ⟨-, rfl⟩ := h
        exact h1
      · have h2 := ih _ r ctx1 h
        exact h1.growThen ((DirsGrow.sameDirs rfl (fun _ hq => hq)).growThen h2)

end DirsGrowLemmas

section Lockstep

variable {τ : Type} [LinearOrder τ] [Zero τ]

omit [LinearOrder τ] [Zero τ] in
theorem searchIncdirs_append (fs : FileSystem τ) (n p : Str) (dirs l : List Str)
    (h : searchIncdirs fs n dirs = some p) : searchIncdirs fs n (dirs ++ l) = some p := by
  induction dirs with
  | nil => simp [searchIncdirs] at h
  | cons d rest ih =>
    simp only [List.cons_append, searchIncdirs] at h ⊢
    split_ifs at h ⊢ with hs
    · exact h
    · exact ih h

omit [LinearOrder τ] [Zero τ] in
theorem CacheRel.same (fs : FileSystem τ) (dirs : List Str) (c : List (Str × Str)) :
    CacheRel fs dirs c c :=
  ⟨fun _ _ h => h, fun n p h1 h2 => by rw [h1] at h2; cases h2⟩

omit [LinearOrder τ] [Zero τ] in
theorem CacheRel.addDir {fs : FileSystem τ} {dirs : List Str} {ca cb : List (Str × Str)}
    (h : CacheRel fs dirs ca cb) (d : Str) : CacheRel fs (addSearchDir d dirs) ca cb := by
  refine ⟨h.1, fun n p h1 h2 => ?_⟩
  have := h.2 n p h1 h2
  unfold addSearchDir
  split_ifs
  · exact this
  · exact searchIncdirs_append fs n p dirs [d] this

omit [LinearOrder τ] [Zero τ] in
/-- Both caches give the same resolution, and stay in agreement. -/
theorem resolveInclude_sim (fs : FileSystem τ) (ctx : SVDepContext τ) (cb : List (Str × Str))
    (n : Str) (h : CacheRel fs ctx.m_incdirs ctx.m_includeCache cb) :
    ∃ cb1, resolveInclude fs (withCache ctx cb) n =
        ((resolveInclude fs ctx n).1, withCache (resolveInclude fs ctx n).2 cb1) ∧
      CacheRel fs ctx.m_incdirs (resolveInclude fs ctx n).2.m_includeCache cb1 := by
  unfold resolveInclude
  cases hc : mapFind n ctx.m_includeCache with
  | some p =>
    have hb : mapFind n (withCache ctx cb).m_includeCache = some p := h.1 n p hc
    simp only [hb]
    exact ⟨cb, rfl, h⟩
  | none =>
    have hd : (withCache ctx cb).m_incdirs = ctx.m_incdirs := rfl
    cases hs : searchIncdirs fs n ctx.m_incdirs with
    | some q =>
      cases hb : mapFind n cb with
      | some p1 =>
        have hb2 : mapFind n (withCache ctx cb).m_includeCache = some p1 := hb
        have hq : q = p1 := by
          have := h.2 n p1 hb hc
          rw [hs] at this
          exact Option.some.inj this
        subst hq
        simp only [hb2]
        refine ⟨cb, rfl, ?_, ?_⟩
        · intro k v hk
          rw [mapFind_mapSet] at hk
          split_ifs at hk with e
          · cases hk
            rw [e]
            exact hb
          · exact h.1 k v hk
        · intro k v hk hk2
          rw [mapFind_mapSet] at hk2
          split_ifs at hk2 with e
          exact h.2 k v hk hk2
      | none =>
        have hb2 : mapFind n (withCache ctx cb).m_includeCache = none := hb
        simp only [hb2, hd, hs]
        refine ⟨mapSet n q cb, rfl, ?_, ?_⟩
        · intro k v hk
          rw [mapFind_mapSet] at hk ⊢
          split_ifs at hk ⊢ with e
          · exact hk
          · exact h.1 k v hk
        · intro k v hk hk2
          rw [mapFind_mapSet] at hk hk2
          split_ifs at hk hk2 with e
          exact h.2 k v hk hk2
    | none =>
      cases hb : mapFind n cb with
      | some p1 =>
        have := h.2 n p1 hb hc
        rw [hs] at this
        cases this
      | none =>
        have hb2 : mapFind n (withCache ctx cb).m_includeCache = none := hb
        simp only [hb2, hd, hs]
        exact ⟨cb, rfl, h⟩

omit [LinearOrder τ] [Zero τ] in
theorem readFile_withCache (fs : FileSystem τ) (ctx : SVDepContext τ) (cb : List (Str × Str))
    (path : Str) :
    readFile fs (withCache ctx cb) path =
      ((readFile fs ctx path).1, withCache (readFile fs ctx path).2 cb) := by
  unfold readFile
  cases fs.read path <;> rfl

omit [LinearOrder τ] [Zero τ] in
theorem readFile_cache (fs : FileSystem τ) (ctx : SVDepContext τ) (path : Str) :
    (readFile fs ctx path).2.m_includeCache = ctx.m_includeCache ∧
    (readFile fs ctx path).2.m_incdirs = ctx.m_incdirs ∧
    (readFile fs ctx path).2.m_rootFiles = ctx.m_rootFiles ∧
    (readFile fs ctx path).2.m_json = ctx.m_json := by
  unfold readFile
  cases fs.read path <;> exact ⟨rfl, rfl, rfl, rfl⟩

omit [LinearOrder τ] [Zero τ] in
theorem buildIncludes_sim (fs : FileSystem τ)
    (recurse : Str → SVDepContext τ → Option (FileInfo τ × SVDepContext τ))
    (hrec : ∀ p c cb i c1, CacheRel fs c.m_incdirs c.m_includeCache cb →
      recurse p c = some (i, c1) →
      ∃ cb1, recurse p (withCache c cb) = some (i, withCache c1 cb1) ∧
        CacheRel fs c1.m_incdirs c1.m_includeCache cb1)
    (names : List Str) :
    ∀ (info : FileInfo τ) (ctx : SVDepContext τ) (cb : List (Str × Str)) (info1 : FileInfo τ)
      (ctx1 : SVDepContext τ), CacheRel fs ctx.m_incdirs ctx.m_includeCache cb →
      buildIncludes fs recurse names info ctx = some (info1, ctx1) →
      ∃ cb1, buildIncludes fs recurse names info (withCache ctx cb) =
          some (info1, withCache ctx1 cb1) ∧
        CacheRel fs ctx1.m_incdirs ctx1.m_includeCache cb1 := by
  induction names with
  | nil =>
    intro info ctx cb info1 ctx1 hrel h
    simp only [buildIncludes, Option.some.injEq, Prod.mk.injEq] at h
    obtain ⟨rfl, rfl⟩ := h
    exact ⟨cb, rfl, hrel⟩
  | cons n rest ih =>
    intro info ctx cb info1 ctx1 hrel h
    obtain ⟨cbr, er, hr⟩ := resolveInclude_sim fs ctx cb n hrel
    obtain ⟨-, -, -, -, hdirs⟩ := resolveInclude_frame fs ctx n
    simp only [buildIncludes] at h ⊢
    rw [er]
    simp only []
    by_cases hne : (resolveInclude fs ctx n).1 = []
    · simp only [hne, ne_eq, not_true_eq_false, if_false] at h ⊢
      exact ih _ _ cbr _ _ (by rw [hdirs]; exact hr) h
    · simp only [hne, ne_eq, not_false_eq_true, if_true] at h ⊢
      cases hc : recurse (resolveInclude fs ctx n).1 { (resolveInclude fs ctx n).2 with
          m_incdirs := addSearchDir (getDirname (resolveInclude fs ctx n).1)
            (resolveInclude fs ctx n).2.m_incdirs } with
      | none => simp [hc] at h
      | some res =>
        obtain ⟨i, ctx2⟩ := res
        simp only [hc] at h
        have hrel2 : CacheRel fs ({ (resolveInclude fs ctx n).2 with
            m_incdirs := addSearchDir (getDirname (resolveInclude fs ctx n).1)
              (resolveInclude fs ctx n).2.m_incdirs } : SVDepContext τ).m_incdirs
            (resolveInclude fs ctx n).2.m_includeCache cbr := by
          show CacheRel fs (addSearchDir _ (resolveInclude fs ctx n).2.m_incdirs) _ _
          rw [hdirs]
          exact hr.addDir _
        obtain ⟨cb2, e2, hr2⟩ := hrec _ _ cbr i ctx2 hrel2 hc
        have e2b : recurse (resolveInclude fs ctx n).1
            { withCache (resolveInclude fs ctx n).2 cbr with
              m_incdirs := addSearchDir (getDirname (resolveInclude fs ctx n).1)
                (withCache (resolveInclude fs ctx n).2 cbr).m_incdirs } =
            some (i, withCache ctx2 cb2) := e2
        rw [e2b]
        simp only []
        exact ih _ _ cb2 _ _ hr2 h

omit [LinearOrder τ] in
theorem buildFileInfo_sim (fs : FileSystem τ) (fuel : Nat) :
    ∀ (path : Str) (ctx : SVDepContext τ) (cb : List (Str × Str)) (info : FileInfo τ)
      (ctx1 : SVDepContext τ), CacheRel fs ctx.m_incdirs ctx.m_includeCache cb →
      buildFileInfo fs fuel path ctx = some (info, ctx1) →
      ∃ cb1, buildFileInfo fs fuel path (withCache ctx cb) = some (info, withCache ctx1 cb1) ∧
        CacheRel fs ctx1.m_incdirs ctx1.m_includeCache cb1 := by
  induction fuel with
  | zero => intro path ctx cb info ctx1 _ h; simp [buildFileInfo] at h
  | succ fuel ih =>
    intro path ctx cb info ctx1 hrel h
    simp only [buildFileInfo] at h ⊢
    have hcoll : (withCache ctx cb).m_collection = ctx.m_collection := rfl
    rw [hcoll]
    cases hf : mapFind path ctx.m_collection.file_info with
    | some stored =>
      simp only [hf, Option.some.injEq, Prod.mk.injEq] at h ⊢
      obtain ⟨rfl, rfl⟩ := h
      exact ⟨cb, ⟨rfl, rfl⟩, hrel⟩
    | none =>
      simp only [hf] at h ⊢
      have hst : storeNode (withCache ctx cb) path
          { (FileInfo.default : FileInfo τ) with
            name := path, timestamp := getFileTimestamp fs path } =
          withCache (storeNode ctx path
            { (FileInfo.default : FileInfo τ) with
              name := path, timestamp := getFileTimestamp fs path }) cb := rfl
      rw [hst, readFile_withCache]
      simp only []
      obtain ⟨hcR, hdR, -, -⟩ := readFile_cache fs (storeNode ctx path
        { (FileInfo.default : FileInfo τ) with
          name := path, timestamp := getFileTimestamp fs path }) path
      have hrelR : CacheRel fs (readFile fs (storeNode ctx path
          { (FileInfo.default : FileInfo τ) with
            name := path, timestamp := getFileTimestamp fs path }) path).2.m_incdirs
          (readFile fs (storeNode ctx path
            { (FileInfo.default : FileInfo τ) with
              name := path, timestamp := getFileTimestamp fs path }) path).2.m_includeCache cb := by
        rw [hcR, hdR]
        exact hrel
      have herr : (withCache (readFile fs (storeNode ctx path
          { (FileInfo.default : FileInfo τ) with
            name := path, timestamp := getFileTimestamp fs path }) path).2 cb).m_error =
          (readFile fs (storeNode ctx path
            { (FileInfo.default : FileInfo τ) with
              name := path, timestamp := getFileTimestamp fs path }) path).2.m_error := rfl
      rw [herr]
      split_ifs at h ⊢ with hearly
      · simp only [Option.some.injEq, Prod.mk.injEq] at h ⊢
        obtain ⟨rfl, rfl⟩ := h
        exact ⟨cb, ⟨rfl, rfl⟩, hrelR⟩
      · cases hs : scanIncludes (readFile fs (storeNode ctx path
            { (FileInfo.default : FileInfo τ) with
              name := path, timestamp := getFileTimestamp fs path }) path).1 path with
        | none => simp [hs] at h
        | some names =>
          simp only [hs] at h ⊢
          cases hb : buildIncludes fs (buildFileInfo fs fuel) names
              { (FileInfo.default : FileInfo τ) with
                name := path, timestamp := getFileTimestamp fs path }
              (readFile fs (storeNode ctx path
                { (FileInfo.default : FileInfo τ) with
                  name := path, timestamp := getFileTimestamp fs path }) path).2 with
          | none => simp [hb] at h
          | some res =>
            obtain ⟨info1, ctx2⟩ := res
            simp only [hb, Option.some.injEq, Prod.mk.injEq] at h
            obtain ⟨rfl, rfl⟩ := h
            obtain ⟨cb2, e2, hr2⟩ := buildIncludes_sim fs (buildFileInfo fs fuel)
              (fun p c cb i c1 h1 h2 => ih p c cb i c1 h1 h2) names _ _ cb _ _ hrelR hb
            rw [e2]
            exact ⟨cb2, rfl, hr2⟩

omit [LinearOrder τ] in
theorem buildRoots_sim (fs : FileSystem τ) (fuel : Nat) (roots : List Str) :
    ∀ (ctx : SVDepContext τ) (cb : List (Str × Str)) (r : Int) (ctx1 : SVDepContext τ),
      CacheRel fs ctx.m_incdirs ctx.m_includeCache cb →
      buildRoots fs fuel roots ctx = some (r, ctx1) →
      ∃ cb1, buildRoots fs fuel roots (withCache ctx cb) = some (r, withCache ctx1 cb1) ∧
        CacheRel fs ctx1.m_incdirs ctx1.m_includeCache cb1 := by
  induction roots with
  | nil =>
    intro ctx cb r ctx1 hrel h
    simp only [buildRoots, Option.some.injEq, Prod.mk.injEq] at h
    obtain ⟨rfl, rfl⟩ := h
    exact ⟨cb, rfl, hrel⟩
  | cons rootPath rest ih =>
    intro ctx cb r ctx1 hrel h
    simp only [buildRoots] at h ⊢
    cases hc : buildFileInfo fs fuel rootPath { ctx with
        m_incdirs := addSearchDir (getDirname rootPath) ctx.m_incdirs } with
    | none => simp [hc] at h
    | some res =>
      obtain ⟨info, ctx2⟩ := res
      simp only [hc] at h
      obtain ⟨cb2, e2, hr2⟩ := buildFileInfo_sim fs fuel rootPath
        { ctx with m_incdirs := addSearchDir (getDirname rootPath) ctx.m_incdirs } cb info ctx2
        (hrel.addDir _) hc
      have e2b : buildFileInfo fs fuel rootPath { withCache ctx cb with
          m_incdirs := addSearchDir (getDirname rootPath) (withCache ctx cb).m_incdirs } =
          some (info, withCache ctx2 cb2) := e2
      rw [e2b]
      simp only []
      have herr : (withCache ctx2 cb2).m_error = ctx2.m_error := rfl
      rw [herr]
      split_ifs at h ⊢ with herr2
      · simp only [Option.some.injEq, Prod.mk.injEq] at h ⊢
        obtain ⟨rfl, rfl⟩ := h
        exact ⟨cb2, ⟨rfl, rfl⟩, hr2⟩
      · exact ih { ctx2 with m_collection :=
            { ctx2.m_collection with root_files := ctx2.m_collection.root_files ++ [info] } }
          cb2 r ctx1 hr2 h

end Lockstep

section Provenance

variable {τ : Type} [LinearOrder τ] [Zero τ]

omit [LinearOrder τ] in
/-- A `build` that returns went from the cleared context to its result by elementary
build steps. -/
theorem build_during (fs : FileSystem τ) (fuel : Nat) (ctx : SVDepContext τ) (r : Int)
    (ctx1 : SVDepContext τ) (h : build fs fuel ctx = some (r, ctx1)) :
    DuringBuild fs
      { ctx with m_collection := FileCollection.clear, m_error := [], readLog := [] } ctx1 :=
  buildRoots_during fs fuel ctx.m_rootFiles _ r ctx1 h

omit [LinearOrder τ] [Zero τ] in
/-- An elementary build step keeps the root list and the snapshot text, and keeps the
cache in agreement with any cache it agreed with. -/
theorem buildStep_keeps (fs : FileSystem τ) (c0 : List (Str × Str)) {a b : SVDepContext τ}
    (h : BuildStep fs a b) :
    b.m_rootFiles = a.m_rootFiles ∧ b.m_json = a.m_json ∧
    (CacheRel fs a.m_incdirs c0 a.m_includeCache → CacheRel fs b.m_incdirs c0 b.m_includeCache) := by
  cases h with
  | resolve n =>
    cases hc : mapFind n a.m_includeCache with
    | some p =>
      simp only [resolveInclude, hc]
      exact ⟨trivial, trivial, fun hrel => hrel⟩
    | none =>
      cases hs : searchIncdirs fs n a.m_incdirs with
      | none =>
        simp only [resolveInclude, hc, hs]
        exact ⟨trivial, trivial, fun hrel => hrel⟩
      | some q =>
        simp only [resolveInclude, hc, hs]
        refine ⟨trivial, trivial, fun hrel => ⟨?_, ?_⟩⟩
        · intro k v hk
          rw [mapFind_mapSet]
          split_ifs with e
          · have := hrel.1 k v hk
            rw [e, hc] at this
            cases this
          · exact hrel.1 k v hk
        · intro k v hk hk0
          rw [mapFind_mapSet] at hk
          split_ifs at hk with e
          · cases hk
            rw [e]
            exact hs
          · exact hrel.2 k v hk hk0
  | searchDir d => exact ⟨rfl, rfl, fun hrel => hrel.addDir d⟩
  | store path info => exact ⟨rfl, rfl, fun hrel => hrel⟩
  | read path =>
    obtain ⟨h1, h2, h3, h4⟩ := readFile_cache fs a path
    exact ⟨h3, h4, fun hrel => by rw [h1, h2]; exact hrel⟩
  | root info => exact ⟨rfl, rfl, fun hrel => hrel⟩

omit [LinearOrder τ] [Zero τ] in
theorem duringBuild_keeps (fs : FileSystem τ) (c0 : List (Str × Str)) {a b : SVDepContext τ}
    (h : DuringBuild fs a b) :
    b.m_rootFiles = a.m_rootFiles ∧ b.m_json = a.m_json ∧
    (CacheRel fs a.m_incdirs c0 a.m_includeCache → CacheRel fs b.m_incdirs c0 b.m_includeCache) := by
  induction h with
  | refl => exact ⟨rfl, rfl, fun h => h⟩
  | tail _ hstep ih =>
    obtain ⟨s1, s2, s3⟩ := buildStep_keeps fs c0 hstep
    exact ⟨s1.trans ih.1, s2.trans ih.2.1, fun h => s3 (ih.2.2 h)⟩

omit [LinearOrder τ] in
/-- A build that leaves the search path as it was, run again on the context it left,
returns the same value and the same graph. -/
theorem build_again (fs : FileSystem τ) (fuel : Nat) (ctx : SVDepContext τ) (r : Int)
    (ctx1 : SVDepContext τ) (h : build fs fuel ctx = some (r, ctx1))
    (hdirs : ctx1.m_incdirs = ctx.m_incdirs) :
    ∃ cb, build fs fuel ctx1 = some (r, withCache ctx1 cb) := by
  have hdur := build_during fs fuel ctx r ctx1 h
  obtain ⟨hroots, hjson, hrel⟩ := duringBuild_keeps fs ctx.m_includeCache hdur
  have hrel1 : CacheRel fs ctx.m_incdirs ctx.m_includeCache ctx1.m_includeCache := by
    have := hrel (CacheRel.same fs _ _)
    rw [hdirs] at this
    exact this
  obtain ⟨cb1, e1, -⟩ := buildRoots_sim fs fuel ctx.m_rootFiles
    { ctx with m_collection := FileCollection.clear, m_error := [], readLog := [] }
    ctx1.m_includeCache r ctx1 hrel1 h
  refine ⟨cb1, ?_⟩
  have hstart :
      ({ ctx1 with m_collection := FileCollection.clear, m_error := [], readLog := [] } :
        SVDepContext τ) =
      withCache { ctx with m_collection := FileCollection.clear, m_error := [], readLog := [] }
        ctx1.m_includeCache := by
    have h1 : ctx1.m_rootFiles = ctx.m_rootFiles := hroots
    have h2 : ctx1.m_json = ctx.m_json := hjson
    simp only [withCache, hdirs, h1, h2]
  have hroots1 : ctx1.m_rootFiles = ctx.m_rootFiles := hroots
  unfold build
  rw [hstart, hroots1]
  exact e1

end Provenance

/-! ## The preprocessor: frames, chains and comments -/

theorem isActive_eq_parentActive (pp : SVPreprocessor) :
    isActive pp = parentActive pp.m_condStack := by
  unfold isActive parentActive
  cases pp.m_condStack <;> rfl

/-! ### Malformed conditionals -/

theorem handleElsif_empty (pp : SVPreprocessor) (h : pp.m_condStack = []) :
    handleElsif pp = skipToEndOfLine pp := by
  unfold handleElsif
  rw [h]

theorem handleElsif_inElse (pp : SVPreprocessor) (top : CondState) (below : List CondState)
    (h : pp.m_condStack = top :: below) (he : top.in_else = true) :
    handleElsif pp = skipToEndOfLine pp := by
  unfold handleElsif
  rw [h]
  simp only [he, if_true]

theorem handleElse_empty (pp : SVPreprocessor) (h : pp.m_condStack = []) :
    handleElse pp = pp := by
  unfold handleElse
  rw [h]

theorem handleElse_inElse (pp : SVPreprocessor) (top : CondState) (below : List CondState)
    (h : pp.m_condStack = top :: below) (he : top.in_else = true) : handleElse pp = pp := by
  unfold handleElse
  rw [h]
  simp only [he, if_true]

theorem handleEndif_empty (pp : SVPreprocessor) (h : pp.m_condStack = []) :
    handleEndif pp = pp := by
  unfold handleEndif
  rw [h]

theorem handleDirective_elsif (pp : SVPreprocessor) :
    handleDirective pp "elsif".toList = handleElsif pp := by
  unfold handleDirective
  rw [if_neg (by decide), if_neg (by decide), if_neg (by decide), if_neg (by decide),
    if_neg (by decide), if_pos (by decide)]

theorem handleDirective_elseif (pp : SVPreprocessor) :
    handleDirective pp "elseif".toList = handleElsif pp := by
  unfold handleDirective
  rw [if_neg (by decide), if_neg (by decide), if_neg (by decide), if_neg (by decide),
    if_neg (by decide), if_pos (by decide)]

theorem scanResult_skipToEndOfLine (pp : SVPreprocessor) :
    scanResult (skipToEndOfLine pp) = scanResult pp := rfl

/-- A closing or continuing directive met with no conditional open changes nothing. -/
theorem handleDirective_closer_empty (pp : SVPreprocessor) (d : Str) (hd : d ∈ closers)
    (h : pp.m_condStack = []) : scanResult (handleDirective pp d) = scanResult pp := by
  simp only [closers, List.mem_cons, List.mem_singleton, List.not_mem_nil, or_false] at hd
  rcases hd with rfl | rfl | rfl | rfl
  · rw [handleDirective_elsif, handleElsif_empty pp h]; rfl
  · rw [handleDirective_elseif, handleElsif_empty pp h]; rfl
  · rw [handleDirective_else, handleElse_empty pp h]
  · rw [handleDirective_endif, handleEndif_empty pp h]

/-- An `elsif` or `else` met when the innermost frame is in its `else` branch changes
nothing. -/
theorem handleDirective_continuer_inElse (pp : SVPreprocessor) (d : Str) (hd : d ∈ continuers)
    (top : CondState) (below : List CondState) (h : pp.m_condStack = top :: below)
    (he : top.in_else = true) : scanResult (handleDirective pp d) = scanResult pp := by
  simp only [continuers, List.mem_cons, List.mem_singleton, List.not_mem_nil, or_false] at hd
  rcases hd with rfl | rfl | rfl
  · rw [handleDirective_elsif, handleElsif_inElse pp top below h he]; rfl
  · rw [handleDirective_elseif, handleElsif_inElse pp top below h he]; rfl
  · rw [handleDirective_else, handleElse_inElse pp top below h he]

theorem scanResult_congr (a b : SVPreprocessor) (h1 : a.m_includes = b.m_includes)
    (h2 : a.m_macros = b.m_macros) (h3 : a.m_condStack = b.m_condStack) :
    scanResult a = scanResult b := by
  simp only [scanResult, getIncludes, h1, h2, h3]

/-! ### The invariant of the conditional stack -/

theorem stackOk_all (st : List CondState) (h : StackOk st) :
    parentActive st = true ↔ ∀ f ∈ st, f.active = true := by
  induction st with
  | nil => simp [parentActive]
  | cons top below ih =>
    obtain ⟨h1, h2⟩ := h
    constructor
    · intro ha f hf
      have ha2 : top.active = true := ha
      rcases List.mem_cons.1 hf with rfl | hf
      · exact ha2
      · exact (ih h2).1 (h1 ha2) f hf
    · intro hall
      exact hall top (List.mem_cons_self _ _)

theorem handleIfdef_stack (pp : SVPreprocessor) (invert : Bool) :
    ∃ c : Bool, (handleIfdef pp invert).m_condStack =
      { active := c && isActive pp, seen_true := c && isActive pp, in_else := false } ::
        pp.m_condStack :=
  ⟨_, rfl⟩

theorem stackOk_handleIfdef (pp : SVPreprocessor) (invert : Bool)
    (h : StackOk pp.m_condStack) : StackOk (handleIfdef pp invert).m_condStack := by
  obtain ⟨c, hc⟩ := handleIfdef_stack pp invert
  rw [hc]
  refine ⟨?_, h⟩
  intro ha
  rw [← isActive_eq_parentActive]
  simp only [Bool.and_eq_true] at ha
  exact ha.2

theorem handleElsif_stack (pp : SVPreprocessor) (top : CondState) (below : List CondState)
    (h : pp.m_condStack = top :: below) (he : top.in_else = false) :
    ∃ c : Bool, (handleElsif pp).m_condStack =
      { active := !top.seen_true && c && parentActive below,
        seen_true := top.seen_true || (c && parentActive below),
        in_else := false } :: below := by
  unfold handleElsif
  rw [h]
  simp only [he, Bool.false_eq_true, if_false]
  refine ⟨isMacroDefined (parseIdentifier (skipWhitespaceNotNewline pp)).2
    (parseIdentifier (skipWhitespaceNotNewline pp)).1, ?_⟩
  show (_ :: below) = _
  congr 1
  obtain ⟨a, s, e⟩ := top
  simp only at he
  subst he
  cases s <;>
    cases isMacroDefined (parseIdentifier (skipWhitespaceNotNewline pp)).2
      (parseIdentifier (skipWhitespaceNotNewline pp)).1 <;>
    cases parentActive below <;> rfl

theorem handleElse_stack (pp : SVPreprocessor) (top : CondState) (below : List CondState)
    (h : pp.m_condStack = top :: below) (he : top.in_else = false) :
    (handleElse pp).m_condStack =
      { active := !top.seen_true && parentActive below, seen_true := top.seen_true,
        in_else := true } :: below := by
  unfold handleElse
  rw [h]
  simp only [he, Bool.false_eq_true, if_false]

theorem stackOk_handleElsif (pp : SVPreprocessor) (h : StackOk pp.m_condStack) :
    StackOk (handleElsif pp).m_condStack := by
  cases hs : pp.m_condStack with
  | nil => rw [handleElsif_empty pp hs]; exact hs ▸ h
  | cons top below =>
    rw [hs] at h
    cases he : top.in_else with
    | true => rw [handleElsif_inElse pp top below hs he]; exact hs ▸ h
    | false =>
      obtain ⟨c, hc⟩ := handleElsif_stack pp top below hs he
      rw [hc]
      refine ⟨?_, h.2⟩
      intro ha
      simp only [Bool.and_eq_true] at ha
      exact ha.2

theorem stackOk_handleElse (pp : SVPreprocessor) (h : StackOk pp.m_condStack) :
    StackOk (handleElse pp).m_condStack := by
  cases hs : pp.m_condStack with
  | nil => rw [handleElse_empty pp hs, hs]; trivial
  | cons top below =>
    rw [hs] at h
    cases he : top.in_else with
    | true => rw [handleElse_inElse pp top below hs he, hs]; exact h
    | false =>
      rw [handleElse_stack pp top below hs he]
      refine ⟨?_, h.2⟩
      intro ha
      simp only [Bool.and_eq_true] at ha
      exact ha.2

theorem stackOk_handleEndif (pp : SVPreprocessor) (h : StackOk pp.m_condStack) :
    StackOk (handleEndif pp).m_condStack := by
  unfold handleEndif
  cases hs : pp.m_condStack with
  | nil => simp only [hs]; trivial
  | cons top below =>
    rw [hs] at h
    exact h.2

theorem stackOk_handleDirective (pp : SVPreprocessor) (d : Str) (h : StackOk pp.m_condStack) :
    StackOk (handleDirective pp d).m_condStack := by
  unfold handleDirective
  split_ifs
  · rw [handleInclude_condStack]; exact h
  · exact h
  · rw [handleDefine_condStack]; exact h
  · exact h
  · rw [handleUndef_condStack]; exact h
  · exact h
  · exact stackOk_handleIfdef pp false h
  · exact stackOk_handleIfdef pp true h
  · exact stackOk_handleElsif pp h
  · exact stackOk_handleElse pp h
  · exact stackOk_handleEndif pp h
  · exact h
  · exact h

theorem stackOk_scanDirective (q : SVPreprocessor) (h : StackOk q.m_condStack) :
    StackOk (scanDirective q).2.m_condStack := by
  unfold scanDirective
  have hst : (runLoop (advance q) (advanceWhile fun c => isalnum c || c == '_')).2.m_condStack =
      q.m_condStack := rfl
  generalize runLoop (advance q) (advanceWhile fun c => isalnum c || c == '_') = r at hst ⊢
  obtain ⟨name, q1⟩ := r
  simp only at hst ⊢
  split_ifs
  · exact stackOk_handleDirective q1 name (hst ▸ h)
  · exact hst ▸ h

theorem stackOk_scanToken (pp : SVPreprocessor) (h : StackOk pp.m_condStack) :
    StackOk (scanToken pp).2.m_condStack := by
  rw [scanToken_eq]
  split
  · exact h
  · split_ifs
    · exact h
    · exact h
    · exact stackOk_scanDirective (tokenStart pp) h
    · exact h
    · exact h
    · exact h
    · exact h

theorem stackOk_nextToken (pp : SVPreprocessor) (h : StackOk pp.m_condStack) :
    StackOk (nextToken pp).2.m_condStack := by
  unfold nextToken
  split_ifs
  · exact h
  · exact stackOk_scanToken pp h

theorem stackOk_peekToken (pp : SVPreprocessor) (h : StackOk pp.m_condStack) :
    StackOk (peekToken pp).2.m_condStack := by
  unfold peekToken
  split_ifs
  · exact stackOk_scanToken pp h
  · exact h

theorem stackOk_runOps (ops : List LookOp) : ∀ (pp : SVPreprocessor),
    StackOk pp.m_condStack → StackOk (runOps ops pp).2.m_condStack := by
  induction ops with
  | nil => intro pp h; exact h
  | cons o ops ih =>
    intro pp h
    cases o with
    | peek => exact ih _ (stackOk_peekToken pp h)
    | next => exact ih _ (stackOk_nextToken pp h)

theorem stackOk_processLoop (fuel : Nat) : ∀ (pp pp1 : SVPreprocessor),
    StackOk pp.m_condStack → processLoop fuel pp = some pp1 → StackOk pp1.m_condStack := by
  induction fuel with
  | zero =>
    intro pp pp1 h hp
    simp only [processLoop] at hp
    split_ifs at hp
    cases hp
    exact h
  | succ fuel ih =>
    intro pp pp1 h hp
    simp only [processLoop] at hp
    split_ifs at hp
    · cases hp; exact h
    · cases hp; exact stackOk_nextToken pp h
    · exact ih _ _ (stackOk_nextToken pp h) hp

theorem stackOk_index (st : List CondState) (h : StackOk st) :
    ∀ (i : Nat) (a b : CondState), st[i]? = some a → st[i + 1]? = some b →
      a.active = true → b.active = true := by
  induction st with
  | nil => intro i a b ha; simp at ha
  | cons top below ih =>
    intro i a b ha hb hact
    cases i with
    | zero =>
      simp only [List.getElem?_cons_zero, Option.some.injEq] at ha
      subst ha
      simp only [zero_add, List.getElem?_cons_succ] at hb
      have hp := h.1 hact
      cases below with
      | nil => simp at hb
      | cons p rest =>
        simp only [List.getElem?_cons_zero, Option.some.injEq] at hb
        subst hb
        exact hp
    | succ i =>
      simp only [List.getElem?_cons_succ] at ha hb
      exact ih h.2 i a b ha hb hact

theorem closers_ident (d : Str) (hd : d ∈ closers) :
    (∀ x ∈ d, (isalnum x || x == '_') = true) ∧ d ≠ [] := by
  simp only [closers, List.mem_cons, List.mem_singleton, List.not_mem_nil, or_false] at hd
  rcases hd with rfl | rfl | rfl | rfl <;> exact ⟨by decide, by decide⟩

theorem continuers_closers (d : Str) (hd : d ∈ continuers) : d ∈ closers := by
  simp only [continuers, List.mem_cons, List.mem_singleton, List.not_mem_nil, or_false] at hd
  rcases hd with rfl | rfl | rfl <;> decide

/-- Scanning a malformed conditional directive as a token changes nothing but the
position. -/
theorem nextToken_malformed (pp : SVPreprocessor) (d ws rest : Str)
    (h : pp.m_rest = ws ++ backtick :: (d ++ rest))
    (hws : ∀ x ∈ ws, (x == ' ' || x == '\t' || x == '\r' || x == '\n') = true)
    (hrest : ∀ c ∈ rest.head?, (isalnum c || c == '_') = false)
    (hpk : pp.m_hasPeeked = false)
    (hbad : (d ∈ closers ∧ pp.m_condStack = []) ∨
      (d ∈ continuers ∧ ∃ top below, pp.m_condStack = top :: below ∧ top.in_else = true)) :
    (nextToken pp).1.type = TokenType.DIRECTIVE ∧
      scanResult (nextToken pp).2 = scanResult pp := by
  have hd : d ∈ closers := by
    rcases hbad with ⟨hd, -⟩ | ⟨hd, -⟩
    · exact hd
    · exact continuers_closers d hd
  obtain ⟨hname, hne⟩ := closers_ident d hd
  obtain ⟨pp1, e1, e2, -, e4, e5, e6, -⟩ := scanToken_directive pp ws d rest h hws hname hne hrest
  have hnt : nextToken pp = scanToken pp := by simp [nextToken, hpk]
  rw [hnt, e1]
  refine ⟨e2, ?_⟩
  have hsame : scanResult pp1 = scanResult pp := scanResult_congr pp1 pp e4 e5 e6
  rw [← hsame]
  rcases hbad with ⟨hd1, hs⟩ | ⟨hd1, top, below, hs, he⟩
  · exact handleDirective_closer_empty pp1 d hd1 (e6.trans hs)
  · exact handleDirective_continuer_inElse pp1 d hd1 top below (e6.trans hs) he

/-! ### Comments -/

theorem scanLineCommentLoop_line (body rest : Str) (hb : ∀ x ∈ body, x ≠ '\n') :
    ∀ (l c : Nat), (scanLineCommentLoop (body ++ '\n' :: rest) l c).1 = body ∧
      (scanLineCommentLoop (body ++ '\n' :: rest) l c).2.rest = rest := by
  induction body with
  | nil => intro l c; simp [scanLineCommentLoop]
  | cons x xs ih =>
    intro l c
    have hx : x ≠ '\n' := hb x (by simp)
    have := ih (fun y hy => hb y (by simp [hy])) l (c + 1)
    simp [scanLineCommentLoop, hx, this]

theorem scanLineCommentLoop_open (body : Str) (hb : ∀ x ∈ body, x ≠ '\n') :
    ∀ (l c : Nat), (scanLineCommentLoop body l c).1 = body ∧
      (scanLineCommentLoop body l c).2.rest = [] := by
  induction body with
  | nil => intro l c; simp [scanLineCommentLoop]
  | cons x xs ih =>
    intro l c
    have hx : x ≠ '\n' := hb x (by simp)
    have := ih (fun y hy => hb y (by simp [hy])) l (c + 1)
    simp [scanLineCommentLoop, hx, this]

theorem scanBlockCommentLoop_cons (x : Char) (xs : Str) (l c : Nat)
    (h : ¬ (x = '*' ∧ xs.head? = some '/')) :
    scanBlockCommentLoop (x :: xs) l c =
      (x :: (scanBlockCommentLoop xs (stepLine x l) (stepColumn x c)).1,
        (scanBlockCommentLoop xs (stepLine x l) (stepColumn x c)).2) := by
  rw [scanBlockCommentLoop.eq_def]
  split
  · next heq => cases heq
  · next cs l1 c1 heq =>
    exfalso
    simp only [List.cons.injEq] at heq
    obtain ⟨rfl, rfl⟩ := heq
    exact h ⟨rfl, rfl⟩
  · next c0 cs l1 c1 _ heq =>
    simp only [List.cons.injEq] at heq
    obtain ⟨rfl, rfl⟩ := heq
    rfl

theorem closeMark_not_in_tail {x : Char} {xs : Str} (h : ¬ closeMark <:+: x :: xs) :
    ¬ closeMark <:+: xs := by
  intro hc
  apply h
  obtain ⟨s, t, e⟩ := hc
  exact ⟨x :: s, t, by simp [← e]⟩

theorem scanBlockCommentLoop_closed (body rest : Str) (hb : ¬ closeMark <:+: body) :
    ∀ (l c : Nat), (scanBlockCommentLoop (body ++ '*' :: '/' :: rest) l c).1 = body ∧
      (scanBlockCommentLoop (body ++ '*' :: '/' :: rest) l c).2.rest = rest := by
  induction body with
  | nil => intro l c; simp [scanBlockCommentLoop]
  | cons x xs ih =>
    intro l c
    have hne : ¬ (x = '*' ∧ (xs ++ '*' :: '/' :: rest).head? = some '/') := by
      rintro ⟨rfl, hh⟩
      cases xs with
      | nil => simp at hh
      | cons y ys =>
        simp only [List.cons_append, List.head?_cons, Option.some.injEq] at hh
        subst hh
        exact hb ⟨[], ys, rfl⟩
    rw [List.cons_append, scanBlockCommentLoop_cons x _ l c hne]
    have := ih (closeMark_not_in_tail hb) (stepLine x l) (stepColumn x c)
    simp [this]

theorem scanBlockCommentLoop_open (body : Str) (hb : ¬ closeMark <:+: body) :
    ∀ (l c : Nat), (scanBlockCommentLoop body l c).1 = body ∧
      (scanBlockCommentLoop body l c).2.rest = [] := by
  induction body with
  | nil => intro l c; simp [scanBlockCommentLoop]
  | cons x xs ih =>
    intro l c
    have hne : ¬ (x = '*' ∧ xs.head? = some '/') := by
      rintro ⟨rfl, hh⟩
      cases xs with
      | nil => simp at hh
      | cons y ys =>
        simp only [List.head?_cons, Option.some.injEq] at hh
        subst hh
        exact hb ⟨[], ys, rfl⟩
    rw [scanBlockCommentLoop_cons x _ l c hne]
    have := ih (closeMark_not_in_tail hb) (stepLine x l) (stepColumn x c)
    simp [this]

theorem tokenStart_rest (pp : SVPreprocessor) (ws rest : Str) (h : pp.m_rest = ws ++ rest)
    (hws : ∀ x ∈ ws, isBlank x = true) (hrest : ∀ c ∈ rest.head?, isBlank c = false) :
    (tokenStart pp).m_rest = rest := by
  have hA := advanceWhile_append isBlank ws rest hws hrest pp.m_line pp.m_column
  rw [← h] at hA
  simp only [tokenStart, runLoop_snd, setCursor_m_rest]
  exact hA.2

/-- A token that starts with two slashes is a line comment; scanning it changes neither
the include list nor the macro table nor the conditional stack. -/
theorem scanToken_lineComment (pp : SVPreprocessor) (cs : Str)
    (h : (tokenStart pp).m_rest = '/' :: '/' :: cs) :
    (scanToken pp).1.type = TokenType.COMMENT_LINE ∧
    scanResult (scanToken pp).2 = scanResult pp ∧
    ∃ l1 c1, (scanToken pp).1.value = (scanLineCommentLoop cs l1 c1).1 ∧
      (scanToken pp).2.m_rest = (scanLineCommentLoop cs l1 c1).2.rest := by
  have e : scanToken pp = scanLineComment (tokenStart pp) := by
    rw [scanToken_eq]
    simp only [h]
    rw [if_pos ⟨trivial, rfl⟩]
  rw [e]
  have hadv : (advance (advance (tokenStart pp))).m_rest = cs :=
    advance_cons _ '/' _ (advance_cons _ '/' _ h)
  refine ⟨rfl, rfl, (advance (advance (tokenStart pp))).m_line,
    (advance (advance (tokenStart pp))).m_column, ?_, ?_⟩
  · simp only [scanLineComment, makeToken, runLoop_fst, hadv]
  · simp only [scanLineComment, runLoop_snd, setCursor_m_rest, hadv]

/-- A token that starts with a slash and a star is a block comment; scanning it changes
neither the include list nor the macro table nor the conditional stack. -/
theorem scanToken_blockComment (pp : SVPreprocessor) (cs : Str)
    (h : (tokenStart pp).m_rest = '/' :: '*' :: cs) :
    (scanToken pp).1.type = TokenType.COMMENT_BLOCK ∧
    scanResult (scanToken pp).2 = scanResult pp ∧
    ∃ l1 c1, (scanToken pp).1.value = (scanBlockCommentLoop cs l1 c1).1 ∧
      (scanToken pp).2.m_rest = (scanBlockCommentLoop cs l1 c1).2.rest := by
  have e1 : ¬ (True ∧ ('*' :: cs).head? = some '/') := by
    intro hh
    simp only [List.head?_cons, Option.some.injEq, true_and] at hh
    exact absurd hh (by decide)
  have e : scanToken pp = scanBlockComment (tokenStart pp) := by
    rw [scanToken_eq]
    simp only [h]
    rw [if_neg e1, if_pos ⟨trivial, rfl⟩]
  rw [e]
  have hadv : (advance (advance (tokenStart pp))).m_rest = cs :=
    advance_cons _ '*' _ (advance_cons _ '/' _ h)
  refine ⟨rfl, rfl, (advance (advance (tokenStart pp))).m_line,
    (advance (advance (tokenStart pp))).m_column, ?_, ?_⟩
  · simp only [scanBlockComment, makeToken, runLoop_fst, hadv]
  · simp only [scanBlockComment, runLoop_snd, setCursor_m_rest, hadv]

/-! ### Chains of conditionals -/

section JsonStuck

variable {τ : Type} [Zero τ]

/-- On an element that is not a record `parseFileInfo` returns without advancing. -/
theorem jsonParseFileInfo_number (stod : Str → Option τ) (n : Nat) :
    jsonParseFileInfo stod n "1]\x7d".toList = Except.ok (FileInfo.default, "1]\x7d".toList) :=
  rfl

/-- The loop over `root_files` at an element that is not a record: every iteration
leaves the position where it was, so no number of iterations ends the loop. -/
theorem jsonRootsLoop_stuck (stod : Str → Option τ) (n : Nat) :
    ∀ (fuel : Nat) (acc : List (FileInfo τ)),
      jsonRootsLoop stod n fuel "1]\x7d".toList acc = Except.error Fault.outOfFuel := by
  intro fuel
  induction fuel with
  | zero => intro acc; rfl
  | succ fuel ih =>
    intro acc
    have step : jsonRootsLoop stod n (fuel + 1) "1]\x7d".toList acc =
        jsonRootsLoop stod n fuel "1]\x7d".toList (acc ++ [FileInfo.default]) := rfl
    rw [step]
    exact ih _

/-- The loop over `includes` at an element that is not a string: `parseString` returns
without advancing, so no number of iterations ends the loop. -/
theorem jsonIncludesLoop_stuck :
    ∀ (fuel : Nat) (acc : List Str),
      jsonIncludesLoop fuel "1]\x7d]\x7d".toList acc = Except.error Fault.outOfFuel := by
  intro fuel
  induction fuel with
  | zero => intro acc; rfl
  | succ fuel ih =>
    intro acc
    have step : jsonIncludesLoop (fuel + 1) "1]\x7d]\x7d".toList acc =
        jsonIncludesLoop fuel "1]\x7d]\x7d".toList (acc ++ [[]]) := rfl
    rw [step]
    exact ih _

theorem fromJson_stuck_roots (stod : Str → Option τ) (n : Nat) :
    fromJson stod n exStuckJson = Except.error Fault.outOfFuel := by
  cases n with
  | zero => rfl
  | succ n =>
    have step : fromJson stod (n + 1) exStuckJson =
        match jsonTopLoop stod (n + 1) (n + 1) "\"root_files\": [1]\x7d".toList
            (FileCollection.clear : FileCollection τ) with
        | Except.error e => Except.error e
        | Except.ok (c1, _) => Except.ok (true, c1) := rfl
    have h0 : ¬ "\"root_files\": [1]\x7d".toList = [] := by decide
    have h1 : ¬ (jsonSkipWhitespace "\"root_files\": [1]\x7d".toList).head? = some '\x7d' := by
      decide
    have hk : jsonParseString (jsonSkipWhitespace "\"root_files\": [1]\x7d".toList) =
        ("root_files".toList, ": [1]\x7d".toList) := by decide
    have hm : jsonMatch ':' ": [1]\x7d".toList = (true, " [1]\x7d".toList) := by decide
    have hb : jsonMatch '[' " [1]\x7d".toList = (true, "1]\x7d".toList) := by decide
    have top : jsonTopLoop stod (n + 1) (n + 1) "\"root_files\": [1]\x7d".toList
        (FileCollection.clear : FileCollection τ) = Except.error Fault.outOfFuel := by
      simp only [jsonTopLoop, jsonTopField, if_neg h0, if_neg h1, hk, hm, hb, Bool.not_true,
        Bool.false_eq_true, if_false, if_true, jsonRootsLoop_stuck]
    rw [step, top]

theorem fromJson_stuck_includes (stod : Str → Option τ) (n : Nat) :
    fromJson stod n exStuckIncludesJson = Except.error Fault.outOfFuel := by
  cases n with
  | zero => rfl
  | succ n =>
    have step : fromJson stod (n + 1) exStuckIncludesJson =
        match jsonTopLoop stod (n + 1) (n + 1)
            "\"root_files\": [\x7b\"includes\": [1]\x7d]\x7d".toList
            (FileCollection.clear : FileCollection τ) with
        | Except.error e => Except.error e
        | Except.ok (c1, _) => Except.ok (true, c1) := rfl
    have h0 : ¬ "\"root_files\": [\x7b\"includes\": [1]\x7d]\x7d".toList = [] := by decide
    have h1 : ¬ (jsonSkipWhitespace
        "\"root_files\": [\x7b\"includes\": [1]\x7d]\x7d".toList).head? = some '\x7d' := by
      decide
    have hk : jsonParseString (jsonSkipWhitespace
        "\"root_files\": [\x7b\"includes\": [1]\x7d]\x7d".toList) =
        ("root_files".toList, ": [\x7b\"includes\": [1]\x7d]\x7d".toList) := by decide
    have hm : jsonMatch ':' ": [\x7b\"includes\": [1]\x7d]\x7d".toList =
        (true, " [\x7b\"includes\": [1]\x7d]\x7d".toList) := by decide
    have hb : jsonMatch '[' " [\x7b\"includes\": [1]\x7d]\x7d".toList =
        (true, "\x7b\"includes\": [1]\x7d]\x7d".toList) := by decide
    have info : jsonParseFileInfo stod (n + 1) "\x7b\"includes\": [1]\x7d]\x7d".toList =
        Except.error Fault.outOfFuel := by
      have g0 : jsonMatch '\x7b' "\x7b\"includes\": [1]\x7d]\x7d".toList =
          (true, "\"includes\": [1]\x7d]\x7d".toList) := by decide
      have g1 : ¬ "\"includes\": [1]\x7d]\x7d".toList = [] := by decide
      have g2 : ¬ (jsonSkipWhitespace "\"includes\": [1]\x7d]\x7d".toList).head? =
          some '\x7d' := by decide
      have g3 : jsonParseString (jsonSkipWhitespace "\"includes\": [1]\x7d]\x7d".toList) =
          ("includes".toList, ": [1]\x7d]\x7d".toList) := by decide
      have g4 : jsonMatch ':' ": [1]\x7d]\x7d".toList = (true, " [1]\x7d]\x7d".toList) := by
        decide
      have g5 : jsonMatch '[' " [1]\x7d]\x7d".toList = (true, "1]\x7d]\x7d".toList) := by
        decide
      have g6 : ¬ "includes".toList = "name".toList := by decide
      have g7 : ¬ "includes".toList = "timestamp".toList := by decide
      simp only [jsonParseFileInfo, g0, Bool.not_true, Bool.false_eq_true, if_false,
        jsonFileInfoLoop, if_neg g1, if_neg g2, g3, g4, jsonField, if_neg g6, if_neg g7, g5,
        if_true, jsonIncludesLoop_stuck]
    have h2 : ¬ "\x7b\"includes\": [1]\x7d]\x7d".toList = [] := by decide
    have h3 : ¬ "\x7b\"includes\": [1]\x7d]\x7d".toList.head? = some ']' := by decide
    have h4 : jsonSkipWhitespace "\x7b\"includes\": [1]\x7d]\x7d".toList =
        "\x7b\"includes\": [1]\x7d]\x7d".toList := by decide
    have top : jsonTopLoop stod (n + 1) (n + 1)
        "\"root_files\": [\x7b\"includes\": [1]\x7d]\x7d".toList
        (FileCollection.clear : FileCollection τ) = Except.error Fault.outOfFuel := by
      simp only [jsonTopLoop, jsonTopField, if_neg h0, if_neg h1, hk, hm, hb, Bool.not_true,
        Bool.false_eq_true, if_false, if_true, jsonRootsLoop, if_neg h2, h4, if_neg h3, info]
    rw [step, top]

end JsonStuck

/-! ## The statements, concluded -/

section Claims3

variable {τ : Type} [LinearOrder τ] [Zero τ]

/-- C21 fails on the code. On `exFailFs` the root `d/T` includes `x.svh`, which cannot
be opened, and then `y.svh`, which can and includes `w.svh`, which cannot. The build
returns -1, but after the failed read of `d/x.svh` it went on to read `d/y.svh`, scanned
it and read `d/w.svh`; the message retained is that of `d/w.svh`, the last failure. -/
theorem later_failure_overwrites_error :
    exFailFs.read "d/x.svh".toList = none ∧
    (build exFailFs 5 exFailCtx).map (fun r => (r.1, r.2.m_error, r.2.readLog)) =
      some (-1, "Failed to open file: d/w.svh".toList,
        ["d/T".toList, "d/x.svh".toList, "d/y.svh".toList, "d/w.svh".toList]) ∧
    (build exFailFs 5 exFailCtx).map
        (fun r => nodeIncs r.2.m_collection.file_info "d/y.svh".toList) =
      some ["d/w.svh".toList] := by
  refine ⟨rfl, ?_, ?_⟩ <;> decide

/-- C22 fails on the code. `escapeJson` writes a backspace as a backslash and `b`, and
`parseString` reads that back as the letter `b`; likewise a form feed comes back as `f`
and the control character 1, written `\u0001`, as the five characters `u0001`. -/
theorem backspace_reads_back_as_letter :
    escapeJson [backspace] = ['\\', 'b'] ∧
    jsonParseString (quoted [backspace]) = (['b'], []) ∧
    (jsonParseString (quoted [backspace])).1 ≠ [backspace] ∧
    jsonParseString (quoted [formFeed]) = (['f'], []) ∧
    jsonParseString (quoted [Char.ofNat 1]) = ("u0001".toList, []) := by
  decide

/-- C23. A call of `checkUpToDate` that returns leaves the stored roots, the root list,
the search path, the error message, the include cache and the snapshot text as they
were; the map of nodes has the same keys, and under every key a record with the same
name, timestamp and include list. With more fuel than there are nodes the call
returns. -/
theorem checkUpToDate_only_flags (fs : FileSystem τ) (fuel : Nat) (ctx : SVDepContext τ)
    (T : Double τ) :
    (∀ r ctx1, checkUpToDate fs fuel ctx T = some (r, ctx1) →
      ctx1.m_collection.root_files = ctx.m_collection.root_files ∧
      (∀ q, q ∈ mapKeys ctx1.m_collection.file_info ↔ q ∈ mapKeys ctx.m_collection.file_info) ∧
      (∀ q, (mapFind q ctx1.m_collection.file_info).map FileInfo.core =
        (mapFind q ctx.m_collection.file_info).map FileInfo.core) ∧
      ctx1.m_rootFiles = ctx.m_rootFiles ∧ ctx1.m_incdirs = ctx.m_incdirs ∧
      ctx1.m_error = ctx.m_error ∧ ctx1.m_includeCache = ctx.m_includeCache ∧
      ctx1.m_json = ctx.m_json) ∧
    (ctx.m_collection.file_info.length < fuel →
      ∃ r ctx1, checkUpToDate fs fuel ctx T = some (r, ctx1)) := by
  constructor
  · intro r ctx1 h
    simp only [checkUpToDate] at h
    split_ifs at h with hlen
    · simp only [Option.some.injEq, Prod.mk.injEq] at h
      obtain ⟨-, rfl⟩ := h
      exact ⟨rfl, fun _ => Iff.rfl, fun _ => rfl, rfl, rfl, rfl, rfl, rfl⟩
    · cases hc : checkRoots fs T fuel ctx.m_rootFiles ctx.m_collection.root_files
          (resetFlags ctx.m_collection.file_info) with
      | none => simp [hc] at h
      | some res =>
        obtain ⟨r1, nodes1⟩ := res
        simp only [hc, Option.some.injEq, Prod.mk.injEq] at h
        obtain ⟨-, rfl⟩ := h
        have hlen2 : ctx.m_rootFiles.length = ctx.m_collection.root_files.length := by
          simpa using hlen
        obtain ⟨-, hfr, -, -⟩ := checkRoots_post fs T fuel ctx.m_rootFiles
          ctx.m_collection.root_files _ r1 nodes1 hlen2 hc
        have hcore : ∀ q, (mapFind q nodes1).map FileInfo.core =
            (mapFind q ctx.m_collection.file_info).map FileInfo.core := by
          intro q
          rcases hfr q with e | ⟨info, e1, -, e3⟩
          · rw [e, mapFind_resetFlags, Option.map_map]
            rfl
          · rw [mapFind_resetFlags] at e1
            rw [e3]
            cases hq : mapFind q ctx.m_collection.file_info with
            | none => simp [hq] at e1
            | some i =>
              simp only [hq, Option.map_some', Option.some.injEq] at e1
              subst e1
              rfl
        refine ⟨rfl, ?_, hcore, rfl, rfl, rfl, rfl, rfl⟩
        intro q
        show q ∈ mapKeys nodes1 ↔ _
        rw [← mapFind_isSome_iff_mem_keys, ← mapFind_isSome_iff_mem_keys]
        have := congrArg Option.isSome (hcore q)
        simpa using this
  · intro hfuel
    obtain ⟨r, ctx1, h, -⟩ := checkUpToDate_spec fs ctx T fuel hfuel
    exact ⟨r, ctx1, h⟩

omit [LinearOrder τ] in
/-- C28 fails on the code. On the text of `exStuckJson`, whose `root_files` array holds
a number, `parseFileInfo` and `match(',')` leave the position where it is, so the loop
over the array goes through every iteration it is given without reaching its end:
however many iterations are allowed, the parser does not return. The same happens in
the loop over `includes` on `exStuckIncludesJson`. -/
theorem fromJson_never_returns (stod : Str → Option τ) (n : Nat) (ctx : SVDepContext τ) :
    fromJson stod n exStuckJson = Except.error Fault.outOfFuel ∧
    loadJson stod n ctx exStuckJson = Except.error Fault.outOfFuel ∧
    fromJson stod n exStuckIncludesJson = Except.error Fault.outOfFuel ∧
    (∀ fuel acc, jsonRootsLoop stod n (fuel + 1) "1]\x7d".toList acc =
      jsonRootsLoop stod n fuel "1]\x7d".toList (acc ++ [FileInfo.default])) := by
  refine ⟨fromJson_stuck_roots stod n, ?_, fromJson_stuck_includes stod n, fun _ _ => rfl⟩
  simp only [loadJson, fromJson_stuck_roots]

/-- C24. Malformed conditionals are no-ops. An `elsif`, `elseif`, `else` or `endif`
handled while the conditional stack is empty, and an `elsif`, `elseif` or `else` handled
while the innermost frame is already in its `else` branch, leave the conditional stack,
the macro table and the include list as they were; so does `nextToken` when it scans
such a directive. The scan of any input goes on to its end: `process` returns. On the
text of `exMalformedText` all three includes are recorded and the stack ends empty. -/
theorem malformed_conditional_noop (pp : SVPreprocessor) (d : Str) :
    (d ∈ closers → pp.m_condStack = [] →
      scanResult (handleDirective pp d) = scanResult pp) ∧
    (d ∈ continuers → ∀ top below, pp.m_condStack = top :: below → top.in_else = true →
      scanResult (handleDirective pp d) = scanResult pp) ∧
    (∀ ws rest, pp.m_rest = ws ++ backtick :: (d ++ rest) →
      (∀ x ∈ ws, (x == ' ' || x == '\t' || x == '\r' || x == '\n') = true) →
      (∀ c ∈ rest.head?, (isalnum c || c == '_') = false) → pp.m_hasPeeked = false →
      ((d ∈ closers ∧ pp.m_condStack = []) ∨
        (d ∈ continuers ∧ ∃ top below, pp.m_condStack = top :: below ∧ top.in_else = true)) →
      (nextToken pp).1.type = TokenType.DIRECTIVE ∧
        scanResult (nextToken pp).2 = scanResult pp) ∧
    (∃ pp1, process pp = some pp1) ∧
    (process (setInput SVPreprocessor.new exMalformedText "t.sv".toList)).map scanResult =
      some (["a.svh".toList, "b.svh".toList, "c.svh".toList], [], []) := by
  refine ⟨fun hd hs => handleDirective_closer_empty pp d hd hs,
    fun hd top below hs he => handleDirective_continuer_inElse pp d hd top below hs he,
    fun ws rest h hws hrest hpk hbad => nextToken_malformed pp d ws rest h hws hrest hpk hbad,
    process_total pp, ?_⟩
  decide

/-- C25. The conditional-frame invariant. After any sequence `ops` of `peekToken` and
`nextToken` calls on any input, and at the end of `process`, every frame of the
conditional stack that is active stands on an active frame: frame `i` active implies
frame `i + 1`, the next one outwards, active. Hence the region is live, `isActive`,
exactly when every open frame is active. In an inactive region an `ifdef` or `ifndef`
pushes an inactive frame, whatever its macro, and when the frame below the innermost
one is inactive, `elsif` and `else` leave the innermost frame inactive. -/
theorem cond_frames_nested (pp0 : SVPreprocessor) (content file : Str) (ops : List LookOp) :
    StackOk (runOps ops (setInput pp0 content file)).2.m_condStack ∧
    (∀ (i : Nat) (a b : CondState),
      (runOps ops (setInput pp0 content file)).2.m_condStack[i]? = some a →
      (runOps ops (setInput pp0 content file)).2.m_condStack[i + 1]? = some b →
      a.active = true → b.active = true) ∧
    (isActive (runOps ops (setInput pp0 content file)).2 = true ↔
      ∀ f ∈ (runOps ops (setInput pp0 content file)).2.m_condStack, f.active = true) ∧
    (∀ pp1, process (setInput pp0 content file) = some pp1 → StackOk pp1.m_condStack) ∧
    (∀ (pp : SVPreprocessor) (invert : Bool), isActive pp = false →
      isActive (handleIfdef pp invert) = false) ∧
    (∀ (pp : SVPreprocessor) (top parent : CondState) (rest : List CondState),
      StackOk pp.m_condStack → pp.m_condStack = top :: parent :: rest →
      parent.active = false →
      isActive (handleElsif pp) = false ∧ isActive (handleElse pp) = false) := by
  have h0 : StackOk (setInput pp0 content file).m_condStack := trivial
  have hk := stackOk_runOps ops _ h0
  refine ⟨hk, stackOk_index _ hk, ?_, ?_, ?_, ?_⟩
  · rw [isActive_eq_parentActive]
    exact stackOk_all _ hk
  · intro pp1 hp
    exact stackOk_processLoop _ _ _ h0 hp
  · intro pp invert hact
    obtain ⟨c, hc⟩ := handleIfdef_stack pp invert
    rw [isActive_of_stack _ _ _ hc, hact]
    simp
  · intro pp top parent rest hok hs hpar
    have hpa : parentActive (parent :: rest) = false := hpar
    have htop : top.active = false := by
      rw [hs] at hok
      cases ht : top.active with
      | false => rfl
      | true =>
        have := hok.1 ht
        rw [hpa] at this
        cases this
    cases he : top.in_else with
    | true =>
      rw [handleElsif_inElse pp top _ hs he, handleElse_inElse pp top _ hs he]
      refine ⟨?_, ?_⟩
      · show isActive pp = false
        rw [isActive_of_stack pp _ _ hs, htop]
      · rw [isActive_of_stack pp _ _ hs, htop]
    | false =>
      obtain ⟨c, hc⟩ := handleElsif_stack pp top _ hs he
      refine ⟨?_, ?_⟩
      · rw [isActive_of_stack _ _ _ hc, hpa]
        simp
      · rw [isActive_of_stack _ _ _ (handleElse_stack pp top _ hs he), hpa]
        simp

/-- C30 fails on the code as it is stated. In the text of `exCommentAfterDefine` a block
comment opens on the line of a `define` and closes two lines further down, with an
`include` in between. The opening of the comment is read as part of the macro body, so
the scanner never sees a comment: the `include` is scanned as a directive and recorded,
and the closing star and slash come out as two operator tokens. -/
theorem include_in_swallowed_comment :
    (tokensOf (setInput SVPreprocessor.new exCommentAfterDefine "t.sv".toList)).map
        (fun r => (tokenValues r.1, getIncludes r.2, r.2.m_macros)) =
      some ([(TokenType.DIRECTIVE, "define".toList), (TokenType.DIRECTIVE, "include".toList),
          (TokenType.OPERATOR, ['*']), (TokenType.OPERATOR, ['/']),
          (TokenType.END_OF_FILE, [])],
        ["x.svh".toList], [("W".toList, "8 /* width".toList)]) := by
  decide

/-- C30 amended. A comment that the scanner meets where a token starts is one token and
has no effect. When, after white space `ws`, the input goes on with two slashes, the
token is a line comment whose value is the text `body` up to the end of the line (or of
the input), and scanning resumes after the line break; when it goes on with a slash and
a star, the token is a block comment whose value is the text `body` up to the first
star-slash (or the end of the input), and scanning resumes after it. In every case the
include list, the macro table and the conditional stack are what they were. On the text
of `exCommentedText` only the `include` outside the comments is recorded. -/
theorem comment_token_inert (pp : SVPreprocessor) (ws body rest : Str) :
    ((∀ x ∈ ws, isBlank x = true) → (∀ x ∈ body, x ≠ '\n') →
      pp.m_rest = ws ++ '/' :: '/' :: (body ++ '\n' :: rest) →
      (scanToken pp).1.type = TokenType.COMMENT_LINE ∧ (scanToken pp).1.value = body ∧
      (scanToken pp).2.m_rest = rest ∧ scanResult (scanToken pp).2 = scanResult pp) ∧
    ((∀ x ∈ ws, isBlank x = true) → (∀ x ∈ body, x ≠ '\n') →
      pp.m_rest = ws ++ '/' :: '/' :: body →
      (scanToken pp).1.type = TokenType.COMMENT_LINE ∧ (scanToken pp).1.value = body ∧
      (scanToken pp).2.m_rest = [] ∧ scanResult (scanToken pp).2 = scanResult pp) ∧
    ((∀ x ∈ ws, isBlank x = true) → ¬ closeMark <:+: body →
      pp.m_rest = ws ++ '/' :: '*' :: (body ++ '*' :: '/' :: rest) →
      (scanToken pp).1.type = TokenType.COMMENT_BLOCK ∧ (scanToken pp).1.value = body ∧
      (scanToken pp).2.m_rest = rest ∧ scanResult (scanToken pp).2 = scanResult pp) ∧
    ((∀ x ∈ ws, isBlank x = true) → ¬ closeMark <:+: body →
      pp.m_rest = ws ++ '/' :: '*' :: body →
      (scanToken pp).1.type = TokenType.COMMENT_BLOCK ∧ (scanToken pp).1.value = body ∧
      (scanToken pp).2.m_rest = [] ∧ scanResult (scanToken pp).2 = scanResult pp) ∧
    (process (setInput SVPreprocessor.new exCommentedText "t.sv".toList)).map scanResult =
      some (["c.svh".toList], [], []) := by
  have hslash : ∀ t : Str, ∀ c ∈ ('/' :: t).head?, isBlank c = false := by
    intro t c hc
    simp only [List.head?_cons, Option.mem_def, Option.some.injEq] at hc
    subst hc
    decide
  refine ⟨?_, ?_, ?_, ?_, by decide⟩
  · intro hws hb h
    have hs := tokenStart_rest pp ws _ h hws (hslash _)
    obtain ⟨h1, h2, l1, c1, h3, h4⟩ := scanToken_lineComment pp _ hs
    obtain ⟨g1, g2⟩ := scanLineCommentLoop_line body rest hb l1 c1
    exact ⟨h1, h3.trans g1, h4.trans g2, h2⟩
  · intro hws hb h
    have hs := tokenStart_rest pp ws _ h hws (hslash _)
    obtain ⟨h1, h2, l1, c1, h3, h4⟩ := scanToken_lineComment pp _ hs
    obtain ⟨g1, g2⟩ := scanLineCommentLoop_open body hb l1 c1
    exact ⟨h1, h3.trans g1, h4.trans g2, h2⟩
  · intro hws hb h
    have hs := tokenStart_rest pp ws _ h hws (hslash _)
    obtain ⟨h1, h2, l1, c1, h3, h4⟩ := scanToken_blockComment pp _ hs
    obtain ⟨g1, g2⟩ := scanBlockCommentLoop_closed body rest hb l1 c1
    exact ⟨h1, h3.trans g1, h4.trans g2, h2⟩
  · intro hws hb h
    have hs := tokenStart_rest pp ws _ h hws (hslash _)
    obtain ⟨h1, h2, l1, c1, h3, h4⟩ := scanToken_blockComment pp _ hs
    obtain ⟨g1, g2⟩ := scanBlockCommentLoop_open body hb l1 c1
    exact ⟨h1, h3.trans g1, h4.trans g2, h2⟩

/-- C27 fails on the code as it is stated: `addIncdir` appends without looking, so after
two calls with the directory `d` the search path holds `d` twice, and a build keeps it
that way. -/
theorem addIncdir_repeats_directory :
    exDupDirCtx.m_incdirs = ["d".toList, "d".toList] ∧ ¬ exDupDirCtx.m_incdirs.Nodup ∧
    (build exTopFs 3 exDupDirCtx).map (fun r => (r.1, r.2.m_incdirs)) =
      some (0, ["d".toList, "d".toList, ".".toList]) := by
  decide

omit [LinearOrder τ] in
/-- C27 amended. A build pass only appends to the search path: the path before `build`
is a prefix of the path after it, whatever `build` returns. The directories appended
are pairwise different, none of them was on the path before, and each is the directory
of a path that has a node in the graph (a root or a resolved include); so a search path
without repetitions has none after the build. A directory is appended only when it is
not already present. -/
theorem build_appends_new_dirs (fs : FileSystem τ) (fuel : Nat) (ctx : SVDepContext τ)
    (r : Int) (ctx1 : SVDepContext τ) (h : build fs fuel ctx = some (r, ctx1)) :
    ctx.m_incdirs <+: ctx1.m_incdirs ∧
    (∃ l, ctx1.m_incdirs = ctx.m_incdirs ++ l ∧ l.Nodup ∧
      ∀ d ∈ l, d ∉ ctx.m_incdirs ∧
        ∃ p ∈ mapKeys ctx1.m_collection.file_info, getDirname p = d) ∧
    (ctx.m_incdirs.Nodup → ctx1.m_incdirs.Nodup) ∧
    (∀ (d : Str) (dirs : List Str),
      addSearchDir d dirs = if d ∈ dirs then dirs else dirs ++ [d]) := by
  obtain ⟨-, l, e, n, w⟩ := buildRoots_dirsGrow fs fuel ctx.m_rootFiles _ r ctx1 h
  have e2 : ctx1.m_incdirs = ctx.m_incdirs ++ l := e
  refine ⟨⟨l, e2.symm⟩, ⟨l, e2, n, w⟩, ?_, fun _ _ => rfl⟩
  intro hnd
  rw [e2, List.nodup_append]
  exact ⟨hnd, n, fun d hd hl => (w d hl).1 hd⟩

/-- C27 amended, at the build of the roots `d/A`, `d/B`, `d/A` on the two-file cycle:
the empty search path grows to `["d"]`. -/
theorem build_appends_new_dirs_witness :
    build exCycleFs 5 exTwiceCtx = some (0, exTwiceBuilt) ∧
    exTwiceCtx.m_incdirs <+: exTwiceBuilt.m_incdirs ∧
    (exTwiceCtx.m_incdirs.Nodup → exTwiceBuilt.m_incdirs.Nodup) :=
  ⟨by decide,
    (build_appends_new_dirs exCycleFs 5 exTwiceCtx 0 exTwiceBuilt (by decide)).1,
    (build_appends_new_dirs exCycleFs 5 exTwiceCtx 0 exTwiceBuilt (by decide)).2.2.1⟩

/-- C29 fails on the code as it is stated. On `exGrowFs` the file `d/A` includes `x.svh`
and then `e/y.svh`, both lying in `d/e`. The first build cannot resolve `x.svh`, drops
it, and then puts `d/e` on the search path for `e/y.svh`. The second build starts with
that longer search path, resolves `x.svh`, and stores a graph with one more node and
one more include. -/
theorem second_build_finds_more :
    (buildTwice exGrowFs 5 exGrowCtx).map
        (fun r => (r.1.1, r.1.2.m_collection.file_info, r.1.2.m_incdirs,
          r.2.1, r.2.2.m_collection.file_info)) =
      some (0, exGrowNodes1, ["d".toList, "d/e".toList], 0, exGrowNodes2) ∧
    exGrowNodes1 ≠ exGrowNodes2 :=
  ⟨rfl, by decide⟩

omit [LinearOrder τ] in
/-- C29 amended. If a `build` leaves the search path as it found it (every directory of
a root or of a resolved include was on it already), then `build` called again on the
context it left, on the same file system, returns the same value and stores the same
graph: the same roots and the same nodes, and the same search path, root list and error
message. -/
theorem build_again_same_graph (fs : FileSystem τ) (fuel : Nat) (ctx : SVDepContext τ)
    (r : Int) (ctx1 : SVDepContext τ) (h : build fs fuel ctx = some (r, ctx1))
    (hdirs : ctx1.m_incdirs = ctx.m_incdirs) :
    ∃ ctx2, build fs fuel ctx1 = some (r, ctx2) ∧
      ctx2.m_collection.root_files = ctx1.m_collection.root_files ∧
      ctx2.m_collection.file_info = ctx1.m_collection.file_info ∧
      ctx2.m_incdirs = ctx1.m_incdirs ∧ ctx2.m_rootFiles = ctx1.m_rootFiles ∧
      ctx2.m_error = ctx1.m_error := by
  obtain ⟨cb, e⟩ := build_again fs fuel ctx r ctx1 h hdirs
  exact ⟨withCache ctx1 cb, e, rfl, rfl, rfl, rfl, rfl⟩

/-- C29 amended, at the two-file cycle with `d` on the search path from the start: the
build fills the include cache and leaves the search path alone, and the build after it
returns the same graph. -/
theorem build_again_same_graph_witness :
    build exCycleFs 5 exStableCtx = some (0, exTwiceBuilt) ∧
    exTwiceBuilt.m_incdirs = exStableCtx.m_incdirs ∧
    exStableCtx.m_includeCache ≠ exTwiceBuilt.m_includeCache ∧
    ∃ ctx2, build exCycleFs 5 exTwiceBuilt = some (0, ctx2) ∧
      ctx2.m_collection.root_files = exTwiceBuilt.m_collection.root_files ∧
      ctx2.m_collection.file_info = exTwiceBuilt.m_collection.file_info ∧
      ctx2.m_incdirs = exTwiceBuilt.m_incdirs ∧ ctx2.m_rootFiles = exTwiceBuilt.m_rootFiles ∧
      ctx2.m_error = exTwiceBuilt.m_error :=
  ⟨by decide, by decide, by decide,
    build_again_same_graph exCycleFs 5 exStableCtx 0 exTwiceBuilt (by decide) (by decide)⟩

end Claims3

end svdep
